import Mathlib

/-!
# Verification development for the package collection `lwithers/pkg`

Part 1: package `writefile` (`src/writefile/writefile.go`): writing to a
temporary staging file and renaming it into place.

The Go functions `New`, `NewNoDeref`, `Abort` and `Commit` are embedded as
functions over an explicit filesystem state `FS`.  The calls they make into
the Go standard library (`os.Lstat`, `os.Readlink`, `os.Stat`, `os.Rename`,
`os.Remove`, `ioutil.TempFile`, the `*os.File` methods and the `path/filepath`
helpers) are modelled in sections of their own, before the package itself.

Two models of the file system are used.  The first is a flat name space, a map
from path names to nodes, on which the theorems about the names that `New`
computes, about its errors and about the calls of `Commit` are proved.  The
second (`namespace posix`) has directories, inodes and the path lookup of the
kernel; the theorems about what a reader finds at a path during a session are
proved there, because they depend on which names lead to the same file.
-/

namespace writefile

/-! ## `os.FileMode` -/

/-- Go `os.FileMode`, an unsigned 32 bit word: type bits and permission bits. -/
abbrev FileMode := Nat

def ModeDir : FileMode := 2 ^ 31
def ModeSymlink : FileMode := 2 ^ 27
def ModeDevice : FileMode := 2 ^ 26
def ModeNamedPipe : FileMode := 2 ^ 25
def ModeSocket : FileMode := 2 ^ 24
def ModeCharDevice : FileMode := 2 ^ 21
def ModeIrregular : FileMode := 2 ^ 19

/-- Go `os.ModeType`: the mask of all file type bits. -/
def ModeType : FileMode :=
  ModeDir ||| ModeSymlink ||| ModeNamedPipe ||| ModeSocket ||| ModeDevice |||
    ModeCharDevice ||| ModeIrregular

/-- Go `os.ModePerm`: the Unix permission bits, `0777`. -/
def ModePerm : FileMode := 511

/-- Go `FileMode.IsRegular`: no type bit is set. -/
def IsRegular (m : FileMode) : Bool := m &&& ModeType == 0

/-- The part of Go `os.FileInfo` that the package reads: `Mode()`. -/
structure FileInfo where
  mode : FileMode
  deriving DecidableEq, Repr

/-! ## Go error values -/

def ENOENT : Nat := 2
def EBADF : Nat := 9
def EEXIST : Nat := 17
def ENOTDIR : Nat := 20
def EISDIR : Nat := 21
def EINVAL : Nat := 22
def ELOOP : Nat := 40

/-- The root cause carried by a Go `*os.PathError` or `*os.LinkError`. -/
inductive Cause where
  /-- A `syscall.Errno` (for `New`: `unix.ELOOP`). -/
  | errno (code : Nat)
  /-- An `errors.New(text)` value. -/
  | text (msg : String)
  /-- Go `os.ErrClosed`: the file handle was already closed. -/
  | closed
  deriving DecidableEq, Repr

/-- Go error values that occur in the package. -/
inductive GoError where
  /-- `&os.PathError{Op, Path, Err}`. -/
  | pathError (op : String) (path : String) (err : Cause)
  /-- `&os.LinkError{Op, Old, New, Err}`. -/
  | linkError (op : String) (old : String) (new : String) (err : Cause)
  deriving DecidableEq, Repr

/-- The root cause of an error value. -/
def GoError.cause : GoError → Cause
  | .pathError _ _ c => c
  | .linkError _ _ _ c => c

/-- Go `os.IsNotExist`: the underlying error is `ENOENT`. -/
def IsNotExist (err : GoError) : Bool := err.cause == Cause.errno ENOENT

/-- Go `os.IsExist`: the underlying error is `EEXIST`. -/
def IsExist (err : GoError) : Bool := err.cause == Cause.errno EEXIST

/-! ## `path/filepath` on Unix -/

namespace filepath

/-- Split a byte string at every separator `/`. -/
def splitSep : List Char → List (List Char)
  | [] => [[]]
  | c :: cs =>
    match splitSep cs with
    | [] => [[c]]
    | e :: es => if c = '/' then [] :: e :: es else (c :: e) :: es

/-- The element pass of `Clean`: `out` is the stack of elements kept so far
(last one first).  Empty elements and `.` are dropped; `..` removes the
element before it when there is one to remove, is dropped at the root of a
rooted path and is kept at the start of a relative one. -/
def cleanElems (rooted : Bool) : List (List Char) → List (List Char) → List (List Char)
  | [], out => out.reverse
  | e :: es, out =>
    if e = [] ∨ e = ['.'] then cleanElems rooted es out
    else if e = ['.', '.'] then
      match out with
      | [] => if rooted then cleanElems rooted es [] else cleanElems rooted es [e]
      | top :: rest =>
        if top = ['.', '.'] then cleanElems rooted es (e :: top :: rest)
        else cleanElems rooted es rest
    else cleanElems rooted es (e :: out)

/-- Elements joined with `/` between them. -/
def joinSep : List (List Char) → List Char
  | [] => []
  | [e] => e
  | e :: es => e ++ '/' :: joinSep es

/-- Go `filepath.Clean` (Unix): the shortest path name equivalent to `path`
by purely lexical processing. -/
def Clean (path : String) : String :=
  match path.data with
  | [] => "."
  | c :: cs =>
    let rooted : Bool := c = '/'
    let body := joinSep (cleanElems rooted (splitSep (c :: cs)) [])
    if rooted then String.mk ('/' :: body)
    else if body = [] then "." else String.mk body

/-- Go `filepath.IsAbs` (Unix): the path begins with `/`. -/
def IsAbs (path : String) : Bool :=
  match path.data with
  | c :: _ => c = '/'
  | [] => false

/-- The part of a byte string up to and including its last `/` (nothing
when there is no `/`). -/
def uptoLastSep : List Char → List Char
  | [] => []
  | c :: cs =>
    match uptoLastSep cs with
    | [] => if c = '/' then [c] else []
    | r => c :: r

/-- Go `filepath.Dir` (Unix): all but the last element of the path, cleaned. -/
def Dir (path : String) : String :=
  Clean (String.mk (uptoLastSep path.data))

/-- Go `filepath.Join`: leading empty elements are skipped, the rest is
joined with `/` and cleaned; the result is empty when every element is. -/
def Join : List String → String
  | [] => ""
  | e :: es =>
    if e = "" then Join es
    else Clean (String.mk (joinSep ((e :: es).map String.data)))

/-- The non-empty elements of a path: the pieces between its separators. -/
def elems (path : List Char) : List (List Char) :=
  (splitSep path).filter (fun e => e ≠ [])

/-- A path element that `Clean` keeps as it is: not empty, not `.`, not
`..`, and without a separator. -/
def Plain (e : List Char) : Prop :=
  e ≠ [] ∧ e ≠ ['.'] ∧ e ≠ ['.', '.'] ∧ '/' ∉ e

/-- A stack of elements (last one first) that `Clean` has nothing to do on:
every element is plain, except that a relative path may start with a run of
`..` elements. -/
def CleanStack (rooted : Bool) : List (List Char) → Prop
  | [] => True
  | e :: rest =>
    (Plain e ∨ (e = ['.', '.'] ∧ rooted = false ∧ ∀ x ∈ rest, x = ['.', '.'])) ∧
      CleanStack rooted rest

/-- The part of a byte string after its last `/` (all of it when there is
no `/`). -/
def afterLastSep : List Char → List Char
  | [] => []
  | c :: cs => if '/' ∈ cs then afterLastSep cs else if c = '/' then cs else c :: cs

/-- A byte string without its trailing separators. -/
def stripTrailingSep (path : List Char) : List Char :=
  (path.reverse.dropWhile (fun c => c = '/')).reverse

/-- Go `filepath.Base` (Unix): the last element of the path, after removing
trailing separators; `.` for the empty path and `/` for a path of
separators only. -/
def Base (path : String) : String :=
  if path = "" then "."
  else
    let last := afterLastSep (stripTrailingSep path.data)
    if last = [] then "/" else String.mk last

end filepath

/-! ## The filesystem state

The name space is flat: every path string is a name of its own and is looked
up verbatim.  There are no hard links, so a regular file has one name, and a
file descriptor stands for the file under the name it was opened with (a
descriptor whose file has been renamed or removed is stale).  Whether the
process may perform a call (permissions, quotas, devices) is not derived from
the state: such failures are injected through `Faults`, and every theorem
holds for every choice of them. -/

/-- File content: a byte string. -/
abbrev Bytes := List Nat

/-- What a name is bound to. -/
inductive Node where
  /-- A regular file: content and permission bits. -/
  | file (data : Bytes) (perm : FileMode)
  /-- A symbolic link with its link text. -/
  | symlink (text : String)
  /-- Any other entry (directory, device, socket, fifo): the mode that
  `lstat` reports for it. -/
  | other (mode : FileMode)
  deriving DecidableEq, Repr

/-- The mode that `lstat` reports for an entry. -/
def Node.mode : Node → FileMode
  | .file _ perm => perm &&& ModePerm
  | .symlink _ => ModeSymlink ||| ModePerm
  | .other mode => mode

/-- The name space: what each path is bound to, if anything. -/
abbrev Names := String → Option Node

/-- Failures of the operating system that do not follow from the name space
(permissions, I/O errors, full or read-only devices).  Neither `ENOENT` nor
`EEXIST` is among them: those two are decided by the name space alone. -/
inductive Fault where
  | eperm | ioerr | eacces | exdev | enotdir | einval | enospc | erofs | enametoolong | edquot
  deriving DecidableEq, Repr

/-- The `errno` of a fault (Linux numbering). -/
def Fault.errno : Fault → Nat
  | .eperm => 1
  | .ioerr => 5
  | .eacces => 13
  | .exdev => 18
  | .enotdir => 20
  | .einval => 22
  | .enospc => 28
  | .erofs => 30
  | .enametoolong => 36
  | .edquot => 122

/-- Which system calls fail, and how.  A write fault `(k, e)` lets the
first `k` bytes of a write through before failing with `e`. -/
structure Faults where
  lstat : String → Option Fault
  readlink : String → Option Fault
  create : String → Option Fault
  write : Nat → Option (Nat × Fault)
  sync : Nat → Option Fault
  chmod : Nat → Option Fault
  close : Nat → Option Fault
  rename : String → String → Option Fault
  remove : String → Option Fault

/-- A system call that changes (or tries to change) the filesystem. -/
inductive Call where
  | create (name : String)
  | write (fd : Nat) (count : Nat)
  | sync (fd : Nat)
  | chmod (fd : Nat) (mode : FileMode)
  | close (fd : Nat)
  | rename (old : String) (new : String)
  | remove (name : String)
  deriving DecidableEq, Repr

/-- One entry of the history: the call, whether it succeeded, and the name
space right after it. -/
structure Step where
  call : Call
  ok : Bool
  names : Names

/-- Go `*os.File`: the name the file was opened with and its descriptor. -/
structure File where
  name : String
  fd : Nat
  deriving DecidableEq, Repr

/-- The state of the filesystem and of the process using it. -/
structure FS where
  /-- The name space. -/
  names : Names
  /-- Open descriptors, each with the name of the file it is open on. -/
  fds : Nat → Option String
  /-- The next descriptor to hand out. -/
  nextFd : Nat
  /-- The strings that successive calls of `nextRandom` inside
  `ioutil.TempFile` return. -/
  rands : Nat → String
  /-- How many of them have been used. -/
  randPos : Nat
  /-- The injected failures. -/
  faults : Faults
  /-- The history of state-changing calls, oldest first. -/
  log : List Step

/-- A function changed at one argument. -/
def upd {β : Type} (f : String → β) (a : String) (v : β) : String → β :=
  fun x => if x = a then v else f x

/-- A function on descriptors changed at one argument. -/
def updFd {β : Type} (f : Nat → β) (a : Nat) (v : β) : Nat → β :=
  fun x => if x = a then v else f x

/-- Append a call to the history, with the name space as it is now. -/
def FS.record (fs : FS) (call : Call) (ok : Bool) : FS :=
  { fs with log := fs.log ++ [⟨call, ok, fs.names⟩] }

/-- Where a symbolic link at `path` with link text `text` points: an
absolute text is taken as it is, a relative one starts from the directory
holding the link. -/
def linkTarget (path text : String) : String :=
  if filepath.IsAbs text then text
  else filepath.Clean (filepath.Join [filepath.Dir path, text])

/-! ## System calls that only look -/

/-- Go `os.Lstat`: the mode of the entry itself, symbolic links not followed. -/
def Lstat (fs : FS) (name : String) : Except GoError FileInfo :=
  match fs.faults.lstat name with
  | some flt => .error (.pathError "lstat" name (.errno flt.errno))
  | none =>
    match fs.names name with
    | none => .error (.pathError "lstat" name (.errno ENOENT))
    | some node => .ok ⟨node.mode⟩

/-- Go `os.Readlink`: the link text of a symbolic link. -/
def Readlink (fs : FS) (name : String) : Except GoError String :=
  match fs.faults.readlink name with
  | some flt => .error (.pathError "readlink" name (.errno flt.errno))
  | none =>
    match fs.names name with
    | none => .error (.pathError "readlink" name (.errno ENOENT))
    | some (.symlink text) => .ok text
    | some _ => .error (.pathError "readlink" name (.errno EINVAL))

/-- The kernel limit on symbolic links followed in one path lookup. -/
def MAXSYMLINKS : Nat := 40

/-- Path lookup that follows symbolic links, as `stat(2)` does: the entry
finally reached, or the `errno` of the failure. -/
def resolve (fs : FS) : Nat → String → Except Nat Node
  | 0, _ => .error ELOOP
  | n + 1, path =>
    match fs.faults.lstat path with
    | some flt => .error flt.errno
    | none =>
      match fs.names path with
      | none => .error ENOENT
      | some (.symlink text) =>
        match fs.faults.readlink path with
        | some flt => .error flt.errno
        | none => resolve fs n (linkTarget path text)
      | some node => .ok node

/-- Go `os.Stat`: the mode of the entry a path leads to, links followed. -/
def Stat (fs : FS) (name : String) : Except GoError FileInfo :=
  match resolve fs MAXSYMLINKS name with
  | .error e => .error (.pathError "stat" name (.errno e))
  | .ok node => .ok ⟨node.mode⟩

/-- What a reader finds at a path in a given name space: the content of the
regular file the path leads to (links followed), or nothing when it leads
to no regular file.  This is the content that is there; whether a given
process is permitted to read it is not part of the model. -/
def readAt (names : Names) : Nat → String → Option Bytes
  | 0, _ => none
  | n + 1, path =>
    match names path with
    | some (.file data _) => some data
    | some (.symlink text) => readAt names n (linkTarget path text)
    | _ => none

/-- The content visible at a path: what `ioutil.ReadFile` returns to a
reader who is allowed to read it. -/
def FS.read (fs : FS) (path : String) : Option Bytes :=
  readAt fs.names MAXSYMLINKS path

/-! ## System calls that change the state -/

/-- Go `os.OpenFile(name, O_RDWR|O_CREATE|O_EXCL, perm)`: create a new,
empty regular file and open it; fails with `EEXIST` when the name is bound
to anything at all. -/
def OpenFileExcl (fs : FS) (name : String) (perm : FileMode) : Except GoError File × FS :=
  match fs.faults.create name with
  | some flt => (.error (.pathError "open" name (.errno flt.errno)), fs.record (.create name) false)
  | none =>
    match fs.names name with
    | some _ => (.error (.pathError "open" name (.errno EEXIST)), fs.record (.create name) false)
    | none =>
      (.ok ⟨name, fs.nextFd⟩,
        FS.record
          { fs with
            names := upd fs.names name (some (.file [] perm)),
            fds := updFd fs.fds fs.nextFd (some name),
            nextFd := fs.nextFd + 1 }
          (.create name) true)

/-- Go `(*os.File).Write`: append bytes to the file the descriptor is open
on.  Returns the number of bytes written and the error, if any. -/
def File.Write (fs : FS) (f : File) (b : Bytes) : (Nat × Option GoError) × FS :=
  match fs.fds f.fd with
  | none => ((0, some (.pathError "write" f.name .closed)), fs)
  | some nm =>
    match fs.names nm with
    | some (.file data perm) =>
      match fs.faults.write f.fd with
      | some (k, flt) =>
        (((b.take k).length, some (.pathError "write" f.name (.errno flt.errno))),
          FS.record { fs with names := upd fs.names nm (some (.file (data ++ b.take k) perm)) }
            (.write f.fd (b.take k).length) false)
      | none =>
        ((b.length, none),
          FS.record { fs with names := upd fs.names nm (some (.file (data ++ b) perm)) }
            (.write f.fd b.length) true)
    | _ => ((0, some (.pathError "write" f.name (.errno EBADF))), fs.record (.write f.fd 0) false)

/-- Go `(*os.File).Sync`: flush the file to stable storage.  The name space
does not change. -/
def File.Sync (fs : FS) (f : File) : Option GoError × FS :=
  match fs.fds f.fd with
  | none => (some (.pathError "sync" f.name .closed), fs)
  | some _ =>
    match fs.faults.sync f.fd with
    | some flt => (some (.pathError "sync" f.name (.errno flt.errno)), fs.record (.sync f.fd) false)
    | none => (none, fs.record (.sync f.fd) true)

/-- Go `(*os.File).Chmod`: set the permission bits of the file the
descriptor is open on. -/
def File.Chmod (fs : FS) (f : File) (mode : FileMode) : Option GoError × FS :=
  match fs.fds f.fd with
  | none => (some (.pathError "chmod" f.name .closed), fs)
  | some nm =>
    match fs.faults.chmod f.fd with
    | some flt =>
      (some (.pathError "chmod" f.name (.errno flt.errno)), fs.record (.chmod f.fd mode) false)
    | none =>
      match fs.names nm with
      | some (.file data _) =>
        (none, FS.record { fs with names := upd fs.names nm (some (.file data mode)) }
          (.chmod f.fd mode) true)
      | _ => (some (.pathError "chmod" f.name (.errno EBADF)), fs.record (.chmod f.fd mode) false)

/-- Go `(*os.File).Close`: release the descriptor.  The descriptor is gone
afterwards even when the call reports an error; closing a closed file
reports `os.ErrClosed`. -/
def File.Close (fs : FS) (f : File) : Option GoError × FS :=
  match fs.fds f.fd with
  | none => (some (.pathError "close" f.name .closed), fs)
  | some _ =>
    match fs.faults.close f.fd with
    | some flt =>
      (some (.pathError "close" f.name (.errno flt.errno)),
        FS.record { fs with fds := updFd fs.fds f.fd none } (.close f.fd) false)
    | none => (none, FS.record { fs with fds := updFd fs.fds f.fd none } (.close f.fd) true)

/-- Whether an entry is a directory. -/
def Node.isDir (node : Node) : Bool := node.mode &&& ModeDir != 0

/-- Go `os.Rename`, that is `rename(2)`: in one step the entry bound to
`oldpath` becomes bound to `newpath`, replacing what was there, and
`oldpath` is unbound.  A directory is never replaced by a non-directory nor
the other way round; renaming a name to itself changes nothing. -/
def Rename (fs : FS) (oldpath newpath : String) : Option GoError × FS :=
  match fs.faults.rename oldpath newpath with
  | some flt =>
    (some (.linkError "rename" oldpath newpath (.errno flt.errno)),
      fs.record (.rename oldpath newpath) false)
  | none =>
    match fs.names oldpath with
    | none =>
      (some (.linkError "rename" oldpath newpath (.errno ENOENT)),
        fs.record (.rename oldpath newpath) false)
    | some node =>
      if oldpath = newpath then (none, fs.record (.rename oldpath newpath) true)
      else
        match fs.names newpath with
        | some target =>
          if target.isDir && !node.isDir then
            (some (.linkError "rename" oldpath newpath (.errno EISDIR)),
              fs.record (.rename oldpath newpath) false)
          else if !target.isDir && node.isDir then
            (some (.linkError "rename" oldpath newpath (.errno ENOTDIR)),
              fs.record (.rename oldpath newpath) false)
          else
            (none, FS.record
              { fs with names := upd (upd fs.names newpath (some node)) oldpath none }
              (.rename oldpath newpath) true)
        | none =>
          (none, FS.record
            { fs with names := upd (upd fs.names newpath (some node)) oldpath none }
            (.rename oldpath newpath) true)

/-- Go `os.Remove`: unbind a name. -/
def Remove (fs : FS) (name : String) : Option GoError × FS :=
  match fs.faults.remove name with
  | some flt => (some (.pathError "remove" name (.errno flt.errno)), fs.record (.remove name) false)
  | none =>
    match fs.names name with
    | none => (some (.pathError "remove" name (.errno ENOENT)), fs.record (.remove name) false)
    | some _ => (none, FS.record { fs with names := upd fs.names name none } (.remove name) true)

/-! ## `ioutil.TempFile` -/

/-- The retry loop of Go `ioutil.TempFile`: with `n` tries left, take the
next random string, try to create `dir/pfx<random>` exclusively, and try
again only when that name exists already.  After the last try the
`EEXIST` error of that try is returned. -/
def tempFileLoop (dir pfx : String) : Nat → FS → Option GoError → Except GoError File × FS
  | 0, fs, last =>
    match last with
    | some err => (.error err, fs)
    | none => (.error (.pathError "open" dir (.errno EEXIST)), fs)
  | n + 1, fs, _ =>
    let name := filepath.Join [dir, pfx ++ fs.rands fs.randPos]
    let fs1 := { fs with randPos := fs.randPos + 1 }
    match OpenFileExcl fs1 name 384 with
    | (.error err, fs2) =>
      if IsExist err then tempFileLoop dir pfx n fs2 (some err) else (.error err, fs2)
    | (.ok f, fs2) => (.ok f, fs2)

/-- Go `ioutil.TempFile(dir, pattern)` for a pattern without `*` and a
non-empty `dir`: up to 10000 tries, files created with mode `0600`. -/
def TempFile (fs : FS) (dir pattern : String) : Except GoError File × FS :=
  tempFileLoop dir pattern 10000 fs none

/-! ## Package `writefile` -/

/-- Go `MaxSymlinkDeref`: the maximum number of symlinks that we will
dereference before giving up. -/
def MaxSymlinkDeref : Nat := 16

/-- What `New` returns: `finalFname`, `f` (`none` for a nil handle) and `err`
(`none` for a nil error). -/
structure NewResult where
  finalFname : String
  f : Option File
  err : Option GoError
  deriving DecidableEq, Repr

/-- Go `NewNoDeref`: similar to `New`, but will not dereference symlinks and
will allow them to be overwritten:
`return ioutil.TempFile(filepath.Dir(finalFname), ".new.")`. -/
def NewNoDeref (fs : FS) (finalFname : String) : Except GoError File × FS :=
  TempFile fs (filepath.Dir finalFname) ".new."

/-- The loop `for i := 0; i < MaxSymlinkDeref; i++` of `New`, with `n`
iterations left and the loop variable `finalFname`; after the last iteration
the `ELOOP` error is returned.  `targetFname` is the argument of `New`. -/
def NewLoop (fs : FS) (targetFname : String) : Nat → String → NewResult × FS
  | 0, finalFname =>
    (⟨finalFname, none, some (.pathError "open" targetFname (.errno ELOOP))⟩, fs)
  | n + 1, finalFname =>
    match Lstat fs finalFname with
    | .error err =>
      if !IsNotExist err then
        -- case err != nil && !os.IsNotExist(err)
        (⟨finalFname, none, some err⟩, fs)
      else
        -- case os.IsNotExist(err)
        match NewNoDeref fs finalFname with
        | (.ok f, fs1) => (⟨finalFname, some f, none⟩, fs1)
        | (.error e, fs1) => (⟨finalFname, none, some e⟩, fs1)
    | .ok info =>
      if IsRegular info.mode then
        -- case info.Mode().IsRegular()
        match NewNoDeref fs finalFname with
        | (.ok f, fs1) => (⟨finalFname, some f, none⟩, fs1)
        | (.error e, fs1) => (⟨finalFname, none, some e⟩, fs1)
      else if info.mode &&& ModeType = ModeSymlink then
        -- case info.Mode()&os.ModeType == os.ModeSymlink
        match Readlink fs finalFname with
        | .error err => (⟨finalFname, none, some err⟩, fs)
        | .ok tgt =>
          if filepath.IsAbs tgt then NewLoop fs targetFname n tgt
          else
            NewLoop fs targetFname n
              (filepath.Clean (filepath.Join [filepath.Dir finalFname, tgt]))
      else
        -- default
        (⟨finalFname, none, some (.pathError "open" targetFname (.text "not a regular file"))⟩, fs)

/-- Go `New`: opens a file for writing.  It returns the final filename which
should be passed to `Commit`; this may differ from the passed target
filename if the target is actually a symlink. -/
def New (fs : FS) (targetFname : String) : NewResult × FS :=
  NewLoop fs targetFname MaxSymlinkDeref targetFname

/-- Go `Abort`: abort writing to a file.  Performs a `Close()` and unlinks the
temporary file; both results are discarded. -/
def Abort (fs : FS) (f : File) : FS :=
  let fs1 := (f.Close fs).2
  (Remove fs1 f.name).2

/-- Go `Commit`: commit the temporary file.  This will close the file `f` and then
rename it into place once it has been ensured the data is on disk.  It will
retain permissions from the original file if present.  Returns the error
(`none` for nil) and the new state. -/
def Commit (fs : FS) (finalFname : String) (f : File) : Option GoError × FS :=
  match f.Sync fs with
  | (some err, fs1) => (some err, (Remove fs1 f.name).2)
  | (none, fs1) =>
    -- if the final destination file already exists, try to inherit its
    -- permissions, but don't return an error if we fail
    let fs2 :=
      match Stat fs1 finalFname with
      | .ok st => (f.Chmod fs1 (st.mode &&& ModePerm)).2
      | .error _ => fs1
    match f.Close fs2 with
    | (some err, fs3) => (some err, (Remove fs3 f.name).2)
    | (none, fs3) =>
      match Rename fs3 f.name finalFname with
      | (some err, fs4) => (some err, (Remove fs4 f.name).2)
      | (none, fs4) => (none, fs4)

/-! ## The symlink walk, as a property of the filesystem -/

/-- One hop of the symlink walk: when `lstat` reports `path` as a symbolic
link and its link text can be read, the path the link leads to. -/
def hop (fs : FS) (path : String) : Option String :=
  match Lstat fs path with
  | .ok info =>
    if info.mode &&& ModeType = ModeSymlink then
      match Readlink fs path with
      | .ok text => some (linkTarget path text)
      | .error _ => none
    else none
  | .error _ => none

/-- The path reached from `path` after exactly `k` hops, if there are `k`
readable symbolic links in a row. -/
def walk (fs : FS) : Nat → String → Option String
  | 0, path => some path
  | k + 1, path => (hop fs path).bind (walk fs k)

/-- The end of the walk: `lstat` reports the path as a regular file or as
not existing, and the staging file is opened. -/
def endsWalk (fs : FS) (path : String) : Bool :=
  match Lstat fs path with
  | .ok info => IsRegular info.mode
  | .error err => IsNotExist err

/-! ## Example filesystems -/

/-- No system call fails for reasons outside the name space. -/
def noFaults : Faults :=
  { lstat := fun _ => none, readlink := fun _ => none, create := fun _ => none,
    write := fun _ => none, sync := fun _ => none, chmod := fun _ => none,
    close := fun _ => none, rename := fun _ _ => none, remove := fun _ => none }

/-- A filesystem with the listed entries, no open descriptors beyond the
standard three, and a random source that always yields `000000007`. -/
def FS.ofList (entries : List (String × Node)) (faults : Faults) : FS :=
  { names := fun path => entries.lookup path, fds := fun _ => none, nextFd := 3,
    rands := fun _ => "000000007", randPos := 0, faults := faults, log := [] }

/-- The directory entry `/tmp/d`, mode `drwxr-xr-x`. -/
def tmpdir : String × Node := ("/tmp/d", .other (ModeDir ||| 493))

/-- As in `TestSymlinkRel`: `sym -> sym_target`, a regular file holding `original`. -/
def fsSymlinkRel : FS :=
  FS.ofList
    [tmpdir, ("/tmp/d/sym_target", .file [111, 114, 105, 103, 105, 110, 97, 108] 420),
      ("/tmp/d/sym", .symlink "sym_target")] noFaults

/-- Two relative links in different directories:
`/tmp/d/sym -> sub/l2` and `/tmp/d/sub/l2 -> x`. -/
def fsTwoHop : FS :=
  FS.ofList
    [tmpdir, ("/tmp/d/sub", .other (ModeDir ||| 493)), ("/tmp/d/sym", .symlink "sub/l2"),
      ("/tmp/d/sub/l2", .symlink "x"), ("/tmp/d/sub/x", .file [1] 420), ("/tmp/d/x", .file [2] 420)]
    noFaults

/-- As in `TestSymlinkAbs`: `sym_abs -> /srv/data/sym_target_abs`. -/
def fsSymlinkAbs : FS :=
  FS.ofList
    [tmpdir, ("/srv/data", .other (ModeDir ||| 493)),
      ("/srv/data/sym_target_abs", .file [111, 114, 105, 103, 105, 110, 97, 108] 420),
      ("/tmp/d/sym_abs", .symlink "/srv/data/sym_target_abs")] noFaults

/-- As in `TestSymlinkEnoent`: `sym_enoent -> enoent`, which does not exist. -/
def fsSymlinkEnoent : FS :=
  FS.ofList [tmpdir, ("/tmp/d/sym_enoent", .symlink "enoent")] noFaults

/-- As in `TestSymlinkLoop`: two links pointing at each other. -/
def fsSymlinkLoop : FS :=
  FS.ofList
    [tmpdir, ("/tmp/d/symlink_loop_a", .symlink "/tmp/d/symlink_loop_b"),
      ("/tmp/d/symlink_loop_b", .symlink "/tmp/d/symlink_loop_a")] noFaults

/-- As in `TestSymlinkDir`: `sym_dir -> /tmp/d/target_dir`, a directory. -/
def fsSymlinkDir : FS :=
  FS.ofList
    [tmpdir, ("/tmp/d/target_dir", .other (ModeDir ||| 511)),
      ("/tmp/d/sym_dir", .symlink "/tmp/d/target_dir")] noFaults

/-- A chain of sixteen symbolic links `l00 -> l01 -> ... -> l16` that ends
at the regular file `l16`. -/
def fsChain : FS :=
  FS.ofList
    [("/c", .other (ModeDir ||| 493)),
      ("/c/l00", .symlink "l01"), ("/c/l01", .symlink "l02"), ("/c/l02", .symlink "l03"),
      ("/c/l03", .symlink "l04"), ("/c/l04", .symlink "l05"), ("/c/l05", .symlink "l06"),
      ("/c/l06", .symlink "l07"), ("/c/l07", .symlink "l08"), ("/c/l08", .symlink "l09"),
      ("/c/l09", .symlink "l10"), ("/c/l10", .symlink "l11"), ("/c/l11", .symlink "l12"),
      ("/c/l12", .symlink "l13"), ("/c/l13", .symlink "l14"), ("/c/l14", .symlink "l15"),
      ("/c/l15", .symlink "l16"), ("/c/l16", .file [1, 2, 3] 420)] noFaults

/-- The same chain of sixteen symbolic links, ending at the directory
`/c/l16`. -/
def fsChainDir : FS :=
  FS.ofList
    [("/c", .other (ModeDir ||| 493)),
      ("/c/l00", .symlink "l01"), ("/c/l01", .symlink "l02"), ("/c/l02", .symlink "l03"),
      ("/c/l03", .symlink "l04"), ("/c/l04", .symlink "l05"), ("/c/l05", .symlink "l06"),
      ("/c/l06", .symlink "l07"), ("/c/l07", .symlink "l08"), ("/c/l08", .symlink "l09"),
      ("/c/l09", .symlink "l10"), ("/c/l10", .symlink "l11"), ("/c/l11", .symlink "l12"),
      ("/c/l12", .symlink "l13"), ("/c/l13", .symlink "l14"), ("/c/l14", .symlink "l15"),
      ("/c/l15", .symlink "l16"), ("/c/l16", .other (ModeDir ||| 493))] noFaults

/-- A link `a -> b` where `lstat` of `/tmp/d/b` is refused (`EACCES`). -/
def fsDenied : FS :=
  FS.ofList [tmpdir, ("/tmp/d/a", .symlink "b"), ("/tmp/d/b", .file [] 420)]
    { noFaults with lstat := fun path => if path = "/tmp/d/b" then some .eacces else none }

/-- As in `TestOverwrite`: the regular file `overwrite` holding `original`. -/
def fsOverwrite : FS :=
  FS.ofList
    [tmpdir, ("/tmp/d/overwrite", .file [111, 114, 105, 103, 105, 110, 97, 108] 420)] noFaults

/-- Nothing but the directory `/tmp/d`. -/
def fsBare : FS := FS.ofList [tmpdir] noFaults

/-- A link `a -> b` whose link text cannot be read (`EIO`). -/
def fsUnreadable : FS :=
  FS.ofList [tmpdir, ("/tmp/d/a", .symlink "b")]
    { noFaults with readlink := fun path => if path = "/tmp/d/a" then some .ioerr else none }

/-- The directory `/tmp/d` on a device that refuses to create files
(`EROFS`). -/
def fsReadOnly : FS :=
  FS.ofList [tmpdir, ("/tmp/d/overwrite", .file [111, 114, 105, 103, 105, 110, 97, 108] 420)]
    { noFaults with create := fun _ => some .erofs }

/-! ## Sessions and what an observer sees -/

/-- The caller writes the chunks to the staging handle one after the other. -/
def writeAll (fs : FS) (f : File) : List Bytes → FS
  | [] => fs
  | b :: bs => writeAll (f.Write fs b).2 f bs

/-- The staging handle that `New` returns on the example filesystems
whose staging directory is `/tmp/d`. -/
def staging : File := ⟨"/tmp/d/.new.000000007", 3⟩

/-- As in `TestOverwrite`, after `New` and after writing `testing` to the staging
file. -/
def fsOverwriteStaged : FS :=
  (staging.Write (New fsOverwrite "/tmp/d/overwrite").2 [116, 101, 115, 116, 105, 110, 103]).2

/-- A target that does not exist and is named like a staging file. -/
def collide : String := "/tmp/d/.new.000000007"

/-- On `fsBare`: after `New collide` and the two writes `[1, 2]` and `[3]`
to the handle that `New` returned. -/
def fsCollideStaged : FS :=
  (staging.Write (staging.Write (New fsBare collide).2 [1, 2]).2 [3]).2

/-- As in `TestOverwrite` with the staging file written, but `lstat` of the
final name is refused and `chmod` of the staging descriptor fails. -/
def fsOverwriteNoCopy : FS :=
  { fsOverwriteStaged with
    faults :=
      { noFaults with
        lstat := fun path => if path = "/tmp/d/overwrite" then some .eacces else none,
        chmod := fun _ => some .eperm } }

/-- As in `TestOverwrite` with the staging file written, but `chmod` of the
staging descriptor fails. -/
def fsOverwriteNoChmod : FS :=
  { fsOverwriteStaged with faults := { noFaults with chmod := fun _ => some .eperm } }

/-- As in `TestOverwrite` with the staging file written, on a device that
has failed and gone read-only: `fsync` reports an I/O error and `unlink`
is refused (`EROFS`). -/
def fsOverwriteStuck : FS :=
  { fsOverwriteStaged with
    faults := { noFaults with sync := fun _ => some .ioerr, remove := fun _ => some .erofs } }

/-- As in `TestOverwrite`, with an `fsync` that reports an I/O error. -/
def fsOverwriteSyncFail : FS :=
  FS.ofList
    [tmpdir, ("/tmp/d/overwrite", .file [111, 114, 105, 103, 105, 110, 97, 108] 420)]
    { noFaults with sync := fun _ => some .ioerr }

/-- Two name spaces that agree everywhere except possibly at the name `s`. -/
def AgreeOff (s : String) (a b : Names) : Prop := ∀ q, q ≠ s → a q = b q

/-- The history of `fs1` continues that of `fs` by calls, after each of
which the name space was already the one of `fs1`. -/
def Steps (fs fs1 : FS) : Prop :=
  ∃ steps, fs1.log = fs.log ++ steps ∧ ∀ st ∈ steps, st.names = fs1.names

/-- The history of `fs1` continues that of `fs` by calls, after each of
which the name space satisfied `P`. -/
def LogExt (P : Names → Prop) (fs fs1 : FS) : Prop :=
  ∃ steps, fs1.log = fs.log ++ steps ∧ ∀ st ∈ steps, P st.names

/-- The permission-copy step of `Commit` on its own: stat the final name
and, if that works, chmod the staging file to its permission bits; a failure
of either call is ignored. -/
def permCopy (fs : FS) (finalFname : String) (f : File) : FS :=
  match Stat fs finalFname with
  | .ok st => (f.Chmod fs (st.mode &&& ModePerm)).2
  | .error _ => fs

/-- The result of the three hard steps of `Commit` taken by themselves, in
the state before `Commit`: the error of `Sync`, else the error of `Close`,
else the result of `Rename`. -/
def hardSteps (fs : FS) (finalFname : String) (f : File) : Option GoError :=
  match (f.Sync fs).1 with
  | some err => some err
  | none =>
    match (f.Close fs).1 with
    | some err => some err
    | none => (Rename fs f.name finalFname).1

/-- The history of `fs1` continues that of `fs` by calls that satisfy `P`. -/
def LogCalls (P : Step → Prop) (fs fs1 : FS) : Prop :=
  ∃ steps, fs1.log = fs.log ++ steps ∧ ∀ st ∈ steps, P st

/-- Two name spaces that bind the same names to entries of the same kind,
regular files with the same content but possibly other permission bits. -/
def SameKind (a b : Names) : Prop :=
  ∀ q, a q = b q ∨ ∃ d m1 m2, a q = some (.file d m1) ∧ b q = some (.file d m2)

/-- The error of `Rename`, as a function of the fault, of whether the two
names are bound, and of whether they are bound to directories. -/
def renameError (fault : Option Fault) (oldpath newpath : String)
    (oldDir newDir : Option Bool) : Option GoError :=
  match fault with
  | some flt => some (.linkError "rename" oldpath newpath (.errno flt.errno))
  | none =>
    match oldDir with
    | none => some (.linkError "rename" oldpath newpath (.errno ENOENT))
    | some od =>
      if oldpath = newpath then none
      else
        match newDir with
        | some nd =>
          if nd && !od then some (.linkError "rename" oldpath newpath (.errno EISDIR))
          else if !nd && od then some (.linkError "rename" oldpath newpath (.errno ENOTDIR))
          else none
        | none => none

/-- The calls of a history with their outcomes, without the name spaces. -/
def calls (steps : List Step) : List (Call × Bool) := steps.map fun st => (st.call, st.ok)

/-- The calls that the history of `fs1` holds after those of `fs`. -/
def callsSince (fs fs1 : FS) : List (Call × Bool) := calls (fs1.log.drop fs.log.length)

/-- The `chmod` call of `Commit`, if it makes one: none when `Stat` of the
final name fails, else one with the permission bits that `Stat` reported and
the outcome `ok`. -/
def chmodCalls (fs : FS) (finalFname : String) (f : File) (ok : Bool) : List (Call × Bool) :=
  match Stat fs finalFname with
  | .ok st => [(.chmod f.fd (st.mode &&& ModePerm), ok)]
  | .error _ => []

namespace posix

/-! ## A hierarchical file system

Directories hold entries, every path is looked up component by component as
the kernel does (`path_resolution(7)`): `.` and `..` are taken physically,
a symbolic link met on the way is followed from the directory that holds
it, and two spellings of a path that lead to the same directory entry name
the same file.  There are no hard links and no mount points; whether the
process may perform a call is injected through `Faults`, as before. -/

/-- An inode number: the index of the inode in the inode table. -/
abbrev Ino := Nat

/-- An inode. -/
inductive Inode where
  /-- A regular file: content and permission bits. -/
  | file (data : Bytes) (perm : FileMode)
  /-- A symbolic link with its link text. -/
  | symlink (text : String)
  /-- A directory: its parent directory (the root is its own parent), its
  entries and its permission bits. -/
  | dir (parent : Ino) (entries : List (String × Ino)) (perm : FileMode)
  /-- Any other inode (device, socket, fifo): the mode that `lstat` reports. -/
  | other (mode : FileMode)
  deriving DecidableEq, Repr

/-- The mode that `lstat` reports for an inode. -/
def Inode.mode : Inode → FileMode
  | .file _ perm => perm &&& ModePerm
  | .symlink _ => ModeSymlink ||| ModePerm
  | .dir _ _ perm => ModeDir ||| (perm &&& ModePerm)
  | .other mode => mode

/-- The directory tree: the inode table, the root directory and the working
directory of the process. -/
structure Tree where
  inodes : List Inode
  root : Ino
  cwd : Ino
  deriving DecidableEq, Repr

/-- The tree is well formed: root and working directory exist, every
directory names an existing parent and existing inodes in its entries, and
the mode of an inode that is neither file, link nor directory has a type
bit. -/
def Tree.wf (t : Tree) : Bool :=
  decide (t.root < t.inodes.length) && decide (t.cwd < t.inodes.length) &&
    t.inodes.all fun node =>
      match node with
      | .dir parent entries _ =>
        decide (parent < t.inodes.length) &&
          entries.all fun e => decide (e.2 < t.inodes.length)
      | .other mode => !IsRegular mode
      | _ => true

/-- The components of a path: the non-empty pieces between its separators.
A path with a trailing separator must lead to a directory, as if it ended
in `.`. -/
def comps (path : String) : List String :=
  let es := (filepath.elems path.data).map String.mk
  if path.data.getLast? = some '/' ∧ es ≠ [] then es ++ ["."] else es

/-- The outcome of a path lookup. -/
inductive Found where
  /-- The inode reached, and the directory entry through which it was
  reached (none when the path ends in `.` or `..` or is the root). -/
  | ok (ino : Ino) (via : Option (Ino × String))
  /-- `ENOENT`: directory `dir` has no entry `name`; `last` tells whether
  this was the last component of the path. -/
  | missing (dir : Ino) (name : String) (last : Bool)
  /-- Any other failure. -/
  | err (errno : Nat)
  deriving DecidableEq, Repr

def ENAMETOOLONG : Nat := 36
def ENOTEMPTY : Nat := 39
def EBUSY : Nat := 16

/-- An upper bound on the steps of one lookup: at most 40 links are
followed, and the kernel bounds a path and a link text by `PATH_MAX`. -/
def lookupSteps : Nat := 41 * 4096

/-- The walk of a path lookup, with `fuel` steps left: `nl` links have been
followed, `cur` is the inode reached through entry `via`, and the listed
components are still to be looked up.  With `follow` false a symbolic link
in the last component is not followed (`lstat`, `unlink`, `rename`,
`O_EXCL`). -/
def Tree.walk (t : Tree) (follow : Bool) :
    Nat → Nat → Ino → Option (Ino × String) → List String → Found
  | _, _, cur, via, [] => .ok cur via
  | 0, _, _, _, _ :: _ => .err ENAMETOOLONG
  | fuel + 1, nl, cur, _, c :: rest =>
    match t.inodes[cur]? with
    | some (.dir parent entries _) =>
      if c = "." then t.walk follow fuel nl cur none rest
      else if c = ".." then t.walk follow fuel nl parent none rest
      else
        match entries.lookup c with
        | none => .missing cur c (decide (rest = []))
        | some i =>
          match t.inodes[i]? with
          | some (.symlink text) =>
            if rest = [] ∧ follow = false then .ok i (some (cur, c))
            else if nl ≥ MAXSYMLINKS then .err ELOOP
            else if text = "" then .err ENOENT
            else
              t.walk follow fuel (nl + 1) (if filepath.IsAbs text then t.root else cur) none
                (comps text ++ rest)
          | _ => t.walk follow fuel nl i (some (cur, c)) rest
    | _ => .err ENOTDIR

/-- Path lookup from the root for an absolute path and from the working
directory for a relative one; the empty path leads nowhere. -/
def Tree.lookup (t : Tree) (follow : Bool) (path : String) : Found :=
  if path = "" then .err ENOENT
  else
    t.walk follow lookupSteps 0 (if filepath.IsAbs path then t.root else t.cwd) none
      (comps path)

/-- The `errno` of a failed lookup. -/
def Found.errno : Found → Nat
  | .ok _ _ => 0
  | .missing _ _ _ => ENOENT
  | .err e => e

/-- The directory entry whose absence makes a path lead nowhere: the lookup
of the path, links followed, fails at its last component for want of this
entry. -/
def Tree.missingAt (t : Tree) (path : String) : Option (Ino × String) :=
  match t.lookup true path with
  | .missing dir name true => some (dir, name)
  | _ => none

/-- What a reader finds at a path: the content of the regular file the path
leads to, links followed, or nothing when it leads to no regular file. -/
def Tree.read (t : Tree) (path : String) : Option Bytes :=
  match t.lookup true path with
  | .ok i _ =>
    match t.inodes[i]? with
    | some (.file data _) => some data
    | _ => none
  | _ => none

/-- The entries of a directory with the entry `name` bound to `i`. -/
def bindEntry (entries : List (String × Ino)) (name : String) (i : Ino) :
    List (String × Ino) :=
  (name, i) :: entries.filter fun e => e.1 ≠ name

/-- The entries of a directory without the entry `name`. -/
def dropEntry (entries : List (String × Ino)) (name : String) : List (String × Ino) :=
  entries.filter fun e => e.1 ≠ name

/-- The tree with entry `name` of directory `d` bound to `i`. -/
def Tree.bind (t : Tree) (d : Ino) (name : String) (i : Ino) : Tree :=
  match t.inodes[d]? with
  | some (.dir parent entries perm) =>
    { t with inodes := t.inodes.set d (.dir parent (bindEntry entries name i) perm) }
  | _ => t

/-- The tree without entry `name` of directory `d`. -/
def Tree.unbind (t : Tree) (d : Ino) (name : String) : Tree :=
  match t.inodes[d]? with
  | some (.dir parent entries perm) =>
    { t with inodes := t.inodes.set d (.dir parent (dropEntry entries name) perm) }
  | _ => t

/-- One entry of the history: the call, whether it succeeded, and the tree
right after it. -/
structure Snap where
  call : Call
  ok : Bool
  tree : Tree
  deriving DecidableEq, Repr

/-- Go `*os.File`: the name the file was opened with and its descriptor. -/
structure File where
  name : String
  fd : Nat
  deriving DecidableEq, Repr

/-- The state of the file system and of the process using it. -/
structure FS where
  /-- The directory tree. -/
  tree : Tree
  /-- Open descriptors, each with the inode it is open on. -/
  fds : Nat → Option Ino
  /-- The next descriptor to hand out. -/
  nextFd : Nat
  /-- The strings that successive calls of `nextRandom` inside
  `os.CreateTemp` return. -/
  rands : Nat → String
  /-- How many of them have been used. -/
  randPos : Nat
  /-- The injected failures. -/
  faults : Faults
  /-- The history of state-changing calls, oldest first. -/
  log : List Snap

/-- Append a call to the history, with the tree as it is now. -/
def FS.record (fs : FS) (call : Call) (ok : Bool) : FS :=
  { fs with log := fs.log ++ [⟨call, ok, fs.tree⟩] }

/-- The content visible at a path. -/
def FS.read (fs : FS) (path : String) : Option Bytes := fs.tree.read path

/-! ## System calls on the tree -/

/-- Whether an inode is a directory. -/
def Tree.isDir (t : Tree) (i : Ino) : Bool :=
  match t.inodes[i]? with
  | some (.dir _ _ _) => true
  | _ => false

/-- The result of `lstat` or `stat` after the lookup. -/
def Tree.info (t : Tree) : Found → Except Nat FileInfo
  | .ok i _ =>
    match t.inodes[i]? with
    | some node => .ok ⟨node.mode⟩
    | none => .error ENOENT
  | .missing _ _ _ => .error ENOENT
  | .err e => .error e

/-- Go `os.Lstat`: the mode of the entry itself, a symbolic link in the last
component not followed. -/
def Lstat (fs : FS) (name : String) : Except GoError FileInfo :=
  match fs.faults.lstat name with
  | some flt => .error (.pathError "lstat" name (.errno flt.errno))
  | none =>
    match fs.tree.info (fs.tree.lookup false name) with
    | .ok info => .ok info
    | .error e => .error (.pathError "lstat" name (.errno e))

/-- Go `os.Stat`: the mode of the inode a path leads to, links followed.  An
injected failure of `lstat` on the name makes `stat` fail as well. -/
def Stat (fs : FS) (name : String) : Except GoError FileInfo :=
  match fs.faults.lstat name with
  | some flt => .error (.pathError "stat" name (.errno flt.errno))
  | none =>
    match fs.tree.info (fs.tree.lookup true name) with
    | .ok info => .ok info
    | .error e => .error (.pathError "stat" name (.errno e))

/-- Go `os.Readlink`: the link text of a symbolic link. -/
def Readlink (fs : FS) (name : String) : Except GoError String :=
  match fs.faults.readlink name with
  | some flt => .error (.pathError "readlink" name (.errno flt.errno))
  | none =>
    match fs.tree.lookup false name with
    | .ok i _ =>
      match fs.tree.inodes[i]? with
      | some (.symlink text) => .ok text
      | _ => .error (.pathError "readlink" name (.errno EINVAL))
    | r => .error (.pathError "readlink" name (.errno r.errno))

/-- Whether a path ends in a separator. -/
def endsInSep (path : String) : Bool := path.data.getLast? == some '/'

/-- The tree after `open(name, O_RDWR|O_CREAT|O_EXCL, perm)` and the new
inode, or the `errno`: the parent directory is looked up with links
followed, and the last component must not exist, not even as a dangling
symbolic link. -/
def Tree.create (t : Tree) (name : String) (perm : FileMode) : Except Nat (Tree × Ino) :=
  if endsInSep name then .error EISDIR
  else
    match t.lookup false name with
    | .ok _ _ => .error EEXIST
    | .missing d c true =>
      .ok ({ (t.bind d c t.inodes.length) with
              inodes := (t.bind d c t.inodes.length).inodes ++ [.file [] perm] },
            t.inodes.length)
    | .missing _ _ false => .error ENOENT
    | .err e => .error e

/-- Go `os.OpenFile(name, O_RDWR|O_CREATE|O_EXCL, perm)`: create a new, empty
regular file and open it. -/
def OpenFileExcl (fs : FS) (name : String) (perm : FileMode) : Except GoError File × FS :=
  match fs.faults.create name with
  | some flt => (.error (.pathError "open" name (.errno flt.errno)), fs.record (.create name) false)
  | none =>
    match fs.tree.create name perm with
    | .error e => (.error (.pathError "open" name (.errno e)), fs.record (.create name) false)
    | .ok (t, i) =>
      (.ok ⟨name, fs.nextFd⟩,
        FS.record
          { fs with tree := t, fds := updFd fs.fds fs.nextFd (some i), nextFd := fs.nextFd + 1 }
          (.create name) true)

/-- The tree with another inode at index `i`. -/
def Tree.setInode (t : Tree) (i : Ino) (node : Inode) : Tree :=
  { t with inodes := t.inodes.set i node }

/-- Go `(*os.File).Write`: append bytes to the file the descriptor is open
on.  Returns the number of bytes written and the error, if any. -/
def File.Write (fs : FS) (f : File) (b : Bytes) : (Nat × Option GoError) × FS :=
  match fs.fds f.fd with
  | none => ((0, some (.pathError "write" f.name .closed)), fs)
  | some i =>
    match fs.tree.inodes[i]? with
    | some (.file data perm) =>
      match fs.faults.write f.fd with
      | some (k, flt) =>
        (((b.take k).length, some (.pathError "write" f.name (.errno flt.errno))),
          FS.record { fs with tree := fs.tree.setInode i (.file (data ++ b.take k) perm) }
            (.write f.fd (b.take k).length) false)
      | none =>
        ((b.length, none),
          FS.record { fs with tree := fs.tree.setInode i (.file (data ++ b) perm) }
            (.write f.fd b.length) true)
    | _ => ((0, some (.pathError "write" f.name (.errno EBADF))), fs.record (.write f.fd 0) false)

/-- Go `(*os.File).Sync`: flush the file to stable storage.  The tree does
not change. -/
def File.Sync (fs : FS) (f : File) : Option GoError × FS :=
  match fs.fds f.fd with
  | none => (some (.pathError "sync" f.name .closed), fs)
  | some _ =>
    match fs.faults.sync f.fd with
    | some flt => (some (.pathError "sync" f.name (.errno flt.errno)), fs.record (.sync f.fd) false)
    | none => (none, fs.record (.sync f.fd) true)

/-- Go `(*os.File).Chmod`: set the permission bits of the file the
descriptor is open on. -/
def File.Chmod (fs : FS) (f : File) (mode : FileMode) : Option GoError × FS :=
  match fs.fds f.fd with
  | none => (some (.pathError "chmod" f.name .closed), fs)
  | some i =>
    match fs.faults.chmod f.fd with
    | some flt =>
      (some (.pathError "chmod" f.name (.errno flt.errno)), fs.record (.chmod f.fd mode) false)
    | none =>
      match fs.tree.inodes[i]? with
      | some (.file data _) =>
        (none, FS.record { fs with tree := fs.tree.setInode i (.file data mode) }
          (.chmod f.fd mode) true)
      | _ => (some (.pathError "chmod" f.name (.errno EBADF)), fs.record (.chmod f.fd mode) false)

/-- Go `(*os.File).Close`: release the descriptor.  The descriptor is gone
afterwards even when the call reports an error; closing a closed file
reports `os.ErrClosed`. -/
def File.Close (fs : FS) (f : File) : Option GoError × FS :=
  match fs.fds f.fd with
  | none => (some (.pathError "close" f.name .closed), fs)
  | some _ =>
    match fs.faults.close f.fd with
    | some flt =>
      (some (.pathError "close" f.name (.errno flt.errno)),
        FS.record { fs with fds := updFd fs.fds f.fd none } (.close f.fd) false)
    | none => (none, FS.record { fs with fds := updFd fs.fds f.fd none } (.close f.fd) true)

/-- The directory entry that a path names, for the calls that act on an
entry (`unlink`, `rmdir`, `rename`): looked up without following a link in
the last component; trailing separators are allowed for a directory only. -/
def Tree.entry (t : Tree) (path : String) : Found :=
  if path ≠ "" ∧ filepath.stripTrailingSep path.data = [] then .ok t.root none
  else
    match t.lookup false (String.mk (filepath.stripTrailingSep path.data)) with
    | .ok i via => if endsInSep path ∧ t.isDir i = false then .err ENOTDIR else .ok i via
    | r => r

/-- Whether directory `d` is `a` or lies below `a`, going up at most `fuel`
parents. -/
def Tree.within (t : Tree) (a : Ino) : Nat → Ino → Bool
  | 0, _ => false
  | fuel + 1, d =>
    if d = a then true
    else
      match t.inodes[d]? with
      | some (.dir parent _ _) => if parent = d then false else t.within a fuel parent
      | _ => false

/-- The tree with directory `i` reparented to `d`; other inodes stay as
they are. -/
def Tree.reparent (t : Tree) (i d : Ino) : Tree :=
  match t.inodes[i]? with
  | some (.dir _ entries perm) => t.setInode i (.dir d entries perm)
  | _ => t

/-- The system call `rename(2)`: in one step the inode named by `oldpath`
becomes the one named by `newpath`, replacing what was there, and the old
entry is gone.  A directory replaces an empty directory only and never moves
below itself; a non-directory never replaces a directory; renaming an inode
to itself changes nothing. -/
def Tree.rename (t : Tree) (oldpath newpath : String) : Except Nat Tree :=
  match t.entry oldpath with
  | .ok i (some (d1, n1)) =>
    match t.entry newpath with
    | .ok j (some (d2, n2)) =>
      if i = j then .ok t
      else
        match t.inodes[i]?, t.inodes[j]? with
        | some (.dir _ _ _), some (.dir _ es _) =>
          if es ≠ [] then .error ENOTEMPTY
          else if t.within i t.inodes.length d2 then .error EINVAL
          else .ok (((t.unbind d1 n1).bind d2 n2 i).reparent i d2)
        | some (.dir _ _ _), some _ => .error ENOTDIR
        | some _, some (.dir _ _ _) => .error EISDIR
        | some _, some _ => .ok ((t.unbind d1 n1).bind d2 n2 i)
        | _, _ => .error ENOENT
    | .missing d2 n2 true =>
      if t.isDir i then
        if t.within i t.inodes.length d2 then .error EINVAL
        else .ok (((t.unbind d1 n1).bind d2 n2 i).reparent i d2)
      else if endsInSep newpath then .error ENOTDIR
      else .ok ((t.unbind d1 n1).bind d2 n2 i)
    | .missing _ _ false => .error ENOENT
    | .ok _ none => .error EBUSY
    | .err e => .error e
  | .ok _ none => .error EBUSY
  | .missing _ _ _ => .error ENOENT
  | .err e => .error e

/-- Go `os.SameFile` on the results of `Lstat` of two paths: both name the
same inode. -/
def Tree.sameFile (t : Tree) (a b : String) : Bool :=
  match t.lookup false a, t.lookup false b with
  | .ok i _, .ok j _ => i == j
  | _, _ => false

/-- Go `os.Rename`: when `newpath` is a directory the call is refused with
`EEXIST` (or with the error of `lstat` of `oldpath`) unless both paths name
the same inode under different names; otherwise `rename(2)`. -/
def Rename (fs : FS) (oldpath newpath : String) : Option GoError × FS :=
  let refused : Option Cause :=
    match Lstat fs newpath with
    | .ok info =>
      if info.mode &&& ModeDir != 0 then
        match Lstat fs oldpath with
        | .error err => some err.cause
        | .ok _ =>
          if newpath = oldpath ∨ fs.tree.sameFile newpath oldpath = false then
            some (.errno EEXIST)
          else none
      else none
    | .error _ => none
  match refused with
  | some c =>
    (some (.linkError "rename" oldpath newpath c), fs.record (.rename oldpath newpath) false)
  | none =>
    match fs.faults.rename oldpath newpath with
    | some flt =>
      (some (.linkError "rename" oldpath newpath (.errno flt.errno)),
        fs.record (.rename oldpath newpath) false)
    | none =>
      match fs.tree.rename oldpath newpath with
      | .error e =>
        (some (.linkError "rename" oldpath newpath (.errno e)),
          fs.record (.rename oldpath newpath) false)
      | .ok t => (none, FS.record { fs with tree := t } (.rename oldpath newpath) true)

/-- The system calls `unlink(2)` and, for a directory, `rmdir(2)`, as Go
`os.Remove` tries them: the entry is removed; a directory must be empty. -/
def Tree.remove (t : Tree) (path : String) : Except Nat Tree :=
  match t.entry path with
  | .ok i (some (d, n)) =>
    match t.inodes[i]? with
    | some (.dir _ entries _) => if entries = [] then .ok (t.unbind d n) else .error ENOTEMPTY
    | some _ => .ok (t.unbind d n)
    | none => .error ENOENT
  | .ok _ none => .error EINVAL
  | .missing _ _ _ => .error ENOENT
  | .err e => .error e

/-- Go `os.Remove`: remove the entry a name stands for. -/
def Remove (fs : FS) (name : String) : Option GoError × FS :=
  match fs.faults.remove name with
  | some flt => (some (.pathError "remove" name (.errno flt.errno)), fs.record (.remove name) false)
  | none =>
    match fs.tree.remove name with
    | .error e => (some (.pathError "remove" name (.errno e)), fs.record (.remove name) false)
    | .ok t => (none, FS.record { fs with tree := t } (.remove name) true)

/-! ## `ioutil.TempFile` -/

/-- Go `joinPath` of package `os`: `dir` and `name` with one separator
between them. -/
def joinPath (dir name : String) : String :=
  if endsInSep dir then dir ++ name else dir ++ "/" ++ name

/-- The retry loop of Go `os.CreateTemp`, which `ioutil.TempFile` calls:
with `n` tries left, take the next random string, try to create
`dir/pfx<random>` exclusively, and try again only when that name exists
already.  After the last try an error with cause `ErrExist` is returned. -/
def tempFileLoop (dir pfx : String) : Nat → FS → Except GoError File × FS
  | 0, fs =>
    (.error (.pathError "createtemp" (joinPath dir pfx ++ "*") (.text "file already exists")), fs)
  | n + 1, fs =>
    let name := joinPath dir pfx ++ fs.rands fs.randPos
    let fs1 := { fs with randPos := fs.randPos + 1 }
    match OpenFileExcl fs1 name 384 with
    | (.error err, fs2) =>
      if IsExist err then tempFileLoop dir pfx n fs2 else (.error err, fs2)
    | (.ok f, fs2) => (.ok f, fs2)

/-- Go `ioutil.TempFile(dir, pattern)` for a pattern without `*` and a
non-empty `dir`: up to 10000 tries, files created with mode `0600`. -/
def TempFile (fs : FS) (dir pattern : String) : Except GoError File × FS :=
  tempFileLoop dir pattern 10000 fs

/-! ## Package `writefile` over the tree -/

/-- What `New` returns: `finalFname`, `f` (`none` for a nil handle) and `err`
(`none` for a nil error). -/
structure NewResult where
  finalFname : String
  f : Option File
  err : Option GoError
  deriving DecidableEq, Repr

/-- Go `NewNoDeref`: similar to `New`, but will not dereference symlinks and
will allow them to be overwritten:
`return ioutil.TempFile(filepath.Dir(finalFname), ".new.")`. -/
def NewNoDeref (fs : FS) (finalFname : String) : Except GoError File × FS :=
  TempFile fs (filepath.Dir finalFname) ".new."

/-- The loop `for i := 0; i < MaxSymlinkDeref; i++` of `New`, with `n`
iterations left and the loop variable `finalFname`; after the last iteration
the `ELOOP` error is returned.  `targetFname` is the argument of `New`. -/
def NewLoop (fs : FS) (targetFname : String) : Nat → String → NewResult × FS
  | 0, finalFname =>
    (⟨finalFname, none, some (.pathError "open" targetFname (.errno ELOOP))⟩, fs)
  | n + 1, finalFname =>
    match Lstat fs finalFname with
    | .error err =>
      if !IsNotExist err then
        -- case err != nil && !os.IsNotExist(err)
        (⟨finalFname, none, some err⟩, fs)
      else
        -- case os.IsNotExist(err)
        match NewNoDeref fs finalFname with
        | (.ok f, fs1) => (⟨finalFname, some f, none⟩, fs1)
        | (.error e, fs1) => (⟨finalFname, none, some e⟩, fs1)
    | .ok info =>
      if IsRegular info.mode then
        -- case info.Mode().IsRegular()
        match NewNoDeref fs finalFname with
        | (.ok f, fs1) => (⟨finalFname, some f, none⟩, fs1)
        | (.error e, fs1) => (⟨finalFname, none, some e⟩, fs1)
      else if info.mode &&& ModeType = ModeSymlink then
        -- case info.Mode()&os.ModeType == os.ModeSymlink
        match Readlink fs finalFname with
        | .error err => (⟨finalFname, none, some err⟩, fs)
        | .ok tgt =>
          if filepath.IsAbs tgt then NewLoop fs targetFname n tgt
          else
            NewLoop fs targetFname n
              (filepath.Clean (filepath.Join [filepath.Dir finalFname, tgt]))
      else
        -- default
        (⟨finalFname, none, some (.pathError "open" targetFname (.text "not a regular file"))⟩, fs)

/-- Go `New`: opens a file for writing.  It returns the final filename which
should be passed to `Commit`; this may differ from the passed target
filename if the target is actually a symlink. -/
def New (fs : FS) (targetFname : String) : NewResult × FS :=
  NewLoop fs targetFname MaxSymlinkDeref targetFname

/-- Go `Abort`: abort writing to a file.  Performs a `Close()` and unlinks the
temporary file; both results are discarded. -/
def Abort (fs : FS) (f : File) : FS :=
  let fs1 := (f.Close fs).2
  (Remove fs1 f.name).2

/-- Go `Commit`: commit the temporary file.  This will close the file `f` and then
rename it into place once it has been ensured the data is on disk.  It will
retain permissions from the original file if present.  Returns the error
(`none` for nil) and the new state. -/
def Commit (fs : FS) (finalFname : String) (f : File) : Option GoError × FS :=
  match f.Sync fs with
  | (some err, fs1) => (some err, (Remove fs1 f.name).2)
  | (none, fs1) =>
    -- if the final destination file already exists, try to inherit its
    -- permissions, but don't return an error if we fail
    let fs2 :=
      match Stat fs1 finalFname with
      | .ok st => (f.Chmod fs1 (st.mode &&& ModePerm)).2
      | .error _ => fs1
    match f.Close fs2 with
    | (some err, fs3) => (some err, (Remove fs3 f.name).2)
    | (none, fs3) =>
      match Rename fs3 f.name finalFname with
      | (some err, fs4) => (some err, (Remove fs4 f.name).2)
      | (none, fs4) => (none, fs4)

/-- The caller writes the chunks to the staging handle one after the other. -/
def writeAll (fs : FS) (f : File) : List Bytes → FS
  | [] => fs
  | b :: bs => writeAll (f.Write fs b).2 f bs

/-! ## Example trees -/

/-- A file system with the given tree, no open descriptors beyond the
standard three, no injected failures, and a random source that always
yields `1804289383`. -/
def FS.ofTree (t : Tree) : FS :=
  { tree := t, fds := fun _ => none, nextFd := 3, rands := fun _ => "1804289383", randPos := 0,
    faults := noFaults, log := [] }

/-- The bytes of a text, for texts of ASCII characters. -/
def bytes (s : String) : Bytes := s.data.map Char.toNat

/-- As in `TestSymlinkRel`: in `/tmp/d`, `sym -> sym_target`, a regular file
holding `original`. -/
def fsSymlinkRel : FS :=
  FS.ofTree
    { root := 0, cwd := 0,
      inodes :=
        [.dir 0 [("tmp", 1)] 493, .dir 0 [("d", 2)] 511,
          .dir 1 [("sym_target", 3), ("sym", 4)] 493,
          .file (bytes "original") 420, .symlink "sym_target"] }

/-- An empty directory `/tmp/d`. -/
def fsBare : FS :=
  FS.ofTree
    { root := 0, cwd := 0,
      inodes := [.dir 0 [("tmp", 1)] 493, .dir 0 [("d", 2)] 511, .dir 1 [] 493] }

/-- The tree of `TestSymlinkRel` on a device on which `fsync` fails. -/
def fsSyncFail : FS :=
  { fsSymlinkRel with faults := { noFaults with sync := fun _ => some .ioerr } }

/-- The tree of `TestSymlinkRel` on a device on which `fsync` fails and the
`unlink` of the staging file is refused. -/
def fsSyncFailStuck : FS :=
  { fsSymlinkRel with
    faults := { noFaults with sync := fun _ => some .ioerr, remove := fun _ => some .erofs } }

/-- A link whose text names a directory that does not exist and leaves it
again: in `/tmp/d`, `l -> nodir/../t`, and the regular file `t` holding
`original`.  The kernel finds nothing at `l`. -/
def fsDotDot : FS :=
  FS.ofTree
    { root := 0, cwd := 0,
      inodes :=
        [.dir 0 [("tmp", 1)] 493, .dir 0 [("d", 2)] 511, .dir 1 [("l", 3), ("t", 4)] 493,
          .symlink "nodir/../t", .file (bytes "original") 420] }

/-- A link inside a directory that is reached through a symbolic link:
`/tmp/d/sub -> /tmp/e`, `/tmp/e/l -> ../t`, and two regular files, `/tmp/t`
holding `original` and `/tmp/d/t` holding `other`.  The kernel follows
`/tmp/d/sub/l` to `/tmp/t`. -/
def fsDirLink : FS :=
  FS.ofTree
    { root := 0, cwd := 0,
      inodes :=
        [.dir 0 [("tmp", 1)] 493, .dir 0 [("d", 2), ("e", 3), ("t", 4)] 511,
          .dir 1 [("sub", 5), ("t", 6)] 493, .dir 1 [("l", 7)] 493,
          .file (bytes "original") 420, .symlink "/tmp/e", .file (bytes "other") 420,
          .symlink "../t"] }

/-- The staging handle that `New` returns on the example trees whose staging
directory is `/tmp/d`. -/
def staging : File := ⟨"/tmp/d/.new.1804289383", 3⟩

/-! ## Comparing trees -/

/-- The inode that entry `name` of directory `d` is bound to. -/
def Tree.entryAt (t : Tree) (d : Ino) (name : String) : Option Ino :=
  match t.inodes[d]? with
  | some (.dir _ entries _) => entries.lookup name
  | _ => none

/-- Nothing, or a regular file. -/
def Tree.fileOrNone (t : Tree) : Option Ino → Prop
  | none => True
  | some i => ∃ data perm, t.inodes[i]? = some (.file data perm)

/-- The outcome of a lookup that ends at entry `name` of directory `d`, when
that entry is bound to nothing or to a regular file. -/
def Tree.outcome (t : Tree) (d : Ino) (name : String) : Found :=
  match t.entryAt d name with
  | some i => .ok i (some (d, name))
  | none => .missing d name true

/-- Tree `s` is tree `t` except for the entries in `X`, which are bound to
nothing or to a regular file in both, and for inodes that `t` does not
have. -/
structure AgreeOff (X : Ino → String → Prop) (t s : Tree) : Prop where
  root : s.root = t.root
  cwd : s.cwd = t.cwd
  keep : ∀ (j : Ino) (node : Inode), t.inodes[j]? = some node →
    (∀ (par : Ino) (es : List (String × Ino)) (perm : FileMode), node ≠ .dir par es perm) →
    s.inodes[j]? = some node
  dirs : ∀ (j par : Ino) (es : List (String × Ino)) (perm : FileMode),
    t.inodes[j]? = some (.dir par es perm) →
    ∃ es', s.inodes[j]? = some (.dir par es' perm) ∧ ∀ c, ¬ X j c → es'.lookup c = es.lookup c
  offT : ∀ d c, X d c → t.fileOrNone (t.entryAt d c)
  offS : ∀ d c, X d c → s.fileOrNone (s.entryAt d c)

/-- How the outcome `r'` of a lookup in `s` follows from the outcome `r` of
the same lookup in `t`, for trees that agree off `X`: an outcome that does
not end at an entry in `X` is the same in `s`; one that ends at an entry in
`X` is in `s` what that entry is bound to there; a failure stays a
failure. -/
def WalkRel (X : Ino → String → Prop) (t s : Tree) (r r' : Found) : Prop :=
  (∀ j v, r = .ok j v → (∀ d c, v = some (d, c) → ¬ X d c) →
    r' = .ok j v ∧ j < t.inodes.length) ∧
  (∀ j d c, r = .ok j (some (d, c)) → X d c → r' = s.outcome d c) ∧
  (∀ d c, r = .missing d c true → X d c → r' = s.outcome d c) ∧
  (∀ d c last, r = .missing d c last → ¬ X d c → r' = .missing d c last) ∧
  ((∀ j v, r ≠ .ok j v) → (∀ d c, X d c → r ≠ .missing d c true) → ∀ j v, r' ≠ .ok j v)

/-- The outcome of a lookup names an entry as it is in the tree: the entry
through which an inode was reached is bound to it, and a missing entry is
unbound. -/
def ViaRel (t : Tree) (r : Found) : Prop :=
  (∀ j d c, r = .ok j (some (d, c)) → t.entryAt d c = some j) ∧
  (∀ d c last, r = .missing d c last →
    t.entryAt d c = none ∧ ∃ par es perm, t.inodes[d]? = some (.dir par es perm))

/-- What `wf` says, as a proposition: the inodes named by the tree exist. -/
structure Tree.WF (t : Tree) : Prop where
  root_lt : t.root < t.inodes.length
  cwd_lt : t.cwd < t.inodes.length
  parent_lt : ∀ (j par : Ino) (es : List (String × Ino)) (perm : FileMode),
    t.inodes[j]? = some (.dir par es perm) → par < t.inodes.length
  entry_lt : ∀ (d : Ino) (c : String) (k : Ino), t.entryAt d c = some k → k < t.inodes.length
  other_type : ∀ (j : Ino) (mode : FileMode), t.inodes[j]? = some (.other mode) →
    IsRegular mode = false

/-- Tree `t` is tree `t0` with one more inode, a regular file, bound to the
entry `n` of directory `p`, which is unbound in `t0`. -/
structure Staged (t0 : Tree) (p : Ino) (n : String) (t : Tree) : Prop where
  free : t0.entryAt p n = none
  agree : AgreeOff (fun d c => d = p ∧ c = n) t0 t
  wf : t.WF
  entry : t.entryAt p n = some t0.inodes.length
  file : ∃ data perm, t.inodes[t0.inodes.length]? = some (.file data perm)

/-- The history of `fs1` continues that of `fs` by calls, after each of
which the tree satisfied `P`. -/
def LogAll (P : Tree → Prop) (fs fs1 : FS) : Prop :=
  ∃ steps, fs1.log = fs.log ++ steps ∧ ∀ st ∈ steps, P st.tree

/-- The calls of a history with their outcomes, without the trees. -/
def calls (steps : List Snap) : List (Call × Bool) := steps.map fun st => (st.call, st.ok)

/-- The calls that the history of `fs1` holds after those of `fs`. -/
def callsSince (fs fs1 : FS) : List (Call × Bool) := calls (fs1.log.drop fs.log.length)

/-- What a successful `New` has done to the state `fs`: the name of the
handle led to an unbound entry `(p, n)` of a directory; the tree has an
empty regular file more, bound to that entry, on which the descriptor of the
handle is open; and after every call of `New` the tree was the old or the
new one. -/
def Created (fs : FS) (f : File) (p : Ino) (n : String) (fs1 : FS) : Prop :=
  fs.tree.lookup false f.name = .missing p n true ∧ endsInSep f.name = false ∧
    Staged fs.tree p n fs1.tree ∧ fs1.fds f.fd = some fs.tree.inodes.length ∧
    fs1.tree.inodes[fs.tree.inodes.length]? = some (.file [] 384) ∧
    fs1.faults = fs.faults ∧ LogAll (fun t => t = fs.tree ∨ Staged fs.tree p n t) fs fs1

/-- The permission copy inside `Commit`: when `Stat` of the final name
succeeds, `Chmod` the staging file to its permission bits; both results are
discarded. -/
def permCopy (fs : FS) (finalFname : String) (f : File) : FS :=
  match Stat fs finalFname with
  | .ok st => (f.Chmod fs (st.mode &&& ModePerm)).2
  | .error _ => fs

/-- The state `fs` of a session that a successful `New` began in state
`fs0` with the handle `f`: the name of the handle led to the unbound entry
`(p, n)`, the tree is staged, the descriptor of the handle is open on the
staging file, and the injected failures are those of `fs0`. -/
structure Session (fs0 : FS) (f : File) (p : Ino) (n : String) (fs : FS) : Prop where
  wf0 : fs0.tree.WF
  name : fs0.tree.lookup false f.name = .missing p n true
  sep : endsInSep f.name = false
  staged : Staged fs0.tree p n fs.tree
  fd : fs.fds f.fd = some fs0.tree.inodes.length
  faults : fs.faults = fs0.faults

/-- What the `Remove` at the end of a failed `Commit` or of `Abort` has left
in the history, when it was called on the staged tree `t`: the call, and
either the staging entry removed, or, the call refused, the tree as it
was. -/
def Removed (fs0 : FS) (f : File) (p : Ino) (n : String) (t : Tree) (rm : Snap) : Prop :=
  rm.call = .remove f.name ∧
    ((fs0.faults.remove f.name = none ∧ rm.ok = true ∧ rm.tree = t.unbind p n) ∨
      (fs0.faults.remove f.name ≠ none ∧ rm.ok = false ∧ rm.tree = t))

end posix

end writefile

/-! # Package `versionsort`

Go strings are byte strings: a string is modelled as the list of its bytes,
indexing is by byte, and `<` on strings is the bytewise lexicographic
order. -/

namespace versionsort

/-- A Go string: its bytes. -/
abbrev Str := List Nat

/-- The bytes of a text, for texts of ASCII characters. -/
def bytes (s : String) : Str := s.data.map Char.toNat

/-- Go `s[i]` for an index within the string. -/
def Str.byteAt (s : Str) (i : Nat) : Nat := s.getD i 0

/-- Go `s[i:j]`. -/
def Str.slice (s : Str) (i j : Nat) : Str := (s.drop i).take (j - i)

/-- Go `v1 < v2` on strings: bytewise lexicographic comparison. -/
def strLt : Str → Str → Bool
  | [], [] => false
  | [], _ :: _ => true
  | _ :: _, [] => false
  | a :: as, b :: bs => if a < b then true else if b < a then false else strLt as bs

/-- The first loop of `integerStartEnd`, with `fuel` iterations left:
`for end = p; end < len(s); end++ { if s[end] < '0' || s[end] > '9' { break } }`. -/
def scanEnd (s : Str) : Nat → Nat → Nat
  | 0, e => e
  | fuel + 1, e =>
    if e < s.length then
      if s.byteAt e < 48 ∨ s.byteAt e > 57 then e else scanEnd s fuel (e + 1)
    else e

/-- The second loop of `integerStartEnd`, with `fuel` iterations left:
`for start < end-1 && s[start] == '0' { start++ }`.  Over Go's signed `int`,
`start < end-1` is `start + 1 < end`. -/
def skipZeros (s : Str) (e : Nat) : Nat → Nat → Nat
  | 0, start => start
  | fuel + 1, start =>
    if start + 1 < e ∧ s.byteAt start = 48 then skipZeros s e fuel (start + 1) else start

/-- Go `integerStartEnd`: finds the start and end positions of an integer
whose first byte lies at `p`.  The start position may not equal `p` if there
are leading zeroes. -/
def integerStartEnd (s : Str) (p : Nat) : Nat × Nat :=
  let e := scanEnd s (s.length - p) p
  (skipZeros s e (e - p) p, e)

/-- The scan loop of `Less`, with `fuel` iterations left:
`for pos = 0; pos < smallestLen; pos++`, breaking at the first byte that
differs and keeping `vStart` updated.  `vStart` is `none` for Go's `-1`. -/
def scan (v1 v2 : Str) (smallestLen : Nat) : Nat → Nat → Option Nat → Nat × Option Nat
  | 0, pos, vStart => (pos, vStart)
  | fuel + 1, pos, vStart =>
    if pos < smallestLen then
      if v1.byteAt pos ≠ v2.byteAt pos then (pos, vStart)
      else
        match vStart with
        | none =>
          -- if we are not inside an integer, check for one starting
          if v1.byteAt pos ≥ 48 ∧ v1.byteAt pos ≤ 57 then scan v1 v2 smallestLen fuel (pos + 1) (some pos)
          else scan v1 v2 smallestLen fuel (pos + 1) none
        | some start =>
          -- if we are inside an integer, check for it finishing
          if v1.byteAt pos < 48 ∨ v1.byteAt pos > 57 then scan v1 v2 smallestLen fuel (pos + 1) none
          else scan v1 v2 smallestLen fuel (pos + 1) (some start)
    else (pos, vStart)

/-- Go `Less`: returns true if `v1 < v2`, else false. -/
def Less (v1 v2 : Str) : Bool :=
  if v1 = v2 then false
  else
    let smallestLen := if v2.length < v1.length then v2.length else v1.length
    match scan v1 v2 smallestLen smallestLen 0 none with
    | (pos, vStart) =>
      -- test for non-version-number differences
      if pos = v1.length then true
      else if pos = v2.length then false
      else if vStart = none ∧
          (v1.byteAt pos < 48 ∨ v1.byteAt pos > 57 ∨ v2.byteAt pos < 48 ∨ v2.byteAt pos > 57) then
        strLt v1 v2
      else
        -- extract position of integer fragment
        match integerStartEnd v1 pos, integerStartEnd v2 pos with
        | (v1s, v1e), (v2s, v2e) =>
          -- test for the smaller version number
          if v1e - v1s > v2e - v2s then false
          else if v1e - v1s < v2e - v2s then true
          else strLt (v1.slice v1s v1e) (v2.slice v2s v2e)

/-- The number that a string of decimal digits denotes. -/
def decimalValue (s : Str) : Nat := s.foldl (fun n b => 10 * n + (b - 48)) 0

/-- A decimal numeral: non-empty, decimal digits only. -/
def isNumeral (s : Str) : Bool := !s.isEmpty && s.all (fun b => decide (48 ≤ b ∧ b ≤ 57))

/-- A numeral has no leading zero when it is `0` or does not start with `0`. -/
def noLeadingZero (s : Str) : Bool := decide (s = [48]) || s.head? != some 48

/-- The string does not end in a decimal digit (the empty string does not). -/
def endsInDigit (s : Str) : Bool :=
  match s.getLast? with
  | some b => decide (48 ≤ b ∧ b ≤ 57)
  | none => false

/-- The slice is in version order, in the words of the specification: for
all indices `i < j`, `Less(versions[j], versions[i])` is false. -/
def inVersionOrder (versions : List Str) : Bool :=
  (List.range versions.length).all fun j =>
    (List.range j).all fun i => !Less (versions.getD j []) (versions.getD i [])

end versionsort

/-! # Package `byteio`

A byte is a natural number below 256; a value of type `uintN` is a natural
number below `2^N`, a value of type `intN` an integer from `-2^(N-1)` up to
`2^(N-1) - 1`.  A function returning `(value, error)` returns the pair of
the value and `none` for a nil error. -/

namespace byteio

/-- Go error values, as far as the package tells them apart: the sentinels
`io.EOF` and `io.ErrUnexpectedEOF`, and any other error. -/
inductive Error where
  | EOF
  | ErrUnexpectedEOF
  | other (msg : String)
  deriving DecidableEq, Repr

/-- What one call of `ReadByte` on the underlying reader yields: a byte, or
an error. -/
inductive Outcome where
  | byte (b : Nat)
  | fail (err : Error)
  deriving DecidableEq, Repr

/-- A `byteio.Reader`, as far as `ReadByte` goes: the outcomes of the calls
to come.  When they are used up the stream is at its end, and every call
fails with `io.EOF`. -/
abbrev Reader := List Outcome

/-- Go `bin.ReadByte()`: `(b, nil)` with the next byte, or `(0, err)`. -/
def ReadByte : Reader → (Nat × Option Error) × Reader
  | [] => ((0, some .EOF), [])
  | .byte b :: rest => ((b, none), rest)
  | .fail err :: rest => ((0, some err), rest)

/-- A reader over the given bytes, like `bytes.NewReader(bs)`. -/
def readerOf (bs : List Nat) : Reader := bs.map Outcome.byte

/-- Go `intN(n)` for `n` of type `uintN`: the two's complement reading of
the `w` bits. -/
def toInt (w : Nat) (n : Nat) : Int :=
  if n % 2 ^ w < 2 ^ (w - 1) then (n % 2 ^ w : Nat) else ((n % 2 ^ w : Nat) : Int) - 2 ^ w

/-- Go `uintN(i)` for `i` of type `intN`: the value modulo `2^w`. -/
def toUint (w : Nat) (i : Int) : Nat := (i % 2 ^ w).toNat

/-- Go `ReadUint16BE`: reads an unsigned uint16 in big-endian (network) byte order. -/
def ReadUint16BE (bin : Reader) : (Nat × Option Error) × Reader :=
  match ReadByte bin with
  -- allow io.EOF to propagate normally before first read
  | ((_, some err), bin) => ((0, some err), bin)
  | ((b0, none), bin) =>
    match ReadByte bin with
    | ((_, some err), bin) =>
      if err = .EOF then ((0, some .ErrUnexpectedEOF), bin) else ((0, some err), bin)
    | ((b1, none), bin) =>
      (((b0 <<< 8) ||| b1, none), bin)

/-- Go `ReadInt16BE`: reads a signed int16 in big-endian (network) byte order. -/
def ReadInt16BE (bin : Reader) : (Int × Option Error) × Reader :=
  match ReadUint16BE bin with
  | ((n, err), bin) => ((toInt 16 n, err), bin)

/-- Go `ReadUint32BE`: reads an unsigned uint32 in big-endian (network) byte order. -/
def ReadUint32BE (bin : Reader) : (Nat × Option Error) × Reader :=
  match ReadByte bin with
  | ((_, some err), bin) => ((0, some err), bin)
  | ((b0, none), bin) =>
    match ReadByte bin with
    | ((_, some err), bin) =>
      if err = .EOF then ((0, some .ErrUnexpectedEOF), bin) else ((0, some err), bin)
    | ((b1, none), bin) =>
      match ReadByte bin with
      | ((_, some err), bin) =>
        if err = .EOF then ((0, some .ErrUnexpectedEOF), bin) else ((0, some err), bin)
      | ((b2, none), bin) =>
        match ReadByte bin with
        | ((_, some err), bin) =>
          if err = .EOF then ((0, some .ErrUnexpectedEOF), bin) else ((0, some err), bin)
        | ((b3, none), bin) =>
          (((b0 <<< 24) ||| (b1 <<< 16) ||| (b2 <<< 8) ||| b3, none), bin)

/-- Go `ReadInt32BE`: reads a signed int32 in big-endian (network) byte order. -/
def ReadInt32BE (bin : Reader) : (Int × Option Error) × Reader :=
  match ReadUint32BE bin with
  | ((n, err), bin) => ((toInt 32 n, err), bin)

/-- Go `ReadUint64BE`: reads an unsigned uint64 in big-endian (network) byte order. -/
def ReadUint64BE (bin : Reader) : (Nat × Option Error) × Reader :=
  match ReadByte bin with
  | ((_, some err), bin) => ((0, some err), bin)
  | ((b0, none), bin) =>
    match ReadByte bin with
    | ((_, some err), bin) =>
      if err = .EOF then ((0, some .ErrUnexpectedEOF), bin) else ((0, some err), bin)
    | ((b1, none), bin) =>
      match ReadByte bin with
      | ((_, some err), bin) =>
        if err = .EOF then ((0, some .ErrUnexpectedEOF), bin) else ((0, some err), bin)
      | ((b2, none), bin) =>
        match ReadByte bin with
        | ((_, some err), bin) =>
          if err = .EOF then ((0, some .ErrUnexpectedEOF), bin) else ((0, some err), bin)
        | ((b3, none), bin) =>
          match ReadByte bin with
          | ((_, some err), bin) =>
            if err = .EOF then ((0, some .ErrUnexpectedEOF), bin) else ((0, some err), bin)
          | ((b4, none), bin) =>
            match ReadByte bin with
            | ((_, some err), bin) =>
              if err = .EOF then ((0, some .ErrUnexpectedEOF), bin) else ((0, some err), bin)
            | ((b5, none), bin) =>
              match ReadByte bin with
              | ((_, some err), bin) =>
                if err = .EOF then ((0, some .ErrUnexpectedEOF), bin) else ((0, some err), bin)
              | ((b6, none), bin) =>
                match ReadByte bin with
                | ((_, some err), bin) =>
                  if err = .EOF then ((0, some .ErrUnexpectedEOF), bin) else ((0, some err), bin)
                | ((b7, none), bin) =>
                  (((b0 <<< 56) ||| (b1 <<< 48) ||| (b2 <<< 40) ||| (b3 <<< 32) |||
                      (b4 <<< 24) ||| (b5 <<< 16) ||| (b6 <<< 8) ||| b7, none), bin)

/-- Go `ReadInt64BE`: reads a signed int64 in big-endian (network) byte order. -/
def ReadInt64BE (bin : Reader) : (Int × Option Error) × Reader :=
  match ReadUint64BE bin with
  | ((n, err), bin) => ((toInt 64 n, err), bin)

/-- Go `ReadUint16LE`: reads an unsigned uint16 in little-endian byte order. -/
def ReadUint16LE (bin : Reader) : (Nat × Option Error) × Reader :=
  match ReadByte bin with
  | ((_, some err), bin) => ((0, some err), bin)
  | ((b1, none), bin) =>
    match ReadByte bin with
    | ((_, some err), bin) =>
      if err = .EOF then ((0, some .ErrUnexpectedEOF), bin) else ((0, some err), bin)
    | ((b0, none), bin) =>
      (((b0 <<< 8) ||| b1, none), bin)

/-- Go `ReadInt16LE`: reads a signed int16 in little-endian byte order. -/
def ReadInt16LE (bin : Reader) : (Int × Option Error) × Reader :=
  match ReadUint16LE bin with
  | ((n, err), bin) => ((toInt 16 n, err), bin)

/-- Go `ReadUint32LE`: reads an unsigned uint32 in little-endian byte order. -/
def ReadUint32LE (bin : Reader) : (Nat × Option Error) × Reader :=
  match ReadByte bin with
  | ((_, some err), bin) => ((0, some err), bin)
  | ((b3, none), bin) =>
    match ReadByte bin with
    | ((_, some err), bin) =>
      if err = .EOF then ((0, some .ErrUnexpectedEOF), bin) else ((0, some err), bin)
    | ((b2, none), bin) =>
      match ReadByte bin with
      | ((_, some err), bin) =>
        if err = .EOF then ((0, some .ErrUnexpectedEOF), bin) else ((0, some err), bin)
      | ((b1, none), bin) =>
        match ReadByte bin with
        | ((_, some err), bin) =>
          if err = .EOF then ((0, some .ErrUnexpectedEOF), bin) else ((0, some err), bin)
        | ((b0, none), bin) =>
          (((b0 <<< 24) ||| (b1 <<< 16) ||| (b2 <<< 8) ||| b3, none), bin)

/-- Go `ReadInt32LE`: reads a signed int32 in little-endian byte order. -/
def ReadInt32LE (bin : Reader) : (Int × Option Error) × Reader :=
  match ReadUint32LE bin with
  | ((n, err), bin) => ((toInt 32 n, err), bin)

/-- Go `ReadUint64LE`: reads an unsigned uint64 in little-endian byte order. -/
def ReadUint64LE (bin : Reader) : (Nat × Option Error) × Reader :=
  match ReadByte bin with
  | ((_, some err), bin) => ((0, some err), bin)
  | ((b7, none), bin) =>
    match ReadByte bin with
    | ((_, some err), bin) =>
      if err = .EOF then ((0, some .ErrUnexpectedEOF), bin) else ((0, some err), bin)
    | ((b6, none), bin) =>
      match ReadByte bin with
      | ((_, some err), bin) =>
        if err = .EOF then ((0, some .ErrUnexpectedEOF), bin) else ((0, some err), bin)
      | ((b5, none), bin) =>
        match ReadByte bin with
        | ((_, some err), bin) =>
          if err = .EOF then ((0, some .ErrUnexpectedEOF), bin) else ((0, some err), bin)
        | ((b4, none), bin) =>
          match ReadByte bin with
          | ((_, some err), bin) =>
            if err = .EOF then ((0, some .ErrUnexpectedEOF), bin) else ((0, some err), bin)
          | ((b3, none), bin) =>
            match ReadByte bin with
            | ((_, some err), bin) =>
              if err = .EOF then ((0, some .ErrUnexpectedEOF), bin) else ((0, some err), bin)
            | ((b2, none), bin) =>
              match ReadByte bin with
              | ((_, some err), bin) =>
                if err = .EOF then ((0, some .ErrUnexpectedEOF), bin) else ((0, some err), bin)
              | ((b1, none), bin) =>
                match ReadByte bin with
                | ((_, some err), bin) =>
                  if err = .EOF then ((0, some .ErrUnexpectedEOF), bin) else ((0, some err), bin)
                | ((b0, none), bin) =>
                  (((b0 <<< 56) ||| (b1 <<< 48) ||| (b2 <<< 40) ||| (b3 <<< 32) |||
                      (b4 <<< 24) ||| (b5 <<< 16) ||| (b6 <<< 8) ||| b7, none), bin)

/-- Go `ReadInt64LE`: reads a signed int64 in little-endian byte order. -/
def ReadInt64LE (bin : Reader) : (Int × Option Error) × Reader :=
  match ReadUint64LE bin with
  | ((n, err), bin) => ((toInt 64 n, err), bin)

/-- A `byteio.Writer`, as far as `WriteByte` goes: the bytes it has accepted,
the number of calls of `WriteByte` made so far, and for each call whether it
fails and with which error. -/
structure Writer where
  buf : List Nat
  calls : Nat
  fail : Nat → Option Error

/-- Go `bout.WriteByte(c)`: the byte is accepted, or the call fails and the
byte is not written. -/
def WriteByte (bout : Writer) (c : Nat) : Option Error × Writer :=
  match bout.fail bout.calls with
  | some err => (some err, { bout with calls := bout.calls + 1 })
  | none => (none, { bout with buf := bout.buf ++ [c], calls := bout.calls + 1 })

/-- A writer that accepts every byte, like a `bytes.Buffer`. -/
def bufferOf (bs : List Nat) : Writer := { buf := bs, calls := 0, fail := fun _ => none }

/-- Go `WriteUint16BE`: writes an unsigned uint16 in big-endian (network) byte order.
`byte(n >> s)` is `(n >>> s) % 256`. -/
def WriteUint16BE (bout : Writer) (n : Nat) : Option Error × Writer :=
  match WriteByte bout ((n >>> 8) % 256) with
  | (some err, bout) => (some err, bout)
  | (none, bout) =>
    WriteByte bout (n % 256)

/-- Go `WriteInt16BE`: writes a signed int16 in big-endian (network) byte order. -/
def WriteInt16BE (bout : Writer) (i : Int) : Option Error × Writer :=
  WriteUint16BE bout (toUint 16 i)

/-- Go `WriteUint32BE`: writes an unsigned uint32 in big-endian (network) byte order.
`byte(n >> s)` is `(n >>> s) % 256`. -/
def WriteUint32BE (bout : Writer) (n : Nat) : Option Error × Writer :=
  match WriteByte bout ((n >>> 24) % 256) with
  | (some err, bout) => (some err, bout)
  | (none, bout) =>
    match WriteByte bout ((n >>> 16) % 256) with
    | (some err, bout) => (some err, bout)
    | (none, bout) =>
      match WriteByte bout ((n >>> 8) % 256) with
      | (some err, bout) => (some err, bout)
      | (none, bout) =>
        WriteByte bout (n % 256)

/-- Go `WriteInt32BE`: writes a signed int32 in big-endian (network) byte order. -/
def WriteInt32BE (bout : Writer) (i : Int) : Option Error × Writer :=
  WriteUint32BE bout (toUint 32 i)

/-- Go `WriteUint64BE`: writes an unsigned uint64 in big-endian (network) byte order.
`byte(n >> s)` is `(n >>> s) % 256`. -/
def WriteUint64BE (bout : Writer) (n : Nat) : Option Error × Writer :=
  match WriteByte bout ((n >>> 56) % 256) with
  | (some err, bout) => (some err, bout)
  | (none, bout) =>
    match WriteByte bout ((n >>> 48) % 256) with
    | (some err, bout) => (some err, bout)
    | (none, bout) =>
      match WriteByte bout ((n >>> 40) % 256) with
      | (some err, bout) => (some err, bout)
      | (none, bout) =>
        match WriteByte bout ((n >>> 32) % 256) with
        | (some err, bout) => (some err, bout)
        | (none, bout) =>
          match WriteByte bout ((n >>> 24) % 256) with
          | (some err, bout) => (some err, bout)
          | (none, bout) =>
            match WriteByte bout ((n >>> 16) % 256) with
            | (some err, bout) => (some err, bout)
            | (none, bout) =>
              match WriteByte bout ((n >>> 8) % 256) with
              | (some err, bout) => (some err, bout)
              | (none, bout) =>
                WriteByte bout (n % 256)

/-- Go `WriteInt64BE`: writes a signed int64 in big-endian (network) byte order. -/
def WriteInt64BE (bout : Writer) (i : Int) : Option Error × Writer :=
  WriteUint64BE bout (toUint 64 i)

/-- Go `WriteUint16LE`: writes an unsigned uint16 in little-endian byte order.
`byte(n >> s)` is `(n >>> s) % 256`. -/
def WriteUint16LE (bout : Writer) (n : Nat) : Option Error × Writer :=
  match WriteByte bout (n % 256) with
  | (some err, bout) => (some err, bout)
  | (none, bout) =>
    WriteByte bout ((n >>> 8) % 256)

/-- Go `WriteInt16LE`: writes a signed int16 in little-endian byte order. -/
def WriteInt16LE (bout : Writer) (i : Int) : Option Error × Writer :=
  WriteUint16LE bout (toUint 16 i)

/-- Go `WriteUint32LE`: writes an unsigned uint32 in little-endian byte order.
`byte(n >> s)` is `(n >>> s) % 256`. -/
def WriteUint32LE (bout : Writer) (n : Nat) : Option Error × Writer :=
  match WriteByte bout (n % 256) with
  | (some err, bout) => (some err, bout)
  | (none, bout) =>
    match WriteByte bout ((n >>> 8) % 256) with
    | (some err, bout) => (some err, bout)
    | (none, bout) =>
      match WriteByte bout ((n >>> 16) % 256) with
      | (some err, bout) => (some err, bout)
      | (none, bout) =>
        WriteByte bout ((n >>> 24) % 256)

/-- Go `WriteInt32LE`: writes a signed int32 in little-endian byte order. -/
def WriteInt32LE (bout : Writer) (i : Int) : Option Error × Writer :=
  WriteUint32LE bout (toUint 32 i)

/-- Go `WriteUint64LE`: writes an unsigned uint64 in little-endian byte order.
`byte(n >> s)` is `(n >>> s) % 256`. -/
def WriteUint64LE (bout : Writer) (n : Nat) : Option Error × Writer :=
  match WriteByte bout (n % 256) with
  | (some err, bout) => (some err, bout)
  | (none, bout) =>
    match WriteByte bout ((n >>> 8) % 256) with
    | (some err, bout) => (some err, bout)
    | (none, bout) =>
      match WriteByte bout ((n >>> 16) % 256) with
      | (some err, bout) => (some err, bout)
      | (none, bout) =>
        match WriteByte bout ((n >>> 24) % 256) with
        | (some err, bout) => (some err, bout)
        | (none, bout) =>
          match WriteByte bout ((n >>> 32) % 256) with
          | (some err, bout) => (some err, bout)
          | (none, bout) =>
            match WriteByte bout ((n >>> 40) % 256) with
            | (some err, bout) => (some err, bout)
            | (none, bout) =>
              match WriteByte bout ((n >>> 48) % 256) with
              | (some err, bout) => (some err, bout)
              | (none, bout) =>
                WriteByte bout ((n >>> 56) % 256)

/-- Go `WriteInt64LE`: writes a signed int64 in little-endian byte order. -/
def WriteInt64LE (bout : Writer) (i : Int) : Option Error × Writer :=
  WriteUint64LE bout (toUint 64 i)

/-! ## Byte orders, in the words of the specification -/

/-- The big-endian encoding of `n` in `k` bytes, as in `encoding/binary`:
byte `i` is `(n >> (8k - 8 - 8i)) mod 256`, most significant byte first. -/
def bigEndian (k n : Nat) : List Nat :=
  (List.range k).map fun i => (n >>> (8 * k - 8 - 8 * i)) % 256

/-- The little-endian encoding of `n` in `k` bytes, as in `encoding/binary`:
byte `i` is `(n >> 8i) mod 256`, least significant byte first. -/
def littleEndian (k n : Nat) : List Nat :=
  (List.range k).map fun i => (n >>> (8 * i)) % 256

/-- The big-endian value of the bytes `b_0 .. b_(k-1)`: the sum of
`b_i * 256^(k-1-i)`. -/
def sumBE (bs : List Nat) : Nat :=
  ((List.range bs.length).map fun i => bs.getD i 0 * 256 ^ (bs.length - 1 - i)).sum

/-- The little-endian value of the bytes `b_0 .. b_(k-1)`: the sum of
`b_i * 256^i`. -/
def sumLE (bs : List Nat) : Nat :=
  ((List.range bs.length).map fun i => bs.getD i 0 * 256 ^ i).sum

/-- The two's complement of a signed value in `w` bits: the value itself
when it is not negative, and `2^w` more when it is. -/
def twosComplement (w : Nat) (v : Int) : Nat :=
  if 0 ≤ v then v.toNat else (2 ^ w + v).toNat

/-- The error `ErrAbortWriter` of the tests. -/
def ErrAbortWriter : Error := .other "abort writer"

/-- The `AbortWriter` of the tests: `WriteByte` accepts `when` bytes and then
fails with `ErrAbortWriter`. -/
def abortWriter (when : Nat) : Writer :=
  { buf := [], calls := 0, fail := fun cur => if when ≤ cur then some ErrAbortWriter else none }

/-- The value of `n` with its `k` bytes in the reverse order, in the words of
the specification: the number whose big-endian bytes are the big-endian bytes
of `n` from last to first. -/
def reverseBytes (k n : Nat) : Nat := sumBE (bigEndian k n).reverse

/-! ## The adapter `NewWriter` and `FlushIfNecessary` -/

/-- The `io.Writer` that a caller holds, named `out` in the package
documentation: the bytes its `Write` and `WriteByte` have received, whether
its type satisfies `byteio.Writer` (it has `WriteByte` and `WriteRune`, like
`bytes.Buffer` and `bufio.Writer`), whether it has a `Flush() error` method,
the number of calls of that method, and what the method returns.  Its `Write`
accepts every byte. -/
structure Out where
  received : List Nat
  isWriter : Bool
  hasFlush : Bool
  flushCalls : Nat
  flushErr : Option Error
  deriving DecidableEq, Repr

/-- The default buffer size of `bufio.NewWriter`. -/
def defaultBufSize : Nat := 4096

/-- The writers of a function after `bout := byteio.NewWriter(out)`: the
caller's `out`, and the bytes held by the new `bufio.Writer` when `NewWriter`
made one (`none` when `bout` is `out` itself). -/
structure Writers where
  out : Out
  bufio : Option (List Nat)
  deriving DecidableEq, Repr

/-- Go `NewWriter`: adapts any `io.Writer` into a `byteio.Writer`, possibly
returning a new `bufio.Writer`. -/
def NewWriter (out : Out) : Writers :=
  if out.isWriter then { out := out, bufio := none }
  else { out := out, bufio := some [] }

/-- Go `bout.WriteByte(c)` on the writer that `NewWriter` returned.  On `out`
itself the byte reaches `out`.  On the new `bufio.Writer` the byte goes into
the buffer, which is written to `out` first when it is full. -/
def Writers.WriteByte (w : Writers) (c : Nat) : Option Error × Writers :=
  match w.bufio with
  | none => (none, { w with out := { w.out with received := w.out.received ++ [c] } })
  | some buf =>
    if buf.length ≥ defaultBufSize then
      (none, { out := { w.out with received := w.out.received ++ buf }, bufio := some [c] })
    else (none, { w with bufio := some (buf ++ [c]) })

/-- A run of `WriteByte` calls on `bout`, one for each byte. -/
def Writers.WriteBytes (w : Writers) (cs : List Nat) : Writers :=
  cs.foldl (fun w c => (w.WriteByte c).2) w

/-- The variable that a call names: `out`, or the `bout` that `NewWriter`
returned. -/
inductive Var where
  | out
  | bout
  deriving DecidableEq, Repr

/-- Go `FlushIfNecessary`: tests whether its argument has a `Flush` method
and if so calls it; if not, it silently does nothing.  The argument is `out`
or `bout`; a `bufio.Writer` has a `Flush` method, which writes the buffered
bytes to the underlying writer. -/
def FlushIfNecessary (arg : Var) (w : Writers) : Option Error × Writers :=
  match arg, w.bufio with
  | .bout, some buf =>
    (none, { out := { w.out with received := w.out.received ++ buf }, bufio := some [] })
  | _, _ =>
    if w.out.hasFlush then
      (w.out.flushErr, { w with out := { w.out with flushCalls := w.out.flushCalls + 1 } })
    else (none, w)

/-- The `MockWriter` of the tests: it has `Write` and `Flush`, and no
`WriteByte`. -/
def mockWriter : Out :=
  { received := [], isWriter := false, hasFlush := true, flushCalls := 0, flushErr := none }

/-- A `bytes.Buffer`: it satisfies `byteio.Writer`, and has no `Flush`. -/
def bytesBuffer : Out :=
  { received := [], isWriter := true, hasFlush := false, flushCalls := 0, flushErr := none }

/-- An `os.File`: it has `Write`, and neither `WriteByte` nor `Flush`. -/
def osFile : Out :=
  { received := [], isWriter := false, hasFlush := false, flushCalls := 0, flushErr := none }

end byteio

/-! # Package `stdinprompt`

The prompting reader and the world it acts on are one state: the results that
the underlying reader will return, the timer, and the bytes written to the
terminal.  Time is not measured: the runtime fires a pending timer at a
moment of its choice, which is an event of its own between the calls of
`Read`; every theorem holds for every order of the events. -/

namespace stdinprompt

/-- Go error values, as far as the package passes them on: `io.EOF`, and any
other error. -/
inductive Error where
  | EOF
  | other (msg : String)
  deriving DecidableEq, Repr

/-- The bytes of a text, for texts of ASCII characters. -/
def bytes (s : String) : List Nat := s.data.map Char.toNat

/-- Go `DefaultPromptTime`: the timeout period after which, if no data has
been read, we will display a prompt; `250 * time.Millisecond`, in
nanoseconds. -/
def DefaultPromptTime : Int := 250 * 1000000

/-- Go `StdinPromptMsg`: the default message displayed. -/
def StdinPromptMsg : List Nat := bytes "Waiting for data on stdin."

/-- What one call of `Read(buf)` yields: the bytes put into `buf` and the
error. -/
structure ReadResult where
  data : List Nat
  err : Option Error
  deriving DecidableEq, Repr

/-- The count `n` that the call returns: the number of bytes put into
`buf`. -/
def ReadResult.n (r : ReadResult) : Nat := r.data.length

/-- An `io.Reader`: the results of the calls of `Read` to come.  When they
are used up, every call returns `(0, io.EOF)`. -/
abbrev Reader := List ReadResult

/-- Go `raw.Read(buf)`. -/
def Reader.Read : Reader → ReadResult × Reader
  | [] => (⟨[], some .EOF⟩, [])
  | r :: rest => (r, rest)

/-- The state of the `*time.Timer` that `time.AfterFunc(d, f)` returns:
waiting for the duration `d` to elapse, stopped, or fired (`f` has been
started). -/
inductive Timer where
  | pending (d : Int)
  | stopped
  | fired
  deriving DecidableEq, Repr

/-- Go `(*time.Timer).Stop`: prevents the timer from firing; it does nothing
to a timer that has fired or has been stopped. -/
def Timer.Stop : Timer → Timer
  | .pending _ => .stopped
  | t => t

/-- Go `prompter`, with what the function of its timer refers to: the
underlying reader `raw`, the timer `tmr`, the bytes written to `term` so far,
and the message `msg`. -/
structure prompter where
  raw : Reader
  tmr : Timer
  term : List Nat
  msg : List Nat
  deriving DecidableEq, Repr

/-- Go `NewEx`: returns a new prompting reader.  The source may be specified
along with the prompt message, timeout and destination. -/
def NewEx (raw : Reader) (when : Int) (term : List Nat) (msg : List Nat) : prompter :=
  { raw := raw, tmr := .pending when, term := term, msg := msg }

/-- Go `(*prompter).Read`: reads from `raw`, stops the timer if `n > 0`, and
returns what `raw` returned.  The call takes effect at its `Stop`. -/
def prompter.Read (pr : prompter) : ReadResult × prompter :=
  match pr.raw.Read with
  | (r, raw) => (r, { pr with raw := raw, tmr := if r.n > 0 then pr.tmr.Stop else pr.tmr })

/-- The timer fires: the runtime starts `func() { fmt.Fprintln(term, msg) }`,
which writes the message and a newline to `term`.  Only a pending timer
fires. -/
def prompter.fire (pr : prompter) : prompter :=
  match pr.tmr with
  | .pending _ => { pr with tmr := .fired, term := pr.term ++ pr.msg ++ [10] }
  | _ => pr

/-- What happens to a prompting reader: the program calls `Read`, or the
runtime fires the timer. -/
inductive Event where
  | read
  | fire
  deriving DecidableEq, Repr

/-- One event. -/
def step (pr : prompter) : Event → prompter
  | .read => pr.Read.2
  | .fire => pr.fire

/-- A run of events, in the order in which they take effect. -/
def run (pr : prompter) (es : List Event) : prompter := es.foldl step pr

end stdinprompt

namespace writefile

/-! # Theorems

## `New`: the symlink walk -/

theorem isRegular_of_symlink {m : FileMode} (h : m &&& ModeType = ModeSymlink) :
    IsRegular m = false := by
  unfold IsRegular
  rw [h]
  decide

theorem hop_eq_some {fs : FS} {p q : String} (h : hop fs p = some q) :
    ∃ info text, Lstat fs p = .ok info ∧ info.mode &&& ModeType = ModeSymlink ∧
      Readlink fs p = .ok text ∧ q = linkTarget p text := by
  unfold hop at h
  cases hl : Lstat fs p with
  | error e => simp [hl] at h
  | ok info =>
    rw [hl] at h
    by_cases hm : info.mode &&& ModeType = ModeSymlink
    · cases hr : Readlink fs p with
      | error e => simp [hm, hr] at h
      | ok text =>
        simp [hm, hr] at h
        exact ⟨info, text, rfl, hm, rfl, h.symm⟩
    · simp [hm] at h

theorem hop_of_symlink {fs : FS} {p text : String} {info : FileInfo}
    (hl : Lstat fs p = .ok info) (hm : info.mode &&& ModeType = ModeSymlink)
    (hr : Readlink fs p = .ok text) : hop fs p = some (linkTarget p text) := by
  simp [hop, hl, hm, hr]

/-- One iteration of the loop on a readable symbolic link moves on to the
path the link leads to. -/
theorem NewLoop_hop {fs : FS} {p q : String} (target : String) (n : Nat)
    (h : hop fs p = some q) :
    NewLoop fs target (n + 1) p = NewLoop fs target n q := by
  obtain ⟨info, text, hl, hm, hr, rfl⟩ := hop_eq_some h
  rw [NewLoop, hl]
  simp only [isRegular_of_symlink hm, hm, hr, linkTarget, Bool.false_eq_true, if_false, if_true]
  by_cases ha : filepath.IsAbs text = true <;> simp [ha]

/-- After `k` hops the loop has used up `k` of its iterations. -/
theorem NewLoop_walk {fs : FS} (target : String) (n : Nat) :
    ∀ (k : Nat) (p q : String), walk fs k p = some q →
      NewLoop fs target (n + k) p = NewLoop fs target n q := by
  intro k
  induction k with
  | zero =>
    intro p q h
    simp only [walk, Option.some.injEq] at h
    rw [h, Nat.add_zero]
  | succ k ih =>
    intro p q h
    simp only [walk] at h
    cases hh : hop fs p with
    | none => simp [hh] at h
    | some r =>
      rw [hh, Option.some_bind] at h
      rw [← Nat.add_assoc, NewLoop_hop target (n + k) hh]
      exact ih r q h

theorem walk_add (fs : FS) (a b : Nat) :
    ∀ p : String, walk fs (a + b) p = (walk fs a p).bind (walk fs b) := by
  induction a with
  | zero => intro p; simp [walk]
  | succ a ih =>
    intro p
    rw [Nat.add_right_comm]
    simp only [walk]
    cases hop fs p with
    | none => rfl
    | some r => simp [ih r]

/-- The state of `New` after `k` hops of the walk, `k` at most sixteen. -/
theorem New_walk {fs : FS} {target q : String} {k : Nat} (hk : k ≤ 16)
    (h : walk fs k target = some q) :
    New fs target = NewLoop fs target (16 - k) q := by
  have h16 : 16 = (16 - k) + k := by omega
  unfold New MaxSymlinkDeref
  conv_lhs => rw [h16]
  exact NewLoop_walk target (16 - k) k target q h

/-- The loop at a path where the walk ends: the staging file is opened. -/
theorem NewLoop_ends {fs : FS} (target : String) (n : Nat) {p : String}
    (h : endsWalk fs p = true) :
    NewLoop fs target (n + 1) p =
      match NewNoDeref fs p with
      | (.ok f, fs1) => (⟨p, some f, none⟩, fs1)
      | (.error e, fs1) => (⟨p, none, some e⟩, fs1) := by
  unfold endsWalk at h
  rw [NewLoop]
  cases hl : Lstat fs p with
  | error e =>
    rw [hl] at h
    have h1 : IsNotExist e = true := h
    simp [h1]
  | ok info =>
    rw [hl] at h
    have h1 : IsRegular info.mode = true := h
    simp [h1]

/-- Where the walk ends, the loop returns that path as `finalFname`, whether
or not the staging file can be created. -/
theorem NewLoop_ends_finalFname {fs : FS} (target : String) (n : Nat) {p : String}
    (h : endsWalk fs p = true) : (NewLoop fs target (n + 1) p).1.finalFname = p := by
  rw [NewLoop_ends target n h]
  rcases NewNoDeref fs p with ⟨_ | f, fs1⟩ <;> rfl

/-- A chain of at most fifteen links ending at a regular file or at a
missing name is resolved, when the staging file can be created. -/
theorem New_of_walk_ends {fs fs1 : FS} {target p : String} {k : Nat} {f : File}
    (hk : k ≤ 15) (hwalk : walk fs k target = some p) (hend : endsWalk fs p = true)
    (hstage : NewNoDeref fs p = (.ok f, fs1)) :
    New fs target = (⟨p, some f, none⟩, fs1) := by
  rw [New_walk (by omega) hwalk]
  obtain ⟨m, hm⟩ : ∃ m, 16 - k = m + 1 := ⟨15 - k, by omega⟩
  rw [hm, NewLoop_ends target m hend, hstage]

/-- Sixteen links in a row use up the loop. -/
theorem New_of_walk_sixteen {fs : FS} {target p : String}
    (hwalk : walk fs 16 target = some p) :
    New fs target = (⟨p, none, some (.pathError "open" target (.errno ELOOP))⟩, fs) := by
  rw [New_walk (le_refl 16) hwalk]
  rfl

/-- The loop at an entry that is neither a regular file nor a symbolic
link: the `default` case. -/
theorem NewLoop_other {fs : FS} (target : String) (n : Nat) {p : String} {info : FileInfo}
    (hl : Lstat fs p = .ok info) (hreg : IsRegular info.mode = false)
    (hsym : info.mode &&& ModeType ≠ ModeSymlink) :
    NewLoop fs target (n + 1) p =
      (⟨p, none, some (.pathError "open" target (.text "not a regular file"))⟩, fs) := by
  rw [NewLoop, hl]
  simp [hreg, hsym]

theorem Lstat_error_form {fs : FS} {p : String} {e : GoError} (h : Lstat fs p = .error e) :
    ∃ c, e = .pathError "lstat" p c := by
  unfold Lstat at h
  split at h
  · exact ⟨_, (Except.error.inj h).symm⟩
  · split at h
    · exact ⟨_, (Except.error.inj h).symm⟩
    · cases h

theorem Readlink_error_form {fs : FS} {p : String} {e : GoError}
    (h : Readlink fs p = .error e) : ∃ c, e = .pathError "readlink" p c := by
  unfold Readlink at h
  split at h
  · exact ⟨_, (Except.error.inj h).symm⟩
  · split at h
    · exact ⟨_, (Except.error.inj h).symm⟩
    · cases h
    · exact ⟨_, (Except.error.inj h).symm⟩

/-- Where an error returned by the loop comes from. -/
theorem NewLoop_error_origin {fs : FS} (target : String) (e : GoError) :
    ∀ (n : Nat) (cur : String), (NewLoop fs target n cur).1.err = some e →
      e = .pathError "open" target (.text "not a regular file") ∨
      e = .pathError "open" target (.errno ELOOP) ∨
      ∃ k p, k < n ∧ walk fs k cur = some p ∧
        ((∃ c, e = .pathError "lstat" p c ∧ Lstat fs p = .error e) ∨
         (∃ c, e = .pathError "readlink" p c ∧ Readlink fs p = .error e) ∨
         (NewNoDeref fs p).1 = .error e) := by
  intro n
  induction n with
  | zero =>
    intro cur h
    simp only [NewLoop, Option.some.injEq] at h
    exact Or.inr (Or.inl h.symm)
  | succ n ih =>
    intro cur h
    have stage : ∀ r : Except GoError File × FS,
        NewNoDeref fs cur = r →
        (match r with
          | (.ok f, fs1) => ((⟨cur, some f, none⟩ : NewResult), fs1)
          | (.error e1, fs1) => (⟨cur, none, some e1⟩, fs1)).1.err = some e →
        (NewNoDeref fs cur).1 = .error e := by
      intro r hr h1
      rw [hr]
      rcases r with ⟨_ | f, fs1⟩
      · simp only [Option.some.injEq] at h1
        rw [h1]
      · simp at h1
    rw [NewLoop] at h
    cases hl : Lstat fs cur with
    | error err =>
      rw [hl] at h
      by_cases hne : IsNotExist err = true
      · simp only [hne, Bool.not_true, Bool.false_eq_true, if_false] at h
        exact Or.inr (Or.inr ⟨0, cur, Nat.succ_pos n, rfl, Or.inr (Or.inr (stage _ rfl h))⟩)
      · simp only [hne, Bool.not_false, if_true] at h
        simp only [Bool.not_eq_true] at hne
        simp only [hne, Bool.not_false, if_true, Option.some.injEq] at h
        subst h
        obtain ⟨c, hc⟩ := Lstat_error_form hl
        exact Or.inr (Or.inr ⟨0, cur, Nat.succ_pos n, rfl, Or.inl ⟨c, hc, hl⟩⟩)
    | ok info =>
      rw [hl] at h
      by_cases hreg : IsRegular info.mode = true
      · simp only [hreg, if_true] at h
        exact Or.inr (Or.inr ⟨0, cur, Nat.succ_pos n, rfl, Or.inr (Or.inr (stage _ rfl h))⟩)
      · simp only [hreg, Bool.false_eq_true, if_false] at h
        by_cases hm : info.mode &&& ModeType = ModeSymlink
        · simp only [hm, if_true] at h
          cases hr : Readlink fs cur with
          | error err =>
            rw [hr] at h
            simp only [Option.some.injEq] at h
            subst h
            obtain ⟨c, hc⟩ := Readlink_error_form hr
            exact Or.inr (Or.inr ⟨0, cur, Nat.succ_pos n, rfl, Or.inr (Or.inl ⟨c, hc, hr⟩)⟩)
          | ok text =>
            rw [hr] at h
            have hh : hop fs cur = some (linkTarget cur text) := hop_of_symlink hl hm hr
            have h2 : (NewLoop fs target n (linkTarget cur text)).1.err = some e := by
              unfold linkTarget
              by_cases ha : filepath.IsAbs text = true
              · simpa [ha] using h
              · simpa [ha] using h
            rcases ih _ h2 with h3 | h3 | ⟨k, p, hk, hw, h3⟩
            · exact Or.inl h3
            · exact Or.inr (Or.inl h3)
            · refine Or.inr (Or.inr ⟨k + 1, p, Nat.succ_lt_succ hk, ?_, h3⟩)
              simp only [walk, hh, Option.some_bind]
              exact hw
        · simp only [hm, if_false, Option.some.injEq] at h
          exact Or.inl h.symm

/-- C4: for every filesystem state and target such that the symlink walk
from the target reaches, after `k <= 15` hops, a path `p` that `lstat` reports
as a regular file or as not existing, and the staging file can be created in
the directory of `p`, `New target` returns a nil error, the staging handle and
`finalFname = p`; for `k = 0` that is the target string exactly as given. -/
theorem New_resolves (fs fs1 : FS) (target p : String) (k : Nat) (f : File)
    (hk : k ≤ 15) (hwalk : walk fs k target = some p) (hend : endsWalk fs p = true)
    (hstage : NewNoDeref fs p = (.ok f, fs1)) :
    New fs target = (⟨p, some f, none⟩, fs1) ∧ (k = 0 → p = target) := by
  refine ⟨New_of_walk_ends hk hwalk hend hstage, ?_⟩
  intro h0
  subst h0
  simp only [walk, Option.some.injEq] at hwalk
  exact hwalk.symm

/-- C4 at `TestSymlinkEnoent`: a link to a name that does not exist. -/
theorem New_resolves_witness :
    walk fsSymlinkEnoent 1 "/tmp/d/sym_enoent" = some "/tmp/d/enoent" ∧
    endsWalk fsSymlinkEnoent "/tmp/d/enoent" = true ∧
    New fsSymlinkEnoent "/tmp/d/sym_enoent" =
      (⟨"/tmp/d/enoent", some ⟨"/tmp/d/.new.000000007", 3⟩, none⟩,
        (NewNoDeref fsSymlinkEnoent "/tmp/d/enoent").2) :=
  ⟨by decide, by decide,
    (New_resolves fsSymlinkEnoent _ "/tmp/d/sym_enoent" "/tmp/d/enoent" 1
      ⟨"/tmp/d/.new.000000007", 3⟩ (by decide) (by decide) (by decide) rfl).1⟩

/-- C5: when the current path `cur` of the walk of `New` (reached after
`k <= 15` hops) is a symbolic link whose link text is a relative path, the
next path examined is `filepath.Clean(filepath.Join(filepath.Dir(cur), text))`:
the text is taken relative to the directory of the current hop, and `New`
goes on from there with the iterations that are left.  When that path is a
regular file or does not exist (and an iteration is left to look at it), it
is the `finalFname` that `New` returns. -/
theorem New_relative_link (fs : FS) (target cur text : String) (k : Nat) (info : FileInfo)
    (hk : k ≤ 15) (hwalk : walk fs k target = some cur)
    (hl : Lstat fs cur = .ok info) (hm : info.mode &&& ModeType = ModeSymlink)
    (hr : Readlink fs cur = .ok text) (hrel : filepath.IsAbs text = false) :
    New fs target =
        NewLoop fs target (15 - k)
          (filepath.Clean (filepath.Join [filepath.Dir cur, text])) ∧
      (k ≤ 14 →
        endsWalk fs (filepath.Clean (filepath.Join [filepath.Dir cur, text])) = true →
        (New fs target).1.finalFname =
          filepath.Clean (filepath.Join [filepath.Dir cur, text])) := by
  have hh : hop fs cur = some (filepath.Clean (filepath.Join [filepath.Dir cur, text])) := by
    rw [hop_of_symlink hl hm hr]
    simp [linkTarget, hrel]
  have hnew : New fs target =
      NewLoop fs target (15 - k) (filepath.Clean (filepath.Join [filepath.Dir cur, text])) := by
    rw [New_walk (by omega : k ≤ 16) hwalk]
    obtain ⟨m, hm1⟩ : ∃ m, 16 - k = m + 1 := ⟨15 - k, by omega⟩
    have hm2 : 15 - k = m := by omega
    rw [hm1, hm2]
    exact NewLoop_hop target m hh
  refine ⟨hnew, ?_⟩
  intro hk14 hend
  obtain ⟨m, hm1⟩ : ∃ m, 15 - k = m + 1 := ⟨14 - k, by omega⟩
  rw [hnew, hm1]
  exact NewLoop_ends_finalFname target m hend

/-- C5 at the second hop of `/tmp/d/sym -> sub/l2`, `/tmp/d/sub/l2 -> x`:
`x` is looked up in `/tmp/d/sub`, the directory of the current hop, and not
in `/tmp/d`; and at `TestSymlinkRel`, where `sym -> sym_target`. -/
theorem New_relative_link_witness :
    walk fsTwoHop 1 "/tmp/d/sym" = some "/tmp/d/sub/l2" ∧
    Readlink fsTwoHop "/tmp/d/sub/l2" = .ok "x" ∧
    New fsTwoHop "/tmp/d/sym" = NewLoop fsTwoHop "/tmp/d/sym" 14 "/tmp/d/sub/x" ∧
    (New fsTwoHop "/tmp/d/sym").1.finalFname = "/tmp/d/sub/x" ∧
    (New fsSymlinkRel "/tmp/d/sym").1.finalFname = "/tmp/d/sym_target" :=
  ⟨by decide, rfl,
    (New_relative_link fsTwoHop "/tmp/d/sym" "/tmp/d/sub/l2" "x" 1 ⟨ModeSymlink ||| ModePerm⟩
      (by decide) (by decide) rfl (by decide) rfl (by decide)).1,
    (New_relative_link fsTwoHop "/tmp/d/sym" "/tmp/d/sub/l2" "x" 1 ⟨ModeSymlink ||| ModePerm⟩
      (by decide) (by decide) rfl (by decide) rfl (by decide)).2 (by decide) (by decide),
    (New_relative_link fsSymlinkRel "/tmp/d/sym" "/tmp/d/sym" "sym_target" 0
      ⟨ModeSymlink ||| ModePerm⟩ (by decide) (by decide) rfl (by decide) rfl (by decide)).2
      (by decide) (by decide)⟩

/-- C6: when the current path `cur` of the walk of `New` (reached after
`k <= 15` hops) is a symbolic link whose link text is an absolute path, the
next path examined is exactly the link text, neither joined with a directory
nor cleaned.  When the link text names a regular file or nothing (and an
iteration is left to look at it), it is the `finalFname` that `New` returns. -/
theorem New_absolute_link (fs : FS) (target cur text : String) (k : Nat) (info : FileInfo)
    (hk : k ≤ 15) (hwalk : walk fs k target = some cur)
    (hl : Lstat fs cur = .ok info) (hm : info.mode &&& ModeType = ModeSymlink)
    (hr : Readlink fs cur = .ok text) (habs : filepath.IsAbs text = true) :
    New fs target = NewLoop fs target (15 - k) text ∧
      (k ≤ 14 → endsWalk fs text = true → (New fs target).1.finalFname = text) := by
  have hh : hop fs cur = some text := by
    rw [hop_of_symlink hl hm hr]
    simp [linkTarget, habs]
  have hnew : New fs target = NewLoop fs target (15 - k) text := by
    rw [New_walk (by omega : k ≤ 16) hwalk]
    obtain ⟨m, hm1⟩ : ∃ m, 16 - k = m + 1 := ⟨15 - k, by omega⟩
    have hm2 : 15 - k = m := by omega
    rw [hm1, hm2]
    exact NewLoop_hop target m hh
  refine ⟨hnew, ?_⟩
  intro hk14 hend
  obtain ⟨m, hm1⟩ : ∃ m, 15 - k = m + 1 := ⟨14 - k, by omega⟩
  rw [hnew, hm1]
  exact NewLoop_ends_finalFname target m hend

/-- C6 at `TestSymlinkAbs`: `sym_abs -> /srv/data/sym_target_abs`. -/
theorem New_absolute_link_witness :
    Readlink fsSymlinkAbs "/tmp/d/sym_abs" = .ok "/srv/data/sym_target_abs" ∧
    New fsSymlinkAbs "/tmp/d/sym_abs" =
      NewLoop fsSymlinkAbs "/tmp/d/sym_abs" 15 "/srv/data/sym_target_abs" ∧
    (New fsSymlinkAbs "/tmp/d/sym_abs").1.finalFname = "/srv/data/sym_target_abs" ∧
    (New fsSymlinkAbs "/tmp/d/sym_abs").1 =
      ⟨"/srv/data/sym_target_abs", some ⟨"/srv/data/.new.000000007", 3⟩, none⟩ :=
  ⟨rfl,
    (New_absolute_link fsSymlinkAbs "/tmp/d/sym_abs" "/tmp/d/sym_abs" "/srv/data/sym_target_abs"
      0 ⟨ModeSymlink ||| ModePerm⟩ (by decide) (by decide) rfl (by decide) rfl (by decide)).1,
    (New_absolute_link fsSymlinkAbs "/tmp/d/sym_abs" "/tmp/d/sym_abs" "/srv/data/sym_target_abs"
      0 ⟨ModeSymlink ||| ModePerm⟩ (by decide) (by decide) rfl (by decide) rfl (by decide)).2
      (by decide) (by decide),
    by decide⟩

/-- C7 fails as stated: from the directory `/tmp/d/target_dir` the walk never
reaches a regular file or a missing name within the loop bound, yet `New`
returns `not a regular file` and not `ELOOP`. -/
theorem New_too_many_symlinks_counterexample :
    (∀ k, k < 16 → ∀ p, walk fsSymlinkDir k "/tmp/d/target_dir" = some p →
      endsWalk fsSymlinkDir p = false) ∧
    (New fsSymlinkDir "/tmp/d/target_dir").1.err =
      some (.pathError "open" "/tmp/d/target_dir" (.text "not a regular file")) ∧
    (New fsSymlinkDir "/tmp/d/target_dir").1.err ≠
      some (.pathError "open" "/tmp/d/target_dir" (.errno ELOOP)) := by
  refine ⟨?_, by decide, by decide⟩
  intro k _ p h
  cases k with
  | zero =>
    simp only [walk, Option.some.injEq] at h
    subst h
    decide
  | succ k =>
    have hh : hop fsSymlinkDir "/tmp/d/target_dir" = none := by decide
    simp [walk, hh] at h

/-- C7, amended: for every filesystem in which each of the sixteen paths
that the loop examines is a symbolic link whose link text can be read (the
walk makes sixteen hops; in particular on a cycle of links), `New target`
returns a nil handle and the `*os.PathError` with Op `open`, Err `ELOOP` and
Path equal to the original target, and changes nothing. -/
theorem New_too_many_symlinks (fs : FS) (target p : String)
    (hwalk : walk fs 16 target = some p) :
    New fs target = (⟨p, none, some (.pathError "open" target (.errno ELOOP))⟩, fs) :=
  New_of_walk_sixteen hwalk

/-- C7, amended, at `TestSymlinkLoop`: the cycle `a -> b -> a`. -/
theorem New_too_many_symlinks_witness :
    walk fsSymlinkLoop 16 "/tmp/d/symlink_loop_a" = some "/tmp/d/symlink_loop_a" ∧
    New fsSymlinkLoop "/tmp/d/symlink_loop_a" =
      (⟨"/tmp/d/symlink_loop_a", none,
          some (.pathError "open" "/tmp/d/symlink_loop_a" (.errno ELOOP))⟩, fsSymlinkLoop) :=
  ⟨by decide, New_too_many_symlinks fsSymlinkLoop _ _ (by decide)⟩

/-- C8 fails as stated for `k = 16`: `/c/l00` is the first of sixteen
symbolic links that lead to the regular file `/c/l16`, a staging file could
be created next to it, and `New` fails with `ELOOP`. -/
theorem New_chain_bound_counterexample :
    walk fsChain 16 "/c/l00" = some "/c/l16" ∧
    endsWalk fsChain "/c/l16" = true ∧
    (NewNoDeref fsChain "/c/l16").1 = .ok ⟨"/c/.new.000000007", 3⟩ ∧
    (New fsChain "/c/l00").1 =
      ⟨"/c/l16", none, some (.pathError "open" "/c/l00" (.errno ELOOP))⟩ :=
  ⟨by decide, by decide, rfl, by decide⟩

/-- C8, amended: `MaxSymlinkDeref` (16) is the number of symbolic links that
`New` dereferences before giving up.  A target whose chain consists of `k`
symbolic links followed by a regular file or a missing name is resolved for
every `k <= 15`: `finalFname` is the end of the chain, with a nil error and
the staging handle when the staging file can be created.  For every
`k >= 16` `New` follows sixteen links and then fails with the
too-many-symlinks error for the original target, having changed nothing. -/
theorem New_chain_bound (fs fs1 : FS) (target p : String) (k : Nat) (f : File)
    (hwalk : walk fs k target = some p) :
    (k ≤ 15 → endsWalk fs p = true →
      (New fs target).1.finalFname = p ∧
      (NewNoDeref fs p = (.ok f, fs1) → New fs target = (⟨p, some f, none⟩, fs1))) ∧
    (16 ≤ k →
      walk fs 16 target = some (New fs target).1.finalFname ∧
      (New fs target).1.f = none ∧
      (New fs target).1.err = some (.pathError "open" target (.errno ELOOP)) ∧
      (New fs target).2 = fs) := by
  constructor
  · intro hk hend
    refine ⟨?_, fun hstage => New_of_walk_ends hk hwalk hend hstage⟩
    rw [New_walk (by omega : k ≤ 16) hwalk]
    obtain ⟨m, hm⟩ : ∃ m, 16 - k = m + 1 := ⟨15 - k, by omega⟩
    rw [hm]
    exact NewLoop_ends_finalFname target m hend
  · intro hk
    obtain ⟨b, rfl⟩ : ∃ b, k = 16 + b := ⟨k - 16, by omega⟩
    rw [walk_add] at hwalk
    cases h16 : walk fs 16 target with
    | none => simp [h16] at hwalk
    | some q =>
      rw [New_of_walk_sixteen h16]
      exact ⟨rfl, rfl, rfl, rfl⟩

/-- C8, amended, on the chain `/c/l00 -> ... -> /c/l16`: entered at `/c/l01`
(fifteen links) it is resolved, entered at `/c/l00` (sixteen links) it is not. -/
theorem New_chain_bound_witness :
    (walk fsChain 15 "/c/l01" = some "/c/l16" ∧
      (New fsChain "/c/l01").1.finalFname = "/c/l16" ∧
      New fsChain "/c/l01" =
        (⟨"/c/l16", some ⟨"/c/.new.000000007", 3⟩, none⟩, (NewNoDeref fsChain "/c/l16").2)) ∧
    (walk fsChain 16 "/c/l00" = some "/c/l16" ∧
      walk fsChain 16 "/c/l00" = some (New fsChain "/c/l00").1.finalFname ∧
      (New fsChain "/c/l00").1.f = none ∧
      (New fsChain "/c/l00").1.err = some (.pathError "open" "/c/l00" (.errno ELOOP)) ∧
      (New fsChain "/c/l00").2 = fsChain) :=
  ⟨⟨by decide,
      ((New_chain_bound fsChain (NewNoDeref fsChain "/c/l16").2 "/c/l01" "/c/l16" 15
        ⟨"/c/.new.000000007", 3⟩ (by decide)).1 (by decide) (by decide)).1,
      ((New_chain_bound fsChain (NewNoDeref fsChain "/c/l16").2 "/c/l01" "/c/l16" 15
        ⟨"/c/.new.000000007", 3⟩ (by decide)).1 (by decide) (by decide)).2 rfl⟩,
    ⟨by decide,
      (New_chain_bound fsChain fsChain "/c/l00" "/c/l16" 16 ⟨"", 0⟩ (by decide)).2 (by decide)⟩⟩

/-- C9 fails as stated when the entry lies behind sixteen or more links:
from `/c/l00` the walk reaches the directory `/c/l16` through sixteen
symbolic links, and `New` returns the too-many-symlinks error, not
`not a regular file`. -/
theorem New_not_regular_counterexample :
    walk fsChainDir 16 "/c/l00" = some "/c/l16" ∧
    Lstat fsChainDir "/c/l16" = .ok ⟨ModeDir ||| 493⟩ ∧
    IsRegular (ModeDir ||| 493) = false ∧
    (ModeDir ||| 493) &&& ModeType ≠ ModeSymlink ∧
    (New fsChainDir "/c/l00").1.err = some (.pathError "open" "/c/l00" (.errno ELOOP)) ∧
    (New fsChainDir "/c/l00").1.err ≠
      some (.pathError "open" "/c/l00" (.text "not a regular file")) :=
  ⟨by decide, rfl, by decide, by decide, by decide, by decide⟩

/-- C9, amended: if the walk from the target reaches, directly (`k = 0`) or
through `k <= 15` symbolic links (that is, among the sixteen paths that the
loop looks at), an entry that exists and is neither a regular file nor a
symbolic link, `New` returns a nil handle and the `*os.PathError` with Op
`open`, text `not a regular file` and Path equal to the original target, not
the path of the entry reached; nothing is changed. -/
theorem New_not_regular (fs : FS) (target p : String) (k : Nat) (info : FileInfo)
    (hk : k ≤ 15) (hwalk : walk fs k target = some p)
    (hl : Lstat fs p = .ok info) (hreg : IsRegular info.mode = false)
    (hsym : info.mode &&& ModeType ≠ ModeSymlink) :
    New fs target =
      (⟨p, none, some (.pathError "open" target (.text "not a regular file"))⟩, fs) := by
  rw [New_walk (by omega : k ≤ 16) hwalk]
  obtain ⟨m, hm⟩ : ∃ m, 16 - k = m + 1 := ⟨15 - k, by omega⟩
  rw [hm]
  exact NewLoop_other target m hl hreg hsym

/-- C9, amended, at `TestSymlinkDir`: `sym_dir -> /tmp/d/target_dir`, a directory; the
error names `sym_dir`. -/
theorem New_not_regular_witness :
    walk fsSymlinkDir 1 "/tmp/d/sym_dir" = some "/tmp/d/target_dir" ∧
    Lstat fsSymlinkDir "/tmp/d/target_dir" = .ok ⟨ModeDir ||| 511⟩ ∧
    New fsSymlinkDir "/tmp/d/sym_dir" =
      (⟨"/tmp/d/target_dir", none,
          some (.pathError "open" "/tmp/d/sym_dir" (.text "not a regular file"))⟩,
        fsSymlinkDir) :=
  ⟨by decide, rfl,
    New_not_regular fsSymlinkDir "/tmp/d/sym_dir" "/tmp/d/target_dir" 1 ⟨ModeDir ||| 511⟩
      (by decide) (by decide) rfl (by decide) (by decide)⟩

/-- C10 fails as stated: with `a -> b` and `lstat` refused on `/tmp/d/b`,
`New "/tmp/d/a"` follows one link and returns the error of the failed `lstat`,
whose Path is the intermediate `/tmp/d/b` and not the target `/tmp/d/a`. -/
theorem New_error_path_counterexample :
    walk fsDenied 1 "/tmp/d/a" = some "/tmp/d/b" ∧
    (New fsDenied "/tmp/d/a").1.err =
      some (.pathError "lstat" "/tmp/d/b" (.errno Fault.eacces.errno)) ∧
    "/tmp/d/b" ≠ "/tmp/d/a" :=
  ⟨by decide, by decide, by decide⟩

/-- C10, amended: the errors that `New` builds itself (`not a regular file`,
too many symlinks) are `*os.PathError` values with Op `open` that carry the
original target path.  Every other error of `New` is the error of a failed
call at a path `p` of the walk, returned as it is: a failed `lstat` or
`readlink` carries Op `lstat` or `readlink` and the path `p` of the hop it was
made on (the target only when no link was followed), and a failed creation of
the staging file is the error of `ioutil.TempFile`. -/
theorem New_error_origin (fs : FS) (target : String) (e : GoError)
    (h : (New fs target).1.err = some e) :
    e = .pathError "open" target (.text "not a regular file") ∨
    e = .pathError "open" target (.errno ELOOP) ∨
    ∃ k p, k ≤ 15 ∧ walk fs k target = some p ∧
      ((∃ c, e = .pathError "lstat" p c ∧ Lstat fs p = .error e) ∨
       (∃ c, e = .pathError "readlink" p c ∧ Readlink fs p = .error e) ∨
       (NewNoDeref fs p).1 = .error e) := by
  rcases NewLoop_error_origin target e 16 target h with h1 | h1 | ⟨k, p, hk, hw, h1⟩
  · exact Or.inl h1
  · exact Or.inr (Or.inl h1)
  · exact Or.inr (Or.inr ⟨k, p, by omega, hw, h1⟩)

/-- C10, amended, at `TestSymlinkDir`: the error built by `New` names the
original target `sym_dir`. -/
theorem New_error_origin_witness :
    (New fsSymlinkDir "/tmp/d/sym_dir").1.err =
      some (.pathError "open" "/tmp/d/sym_dir" (.text "not a regular file")) ∧
    (GoError.pathError "open" "/tmp/d/sym_dir" (.text "not a regular file") =
        .pathError "open" "/tmp/d/sym_dir" (.text "not a regular file") ∨
      GoError.pathError "open" "/tmp/d/sym_dir" (.text "not a regular file") =
        .pathError "open" "/tmp/d/sym_dir" (.errno ELOOP) ∨
      ∃ k p, k ≤ 15 ∧ walk fsSymlinkDir k "/tmp/d/sym_dir" = some p ∧
        ((∃ c, GoError.pathError "open" "/tmp/d/sym_dir" (.text "not a regular file") =
              .pathError "lstat" p c ∧
            Lstat fsSymlinkDir p =
              .error (.pathError "open" "/tmp/d/sym_dir" (.text "not a regular file"))) ∨
         (∃ c, GoError.pathError "open" "/tmp/d/sym_dir" (.text "not a regular file") =
              .pathError "readlink" p c ∧
            Readlink fsSymlinkDir p =
              .error (.pathError "open" "/tmp/d/sym_dir" (.text "not a regular file"))) ∨
         (NewNoDeref fsSymlinkDir p).1 =
            .error (.pathError "open" "/tmp/d/sym_dir" (.text "not a regular file")))) :=
  ⟨by decide, New_error_origin fsSymlinkDir "/tmp/d/sym_dir" _ (by decide)⟩

/-! ## The state-changing calls: what they change and what they record -/


theorem upd_same {β : Type} (g : String → β) (a : String) (v : β) : upd g a v a = v := by
  simp [upd]

theorem upd_other {β : Type} (g : String → β) {a q : String} (v : β) (h : q ≠ a) :
    upd g a v q = g q := by
  simp [upd, h]

@[simp] theorem record_names (fs : FS) (c : Call) (b : Bool) : (fs.record c b).names = fs.names := rfl
@[simp] theorem record_fds (fs : FS) (c : Call) (b : Bool) : (fs.record c b).fds = fs.fds := rfl
@[simp] theorem record_faults (fs : FS) (c : Call) (b : Bool) : (fs.record c b).faults = fs.faults := rfl

theorem Sync_names (fs : FS) (f : File) : (f.Sync fs).2.names = fs.names := by
  unfold File.Sync
  split
  · rfl
  · split <;> rfl

theorem Close_names (fs : FS) (f : File) : (f.Close fs).2.names = fs.names := by
  unfold File.Close
  split
  · rfl
  · split <;> rfl

/-- A `Chmod` leaves the content of every regular file as it is. -/
theorem Chmod_data (fs : FS) (f : File) (mode : FileMode) {q : String} {data : Bytes}
    {perm : FileMode} (h : fs.names q = some (.file data perm)) :
    ∃ perm1, (f.Chmod fs mode).2.names q = some (.file data perm1) := by
  unfold File.Chmod
  split
  · exact ⟨perm, h⟩
  · rename_i nm _
    split
    · exact ⟨perm, h⟩
    · split
      · rename_i d p hn
        by_cases hq : q = nm
        · subst hq
          rw [h] at hn
          cases hn
          exact ⟨mode, by simp [upd_same]⟩
        · exact ⟨perm, by simp [upd_other _ _ hq, h]⟩
      · exact ⟨perm, h⟩

/-- After a successful `Rename` the new name is bound to what the old name
was bound to. -/
theorem Rename_ok {fs fs1 : FS} {oldpath newpath : String} {node : Node}
    (hold : fs.names oldpath = some node) (h : Rename fs oldpath newpath = (none, fs1)) :
    fs1.names newpath = some node := by
  unfold Rename at h
  split at h
  · cases h
  · rw [hold] at h
    simp only at h
    by_cases heq : oldpath = newpath
    · simp only [heq, if_true, Prod.mk.injEq, true_and] at h
      subst h
      rw [← heq]
      exact hold
    · simp only [heq, if_false] at h
      have hne : newpath ≠ oldpath := fun h1 => heq h1.symm
      split at h
      · split at h
        · cases h
        · split at h
          · cases h
          · simp only [Prod.mk.injEq, true_and] at h
            subst h
            simp [upd_other _ _ hne, upd_same]
      · simp only [Prod.mk.injEq, true_and] at h
        subst h
        simp [upd_other _ _ hne, upd_same]

theorem readAt_file {names : Names} {path : String} {data : Bytes} {perm : FileMode} (n : Nat)
    (h : names path = some (.file data perm)) : readAt names (n + 1) path = some data := by
  simp [readAt, h]

theorem AgreeOff.agree_refl (s : String) (a : Names) : AgreeOff s a a := fun _ _ => rfl

theorem AgreeOff.agree_trans {s : String} {a b c : Names} (h1 : AgreeOff s a b) (h2 : AgreeOff s b c) :
    AgreeOff s a c := fun q hq => (h1 q hq).trans (h2 q hq)

theorem AgreeOff.agree_of_eq {s : String} {a b : Names} (h : a = b) : AgreeOff s a b := by
  subst h; exact AgreeOff.agree_refl s a

theorem AgreeOff.agree_upd (s : String) (a : Names) (v : Option Node) : AgreeOff s (upd a s v) a :=
  fun _ hq => upd_other a v hq

theorem Steps.steps_refl (fs : FS) : Steps fs fs := ⟨[], by simp, by simp⟩

theorem Steps.steps_record {fs x : FS} (c : Call) (b : Bool) (h : x.log = fs.log) :
    Steps fs (x.record c b) :=
  ⟨[⟨c, b, x.names⟩], by simp [FS.record, h], by simp [FS.record]⟩

theorem LogExt.ext_refl (P : Names → Prop) (fs : FS) : LogExt P fs fs := ⟨[], by simp, by simp⟩

theorem LogExt.ext_trans {P : Names → Prop} {a b c : FS} (h1 : LogExt P a b) (h2 : LogExt P b c) :
    LogExt P a c := by
  obtain ⟨s1, e1, p1⟩ := h1
  obtain ⟨s2, e2, p2⟩ := h2
  refine ⟨s1 ++ s2, by rw [e2, e1, List.append_assoc], ?_⟩
  intro st hst
  rcases List.mem_append.mp hst with h | h
  · exact p1 st h
  · exact p2 st h

theorem LogExt.ext_of_steps {P : Names → Prop} {a b : FS} (h : Steps a b) (hP : P b.names) :
    LogExt P a b := by
  obtain ⟨s, e, p⟩ := h
  exact ⟨s, e, fun st hst => by rw [p st hst]; exact hP⟩

theorem LogExt.ext_mono {P Q : Names → Prop} {a b : FS} (h : LogExt P a b) (hPQ : ∀ n, P n → Q n) :
    LogExt Q a b := by
  obtain ⟨s, e, p⟩ := h
  exact ⟨s, e, fun st hst => hPQ _ (p st hst)⟩

theorem Sync_fds (fs : FS) (f : File) : (f.Sync fs).2.fds = fs.fds := by
  unfold File.Sync
  split
  · rfl
  · split <;> rfl

theorem Sync_steps (fs : FS) (f : File) : Steps fs (f.Sync fs).2 := by
  unfold File.Sync
  split
  · exact Steps.steps_refl fs
  · split
    · exact Steps.steps_record _ _ rfl
    · exact Steps.steps_record _ _ rfl

theorem Close_steps (fs : FS) (f : File) : Steps fs (f.Close fs).2 := by
  unfold File.Close
  split
  · exact Steps.steps_refl fs
  · split
    · exact Steps.steps_record _ _ rfl
    · exact Steps.steps_record _ _ rfl

theorem Chmod_fds (fs : FS) (f : File) (mode : FileMode) : (f.Chmod fs mode).2.fds = fs.fds := by
  unfold File.Chmod
  split
  · rfl
  · split
    · rfl
    · split <;> rfl

theorem Chmod_steps (fs : FS) (f : File) (mode : FileMode) : Steps fs (f.Chmod fs mode).2 := by
  unfold File.Chmod
  split
  · exact Steps.steps_refl fs
  · split
    · exact Steps.steps_record _ _ rfl
    · split
      · exact Steps.steps_record _ _ rfl
      · exact Steps.steps_record _ _ rfl

theorem Chmod_agree {fs : FS} {f : File} {s : String} (mode : FileMode)
    (hfd : fs.fds f.fd = some s) : AgreeOff s (f.Chmod fs mode).2.names fs.names := by
  unfold File.Chmod
  rw [hfd]
  simp only
  split
  · exact AgreeOff.agree_refl _ _
  · split
    · exact AgreeOff.agree_upd _ _ _
    · exact AgreeOff.agree_refl _ _

theorem Write_fds (fs : FS) (f : File) (b : Bytes) : (f.Write fs b).2.fds = fs.fds := by
  unfold File.Write
  split
  · rfl
  · split
    · split <;> rfl
    · rfl

theorem Write_steps (fs : FS) (f : File) (b : Bytes) : Steps fs (f.Write fs b).2 := by
  unfold File.Write
  split
  · exact Steps.steps_refl fs
  · split
    · split
      · exact Steps.steps_record _ _ rfl
      · exact Steps.steps_record _ _ rfl
    · exact Steps.steps_record _ _ rfl

theorem Write_agree {fs : FS} {f : File} {s : String} (b : Bytes)
    (hfd : fs.fds f.fd = some s) : AgreeOff s (f.Write fs b).2.names fs.names := by
  unfold File.Write
  rw [hfd]
  simp only
  split
  · split
    · exact AgreeOff.agree_upd _ _ _
    · exact AgreeOff.agree_upd _ _ _
  · exact AgreeOff.agree_refl _ _

/-- Writing through a descriptor keeps the file under its name a regular file. -/
theorem Write_file {fs : FS} {f : File} {s : String} (b : Bytes)
    (hfd : fs.fds f.fd = some s) {data : Bytes} {perm : FileMode}
    (h : fs.names s = some (.file data perm)) :
    ∃ data1, (f.Write fs b).2.names s = some (.file data1 perm) := by
  unfold File.Write
  rw [hfd]
  simp only [h]
  split
  · rename_i k flt _
    exact ⟨data ++ b.take k, by simp [upd_same]⟩
  · exact ⟨data ++ b, by simp [upd_same]⟩

theorem Remove_steps (fs : FS) (name : String) : Steps fs (Remove fs name).2 := by
  unfold Remove
  split
  · exact Steps.steps_record _ _ rfl
  · split
    · exact Steps.steps_record _ _ rfl
    · exact Steps.steps_record _ _ rfl

theorem Remove_agree (fs : FS) (name : String) : AgreeOff name (Remove fs name).2.names fs.names := by
  unfold Remove
  split
  · exact AgreeOff.agree_refl _ _
  · split
    · exact AgreeOff.agree_refl _ _
    · exact AgreeOff.agree_upd _ _ _

theorem Rename_steps (fs : FS) (a b : String) : Steps fs (Rename fs a b).2 := by
  unfold Rename
  split
  · exact Steps.steps_record _ _ rfl
  · split
    · exact Steps.steps_record _ _ rfl
    · split
      · exact Steps.steps_record _ _ rfl
      · split
        · split
          · exact Steps.steps_record _ _ rfl
          · split
            · exact Steps.steps_record _ _ rfl
            · exact Steps.steps_record _ _ rfl
        · exact Steps.steps_record _ _ rfl

/-- A failed `Rename` changes no name. -/
theorem Rename_error {fs fs1 : FS} {a b : String} {err : GoError}
    (h : Rename fs a b = (some err, fs1)) : fs1.names = fs.names := by
  unfold Rename at h
  split at h
  · cases h; rfl
  · split at h
    · cases h; rfl
    · split at h
      · cases h
      · split at h
        · split at h
          · cases h; rfl
          · split at h
            · cases h; rfl
            · cases h
        · cases h

theorem OpenFileExcl_error {fs fs1 : FS} {name : String} {perm : FileMode} {err : GoError}
    (h : OpenFileExcl fs name perm = (.error err, fs1)) :
    fs1.names = fs.names ∧ fs1.fds = fs.fds ∧ Steps fs fs1 := by
  unfold OpenFileExcl at h
  split at h
  · cases h; exact ⟨rfl, rfl, Steps.steps_record _ _ rfl⟩
  · split at h
    · cases h; exact ⟨rfl, rfl, Steps.steps_record _ _ rfl⟩
    · cases h

theorem OpenFileExcl_ok {fs fs1 : FS} {name : String} {perm : FileMode} {f : File}
    (h : OpenFileExcl fs name perm = (.ok f, fs1)) :
    f.name = name ∧ fs.names name = none ∧
      fs1.names = upd fs.names name (some (.file [] perm)) ∧
      fs1.fds f.fd = some name ∧ Steps fs fs1 := by
  unfold OpenFileExcl at h
  split at h
  · cases h
  · split at h
    · cases h
    · rename_i hn
      cases h
      exact ⟨rfl, hn, rfl, by simp [FS.record, updFd], Steps.steps_record _ _ rfl⟩

/-- What a successful `ioutil.TempFile` has done: it has bound a name that
was free to a new empty file with mode `0600`, open on the returned handle,
and has changed no other name at any moment. -/
theorem tempFileLoop_ok (dir pfx : String) :
    ∀ (n : Nat) (fs : FS) (last : Option GoError) (f : File) (fs1 : FS),
      tempFileLoop dir pfx n fs last = (.ok f, fs1) →
      fs.names f.name = none ∧
        fs1.names = upd fs.names f.name (some (.file [] 384)) ∧
        fs1.fds f.fd = some f.name ∧
        LogExt (fun names => AgreeOff f.name names fs.names) fs fs1 := by
  intro n
  induction n with
  | zero =>
    intro fs last f fs1 h
    unfold tempFileLoop at h
    cases last <;> cases h
  | succ n ih =>
    intro fs last f fs1 h
    unfold tempFileLoop at h
    simp only at h
    cases ho : OpenFileExcl { fs with randPos := fs.randPos + 1 }
        (filepath.Join [dir, pfx ++ fs.rands fs.randPos]) 384 with
    | mk r fs2 =>
    rw [ho] at h
    cases r with
    | error err =>
      simp only at h
      obtain ⟨hn, _, hs⟩ := OpenFileExcl_error ho
      by_cases hex : IsExist err = true
      · simp only [hex, if_true] at h
        obtain ⟨h1, h2, h3, h4⟩ := ih fs2 (some err) f fs1 h
        have hn2 : fs2.names = fs.names := hn
        rw [hn2] at h1 h2 h4
        refine ⟨h1, h2, h3, ?_⟩
        have hs2 : Steps fs fs2 := hs
        exact LogExt.ext_trans (LogExt.ext_of_steps hs2 (AgreeOff.agree_of_eq hn2)) h4
      · simp only [hex, if_false] at h
        cases h
    | ok f2 =>
      simp only [Prod.mk.injEq, Except.ok.injEq] at h
      obtain ⟨hf, hfs⟩ := h
      subst hf hfs
      obtain ⟨hname, hfree, hnames, hfd, hs⟩ := OpenFileExcl_ok ho
      have hs2 : Steps fs fs2 := hs
      rw [hname]
      refine ⟨hfree, hnames, hfd, LogExt.ext_of_steps hs2 ?_⟩
      rw [hnames]
      exact AgreeOff.agree_upd _ _ _

theorem NewNoDeref_ok {fs fs1 : FS} {p : String} {f : File}
    (h : NewNoDeref fs p = (.ok f, fs1)) :
    fs.names f.name = none ∧
      fs1.names = upd fs.names f.name (some (.file [] 384)) ∧
      fs1.fds f.fd = some f.name ∧
      LogExt (fun names => AgreeOff f.name names fs.names) fs fs1 :=
  tempFileLoop_ok _ _ _ fs none f fs1 h

/-- A successful `New` has walked at most fifteen links to `finalFname`,
found a regular file or nothing there, and opened the staging file. -/
theorem NewLoop_success {fs fs1 : FS} (target final : String) (f : File) :
    ∀ (n : Nat) (cur : String), NewLoop fs target n cur = (⟨final, some f, none⟩, fs1) →
      ∃ k, k < n ∧ walk fs k cur = some final ∧ endsWalk fs final = true ∧
        NewNoDeref fs final = (.ok f, fs1) := by
  intro n
  induction n with
  | zero =>
    intro cur h
    simp [NewLoop] at h
  | succ n ih =>
    intro cur h
    have stage : ∀ r : Except GoError File × FS,
        NewNoDeref fs cur = r →
        (match r with
          | (.ok f1, s1) => ((⟨cur, some f1, none⟩ : NewResult), s1)
          | (.error e1, s1) => (⟨cur, none, some e1⟩, s1)) = (⟨final, some f, none⟩, fs1) →
        cur = final ∧ NewNoDeref fs cur = (.ok f, fs1) := by
      intro r hr h1
      rw [hr]
      rcases r with ⟨_ | f1, s1⟩
      · simp at h1
      · simp only [Prod.mk.injEq, NewResult.mk.injEq, Option.some.injEq, and_true] at h1
        obtain ⟨⟨hc, hf⟩, hs⟩ := h1
        subst hc hf hs
        exact ⟨rfl, rfl⟩
    rw [NewLoop] at h
    cases hl : Lstat fs cur with
    | error err =>
      rw [hl] at h
      by_cases hne : IsNotExist err = true
      · simp only [hne, Bool.not_true, Bool.false_eq_true, if_false] at h
        obtain ⟨hc, hs⟩ := stage _ rfl h
        subst hc
        exact ⟨0, Nat.succ_pos n, rfl, by simp [endsWalk, hl, hne], hs⟩
      · simp only [Bool.not_eq_true] at hne
        simp [hne] at h
    | ok info =>
      rw [hl] at h
      by_cases hreg : IsRegular info.mode = true
      · simp only [hreg, if_true] at h
        obtain ⟨hc, hs⟩ := stage _ rfl h
        subst hc
        exact ⟨0, Nat.succ_pos n, rfl, by simp [endsWalk, hl, hreg], hs⟩
      · simp only [hreg, Bool.false_eq_true, if_false] at h
        by_cases hm : info.mode &&& ModeType = ModeSymlink
        · simp only [hm, if_true] at h
          cases hr : Readlink fs cur with
          | error err =>
            rw [hr] at h
            simp at h
          | ok text =>
            rw [hr] at h
            have hh : hop fs cur = some (linkTarget cur text) := hop_of_symlink hl hm hr
            have h2 : NewLoop fs target n (linkTarget cur text) = (⟨final, some f, none⟩, fs1) := by
              unfold linkTarget
              by_cases ha : filepath.IsAbs text = true
              · simpa [ha] using h
              · simpa [ha] using h
            obtain ⟨k, hk, hw, he, hs⟩ := ih _ h2
            refine ⟨k + 1, Nat.succ_lt_succ hk, ?_, he, hs⟩
            simp only [walk, hh, Option.some_bind]
            exact hw
        · simp [hm] at h

theorem Fault_not_enoent (flt : Fault) : (Cause.errno flt.errno == Cause.errno ENOENT) = false := by
  cases flt <;> decide

/-- Where the walk ends there is no symbolic link. -/
theorem endsWalk_not_symlink {fs : FS} {p : String} (h : endsWalk fs p = true) (text : String) :
    fs.names p ≠ some (.symlink text) := by
  intro hn
  unfold endsWalk Lstat at h
  rw [hn] at h
  cases hf : fs.faults.lstat p with
  | some flt =>
    rw [hf] at h
    simp only [IsNotExist, GoError.cause] at h
    rw [Fault_not_enoent] at h
    cases h
  | none =>
    rw [hf] at h
    have h1 : IsRegular (ModeSymlink ||| ModePerm) = true := h
    revert h1
    decide

theorem Readlink_ok {fs : FS} {p text : String} (h : Readlink fs p = .ok text) :
    fs.names p = some (.symlink text) := by
  unfold Readlink at h
  split at h
  · cases h
  · split at h
    · cases h
    · rename_i hn
      cases h
      exact hn
    · cases h

theorem hop_names {fs : FS} {p r : String} (h : hop fs p = some r) :
    ∃ text, fs.names p = some (.symlink text) ∧ r = linkTarget p text := by
  obtain ⟨_, text, _, _, hr, hq⟩ := hop_eq_some h
  exact ⟨text, Readlink_ok hr, hq⟩

/-- A reader sees the same at a path that is bound to the same entry in both
name spaces, when that entry is not a symbolic link. -/
theorem readAt_end {a b : Names} {p : String} (hp : a p = b p)
    (hs : ∀ text, b p ≠ some (.symlink text)) (n : Nat) : readAt a n p = readAt b n p := by
  cases n with
  | zero => rfl
  | succ n =>
    simp only [readAt]
    rw [hp]
    cases hb : b p with
    | none => rfl
    | some node =>
      cases node with
      | file d m => rfl
      | symlink text => exact absurd hb (hs text)
      | other m => rfl

/-- A reader who starts at a path of the walk sees the same in a name space
that differs from the one of `fs` only at a name `s` that is free in `fs`,
if it sees the same at the end of the walk. -/
theorem readAt_walk {fs : FS} {a : Names} {s q : String} (hagree : AgreeOff s a fs.names)
    (hfree : fs.names s = none) (hq : ∀ n, readAt a n q = readAt fs.names n q) :
    ∀ (k : Nat) (p : String), walk fs k p = some q →
      ∀ n, readAt a n p = readAt fs.names n p := by
  intro k
  induction k with
  | zero =>
    intro p h n
    simp only [walk, Option.some.injEq] at h
    subst h
    exact hq n
  | succ k ih =>
    intro p h n
    simp only [walk] at h
    cases hh : hop fs p with
    | none => simp [hh] at h
    | some r =>
      rw [hh, Option.some_bind] at h
      obtain ⟨text, hn, hr⟩ := hop_names hh
      have hps : p ≠ s := by
        intro hps
        rw [hps, hfree] at hn
        cases hn
      cases n with
      | zero => rfl
      | succ n =>
        simp only [readAt]
        rw [hagree p hps, hn]
        simp only
        rw [← hr]
        exact ih r h n

/-- The facts about a successful `New` that the session theorems use. -/
theorem New_success {fs fs1 : FS} {target final : String} {f : File}
    (h : New fs target = (⟨final, some f, none⟩, fs1)) :
    (∃ k, k ≤ 15 ∧ walk fs k target = some final) ∧ endsWalk fs final = true ∧
      fs.names f.name = none ∧
      fs1.names = upd fs.names f.name (some (.file [] 384)) ∧
      fs1.fds f.fd = some f.name ∧
      LogExt (fun names => AgreeOff f.name names fs.names) fs fs1 := by
  obtain ⟨k, hk, hw, he, hs⟩ := NewLoop_success target final f 16 target h
  obtain ⟨h1, h2, h3, h4⟩ := NewNoDeref_ok hs
  exact ⟨⟨k, by omega, hw⟩, he, h1, h2, h3, h4⟩

/-- After a successful `New` whose staging name is not the resolved path, a
reader of the target or of the resolved path sees the same in every name
space that differs from the original one only at the staging name. -/
theorem read_frame {fs fs1 : FS} {target final : String} {f : File}
    (h : New fs target = (⟨final, some f, none⟩, fs1)) (hne : f.name ≠ final)
    {a : Names} (hagree : AgreeOff f.name a fs.names) (n : Nat) :
    readAt a n final = readAt fs.names n final ∧
      readAt a n target = readAt fs.names n target := by
  obtain ⟨⟨k, _, hw⟩, he, hfree, _, _, _⟩ := New_success h
  have hfin : ∀ n, readAt a n final = readAt fs.names n final :=
    readAt_end (hagree final (fun h1 => hne h1.symm)) (endsWalk_not_symlink he)
  exact ⟨hfin n, readAt_walk hagree hfree hfin k target hw n⟩

/-- The staging name differs from the resolved path whenever something
exists at the resolved path. -/
theorem staging_ne_final {fs fs1 : FS} {target final : String} {f : File}
    (h : New fs target = (⟨final, some f, none⟩, fs1))
    (hne : fs.names final = none → f.name ≠ final) : f.name ≠ final := by
  by_cases hn : fs.names final = none
  · exact hne hn
  · intro heq
    obtain ⟨_, _, hfree, _⟩ := New_success h
    rw [heq] at hfree
    exact hn hfree

/-- While the handle stays open on the staging name, writing changes the
name space at that name only and keeps a regular file there. -/
theorem writeAll_inv {f : File} {s : String} (base : Names) :
    ∀ (chunks : List Bytes) (fs : FS), fs.fds f.fd = some s →
      AgreeOff s fs.names base → (∃ d m, fs.names s = some (.file d m)) →
      (writeAll fs f chunks).fds f.fd = some s ∧
        AgreeOff s (writeAll fs f chunks).names base ∧
        (∃ d m, (writeAll fs f chunks).names s = some (.file d m)) ∧
        LogExt (fun names => AgreeOff s names base) fs (writeAll fs f chunks) := by
  intro chunks
  induction chunks with
  | nil =>
    intro fs hfd hag hfile
    exact ⟨hfd, hag, hfile, LogExt.ext_refl _ _⟩
  | cons b bs ih =>
    intro fs hfd hag hfile
    obtain ⟨d, m, hdm⟩ := hfile
    have hfd1 : (f.Write fs b).2.fds f.fd = some s := by rw [Write_fds]; exact hfd
    have hag1 : AgreeOff s (f.Write fs b).2.names base := (Write_agree b hfd).agree_trans hag
    obtain ⟨d1, hd1⟩ := Write_file b hfd hdm
    obtain ⟨h1, h2, h3, h4⟩ := ih (f.Write fs b).2 hfd1 hag1 ⟨d1, m, hd1⟩
    have h5 : LogExt (fun names => AgreeOff s names base) fs (f.Write fs b).2 :=
      LogExt.ext_of_steps (Write_steps fs f b) hag1
    exact ⟨h1, h2, h3, h5.ext_trans h4⟩

/-- An `Abort` changes the name space at the staging name only. -/
theorem Abort_agree (fs : FS) (f : File) : AgreeOff f.name (Abort fs f).names fs.names := by
  unfold Abort
  simp only
  refine (Remove_agree _ _).agree_trans ?_
  exact AgreeOff.agree_of_eq (Close_names fs f)

theorem Write_faults (fs : FS) (f : File) (b : Bytes) : (f.Write fs b).2.faults = fs.faults := by
  unfold File.Write
  split
  · rfl
  · split
    · split <;> rfl
    · rfl

/-- Without write faults the staging file holds all the chunks, in order. -/
theorem writeAll_content {f : File} {s : String} :
    ∀ (chunks : List Bytes) (fs : FS) (d : Bytes) (m : FileMode), fs.fds f.fd = some s →
      fs.names s = some (.file d m) → fs.faults.write f.fd = none →
      (writeAll fs f chunks).names s = some (.file (d ++ chunks.flatten) m) := by
  intro chunks
  induction chunks with
  | nil =>
    intro fs d m _ hn _
    simpa [writeAll] using hn
  | cons b bs ih =>
    intro fs d m hfd hn hw
    have hfd1 : (f.Write fs b).2.fds f.fd = some s := by rw [Write_fds]; exact hfd
    have hw1 : (f.Write fs b).2.faults.write f.fd = none := by rw [Write_faults]; exact hw
    have hn1 : (f.Write fs b).2.names s = some (.file (d ++ b) m) := by
      unfold File.Write
      rw [hfd]
      simp only [hn, hw]
      simp [upd_same]
    have := ih (f.Write fs b).2 (d ++ b) m hfd1 hn1 hw1
    simpa [writeAll, List.append_assoc] using this

/-- Every name space that `Commit` passes through differs from `base` at
the staging name only, or has the complete staging content at the final
name. -/
theorem Commit_log {fs : FS} {finalFname : String} {f : File} {data : Bytes} {perm : FileMode}
    (base : Names) (hfd : fs.fds f.fd = some f.name)
    (hdata : fs.names f.name = some (.file data perm))
    (hag : AgreeOff f.name fs.names base) :
    LogExt (fun names => AgreeOff f.name names base ∨
        ∃ m, names finalFname = some (.file data m)) fs (Commit fs finalFname f).2 := by
  have removeExt : ∀ x : FS, AgreeOff f.name x.names base →
      LogExt (fun names => AgreeOff f.name names base ∨
        ∃ m, names finalFname = some (.file data m)) x (Remove x f.name).2 := fun x hx =>
    LogExt.ext_of_steps (Remove_steps x f.name) (Or.inl ((Remove_agree x f.name).agree_trans hx))
  unfold Commit
  cases hs : f.Sync fs with
  | mk e1 s1 =>
  have hn1 : s1.names = fs.names := by
    have := Sync_names fs f
    rw [hs] at this
    exact this
  have hfd1 : s1.fds = fs.fds := by
    have := Sync_fds fs f
    rw [hs] at this
    exact this
  have hst1 : Steps fs s1 := by
    have := Sync_steps fs f
    rw [hs] at this
    exact this
  have hag1 : AgreeOff f.name s1.names base := (AgreeOff.agree_of_eq hn1).agree_trans hag
  have ext1 : LogExt (fun names => AgreeOff f.name names base ∨
        ∃ m, names finalFname = some (.file data m)) fs s1 := LogExt.ext_of_steps hst1 (Or.inl hag1)
  cases e1 with
  | some err => exact ext1.ext_trans (removeExt s1 hag1)
  | none =>
    simp only
    have hs2 : ∃ perm2, (match Stat s1 finalFname with
        | .ok st => (f.Chmod s1 (st.mode &&& ModePerm)).2
        | .error _ => s1).names f.name = some (.file data perm2) ∧
        AgreeOff f.name (match Stat s1 finalFname with
        | .ok st => (f.Chmod s1 (st.mode &&& ModePerm)).2
        | .error _ => s1).names base ∧
        Steps s1 (match Stat s1 finalFname with
        | .ok st => (f.Chmod s1 (st.mode &&& ModePerm)).2
        | .error _ => s1) := by
      have hd1 : s1.names f.name = some (.file data perm) := by rw [hn1]; exact hdata
      cases Stat s1 finalFname with
      | error e => exact ⟨perm, hd1, hag1, Steps.steps_refl s1⟩
      | ok st =>
        obtain ⟨p2, hp2⟩ := Chmod_data s1 f (st.mode &&& ModePerm) hd1
        have hfd2 : s1.fds f.fd = some f.name := by rw [hfd1]; exact hfd
        exact ⟨p2, hp2, (Chmod_agree _ hfd2).agree_trans hag1, Chmod_steps s1 f _⟩
    generalize (match Stat s1 finalFname with
        | .ok st => (f.Chmod s1 (st.mode &&& ModePerm)).2
        | .error _ => s1) = s2 at hs2
    obtain ⟨perm2, hd2, hag2, hst2⟩ := hs2
    have ext2 := ext1.ext_trans (LogExt.ext_of_steps hst2 (Or.inl hag2))
    cases hc : f.Close s2 with
    | mk e3 s3 =>
    have hn3 : s3.names = s2.names := by
      have := Close_names s2 f
      rw [hc] at this
      exact this
    have hst3 : Steps s2 s3 := by
      have := Close_steps s2 f
      rw [hc] at this
      exact this
    have hag3 : AgreeOff f.name s3.names base := (AgreeOff.agree_of_eq hn3).agree_trans hag2
    have ext3 := ext2.ext_trans (LogExt.ext_of_steps hst3 (Or.inl hag3))
    cases e3 with
    | some err => exact ext3.ext_trans (removeExt s3 hag3)
    | none =>
      simp only
      cases hr : Rename s3 f.name finalFname with
      | mk e4 s4 =>
      have hst4 : Steps s3 s4 := by
        have := Rename_steps s3 f.name finalFname
        rw [hr] at this
        exact this
      cases e4 with
      | some err =>
        have hag4 : AgreeOff f.name s4.names base := (AgreeOff.agree_of_eq (Rename_error hr)).agree_trans hag3
        exact (ext3.ext_trans (LogExt.ext_of_steps hst4 (Or.inl hag4))).ext_trans (removeExt s4 hag4)
      | none =>
        have hd3 : s3.names f.name = some (.file data perm2) := by rw [hn3]; exact hd2
        exact ext3.ext_trans (LogExt.ext_of_steps hst4 (Or.inr ⟨perm2, Rename_ok hd3 hr⟩))

/-! ## `Commit` and `Abort`: what an observer sees -/

/-- C1: for every filesystem state, every final path and every byte sequence
`data` held by the staging file (the file under the name of the handle `f`),
if `Commit finalFname f` returns nil then a read of `finalFname` right
afterwards returns exactly `data`, whatever was or was not at `finalFname`
before. -/
theorem Commit_visible (fs fs1 : FS) (finalFname : String) (f : File) (data : Bytes)
    (perm : FileMode) (hdata : fs.names f.name = some (.file data perm))
    (h : Commit fs finalFname f = (none, fs1)) :
    fs1.read finalFname = some data := by
  unfold Commit at h
  cases hs : f.Sync fs with
  | mk e1 s1 =>
  rw [hs] at h
  cases e1 with
  | some err => cases h
  | none =>
    simp only at h
    have h1 : s1.names f.name = some (.file data perm) := by
      have := Sync_names fs f
      rw [hs] at this
      simp only at this
      rw [this]; exact hdata
    obtain ⟨perm2, h2⟩ : ∃ perm2, (match Stat s1 finalFname with
        | .ok st => (f.Chmod s1 (st.mode &&& ModePerm)).2
        | .error _ => s1).names f.name = some (.file data perm2) := by
      cases Stat s1 finalFname with
      | error e => exact ⟨perm, h1⟩
      | ok st => exact Chmod_data s1 f _ h1
    generalize (match Stat s1 finalFname with
        | .ok st => (f.Chmod s1 (st.mode &&& ModePerm)).2
        | .error _ => s1) = s2 at h h2
    cases hc : f.Close s2 with
    | mk e3 s3 =>
    rw [hc] at h
    cases e3 with
    | some err => cases h
    | none =>
      simp only at h
      have h3 : s3.names f.name = some (.file data perm2) := by
        have := Close_names s2 f
        rw [hc] at this
        simp only at this
        rw [this]; exact h2
      cases hr : Rename s3 f.name finalFname with
      | mk e4 s4 =>
      rw [hr] at h
      cases e4 with
      | some err => cases h
      | none =>
        simp only [Prod.mk.injEq, true_and] at h
        subst h
        exact readAt_file _ (Rename_ok h3 hr)

/-- C1 at `TestOverwrite`: the file `overwrite` holds `original`, the staging
file holds `testing`, and after `Commit` a read of `overwrite` gives `testing`. -/
theorem Commit_visible_witness :
    fsOverwriteStaged.names staging.name =
      some (.file [116, 101, 115, 116, 105, 110, 103] 384) ∧
    fsOverwriteStaged.read "/tmp/d/overwrite" =
      some [111, 114, 105, 103, 105, 110, 97, 108] ∧
    (Commit fsOverwriteStaged "/tmp/d/overwrite" staging).1 = none ∧
    (Commit fsOverwriteStaged "/tmp/d/overwrite" staging).2.read "/tmp/d/overwrite" =
      some [116, 101, 115, 116, 105, 110, 103] :=
  ⟨by decide, by decide, by decide,
    Commit_visible fsOverwriteStaged _ "/tmp/d/overwrite" staging
      [116, 101, 115, 116, 105, 110, 103] 384 (by decide) rfl⟩

/-- C2 fails as stated: the target `/tmp/d/.new.000000007` does not exist,
`ioutil.TempFile` draws the very same name for the staging file, and a read
of the target (which is also the resolved path) finds an empty file after
`New` and the bytes written so far after a write, where there was nothing. -/
theorem session_frame_counterexample :
    (New fsBare collide).1 = ⟨collide, some staging, none⟩ ∧
    fsBare.read collide = none ∧
    (New fsBare collide).2.read collide = some [] ∧
    (staging.Write (New fsBare collide).2 [1, 2]).2.read collide = some [1, 2] :=
  ⟨by decide, by decide, by decide, by decide⟩

theorem OpenFileExcl_faults (fs : FS) (name : String) (perm : FileMode) :
    (OpenFileExcl fs name perm).2.faults = fs.faults := by
  unfold OpenFileExcl
  split
  · rfl
  · split <;> rfl

theorem tempFileLoop_faults (dir pfx : String) :
    ∀ (n : Nat) (fs : FS) (last : Option GoError),
      (tempFileLoop dir pfx n fs last).2.faults = fs.faults := by
  intro n
  induction n with
  | zero =>
    intro fs last
    unfold tempFileLoop
    cases last <;> rfl
  | succ n ih =>
    intro fs last
    unfold tempFileLoop
    simp only
    have hf := OpenFileExcl_faults { fs with randPos := fs.randPos + 1 }
      (filepath.Join [dir, pfx ++ fs.rands fs.randPos]) 384
    cases ho : OpenFileExcl { fs with randPos := fs.randPos + 1 }
        (filepath.Join [dir, pfx ++ fs.rands fs.randPos]) 384 with
    | mk r fs2 =>
    rw [ho] at hf
    cases r with
    | error err =>
      simp only
      by_cases hex : IsExist err = true
      · simp only [hex, if_true]
        rw [ih fs2 (some err)]
        exact hf
      · simp only [hex, if_false]
        exact hf
    | ok f2 => exact hf

theorem New_faults {fs fs1 : FS} {target final : String} {f : File}
    (h : New fs target = (⟨final, some f, none⟩, fs1)) : fs1.faults = fs.faults := by
  obtain ⟨k, _, _, _, hs⟩ := NewLoop_success target final f 16 target h
  have := tempFileLoop_faults (filepath.Dir final) ".new." 10000 fs none
  unfold NewNoDeref TempFile at hs
  rw [hs] at this
  exact this

/-- C3 fails as stated: the target `/tmp/d/.new.000000007` does not exist and
`ioutil.TempFile` draws the same name for the staging file.  The session
`New`, write `[1, 2]`, write `[3]`, `Commit` succeeds, and the states it
passes through show at the resolved path first an empty file and then the
partial write `[1, 2]`, neither the absence from before nor the complete
new content `[1, 2, 3]`. -/
theorem Commit_atomic_counterexample :
    (New fsBare collide).1 = ⟨collide, some staging, none⟩ ∧
    fsBare.read collide = none ∧
    (Commit fsCollideStaged collide staging).1 = none ∧
    (Commit fsCollideStaged collide staging).2.read collide = some [1, 2, 3] ∧
    (Commit fsCollideStaged collide staging).2.log.map
        (fun st => readAt st.names MAXSYMLINKS collide) =
      [some [], some [1, 2], some [1, 2, 3], some [1, 2, 3], some [1, 2, 3], some [1, 2, 3],
        some [1, 2, 3]] :=
  ⟨by decide, by decide, by decide, by decide, by decide⟩

/-! ## `New`: errors -/

/-- The loop at a path whose `lstat` fails with an error other than
not-exist: that error is returned. -/
theorem NewLoop_lstat_error {fs : FS} (target : String) (n : Nat) {p : String} {e : GoError}
    (hl : Lstat fs p = .error e) (hne : IsNotExist e = false) :
    NewLoop fs target (n + 1) p = (⟨p, none, some e⟩, fs) := by
  rw [NewLoop, hl]
  simp [hne]

/-- The loop at a symbolic link whose link text cannot be read: the error
of `readlink` is returned. -/
theorem NewLoop_readlink_error {fs : FS} (target : String) (n : Nat) {p : String}
    {info : FileInfo} {e : GoError} (hl : Lstat fs p = .ok info)
    (hm : info.mode &&& ModeType = ModeSymlink) (hr : Readlink fs p = .error e) :
    NewLoop fs target (n + 1) p = (⟨p, none, some e⟩, fs) := by
  rw [NewLoop, hl]
  simp [isRegular_of_symlink hm, hm, hr]

/-- C11: when `lstat` of the current path of the walk fails with an error
other than not-exist, or `readlink` of a symbolic link there fails, `New`
stops at once: it returns exactly that error value, a nil handle and the
current path, and the filesystem is as before the call. -/
theorem New_os_error (fs : FS) (target cur : String) (k : Nat) (e : GoError)
    (hk : k ≤ 15) (hwalk : walk fs k target = some cur)
    (herr : (Lstat fs cur = .error e ∧ IsNotExist e = false) ∨
      (∃ info, Lstat fs cur = .ok info ∧ info.mode &&& ModeType = ModeSymlink ∧
        Readlink fs cur = .error e)) :
    New fs target = (⟨cur, none, some e⟩, fs) := by
  rw [New_walk (by omega : k ≤ 16) hwalk]
  obtain ⟨m, hm⟩ : ∃ m, 16 - k = m + 1 := ⟨15 - k, by omega⟩
  rw [hm]
  rcases herr with ⟨hl, hne⟩ | ⟨info, hl, hmode, hr⟩
  · exact NewLoop_lstat_error target m hl hne
  · exact NewLoop_readlink_error target m hl hmode hr


/-- C11 at a link `a -> b` with `lstat` of `b` refused, and at a link whose
text cannot be read. -/
theorem New_os_error_witness :
    (walk fsDenied 1 "/tmp/d/a" = some "/tmp/d/b" ∧
      New fsDenied "/tmp/d/a" =
        (⟨"/tmp/d/b", none, some (.pathError "lstat" "/tmp/d/b" (.errno 13))⟩, fsDenied)) ∧
    New fsUnreadable "/tmp/d/a" =
      (⟨"/tmp/d/a", none, some (.pathError "readlink" "/tmp/d/a" (.errno 5))⟩, fsUnreadable) :=
  ⟨⟨by decide,
      New_os_error fsDenied "/tmp/d/a" "/tmp/d/b" 1 _ (by decide) (by decide)
        (Or.inl ⟨rfl, by decide⟩)⟩,
    New_os_error fsUnreadable "/tmp/d/a" "/tmp/d/a" 0 _ (by decide) (by decide)
      (Or.inr ⟨⟨ModeSymlink ||| ModePerm⟩, rfl, by decide, rfl⟩)⟩

/-- A failed `ioutil.TempFile` has bound no name and opened no descriptor. -/
theorem tempFileLoop_error (dir pfx : String) :
    ∀ (n : Nat) (fs : FS) (last : Option GoError) (e : GoError) (fs1 : FS),
      tempFileLoop dir pfx n fs last = (.error e, fs1) →
      fs1.names = fs.names ∧ fs1.fds = fs.fds := by
  intro n
  induction n with
  | zero =>
    intro fs last e fs1 h
    unfold tempFileLoop at h
    cases last <;> cases h <;> exact ⟨rfl, rfl⟩
  | succ n ih =>
    intro fs last e fs1 h
    unfold tempFileLoop at h
    simp only at h
    cases ho : OpenFileExcl { fs with randPos := fs.randPos + 1 }
        (filepath.Join [dir, pfx ++ fs.rands fs.randPos]) 384 with
    | mk r fs2 =>
    rw [ho] at h
    cases r with
    | error err =>
      simp only at h
      obtain ⟨hn, hf, _⟩ := OpenFileExcl_error ho
      by_cases hex : IsExist err = true
      · simp only [hex, if_true] at h
        obtain ⟨h1, h2⟩ := ih fs2 (some err) e fs1 h
        exact ⟨h1.trans hn, h2.trans hf⟩
      · simp only [hex, if_false] at h
        cases h
        exact ⟨hn, hf⟩
    | ok f2 => simp at h

/-- Whatever the loop returns, it returns a handle exactly when it returns
no error, and when it returns an error the name space and the open
descriptors are as before. -/
theorem NewLoop_error_frame {fs : FS} (target : String) :
    ∀ (n : Nat) (cur : String), (NewLoop fs target n cur).1.err ≠ none →
      (NewLoop fs target n cur).1.f = none ∧
        (NewLoop fs target n cur).2.names = fs.names ∧
        (NewLoop fs target n cur).2.fds = fs.fds := by
  intro n
  induction n with
  | zero =>
    intro cur _
    exact ⟨rfl, rfl, rfl⟩
  | succ n ih =>
    intro cur h
    have stage : (match NewNoDeref fs cur with
          | (.ok f1, s1) => ((⟨cur, some f1, none⟩ : NewResult), s1)
          | (.error e1, s1) => (⟨cur, none, some e1⟩, s1)).1.err ≠ none →
        (match NewNoDeref fs cur with
          | (.ok f1, s1) => ((⟨cur, some f1, none⟩ : NewResult), s1)
          | (.error e1, s1) => (⟨cur, none, some e1⟩, s1)).1.f = none ∧
        (match NewNoDeref fs cur with
          | (.ok f1, s1) => ((⟨cur, some f1, none⟩ : NewResult), s1)
          | (.error e1, s1) => (⟨cur, none, some e1⟩, s1)).2.names = fs.names ∧
        (match NewNoDeref fs cur with
          | (.ok f1, s1) => ((⟨cur, some f1, none⟩ : NewResult), s1)
          | (.error e1, s1) => (⟨cur, none, some e1⟩, s1)).2.fds = fs.fds := by
      cases hs : NewNoDeref fs cur with
      | mk r s1 =>
      cases r with
      | error e1 =>
        intro _
        obtain ⟨h1, h2⟩ := tempFileLoop_error _ _ _ fs none e1 s1 hs
        exact ⟨rfl, h1, h2⟩
      | ok f1 =>
        intro h1
        exact absurd rfl h1
    rw [NewLoop] at h ⊢
    cases hl : Lstat fs cur with
    | error err =>
      rw [hl] at h
      simp only at h ⊢
      by_cases hne : IsNotExist err = true
      · simp only [hne, Bool.not_true, Bool.false_eq_true, if_false] at h ⊢
        exact stage h
      · simp only [Bool.not_eq_true] at hne
        simp [hne]
    | ok info =>
      rw [hl] at h
      simp only at h ⊢
      by_cases hreg : IsRegular info.mode = true
      · simp only [hreg, if_true] at h ⊢
        exact stage h
      · simp only [hreg, Bool.false_eq_true, if_false] at h ⊢
        by_cases hm : info.mode &&& ModeType = ModeSymlink
        · simp only [hm, if_true] at h ⊢
          cases hr : Readlink fs cur with
          | error err => exact ⟨rfl, rfl, rfl⟩
          | ok text =>
            rw [hr] at h
            simp only at h ⊢
            by_cases ha : filepath.IsAbs text = true
            · simp only [ha, if_true] at h ⊢
              exact ih _ h
            · simp only [ha, Bool.false_eq_true, if_false] at h ⊢
              exact ih _ h
        · simp [hm]

/-- C12: whenever `New` returns a non-nil error (failed `lstat`, failed
`readlink`, not a regular file, too many symlinks, or failed creation of the
staging file), the returned handle is nil and no staging file has been
created: the name space (the set of directory entries) and the open
descriptors are identical to those before the call. -/
theorem New_error_no_staging (fs : FS) (target : String)
    (h : (New fs target).1.err ≠ none) :
    (New fs target).1.f = none ∧ (New fs target).2.names = fs.names ∧
      (New fs target).2.fds = fs.fds :=
  NewLoop_error_frame target MaxSymlinkDeref target h

/-- C12 where the staging file cannot be created (read-only device), and
at `TestSymlinkDir`. -/
theorem New_error_no_staging_witness :
    (New fsReadOnly "/tmp/d/overwrite").1.err =
      some (.pathError "open" "/tmp/d/.new.000000007" (.errno 30)) ∧
    ((New fsReadOnly "/tmp/d/overwrite").1.f = none ∧
      (New fsReadOnly "/tmp/d/overwrite").2.names = fsReadOnly.names ∧
      (New fsReadOnly "/tmp/d/overwrite").2.fds = fsReadOnly.fds) ∧
    ((New fsSymlinkDir "/tmp/d/sym_dir").1.f = none ∧
      (New fsSymlinkDir "/tmp/d/sym_dir").2.names = fsSymlinkDir.names ∧
      (New fsSymlinkDir "/tmp/d/sym_dir").2.fds = fsSymlinkDir.fds) :=
  ⟨by decide, New_error_no_staging fsReadOnly "/tmp/d/overwrite" (by decide),
    New_error_no_staging fsSymlinkDir "/tmp/d/sym_dir" (by decide)⟩

/-- The body of `Commit`, with the permission-copy step named. -/
theorem Commit_eq (fs : FS) (finalFname : String) (f : File) :
    Commit fs finalFname f =
      match f.Sync fs with
      | (some err, fs1) => (some err, (Remove fs1 f.name).2)
      | (none, fs1) =>
        match f.Close (permCopy fs1 finalFname f) with
        | (some err, fs3) => (some err, (Remove fs3 f.name).2)
        | (none, fs3) =>
          match Rename fs3 f.name finalFname with
          | (some err, fs4) => (some err, (Remove fs4 f.name).2)
          | (none, fs4) => (none, fs4) := rfl

theorem Sync_faults (fs : FS) (f : File) : (f.Sync fs).2.faults = fs.faults := by
  unfold File.Sync
  split
  · rfl
  · split <;> rfl

theorem Chmod_faults (fs : FS) (f : File) (mode : FileMode) :
    (f.Chmod fs mode).2.faults = fs.faults := by
  unfold File.Chmod
  split
  · rfl
  · split
    · rfl
    · split <;> rfl

theorem Close_faults (fs : FS) (f : File) : (f.Close fs).2.faults = fs.faults := by
  unfold File.Close
  split
  · rfl
  · split <;> rfl

/-- After `Close` the descriptor is closed, whatever `Close` returned. -/
theorem Close_fd (fs : FS) (f : File) : (f.Close fs).2.fds f.fd = none := by
  unfold File.Close
  split
  · rename_i h
    exact h
  · split <;> simp [FS.record, updFd]

/-- What `Close` returns depends on the descriptor table and the faults
only. -/
theorem Close_result_congr {fs fs1 : FS} (f : File) (hfds : fs1.fds = fs.fds)
    (hfault : fs1.faults.close = fs.faults.close) : (f.Close fs1).1 = (f.Close fs).1 := by
  unfold File.Close
  rw [hfds, hfault]
  split
  · rfl
  · split <;> rfl

/-- What `Sync` returns depends on the descriptor table and its fault only. -/
theorem Sync_result_congr {fs fs1 : FS} (f : File) (hfds : fs1.fds = fs.fds)
    (hfault : fs1.faults.sync = fs.faults.sync) : (f.Sync fs1).1 = (f.Sync fs).1 := by
  unfold File.Sync
  rw [hfds, hfault]
  split
  · rfl
  · split <;> rfl

theorem permCopy_fds (fs : FS) (finalFname : String) (f : File) :
    (permCopy fs finalFname f).fds = fs.fds := by
  unfold permCopy
  split
  · exact Chmod_fds fs f _
  · rfl

theorem permCopy_faults (fs : FS) (finalFname : String) (f : File) :
    (permCopy fs finalFname f).faults = fs.faults := by
  unfold permCopy
  split
  · exact Chmod_faults fs f _
  · rfl

theorem permCopy_steps (fs : FS) (finalFname : String) (f : File) :
    Steps fs (permCopy fs finalFname f) := by
  unfold permCopy
  split
  · exact Chmod_steps fs f _
  · exact Steps.steps_refl fs

theorem permCopy_agree {fs : FS} {f : File} {s : String} (finalFname : String)
    (hfd : fs.fds f.fd = some s) : AgreeOff s (permCopy fs finalFname f).names fs.names := by
  unfold permCopy
  split
  · exact Chmod_agree _ hfd
  · exact AgreeOff.agree_refl _ _

theorem permCopy_data (fs : FS) (finalFname : String) (f : File) {q : String} {data : Bytes}
    {perm : FileMode} (h : fs.names q = some (.file data perm)) :
    ∃ perm1, (permCopy fs finalFname f).names q = some (.file data perm1) := by
  unfold permCopy
  split
  · exact Chmod_data fs f _ h
  · exact ⟨perm, h⟩

/-- A successful `Chmod` of the handle open on `s` sets the permission bits
of the file `s`. -/
theorem Chmod_sets {fs : FS} {f : File} {s : String} {data : Bytes} {perm : FileMode}
    (mode : FileMode) (hfd : fs.fds f.fd = some s) (hfault : fs.faults.chmod f.fd = none)
    (hdata : fs.names s = some (.file data perm)) :
    (f.Chmod fs mode).2.names s = some (.file data mode) := by
  unfold File.Chmod
  rw [hfd]
  simp only [hfault, hdata]
  simp [upd_same]

theorem isDir_file (d : Bytes) (m : FileMode) : (Node.file d m).isDir = false := by
  have h : (m &&& ModePerm) &&& ModeDir = 0 := by
    rw [Nat.land_assoc]
    have : ModePerm &&& ModeDir = 0 := by decide
    rw [this]
    simp
  simp [Node.isDir, Node.mode, h]

theorem SameKind.kind_refl (a : Names) : SameKind a a := fun _ => Or.inl rfl

theorem SameKind.kind_of_eq {a b : Names} (h : a = b) : SameKind a b := by
  subst h
  exact SameKind.kind_refl a

theorem SameKind.kind_trans {a b c : Names} (h1 : SameKind a b) (h2 : SameKind b c) :
    SameKind a c := by
  intro q
  rcases h1 q with h | ⟨d, m1, m2, ha, hb⟩
  · rw [h]
    exact h2 q
  · rcases h2 q with h | ⟨d', m1', m2', hb', hc⟩
    · exact Or.inr ⟨d, m1, m2, ha, by rw [← h]; exact hb⟩
    · rw [hb] at hb'
      cases hb'
      exact Or.inr ⟨d, m1, m2', ha, hc⟩

/-- Names bound in one are bound in the other, and to a directory in one
exactly when in the other. -/
theorem SameKind.kind_isDir {a b : Names} (h : SameKind a b) (q : String) :
    (a q).isSome = (b q).isSome ∧ (a q).map Node.isDir = (b q).map Node.isDir := by
  rcases h q with h | ⟨d, m1, m2, ha, hb⟩
  · rw [h]
    exact ⟨rfl, rfl⟩
  · rw [ha, hb]
    simp [isDir_file]

theorem Chmod_sameKind (fs : FS) (f : File) (mode : FileMode) :
    SameKind (f.Chmod fs mode).2.names fs.names := by
  unfold File.Chmod
  split
  · exact SameKind.kind_refl _
  · rename_i nm _
    split
    · exact SameKind.kind_refl _
    · split
      · rename_i d p hn
        intro q
        by_cases hq : q = nm
        · subst hq
          exact Or.inr ⟨d, mode, p, by simp [upd_same], hn⟩
        · exact Or.inl (by simp [upd_other _ _ hq])
      · exact SameKind.kind_refl _

theorem permCopy_sameKind (fs : FS) (finalFname : String) (f : File) :
    SameKind (permCopy fs finalFname f).names fs.names := by
  unfold permCopy
  split
  · exact Chmod_sameKind fs f _
  · exact SameKind.kind_refl _



theorem Rename_result (fs : FS) (a b : String) :
    (Rename fs a b).1 =
      renameError (fs.faults.rename a b) a b ((fs.names a).map Node.isDir)
        ((fs.names b).map Node.isDir) := by
  unfold Rename renameError
  cases fs.faults.rename a b with
  | some flt => rfl
  | none =>
    cases fs.names a with
    | none => rfl
    | some node =>
      by_cases hab : a = b
      · simp [hab]
      · cases fs.names b with
        | none => simp [hab]
        | some target =>
          simp only [hab, if_false, Option.map_some']
          split
          · rfl
          · split <;> rfl

/-- What `Rename` returns depends on its fault and on which names are bound
to which kind of entry, not on permission bits. -/
theorem Rename_result_congr {fs fs1 : FS} (a b : String)
    (hfault : fs1.faults.rename = fs.faults.rename) (hk : SameKind fs1.names fs.names) :
    (Rename fs1 a b).1 = (Rename fs a b).1 := by
  rw [Rename_result, Rename_result, hfault, (hk.kind_isDir a).2, (hk.kind_isDir b).2]

/-- The error that `Commit` returns is the error of `Sync`, else of `Close`,
else of `Rename`, each as it would come out in the state before `Commit`. -/
theorem Commit_result (fs : FS) (finalFname : String) (f : File) :
    (Commit fs finalFname f).1 = hardSteps fs finalFname f := by
  rw [Commit_eq]
  unfold hardSteps
  cases hs : f.Sync fs with
  | mk e1 s1 =>
  have hn1 : s1.names = fs.names := by
    have := Sync_names fs f
    rw [hs] at this
    exact this
  have hfd1 : s1.fds = fs.fds := by
    have := Sync_fds fs f
    rw [hs] at this
    exact this
  have hft1 : s1.faults = fs.faults := by
    have := Sync_faults fs f
    rw [hs] at this
    exact this
  cases e1 with
  | some err => rfl
  | none =>
    simp only
    have hclose : (f.Close (permCopy s1 finalFname f)).1 = (f.Close fs).1 :=
      Close_result_congr f ((permCopy_fds s1 finalFname f).trans hfd1)
        (by rw [permCopy_faults, hft1])
    cases hc : f.Close (permCopy s1 finalFname f) with
    | mk e3 s3 =>
    rw [hc] at hclose
    simp only at hclose
    rw [← hclose]
    cases e3 with
    | some err => rfl
    | none =>
      simp only
      have hn3 : s3.names = (permCopy s1 finalFname f).names := by
        have := Close_names (permCopy s1 finalFname f) f
        rw [hc] at this
        exact this
      have hft3 : s3.faults = fs.faults := by
        have := Close_faults (permCopy s1 finalFname f) f
        rw [hc] at this
        rw [this, permCopy_faults, hft1]
      have hk : SameKind s3.names fs.names :=
        (SameKind.kind_of_eq hn3).kind_trans
          ((permCopy_sameKind s1 finalFname f).kind_trans (SameKind.kind_of_eq hn1))
      have hren : (Rename s3 f.name finalFname).1 = (Rename fs f.name finalFname).1 :=
        Rename_result_congr _ _ (by rw [hft3]) hk
      cases hr : Rename s3 f.name finalFname with
      | mk e4 s4 =>
      rw [hr] at hren
      simp only at hren
      rw [← hren]
      cases e4 <;> rfl

/-- The result of the three hard steps does not look at the faults of
`lstat`, `readlink` and `chmod`. -/
theorem hardSteps_congr {fs fs1 : FS} (finalFname : String) (f : File)
    (hnames : fs1.names = fs.names) (hfds : fs1.fds = fs.fds)
    (hsync : fs1.faults.sync = fs.faults.sync) (hclose : fs1.faults.close = fs.faults.close)
    (hrename : fs1.faults.rename = fs.faults.rename) :
    hardSteps fs1 finalFname f = hardSteps fs finalFname f := by
  unfold hardSteps
  rw [Sync_result_congr f hfds hsync, Close_result_congr f hfds hclose,
    Rename_result_congr _ _ hrename (SameKind.kind_of_eq hnames)]

/-- C15: a failure of the permission-copy step never fails `Commit`.  What
`Commit` returns is the error of `Sync`, else of `Close`, else the result of
`Rename`; and two states that differ only in whether `stat` of the resolved
path (`lstat`, `readlink`) or `chmod` of the staging file fail give the same
result. -/
theorem Commit_ignores_permission_copy (fs : FS) (finalFname : String) (f : File) :
    (Commit fs finalFname f).1 = hardSteps fs finalFname f ∧
    ∀ fs1 : FS, fs1.names = fs.names → fs1.fds = fs.fds →
      fs1.faults.sync = fs.faults.sync → fs1.faults.close = fs.faults.close →
      fs1.faults.rename = fs.faults.rename →
      (Commit fs1 finalFname f).1 = (Commit fs finalFname f).1 := by
  refine ⟨Commit_result fs finalFname f, ?_⟩
  intro fs1 hn hfd hs hc hr
  rw [Commit_result, Commit_result]
  exact hardSteps_congr finalFname f hn hfd hs hc hr

/-- C15 at `TestOverwrite`: with `stat` of the final name refused and `chmod`
failing, `Commit` returns nil as it does without those failures, and the
final name reads `testing`. -/
theorem Commit_ignores_permission_copy_witness :
    Stat fsOverwriteNoCopy "/tmp/d/overwrite" =
      .error (.pathError "stat" "/tmp/d/overwrite" (.errno 13)) ∧
    (staging.Chmod fsOverwriteNoCopy 420).1 =
      some (.pathError "chmod" "/tmp/d/.new.000000007" (.errno 1)) ∧
    (Commit fsOverwriteNoCopy "/tmp/d/overwrite" staging).1 =
      (Commit fsOverwriteStaged "/tmp/d/overwrite" staging).1 ∧
    (Commit fsOverwriteNoCopy "/tmp/d/overwrite" staging).1 = none ∧
    (Commit fsOverwriteNoCopy "/tmp/d/overwrite" staging).2.read "/tmp/d/overwrite" =
      some [116, 101, 115, 116, 105, 110, 103] :=
  ⟨rfl, by decide,
    (Commit_ignores_permission_copy fsOverwriteStaged "/tmp/d/overwrite" staging).2
      fsOverwriteNoCopy rfl rfl rfl rfl rfl,
    by decide, by decide⟩

theorem resolve_congr {fs fs1 : FS} (hn : fs1.names = fs.names)
    (hl : fs1.faults.lstat = fs.faults.lstat) (hr : fs1.faults.readlink = fs.faults.readlink) :
    ∀ (n : Nat) (p : String), resolve fs1 n p = resolve fs n p := by
  intro n
  induction n with
  | zero => intro p; rfl
  | succ n ih =>
    intro p
    simp only [resolve, hn, hl, hr, ih]

theorem Stat_congr {fs fs1 : FS} (hn : fs1.names = fs.names) (hf : fs1.faults = fs.faults)
    (p : String) : Stat fs1 p = Stat fs p := by
  unfold Stat
  rw [resolve_congr hn (by rw [hf]) (by rw [hf])]

/-- The mode that `Stat` reports for a regular file. -/
theorem Stat_file {fs : FS} {p : String} {d : Bytes} {m : FileMode} {st : FileInfo}
    (hp : fs.names p = some (.file d m)) (h : Stat fs p = .ok st) :
    st.mode = m &&& ModePerm := by
  unfold Stat MAXSYMLINKS at h
  rw [resolve] at h
  cases hf : fs.faults.lstat p with
  | some flt => simp [hf] at h
  | none =>
    simp only [hf, hp] at h
    cases h
    rfl

/-- What a successful `Rename` does to the name space. -/
theorem Rename_ok_names {fs fs1 : FS} {a b : String} {node : Node}
    (hold : fs.names a = some node) (h : Rename fs a b = (none, fs1)) :
    (a = b ∧ fs1.names = fs.names) ∨
      (a ≠ b ∧ fs1.names = upd (upd fs.names b (some node)) a none) := by
  unfold Rename at h
  split at h
  · cases h
  · rw [hold] at h
    simp only at h
    by_cases heq : a = b
    · simp only [heq, if_true, Prod.mk.injEq, true_and] at h
      subst h
      exact Or.inl ⟨heq, rfl⟩
    · simp only [heq, if_false] at h
      refine Or.inr ⟨heq, ?_⟩
      split at h
      · split at h
        · cases h
        · split at h
          · cases h
          · simp only [Prod.mk.injEq, true_and] at h
            subst h
            rfl
      · simp only [Prod.mk.injEq, true_and] at h
        subst h
        rfl

/-- What a successful `Commit` has done, for a handle open on the staging
file: the final name is bound to a regular file with the staging content,
the staging name is gone, no other name has changed, the descriptor is
closed; and the permission bits of the new file are those reported by `Stat`
of the final name when that and the `Chmod` worked. -/
theorem Commit_ok {fs fs1 : FS} {finalFname : String} {f : File} {data : Bytes}
    {perm : FileMode} (hfd : fs.fds f.fd = some f.name)
    (hdata : fs.names f.name = some (.file data perm))
    (h : Commit fs finalFname f = (none, fs1)) :
    ∃ m, fs1.names finalFname = some (.file data m) ∧
      (f.name ≠ finalFname → fs1.names f.name = none) ∧
      (∀ q, q ≠ f.name → q ≠ finalFname → fs1.names q = fs.names q) ∧
      fs1.fds f.fd = none ∧
      (∀ st, Stat fs finalFname = .ok st → fs.faults.chmod f.fd = none →
        m = st.mode &&& ModePerm) := by
  rw [Commit_eq] at h
  cases hs : f.Sync fs with
  | mk e1 s1 =>
  rw [hs] at h
  have hn1 : s1.names = fs.names := by
    have := Sync_names fs f
    rw [hs] at this
    exact this
  have hfd1 : s1.fds = fs.fds := by
    have := Sync_fds fs f
    rw [hs] at this
    exact this
  have hft1 : s1.faults = fs.faults := by
    have := Sync_faults fs f
    rw [hs] at this
    exact this
  cases e1 with
  | some err => cases h
  | none =>
    simp only at h
    have hfd1' : s1.fds f.fd = some f.name := by rw [hfd1]; exact hfd
    have hd1 : s1.names f.name = some (.file data perm) := by rw [hn1]; exact hdata
    obtain ⟨m, hm⟩ := permCopy_data s1 finalFname f hd1
    have hag2 : AgreeOff f.name (permCopy s1 finalFname f).names fs.names :=
      (permCopy_agree finalFname hfd1').agree_trans (AgreeOff.agree_of_eq hn1)
    have hperm : ∀ st, Stat fs finalFname = .ok st → fs.faults.chmod f.fd = none →
        m = st.mode &&& ModePerm := by
      intro st hst hch
      have hst1 : Stat s1 finalFname = .ok st := by rw [Stat_congr hn1 hft1]; exact hst
      have hset := Chmod_sets (st.mode &&& ModePerm) hfd1' (by rw [hft1]; exact hch) hd1
      unfold permCopy at hm
      rw [hst1] at hm
      simp only at hm
      rw [hset] at hm
      cases hm
      rfl
    cases hc : f.Close (permCopy s1 finalFname f) with
    | mk e3 s3 =>
    rw [hc] at h
    have hn3 : s3.names = (permCopy s1 finalFname f).names := by
      have := Close_names (permCopy s1 finalFname f) f
      rw [hc] at this
      exact this
    have hfd3 : s3.fds f.fd = none := by
      have := Close_fd (permCopy s1 finalFname f) f
      rw [hc] at this
      exact this
    cases e3 with
    | some err => cases h
    | none =>
      simp only at h
      cases hr : Rename s3 f.name finalFname with
      | mk e4 s4 =>
      rw [hr] at h
      cases e4 with
      | some err => cases h
      | none =>
        simp only [Prod.mk.injEq, true_and] at h
        subst h
        have hd3 : s3.names f.name = some (.file data m) := by rw [hn3]; exact hm
        have hfd4 : s4.fds f.fd = none := by
          have hfds : s4.fds = s3.fds := by
            unfold Rename at hr
            split at hr
            · cases hr
            · split at hr
              · cases hr
              · split at hr
                · cases hr; rfl
                · split at hr
                  · split at hr
                    · cases hr
                    · split at hr
                      · cases hr
                      · cases hr; rfl
                  · cases hr; rfl
          rw [hfds]
          exact hfd3
        rcases Rename_ok_names hd3 hr with ⟨heq, hnames⟩ | ⟨hne, hnames⟩
        · refine ⟨m, ?_, fun hx => absurd heq hx, ?_, hfd4, hperm⟩
          · rw [hnames, ← heq]
            exact hd3
          · intro q hq _
            rw [hnames, hn3]
            exact hag2 q hq
        · refine ⟨m, ?_, ?_, ?_, hfd4, hperm⟩
          · rw [hnames]
            simp [upd_other _ _ (fun hx => hne hx.symm), upd_same]
          · intro _
            rw [hnames]
            exact upd_same _ _ _
          · intro q hq hqf
            rw [hnames, upd_other _ _ hq, upd_other _ _ hqf, hn3]
            exact hag2 q hq

/-! ## `Commit`: permission bits -/

theorem land_perm_idem (m : FileMode) : m &&& ModePerm &&& ModePerm = m &&& ModePerm := by
  have h511 : ModePerm &&& ModePerm = ModePerm := by decide
  rw [Nat.land_assoc, h511]

/-- C14, against the claim as stated: on the `TestOverwrite` filesystem with
a `chmod` that is refused, `Commit` succeeds and the file at the final name
has the mode `0600` of the staging file, not the mode `0644` of the file it
replaced. -/
theorem Commit_mode_counterexample :
    fsOverwriteNoChmod.names "/tmp/d/overwrite" =
        some (.file [111, 114, 105, 103, 105, 110, 97, 108] 420) ∧
      (Commit fsOverwriteNoChmod "/tmp/d/overwrite" staging).1 = none ∧
      (Commit fsOverwriteNoChmod "/tmp/d/overwrite" staging).2.names "/tmp/d/overwrite" =
        some (.file [116, 101, 115, 116, 105, 110, 103] 384) ∧
      (384 : FileMode) &&& ModePerm ≠ 420 &&& ModePerm := by
  refine ⟨rfl, rfl, rfl, by decide⟩

/-- C14, amended: if a regular file exists at the final name before `Commit`,
the `Stat` of the final name succeeds and the `chmod` of the staging
descriptor is not refused, then after a successful `Commit` the file at the
final name holds the staging content and has the permission bits
(`mode & 0777`) of the file it replaced, whatever the mode of the staging
file was. -/
theorem Commit_inherits_mode (fs fs1 : FS) (finalFname : String) (f : File)
    (data old : Bytes) (perm oldPerm : FileMode) (st : FileInfo)
    (hfd : fs.fds f.fd = some f.name)
    (hdata : fs.names f.name = some (.file data perm))
    (hold : fs.names finalFname = some (.file old oldPerm))
    (hstat : Stat fs finalFname = .ok st)
    (hchmod : fs.faults.chmod f.fd = none)
    (h : Commit fs finalFname f = (none, fs1)) :
    ∃ m, fs1.names finalFname = some (.file data m) ∧
      (Node.file data m).mode &&& ModePerm = (Node.file old oldPerm).mode &&& ModePerm := by
  obtain ⟨m, hfinal, _, _, _, hm⟩ := Commit_ok hfd hdata h
  refine ⟨m, hfinal, ?_⟩
  rw [hm st hstat hchmod, Stat_file hold hstat]
  simp only [Node.mode, land_perm_idem]

theorem Commit_inherits_mode_witness :
    ∃ m, (Commit fsOverwriteStaged "/tmp/d/overwrite" staging).2.names "/tmp/d/overwrite" =
        some (.file [116, 101, 115, 116, 105, 110, 103] m) ∧
      (Node.file [116, 101, 115, 116, 105, 110, 103] m).mode &&& ModePerm =
        (Node.file [111, 114, 105, 103, 105, 110, 97, 108] 420).mode &&& ModePerm :=
  Commit_inherits_mode fsOverwriteStaged (Commit fsOverwriteStaged "/tmp/d/overwrite" staging).2
    "/tmp/d/overwrite" staging [116, 101, 115, 116, 105, 110, 103]
    [111, 114, 105, 103, 105, 110, 97, 108] 384 420 ⟨420⟩ rfl rfl rfl rfl rfl rfl

/-! ## `Commit`: the calls it makes -/

theorem LogCalls.calls_refl (P : Step → Prop) (fs : FS) : LogCalls P fs fs :=
  ⟨[], by simp, by simp⟩

theorem LogCalls.calls_trans {P : Step → Prop} {a b c : FS} (h1 : LogCalls P a b)
    (h2 : LogCalls P b c) : LogCalls P a c := by
  obtain ⟨s1, e1, p1⟩ := h1
  obtain ⟨s2, e2, p2⟩ := h2
  refine ⟨s1 ++ s2, by rw [e2, e1, List.append_assoc], ?_⟩
  intro st hst
  rcases List.mem_append.mp hst with h | h
  · exact p1 st h
  · exact p2 st h

theorem LogCalls.calls_mono {P Q : Step → Prop} {a b : FS} (h : LogCalls P a b)
    (hPQ : ∀ st, P st → Q st) : LogCalls Q a b := by
  obtain ⟨s, e, p⟩ := h
  exact ⟨s, e, fun st hst => hPQ _ (p st hst)⟩

theorem LogCalls.calls_record {P : Step → Prop} {fs x : FS} (c : Call) (b : Bool)
    (h : x.log = fs.log) (hP : P ⟨c, b, x.names⟩) : LogCalls P fs (x.record c b) :=
  ⟨[⟨c, b, x.names⟩], by simp [FS.record, h], by simpa using hP⟩

theorem Sync_calls (fs : FS) (f : File) :
    LogCalls (fun st => st.call = .sync f.fd) fs (f.Sync fs).2 := by
  unfold File.Sync
  split
  · exact LogCalls.calls_refl _ fs
  · split
    · exact LogCalls.calls_record _ _ rfl rfl
    · exact LogCalls.calls_record _ _ rfl rfl

theorem Close_calls (fs : FS) (f : File) :
    LogCalls (fun st => st.call = .close f.fd) fs (f.Close fs).2 := by
  unfold File.Close
  split
  · exact LogCalls.calls_refl _ fs
  · split
    · exact LogCalls.calls_record _ _ rfl rfl
    · exact LogCalls.calls_record _ _ rfl rfl

theorem Chmod_calls (fs : FS) (f : File) (mode : FileMode) :
    LogCalls (fun st => st.call = .chmod f.fd mode) fs (f.Chmod fs mode).2 := by
  unfold File.Chmod
  split
  · exact LogCalls.calls_refl _ fs
  · split
    · exact LogCalls.calls_record _ _ rfl rfl
    · split
      · exact LogCalls.calls_record _ _ rfl rfl
      · exact LogCalls.calls_record _ _ rfl rfl

/-- The permission-copy step calls `chmod` at most, and only with the
permission bits that `Stat` of the final name reported. -/
theorem permCopy_calls (fs : FS) (finalFname : String) (f : File) :
    LogCalls (fun st => ∃ info, Stat fs finalFname = .ok info ∧
      st.call = .chmod f.fd (info.mode &&& ModePerm)) fs (permCopy fs finalFname f) := by
  unfold permCopy
  cases hst : Stat fs finalFname with
  | error e => exact LogCalls.calls_refl _ fs
  | ok info =>
    exact (Chmod_calls fs f _).calls_mono (fun st h => ⟨info, rfl, h⟩)

/-- The call `Remove` is always recorded, as the last call of the history. -/
theorem Remove_last (fs : FS) (name : String) :
    ∃ ok names, (Remove fs name).2.log = fs.log ++ [⟨.remove name, ok, names⟩] := by
  unfold Remove
  split
  · exact ⟨_, _, rfl⟩
  · split
    · exact ⟨_, _, rfl⟩
    · exact ⟨_, _, rfl⟩

theorem Remove_calls (fs : FS) (name : String) :
    LogCalls (fun st => st.call = .remove name) fs (Remove fs name).2 := by
  obtain ⟨ok, names, h⟩ := Remove_last fs name
  exact ⟨_, h, by simp⟩

/-- A `Remove` that the filesystem does not refuse leaves the name unbound. -/
theorem Remove_gone {fs : FS} {name : String} (h : fs.faults.remove name = none) :
    (Remove fs name).2.names name = none := by
  unfold Remove
  rw [h]
  cases hn : fs.names name with
  | none => simpa [FS.record] using hn
  | some node => simp [FS.record, upd_same]

theorem Rename_faults (fs : FS) (a b : String) : (Rename fs a b).2.faults = fs.faults := by
  unfold Rename
  split
  · rfl
  · split
    · rfl
    · split
      · rfl
      · split
        · split
          · rfl
          · split
            · rfl
            · rfl
        · rfl

/-- The call `Rename` is recorded once, and as successful only when it returned
no error. -/
theorem Rename_calls (fs : FS) (a b : String) :
    LogCalls (fun st => st.call = .rename a b ∧ (st.ok = true → (Rename fs a b).1 = none)) fs
      (Rename fs a b).2 := by
  cases hr : Rename fs a b with
  | mk e s =>
  unfold Rename at hr
  split at hr
  · cases hr; exact LogCalls.calls_record _ _ rfl ⟨rfl, by simp⟩
  · split at hr
    · cases hr; exact LogCalls.calls_record _ _ rfl ⟨rfl, by simp⟩
    · split at hr
      · cases hr; exact LogCalls.calls_record _ _ rfl ⟨rfl, by simp⟩
      · split at hr
        · split at hr
          · cases hr; exact LogCalls.calls_record _ _ rfl ⟨rfl, by simp⟩
          · split at hr
            · cases hr; exact LogCalls.calls_record _ _ rfl ⟨rfl, by simp⟩
            · cases hr; exact LogCalls.calls_record _ _ rfl ⟨rfl, by simp⟩
        · cases hr; exact LogCalls.calls_record _ _ rfl ⟨rfl, by simp⟩

/-- What a failed `Commit` has done, for a handle open on the staging file:
no name other than the staging name has changed; the staging name is unbound
when the filesystem did not refuse the `Remove`; the last call was that
`Remove`; after a failed `Sync` nothing but `Sync` and `Remove` was called,
after a failed `Sync` or `Close` no `Rename` was called, and no `Rename` took
effect. -/
theorem Commit_error {fs : FS} {finalFname : String} {f : File} {e : GoError}
    (hfd : fs.fds f.fd = some f.name) (herr : (Commit fs finalFname f).1 = some e) :
    AgreeOff f.name (Commit fs finalFname f).2.names fs.names ∧
    (fs.faults.remove f.name = none → (Commit fs finalFname f).2.names f.name = none) ∧
    (∃ st, (Commit fs finalFname f).2.log.getLast? = some st ∧ st.call = .remove f.name) ∧
    ((f.Sync fs).1 ≠ none →
      LogCalls (fun st => st.call = .sync f.fd ∨ st.call = .remove f.name) fs
        (Commit fs finalFname f).2) ∧
    ((f.Sync fs).1 ≠ none ∨ (f.Close fs).1 ≠ none →
      LogCalls (fun st => ∀ a b, st.call ≠ .rename a b) fs (Commit fs finalFname f).2) ∧
    LogCalls (fun st => ∀ a b, st.call = .rename a b → st.ok = false) fs
      (Commit fs finalFname f).2 := by
  have hlast : ∀ x : FS, ∃ st, (Remove x f.name).2.log.getLast? = some st ∧
      st.call = .remove f.name := by
    intro x
    obtain ⟨ok, names, h⟩ := Remove_last x f.name
    exact ⟨⟨.remove f.name, ok, names⟩, by rw [h]; simp, rfl⟩
  rw [Commit_eq] at herr ⊢
  cases hs : f.Sync fs with
  | mk e1 s1 =>
  try rw [hs] at herr
  try rw [hs]
  have hn1 : s1.names = fs.names := by
    have := Sync_names fs f
    rw [hs] at this
    exact this
  have hfd1 : s1.fds = fs.fds := by
    have := Sync_fds fs f
    rw [hs] at this
    exact this
  have hft1 : s1.faults = fs.faults := by
    have := Sync_faults fs f
    rw [hs] at this
    exact this
  have hc1 : LogCalls (fun st => st.call = .sync f.fd) fs s1 := by
    have := Sync_calls fs f
    rw [hs] at this
    exact this
  cases e1 with
  | some err =>
    simp only
    refine ⟨(Remove_agree s1 f.name).agree_trans (AgreeOff.agree_of_eq hn1), ?_, hlast s1,
      ?_, ?_, ?_⟩
    · intro hrm
      exact Remove_gone (by rw [hft1]; exact hrm)
    · intro _
      exact (hc1.calls_mono (fun _ h => Or.inl h)).calls_trans
        ((Remove_calls s1 f.name).calls_mono (fun _ h => Or.inr h))
    · intro _
      exact (hc1.calls_mono (fun _ h a b => by rw [h]; simp)).calls_trans
        ((Remove_calls s1 f.name).calls_mono (fun _ h a b => by rw [h]; simp))
    · exact (hc1.calls_mono (fun _ h a b => by rw [h]; simp)).calls_trans
        ((Remove_calls s1 f.name).calls_mono (fun _ h a b => by rw [h]; simp))
  | none =>
    simp only at herr ⊢
    have hfd1' : s1.fds f.fd = some f.name := by rw [hfd1]; exact hfd
    have hag2 : AgreeOff f.name (permCopy s1 finalFname f).names fs.names :=
      (permCopy_agree finalFname hfd1').agree_trans (AgreeOff.agree_of_eq hn1)
    have hft2 : (permCopy s1 finalFname f).faults = fs.faults := by
      rw [permCopy_faults, hft1]
    have hc2 : LogCalls (fun st => ∀ a b, st.call ≠ .rename a b) fs
        (permCopy s1 finalFname f) :=
      (hc1.calls_mono (fun _ h a b => by rw [h]; simp)).calls_trans
        ((permCopy_calls s1 finalFname f).calls_mono (fun _ h a b => by
          obtain ⟨_, _, h⟩ := h
          rw [h]; simp))
    have hcl : (f.Close (permCopy s1 finalFname f)).1 = (f.Close fs).1 :=
      Close_result_congr f (by rw [permCopy_fds, hfd1]) (by rw [hft2])
    cases hc : f.Close (permCopy s1 finalFname f) with
    | mk e3 s3 =>
    try rw [hc] at herr
    try rw [hc] at hcl
    try rw [hc]
    have hn3 : s3.names = (permCopy s1 finalFname f).names := by
      have := Close_names (permCopy s1 finalFname f) f
      rw [hc] at this
      exact this
    have hft3 : s3.faults = fs.faults := by
      have := Close_faults (permCopy s1 finalFname f) f
      rw [hc] at this
      rw [this, hft2]
    have hc3 : LogCalls (fun st => ∀ a b, st.call ≠ .rename a b) fs s3 := by
      have := Close_calls (permCopy s1 finalFname f) f
      rw [hc] at this
      exact hc2.calls_trans (this.calls_mono (fun _ h a b => by rw [h]; simp))
    have hag3 : AgreeOff f.name s3.names fs.names := (AgreeOff.agree_of_eq hn3).agree_trans hag2
    cases e3 with
    | some err =>
      simp only
      have hc4 : LogCalls (fun st => ∀ a b, st.call ≠ .rename a b) fs (Remove s3 f.name).2 :=
        hc3.calls_trans ((Remove_calls s3 f.name).calls_mono (fun _ h a b => by rw [h]; simp))
      refine ⟨(Remove_agree s3 f.name).agree_trans hag3, ?_, hlast s3, ?_, fun _ => hc4,
        hc4.calls_mono (fun st h a b hab => absurd hab (h a b))⟩
      · intro hrm
        exact Remove_gone (by rw [hft3]; exact hrm)
      · intro hx
        exact absurd rfl hx
    | none =>
      simp only at herr hcl ⊢
      cases hr : Rename s3 f.name finalFname with
      | mk e4 s4 =>
      try rw [hr] at herr
      try rw [hr]
      cases e4 with
      | none => cases herr
      | some err =>
        simp only
        have hn4 : s4.names = s3.names := Rename_error hr
        have hft4 : s4.faults = fs.faults := by
          have := Rename_faults s3 f.name finalFname
          rw [hr] at this
          rw [this, hft3]
        have hc4 : LogCalls (fun st => ∀ a b, st.call = .rename a b → st.ok = false) fs s4 := by
          have := Rename_calls s3 f.name finalFname
          rw [hr] at this
          refine (hc3.calls_mono (fun st h a b hab => absurd hab (h a b))).calls_trans
            (this.calls_mono ?_)
          intro st h a b _
          cases hok : st.ok with
          | false => rfl
          | true => exact absurd (h.2 hok) (by simp)
        refine ⟨(Remove_agree s4 f.name).agree_trans ((AgreeOff.agree_of_eq hn4).agree_trans hag3),
          ?_, hlast s4, ?_, ?_, ?_⟩
        · intro hrm
          exact Remove_gone (by rw [hft4]; exact hrm)
        · intro hx
          exact absurd rfl hx
        · intro hx
          rcases hx with hx | hx
          · exact absurd rfl hx
          · exact absurd hcl.symm hx
        · exact hc4.calls_trans
            ((Remove_calls s4 f.name).calls_mono (fun _ h a b => by rw [h]; simp))

theorem writeAll_faults (f : File) :
    ∀ (chunks : List Bytes) (fs : FS), (writeAll fs f chunks).faults = fs.faults := by
  intro chunks
  induction chunks with
  | nil => intro fs; rfl
  | cons b bs ih =>
    intro fs
    simp only [writeAll]
    rw [ih, Write_faults]

/-- C16, against the claim as stated: on the `TestOverwrite` filesystem with
the staging file written, when `fsync` fails and the `unlink` that follows
is refused, `Commit` returns the error of `Sync` and the staging file is
still there. -/
theorem Commit_error_counterexample :
    (Commit fsOverwriteStuck "/tmp/d/overwrite" staging).1 =
        some (.pathError "sync" "/tmp/d/.new.000000007" (.errno Fault.ioerr.errno)) ∧
      (Commit fsOverwriteStuck "/tmp/d/overwrite" staging).2.names "/tmp/d/.new.000000007" =
        some (.file [116, 101, 115, 116, 105, 110, 103] 384) :=
  ⟨rfl, rfl⟩

/-! ## `Abort` -/

/-- C17, against the claim as stated: on the `TestOverwrite` filesystem with
the staging file written, when the `unlink` is refused, `Abort` leaves the
staging file in its directory. -/
theorem Abort_counterexample :
    fsOverwriteStuck.fds staging.fd = some staging.name ∧
      (Abort fsOverwriteStuck staging).names "/tmp/d/.new.000000007" =
        some (.file [116, 101, 115, 116, 105, 110, 103] 384) :=
  ⟨rfl, rfl⟩

/-- C17, amended: after `Abort`, on an open session or not, the handle is closed (a
following `Close` returns the error of a closed file), no name other than
the staging name has changed, and the staging name no longer exists provided
the filesystem does not refuse the `Remove`; `Abort` returns nothing, so
neither the error of `Close` nor that of `Remove` reaches the caller. -/
theorem Abort_closes_and_removes (fs : FS) (f : File) :
    (Abort fs f).fds f.fd = none ∧
    (f.Close (Abort fs f)).1 = some (.pathError "close" f.name .closed) ∧
    (∀ q, q ≠ f.name → (Abort fs f).names q = fs.names q) ∧
    (fs.faults.remove f.name = none → (Abort fs f).names f.name = none) := by
  have hfds : (Abort fs f).fds f.fd = none := by
    have h1 : (Abort fs f).fds = (f.Close fs).2.fds := by
      unfold Abort Remove
      simp only
      split
      · rfl
      · split <;> rfl
    rw [h1]
    exact Close_fd fs f
  refine ⟨hfds, ?_, Abort_agree fs f, ?_⟩
  · unfold File.Close
    rw [hfds]
  · intro hrm
    unfold Abort
    simp only
    exact Remove_gone (by rw [Close_faults]; exact hrm)

theorem Abort_closes_and_removes_witness :
    fsOverwriteStaged.fds staging.fd = some staging.name ∧
    (Abort fsOverwriteStaged staging).fds staging.fd = none ∧
    (staging.Close (Abort fsOverwriteStaged staging)).1 =
      some (.pathError "close" staging.name .closed) ∧
    (Abort fsOverwriteStaged staging).names staging.name = none :=
  have h := Abort_closes_and_removes fsOverwriteStaged staging
  ⟨rfl, h.1, h.2.1, h.2.2.2 rfl⟩

/-! ## `Commit` through a symbolic link -/

/-- A reader who starts at a path of the walk finds the file at the end of
the walk, in every name space that has kept the symbolic links of `fs`. -/
theorem readAt_reach {fs : FS} {a : Names} {q : String} {data : Bytes} {m : FileMode}
    (hsame : ∀ p text, fs.names p = some (.symlink text) → a p = some (.symlink text))
    (hq : a q = some (.file data m)) :
    ∀ (k : Nat) (p : String), walk fs k p = some q → ∀ n, k < n → readAt a n p = some data := by
  intro k
  induction k with
  | zero =>
    intro p h n hn
    simp only [walk, Option.some.injEq] at h
    subst h
    obtain ⟨n1, rfl⟩ : ∃ n1, n = n1 + 1 := ⟨n - 1, by omega⟩
    exact readAt_file n1 hq
  | succ k ih =>
    intro p h n hn
    simp only [walk] at h
    cases hh : hop fs p with
    | none => simp [hh] at h
    | some r =>
      rw [hh, Option.some_bind] at h
      obtain ⟨text, hp, hr⟩ := hop_names hh
      obtain ⟨n1, rfl⟩ : ∃ n1, n = n1 + 1 := ⟨n - 1, by omega⟩
      simp only [readAt, hsame p text hp]
      rw [← hr]
      exact ih r h n1 (by omega)

/-- The content of the staging file after the writes of a session, and what
a successful `Commit` has done with it. -/
theorem session_commit_ok {fs fs1 fs3 : FS} {final : String} {f : File} {chunks : List Bytes}
    (hnew : NewNoDeref fs final = (.ok f, fs1))
    (hcommit : Commit (writeAll fs1 f chunks) final f = (none, fs3)) :
    fs.names f.name = none ∧
    ∃ data m, (writeAll fs1 f chunks).read f.name = some data ∧
      (fs.faults.write f.fd = none → data = chunks.flatten) ∧
      fs3.names final = some (.file data m) ∧
      (f.name ≠ final → fs3.names f.name = none) ∧
      ∀ q, q ≠ f.name → q ≠ final → fs3.names q = fs.names q := by
  obtain ⟨hfree, hnames, hfd, _⟩ := NewNoDeref_ok hnew
  have hag1 : AgreeOff f.name fs1.names fs.names := by
    rw [hnames]
    exact AgreeOff.agree_upd _ _ _
  have hempty : fs1.names f.name = some (.file [] 384) := by
    rw [hnames]
    exact upd_same _ _ _
  obtain ⟨hfd2, hag2, ⟨data, m0, hdata⟩, _⟩ :=
    writeAll_inv fs.names chunks fs1 hfd hag1 ⟨[], 384, hempty⟩
  obtain ⟨m, hfinal, hgone, hother, _, _⟩ := Commit_ok hfd2 hdata hcommit
  refine ⟨hfree, data, m, readAt_file _ hdata, ?_, hfinal, hgone, ?_⟩
  · intro hw
    have hw1 : fs1.faults.write f.fd = none := by
      have hft : fs1.faults = fs.faults := by
        have := tempFileLoop_faults (filepath.Dir final) ".new." 10000 fs none
        unfold NewNoDeref TempFile at hnew
        rw [hnew] at this
        exact this
      rw [hft]
      exact hw
    have := writeAll_content chunks fs1 [] 384 hfd hempty hw1
    rw [hdata] at this
    simp only [Option.some.injEq, Node.file.injEq, List.nil_append] at this
    exact this.1
  · intro q hq hqf
    rw [hother q hq hqf]
    exact hag2 q hq

/-! ## `path/filepath`: the directory and the base name of a joined path -/

namespace filepath

theorem splitSep_ne_nil (l : List Char) : splitSep l ≠ [] := by
  cases l with
  | nil => simp [splitSep]
  | cons c cs =>
    simp only [splitSep]
    split
    · simp
    · split <;> simp

theorem splitSep_cons_sep (l : List Char) : splitSep ('/' :: l) = [] :: splitSep l := by
  simp only [splitSep]
  split
  · rename_i h
    exact absurd h (splitSep_ne_nil l)
  · rename_i e es h
    simp [h]

theorem splitSep_cons_other {c : Char} (hc : c ≠ '/') (l : List Char) :
    ∃ e es, splitSep l = e :: es ∧ splitSep (c :: l) = (c :: e) :: es := by
  cases h : splitSep l with
  | nil => exact absurd h (splitSep_ne_nil l)
  | cons e es =>
    refine ⟨e, es, rfl, ?_⟩
    simp [splitSep, h, hc]

theorem splitSep_plain : ∀ x : List Char, '/' ∉ x → splitSep x = [x] := by
  intro x
  induction x with
  | nil => intro _; rfl
  | cons c cs ih =>
    intro h
    have hc : c ≠ '/' := fun hc => h (by simp [hc])
    have hcs : '/' ∉ cs := fun hcs => h (List.mem_cons_of_mem _ hcs)
    obtain ⟨e, es, h1, h2⟩ := splitSep_cons_other hc cs
    rw [ih hcs] at h1
    simp only [List.cons.injEq] at h1
    rw [h2, ← h1.1, ← h1.2]

theorem splitSep_append (a b : List Char) :
    splitSep (a ++ '/' :: b) = splitSep a ++ splitSep b := by
  induction a with
  | nil =>
    rw [List.nil_append, splitSep_cons_sep]
    rfl
  | cons c cs ih =>
    by_cases hc : c = '/'
    · subst hc
      simp only [List.cons_append, splitSep_cons_sep, ih, List.cons_append]
    · obtain ⟨e, es, h1, h2⟩ := splitSep_cons_other hc cs
      obtain ⟨e', es', h1', h2'⟩ := splitSep_cons_other hc (cs ++ '/' :: b)
      rw [List.cons_append, h2', h2]
      rw [ih, h1] at h1'
      simp only [List.cons_append, List.cons.injEq] at h1'
      rw [← h1'.1, ← h1'.2]
      rfl

theorem splitSep_no_sep : ∀ (l : List Char), ∀ e ∈ splitSep l, '/' ∉ e := by
  intro l
  induction l with
  | nil => intro e he; simp [splitSep] at he; simp [he]
  | cons c cs ih =>
    intro e he
    by_cases hc : c = '/'
    · subst hc
      rw [splitSep_cons_sep] at he
      rcases List.mem_cons.mp he with h | h
      · simp [h]
      · exact ih e h
    · obtain ⟨e1, es, h1, h2⟩ := splitSep_cons_other hc cs
      rw [h2] at he
      rw [h1] at ih
      rcases List.mem_cons.mp he with h | h
      · rw [h]
        intro hm
        rcases List.mem_cons.mp hm with h3 | h3
        · exact hc h3.symm
        · exact ih e1 (List.mem_cons_self _ _) h3
      · exact ih e (List.mem_cons_of_mem _ h)

theorem elems_nil : elems [] = [] := by
  simp [elems, splitSep]

theorem elems_cons_sep (l : List Char) : elems ('/' :: l) = elems l := by
  simp [elems, splitSep_cons_sep]

theorem elems_append (a b : List Char) : elems (a ++ '/' :: b) = elems a ++ elems b := by
  simp [elems, splitSep_append]

theorem elems_plain {x : List Char} (hx : x ≠ []) (hs : '/' ∉ x) : elems x = [x] := by
  simp [elems, splitSep_plain x hs, hx]

theorem elems_no_sep (l : List Char) : ∀ e ∈ elems l, '/' ∉ e := by
  intro e he
  unfold elems at he
  exact splitSep_no_sep l e (List.mem_filter.mp he).1

theorem joinSep_cons_cons (e e2 : List Char) (es : List (List Char)) :
    joinSep (e :: e2 :: es) = e ++ '/' :: joinSep (e2 :: es) := by
  simp [joinSep]

theorem elems_joinSep : ∀ es : List (List Char), (∀ e ∈ es, e ≠ [] ∧ '/' ∉ e) →
    elems (joinSep es) = es := by
  intro es
  induction es with
  | nil => intro _; simp [joinSep, elems_nil]
  | cons e rest ih =>
    intro h
    have he := h e (List.mem_cons_self _ _)
    cases rest with
    | nil => simpa [joinSep] using elems_plain he.1 he.2
    | cons e2 rest2 =>
      rw [joinSep_cons_cons, elems_append, elems_plain he.1 he.2,
        ih (fun x hx => h x (List.mem_cons_of_mem _ hx))]
      rfl

theorem joinSep_append_singleton (es : List (List Char)) (x : List Char) (hes : es ≠ []) :
    joinSep (es ++ [x]) = joinSep es ++ '/' :: x := by
  induction es with
  | nil => exact absurd rfl hes
  | cons e rest ih =>
    cases rest with
    | nil => simp [joinSep]
    | cons e2 rest2 =>
      rw [List.cons_append, List.cons_append, joinSep_cons_cons, joinSep_cons_cons,
        ← List.cons_append, ih (by simp)]
      simp

theorem joinSep_eq_nil {es : List (List Char)} (h : ∀ e ∈ es, e ≠ [])
    (hj : joinSep es = []) : es = [] := by
  cases es with
  | nil => rfl
  | cons e rest =>
    have he := h e (List.mem_cons_self _ _)
    cases rest with
    | nil => simp [joinSep] at hj; exact absurd hj he
    | cons e2 rest2 => simp [joinSep] at hj

theorem cleanElems_nil (rooted : Bool) (out : List (List Char)) :
    cleanElems rooted [] out = out.reverse := by
  simp [cleanElems]

theorem cleanElems_skip (rooted : Bool) {e : List Char} (h : e = [] ∨ e = ['.'])
    (es out : List (List Char)) : cleanElems rooted (e :: es) out = cleanElems rooted es out := by
  rw [cleanElems.eq_def]
  simp [h]

theorem cleanElems_keep (rooted : Bool) {e : List Char} (h1 : e ≠ []) (h2 : e ≠ ['.'])
    (h3 : e ≠ ['.', '.']) (es out : List (List Char)) :
    cleanElems rooted (e :: es) out = cleanElems rooted es (e :: out) := by
  rw [cleanElems.eq_def]
  simp [h1, h2, h3]

theorem cleanElems_push (rooted : Bool) {e : List Char} (h : Plain e)
    (es out : List (List Char)) :
    cleanElems rooted (e :: es) out = cleanElems rooted es (e :: out) :=
  cleanElems_keep rooted h.1 h.2.1 h.2.2.1 es out

theorem cleanElems_dotdot_nil (rooted : Bool) (es : List (List Char)) :
    cleanElems rooted (['.', '.'] :: es) [] =
      if rooted then cleanElems rooted es [] else cleanElems rooted es [['.', '.']] := by
  simp [cleanElems]

theorem cleanElems_dotdot_cons (rooted : Bool) (es : List (List Char)) (top : List Char)
    (rest : List (List Char)) :
    cleanElems rooted (['.', '.'] :: es) (top :: rest) =
      if top = ['.', '.'] then cleanElems rooted es (['.', '.'] :: top :: rest)
      else cleanElems rooted es rest := by
  simp [cleanElems]

/-- Empty elements make no difference to `Clean`. -/
theorem cleanElems_filter (rooted : Bool) :
    ∀ (l out : List (List Char)),
      cleanElems rooted l out = cleanElems rooted (l.filter (fun e => e ≠ [])) out := by
  intro l
  induction l with
  | nil => intro out; rfl
  | cons e es ih =>
    intro out
    by_cases he : e = []
    · rw [cleanElems_skip rooted (Or.inl he), ih]
      simp [he]
    · have hf : (e :: es).filter (fun e => e ≠ []) = e :: es.filter (fun e => e ≠ []) := by
        simp [he]
      rw [hf]
      by_cases hd : e = ['.']
      · rw [cleanElems_skip rooted (Or.inr hd), cleanElems_skip rooted (Or.inr hd), ih]
      · by_cases hdd : e = ['.', '.']
        · subst hdd
          cases out with
          | nil =>
            rw [cleanElems_dotdot_nil, cleanElems_dotdot_nil, ih, ih]
          | cons top rest =>
            rw [cleanElems_dotdot_cons, cleanElems_dotdot_cons, ih, ih]
        · rw [cleanElems_keep rooted he hd hdd, cleanElems_keep rooted he hd hdd]
          exact ih _

theorem CleanStack.stack_suffix (rooted : Bool) :
    ∀ (a b : List (List Char)), CleanStack rooted (a ++ b) → CleanStack rooted b := by
  intro a
  induction a with
  | nil => intro b h; exact h
  | cons e rest ih =>
    intro b h
    exact ih b h.2

theorem CleanStack.stack_elem {rooted : Bool} :
    ∀ {out : List (List Char)}, CleanStack rooted out → ∀ e ∈ out, e ≠ [] ∧ '/' ∉ e := by
  intro out
  induction out with
  | nil => intro _ e he; cases he
  | cons x rest ih =>
    intro h e he
    rcases List.mem_cons.mp he with hx | hx
    · subst hx
      rcases h.1 with hp | ⟨hd, _, _⟩
      · exact ⟨hp.1, hp.2.2.2⟩
      · subst hd
        exact ⟨by simp, by decide⟩
    · exact ih h.2 e hx

/-- The element pass keeps the stack clean. -/
theorem cleanElems_stack (rooted : Bool) :
    ∀ (es out : List (List Char)), (∀ e ∈ es, '/' ∉ e) → CleanStack rooted out →
      ∃ res, cleanElems rooted es out = res.reverse ∧ CleanStack rooted res := by
  intro es
  induction es with
  | nil =>
    intro out _ h
    exact ⟨out, cleanElems_nil rooted out, h⟩
  | cons e es ih =>
    intro out hs h
    have hs1 : ∀ x ∈ es, '/' ∉ x := fun x hx => hs x (List.mem_cons_of_mem _ hx)
    by_cases he : e = [] ∨ e = ['.']
    · rw [cleanElems_skip rooted he]
      exact ih out hs1 h
    · by_cases hdd : e = ['.', '.']
      · subst hdd
        cases out with
        | nil =>
          rw [cleanElems_dotdot_nil]
          cases hr : rooted with
          | true =>
            simp only [if_true]
            rw [← hr]
            exact ih [] hs1 h
          | false =>
            simp only [Bool.false_eq_true, if_false]
            rw [← hr]
            refine ih [['.', '.']] hs1 ⟨Or.inr ⟨rfl, hr, ?_⟩, trivial⟩
            intro x hx
            cases hx
        | cons top rest =>
          rw [cleanElems_dotdot_cons]
          by_cases ht : top = ['.', '.']
          · simp only [ht, if_true]
            subst ht
            rcases h.1 with hp | ⟨_, hr, hall⟩
            · exact absurd rfl hp.2.2.1
            · refine ih _ hs1 ⟨Or.inr ⟨rfl, hr, ?_⟩, h⟩
              intro x hx
              rcases List.mem_cons.mp hx with hx | hx
              · exact hx
              · exact hall x hx
          · simp only [ht, if_false]
            exact ih rest hs1 h.2
      · have hp : Plain e :=
          ⟨fun h1 => he (Or.inl h1), fun h1 => he (Or.inr h1), hdd, hs e (List.mem_cons_self _ _)⟩
        rw [cleanElems_push rooted hp]
        exact ih (e :: out) hs1 ⟨Or.inl hp, h⟩

/-- The element pass changes nothing on elements that are clean already. -/
theorem cleanElems_stable (rooted : Bool) :
    ∀ (l acc rest : List (List Char)), CleanStack rooted (l.reverse ++ acc) →
      cleanElems rooted (l ++ rest) acc = cleanElems rooted rest (l.reverse ++ acc) := by
  intro l
  induction l with
  | nil => intro acc rest _; rfl
  | cons e l ih =>
    intro acc rest h
    have h1 : CleanStack rooted (l.reverse ++ e :: acc) := by
      simpa [List.reverse_cons, List.append_assoc] using h
    have h2 : CleanStack rooted (e :: acc) := CleanStack.stack_suffix rooted _ _ h1
    have hgoal : cleanElems rooted (e :: (l ++ rest)) acc =
        cleanElems rooted (l ++ rest) (e :: acc) := by
      rcases h2.1 with hp | ⟨hd, hr, hall⟩
      · exact cleanElems_push rooted hp _ _
      · subst hd
        cases acc with
        | nil =>
          rw [cleanElems_dotdot_nil, hr]
          simp
        | cons top r =>
          rw [cleanElems_dotdot_cons]
          simp [hall top (List.mem_cons_self _ _)]
    rw [List.cons_append, hgoal, ih (e :: acc) rest h1]
    simp [List.reverse_cons, List.append_assoc]

theorem cleanElems_clean (rooted : Bool) {es : List (List Char)}
    (h : CleanStack rooted es.reverse) : cleanElems rooted es [] = es := by
  have := cleanElems_stable rooted es [] [] (by simpa using h)
  simpa [cleanElems_nil] using this

theorem Clean_empty : Clean "" = "." := rfl

theorem Clean_rooted (l : List Char) :
    Clean (String.mk ('/' :: l)) = String.mk ('/' :: joinSep (cleanElems true (elems l) [])) := by
  unfold Clean
  simp only [decide_True, if_true]
  rw [cleanElems_filter, ← elems, elems_cons_sep]

theorem Clean_relative {l : List Char} (h : ∃ c r, l = c :: r ∧ c ≠ '/') :
    Clean (String.mk l) =
      if joinSep (cleanElems false (elems l) []) = [] then "."
      else String.mk (joinSep (cleanElems false (elems l) [])) := by
  obtain ⟨c, r, rfl, hc⟩ := h
  unfold Clean
  simp only [hc, decide_False, Bool.false_eq_true, if_false]
  rw [cleanElems_filter, ← elems]

theorem uptoLastSep_plain : ∀ x : List Char, '/' ∉ x → uptoLastSep x = [] := by
  intro x
  induction x with
  | nil => intro _; rfl
  | cons c cs ih =>
    intro h
    have hc : c ≠ '/' := fun hc => h (by simp [hc])
    have hcs : '/' ∉ cs := fun hcs => h (List.mem_cons_of_mem _ hcs)
    simp [uptoLastSep, ih hcs, hc]

theorem uptoLastSep_append {x : List Char} (hx : '/' ∉ x) :
    ∀ a : List Char, uptoLastSep (a ++ '/' :: x) = a ++ ['/'] := by
  intro a
  induction a with
  | nil => simp [uptoLastSep, uptoLastSep_plain x hx]
  | cons c cs ih =>
    rw [List.cons_append, uptoLastSep, ih]
    cases cs <;> simp

theorem afterLastSep_plain {x : List Char} (hx : '/' ∉ x) : afterLastSep x = x := by
  cases x with
  | nil => rfl
  | cons c cs =>
    have hc : c ≠ '/' := fun hc => hx (by simp [hc])
    have hcs : '/' ∉ cs := fun hcs => hx (List.mem_cons_of_mem _ hcs)
    simp [afterLastSep, hcs, hc]

theorem afterLastSep_append {x : List Char} (hx : '/' ∉ x) :
    ∀ a : List Char, afterLastSep (a ++ '/' :: x) = x := by
  intro a
  induction a with
  | nil => simp [afterLastSep, hx]
  | cons c cs ih =>
    rw [List.cons_append, afterLastSep]
    simp [ih]

theorem stripTrailingSep_plain {x : List Char} (hx : '/' ∉ x) (hne : x ≠ [])
    (a : List Char) : stripTrailingSep (a ++ x) = a ++ x := by
  rcases List.eq_nil_or_concat x with h | ⟨l, c, h⟩
  · exact absurd h hne
  · subst h
    have hc : c ≠ '/' := fun hc => hx (by simp [hc])
    unfold stripTrailingSep
    simp [List.dropWhile, hc]

/-- The directory and the last element of a path that ends in a separator
followed by a plain element. -/
theorem Dir_Base_append {x : List Char} (hx : Plain x) (a : List Char) :
    Dir (String.mk (a ++ '/' :: x)) = Clean (String.mk (a ++ ['/'])) ∧
      Base (String.mk (a ++ '/' :: x)) = String.mk x := by
  constructor
  · unfold Dir
    simp only [uptoLastSep_append hx.2.2.2]
  · unfold Base
    have hne : String.mk (a ++ '/' :: x) ≠ "" := by
      intro h
      have := congrArg String.data h
      simp at this
    have hs : stripTrailingSep (a ++ '/' :: x) = a ++ '/' :: x := by
      have := stripTrailingSep_plain hx.2.2.2 hx.1 (a ++ ['/'])
      simpa using this
    simp only [hne, if_false, hs, afterLastSep_append hx.2.2.2, hx.1]

theorem Dir_Base_plain {x : List Char} (hx : Plain x) :
    Dir (String.mk x) = "." ∧ Base (String.mk x) = String.mk x := by
  constructor
  · unfold Dir
    simp only [uptoLastSep_plain x hx.2.2.2]
    rfl
  · unfold Base
    have hne : String.mk x ≠ "" := by
      intro h
      have := congrArg String.data h
      exact hx.1 (by simpa using this)
    have hs : stripTrailingSep x = x := by
      have := stripTrailingSep_plain hx.2.2.2 hx.1 []
      simpa using this
    simp only [hne, if_false, hs, afterLastSep_plain hx.2.2.2, hx.1]

theorem joinSep_head {es : List (List Char)} (hne : es ≠ [])
    (h : ∀ e ∈ es, e ≠ [] ∧ '/' ∉ e) : ∃ c r, joinSep es = c :: r ∧ c ≠ '/' := by
  cases es with
  | nil => exact absurd rfl hne
  | cons e rest =>
    obtain ⟨he, hs⟩ := h e (List.mem_cons_self _ _)
    cases e with
    | nil => exact absurd rfl he
    | cons c r =>
      have hc : c ≠ '/' := fun hc => hs (by simp [hc])
      cases rest with
      | nil => exact ⟨c, r, by simp [joinSep], hc⟩
      | cons e2 rest2 => exact ⟨c, _, by rw [joinSep_cons_cons]; rfl, hc⟩

/-- The three shapes of a cleaned path: rooted, relative, and `.`. -/
theorem Clean_form (s : String) :
    (∃ es, CleanStack true es.reverse ∧ Clean s = String.mk ('/' :: joinSep es)) ∨
    (∃ es, es ≠ [] ∧ CleanStack false es.reverse ∧ Clean s = String.mk (joinSep es)) ∨
    Clean s = "." := by
  have hs : s = String.mk s.data := rfl
  rw [hs]
  cases hd : s.data with
  | nil => exact Or.inr (Or.inr rfl)
  | cons c r =>
    by_cases hc : c = '/'
    · subst hc
      obtain ⟨res, hres, hst⟩ := cleanElems_stack true (elems r) [] (elems_no_sep r) trivial
      refine Or.inl ⟨res.reverse, by simpa using hst, ?_⟩
      rw [Clean_rooted, hres]
    · obtain ⟨res, hres, hst⟩ :=
        cleanElems_stack false (elems (c :: r)) [] (elems_no_sep _) trivial
      rw [Clean_relative ⟨c, r, rfl, hc⟩, hres]
      by_cases hb : joinSep res.reverse = []
      · exact Or.inr (Or.inr (by simp [hb]))
      · refine Or.inr (Or.inl ⟨res.reverse, ?_, by simpa using hst, by simp [hb]⟩)
        intro h
        rw [h] at hb
        exact hb rfl

theorem Join_pair {d : String} (hd : d ≠ "") (x : List Char) :
    Join [d, String.mk x] = Clean (String.mk (d.data ++ '/' :: x)) := by
  simp [Join, hd, joinSep]

theorem mk_ne_empty {l : List Char} (h : l ≠ []) : String.mk l ≠ "" := by
  intro he
  have := congrArg String.data he
  exact h (by simpa using this)

/-- Joining a cleaned directory with a plain element and taking `Dir` and
`Base` of the result gives the directory and the element back. -/
theorem Dir_Base_Join (s : String) {x : List Char} (hx : Plain x) :
    Dir (Join [Clean s, String.mk x]) = Clean s ∧
      Base (Join [Clean s, String.mk x]) = String.mk x := by
  rcases Clean_form s with ⟨es, hst, hd⟩ | ⟨es, hne, hst, hd⟩ | hd
  · -- rooted
    have hel := CleanStack.stack_elem hst
    have hes : ∀ e ∈ es, e ≠ [] ∧ '/' ∉ e := fun e he => hel e (by simpa using he)
    have hst2 : CleanStack true (es ++ [x]).reverse := by
      rw [List.reverse_append]
      exact ⟨Or.inl hx, hst⟩
    have hj : Join [Clean s, String.mk x] = String.mk ('/' :: joinSep (es ++ [x])) := by
      rw [hd, Join_pair (mk_ne_empty (by simp))]
      simp only [List.cons_append]
      rw [Clean_rooted, elems_append, elems_joinSep es hes, elems_plain hx.1 hx.2.2.2,
        cleanElems_clean true hst2]
    rw [hj, hd]
    by_cases hnil : es = []
    · subst hnil
      have h1 := Dir_Base_append hx []
      simp only [List.nil_append] at h1
      simp only [List.nil_append, joinSep]
      refine ⟨?_, h1.2⟩
      rw [h1.1, Clean_rooted, elems_nil]
      rfl
    · rw [joinSep_append_singleton es x hnil]
      have h1 := Dir_Base_append hx ('/' :: joinSep es)
      simp only [List.cons_append] at h1
      refine ⟨?_, h1.2⟩
      rw [h1.1, Clean_rooted]
      have : joinSep es ++ ['/'] = joinSep es ++ '/' :: [] := rfl
      rw [this, elems_append, elems_joinSep es hes, elems_nil, List.append_nil,
        cleanElems_clean true hst]
  · -- relative
    have hel := CleanStack.stack_elem hst
    have hes : ∀ e ∈ es, e ≠ [] ∧ '/' ∉ e := fun e he => hel e (by simpa using he)
    have hst2 : CleanStack false (es ++ [x]).reverse := by
      rw [List.reverse_append]
      exact ⟨Or.inl hx, hst⟩
    obtain ⟨c, r, hcr, hc⟩ := joinSep_head hne hes
    have hbody : joinSep es ≠ [] := by rw [hcr]; simp
    have hj : Join [Clean s, String.mk x] = String.mk (joinSep es ++ '/' :: x) := by
      rw [hd, Join_pair (mk_ne_empty hbody)]
      rw [Clean_relative ⟨c, r ++ '/' :: x, by simp [hcr], hc⟩, elems_append,
        elems_joinSep es hes, elems_plain hx.1 hx.2.2.2, cleanElems_clean false hst2,
        joinSep_append_singleton es x hne]
      simp
    rw [hj, hd]
    have h1 := Dir_Base_append hx (joinSep es)
    refine ⟨?_, h1.2⟩
    rw [h1.1, Clean_relative ⟨c, r ++ ['/'], by simp [hcr], hc⟩]
    have : joinSep es ++ ['/'] = joinSep es ++ '/' :: [] := rfl
    rw [this, elems_append, elems_joinSep es hes, elems_nil, List.append_nil,
      cleanElems_clean false hst]
    simp [hbody]
  · -- the directory `.`
    have hj : Join [Clean s, String.mk x] = String.mk x := by
      rw [hd, Join_pair (by decide)]
      have hdata : (".".data ++ '/' :: x) = ['.'] ++ '/' :: x := rfl
      rw [hdata, @Clean_relative (['.'] ++ '/' :: x) ⟨'.', '/' :: x, rfl, by decide⟩, elems_append,
        elems_plain (by simp) (by decide), elems_plain hx.1 hx.2.2.2]
      rw [List.singleton_append, cleanElems_skip false (Or.inr rfl), cleanElems_push false hx,
        cleanElems_nil]
      simp [joinSep, hx.1]
    rw [hj, hd]
    exact Dir_Base_plain hx

end filepath

/-! ## The name of the staging file -/

theorem OpenFileExcl_rands (fs : FS) (name : String) (perm : FileMode) :
    (OpenFileExcl fs name perm).2.rands = fs.rands := by
  unfold OpenFileExcl
  split
  · rfl
  · split <;> rfl

/-- The name that a successful `ioutil.TempFile` returns is the directory
joined with the prefix and one of the random strings. -/
theorem tempFileLoop_name (dir pfx : String) :
    ∀ (n : Nat) (fs : FS) (last : Option GoError) (f : File) (fs1 : FS),
      tempFileLoop dir pfx n fs last = (.ok f, fs1) →
      ∃ i, f.name = filepath.Join [dir, pfx ++ fs.rands i] := by
  intro n
  induction n with
  | zero =>
    intro fs last f fs1 h
    unfold tempFileLoop at h
    cases last <;> cases h
  | succ n ih =>
    intro fs last f fs1 h
    unfold tempFileLoop at h
    simp only at h
    have hr := OpenFileExcl_rands { fs with randPos := fs.randPos + 1 }
      (filepath.Join [dir, pfx ++ fs.rands fs.randPos]) 384
    cases ho : OpenFileExcl { fs with randPos := fs.randPos + 1 }
        (filepath.Join [dir, pfx ++ fs.rands fs.randPos]) 384 with
    | mk r fs2 =>
    rw [ho] at h hr
    cases r with
    | error err =>
      simp only at h
      by_cases hex : IsExist err = true
      · simp only [hex, if_true] at h
        obtain ⟨i, hi⟩ := ih fs2 (some err) f fs1 h
        exact ⟨i, by rw [hi, hr]⟩
      · simp only [hex, if_false] at h
        cases h
    | ok f2 =>
      simp only [Prod.mk.injEq, Except.ok.injEq] at h
      obtain ⟨h1, _⟩ := h
      subst h1
      exact ⟨fs.randPos, (OpenFileExcl_ok ho).1⟩

/-- The prefix `.new.` followed by decimal digits is a plain path element. -/
theorem staging_plain {r : String} (hr : ∀ c ∈ r.data, c.isDigit = true) :
    filepath.Plain (".new." ++ r).data := by
  have hd : (".new." ++ r).data = '.' :: 'n' :: 'e' :: 'w' :: '.' :: r.data := rfl
  rw [hd]
  refine ⟨by simp, by simp, by simp, ?_⟩
  intro hm
  simp only [List.mem_cons] at hm
  rcases hm with h | h | h | h | h | h
  · exact absurd h (by decide)
  · exact absurd h (by decide)
  · exact absurd h (by decide)
  · exact absurd h (by decide)
  · exact absurd h (by decide)
  · have := hr _ h
    revert this
    decide

/-- The staging file of a successful `NewNoDeref` lies in the directory of
the final name, and its base name is `.new.` followed by one of the random
strings. -/
theorem NewNoDeref_name {fs fs1 : FS} {p : String} {f : File}
    (hrand : ∀ i, ∀ c ∈ (fs.rands i).data, c.isDigit = true)
    (h : NewNoDeref fs p = (.ok f, fs1)) :
    filepath.Dir f.name = filepath.Dir p ∧
      ∃ i, filepath.Base f.name = ".new." ++ fs.rands i := by
  obtain ⟨i, hi⟩ := tempFileLoop_name _ _ _ fs none f fs1 h
  have hx := staging_plain (hrand i)
  have hdir : filepath.Dir p = filepath.Clean (String.mk (filepath.uptoLastSep p.data)) := rfl
  have hmk : ".new." ++ fs.rands i = String.mk (".new." ++ fs.rands i).data := rfl
  rw [hi, hdir, hmk]
  obtain ⟨h1, h2⟩ := filepath.Dir_Base_Join (String.mk (filepath.uptoLastSep p.data)) hx
  exact ⟨h1, i, h2⟩

/-- C13: for every successful `New`, with the random strings of
`ioutil.TempFile` being decimal digits as in Go, the staging file lies in
the directory of the resolved path, its base name is the prefix `.new.`
followed by one of the random strings, and no entry was bound to the staging
name before the call. -/
theorem New_staging_name (fs fs1 : FS) (target final : String) (f : File)
    (hnew : New fs target = (⟨final, some f, none⟩, fs1))
    (hrand : ∀ i, ∀ c ∈ (fs.rands i).data, c.isDigit = true) :
    filepath.Dir f.name = filepath.Dir final ∧
    (∃ i, filepath.Base f.name = ".new." ++ fs.rands i) ∧
    fs.names f.name = none := by
  obtain ⟨k, _, _, _, hs⟩ := NewLoop_success target final f 16 target hnew
  obtain ⟨hdir, hbase⟩ := NewNoDeref_name hrand hs
  exact ⟨hdir, hbase, (NewNoDeref_ok hs).1⟩

/-- C13 at `TestSymlinkAbs`: the staging file for `sym_abs` is
`/srv/data/.new.000000007`, in the directory of the link target. -/
theorem New_staging_name_witness :
    (New fsSymlinkAbs "/tmp/d/sym_abs").1 =
      ⟨"/srv/data/sym_target_abs", some ⟨"/srv/data/.new.000000007", 3⟩, none⟩ ∧
    filepath.Dir "/srv/data/.new.000000007" = filepath.Dir "/srv/data/sym_target_abs" ∧
    (∃ i, filepath.Base "/srv/data/.new.000000007" = ".new." ++ fsSymlinkAbs.rands i) ∧
    fsSymlinkAbs.names "/srv/data/.new.000000007" = none :=
  ⟨rfl, New_staging_name fsSymlinkAbs (New fsSymlinkAbs "/tmp/d/sym_abs").2 "/tmp/d/sym_abs"
    "/srv/data/sym_target_abs" ⟨"/srv/data/.new.000000007", 3⟩ rfl
    (fun _ c hc => by
      have h : c ∈ ['0', '0', '0', '0', '0', '0', '0', '0', '7'] := hc
      simp only [List.mem_cons, List.mem_singleton, List.not_mem_nil, or_false] at h
      rcases h with h | h | h | h | h | h | h | h | h <;> rw [h] <;> decide)⟩

/-! ## `NewNoDeref` -/

theorem readAt_mono {names : Names} :
    ∀ (n : Nat) (q : String) (d : Bytes), readAt names n q = some d →
      readAt names (n + 1) q = some d := by
  intro n
  induction n with
  | zero => intro q d h; cases h
  | succ n ih =>
    intro q d h
    rw [readAt] at h ⊢
    cases hq : names q with
    | none => rw [hq] at h; cases h
    | some node =>
      rw [hq] at h
      cases node with
      | file data perm => exact h
      | symlink text => exact ih _ d h
      | other mode => cases h

theorem readAt_le {names : Names} {n m : Nat} (hnm : n ≤ m) {q : String} {d : Bytes}
    (h : readAt names n q = some d) : readAt names m q = some d := by
  induction m with
  | zero =>
    have : n = 0 := by omega
    subst this
    exact h
  | succ m ih =>
    by_cases hn : n = m + 1
    · subst hn
      exact h
    · exact readAt_mono m q d (ih (by omega))

/-- Replacing a symbolic link by something else does not change what a
reader finds at the path the link pointed to, when there was a regular file
to find. -/
theorem readAt_replace_link {a b : Names} {p text : String}
    (hp : b p = some (.symlink text)) (hag : ∀ q, q ≠ p → a q = b q) (n : Nat) (d : Bytes)
    (h : readAt b n (linkTarget p text) = some d) :
    readAt a n (linkTarget p text) = some d := by
  have hex : ∃ k, (readAt b k (linkTarget p text)).isSome = true := ⟨n, by rw [h]; rfl⟩
  have hmin : ∀ k, k < Nat.find hex → readAt b k (linkTarget p text) = none := by
    intro k hk
    have := Nat.find_min hex hk
    cases hr : readAt b k (linkTarget p text) with
    | none => rfl
    | some x => rw [hr] at this; exact absurd rfl this
  have hn0 : Nat.find hex ≤ n := Nat.find_min' hex (by rw [h]; rfl)
  have hkey : ∀ k, k ≤ Nat.find hex → ∀ q x, readAt b k q = some x → readAt a k q = some x := by
    intro k
    induction k with
    | zero => intro _ q x hx; cases hx
    | succ k ih =>
      intro hk q x hx
      by_cases hq : q = p
      · subst hq
        rw [readAt, hp] at hx
        simp only at hx
        rw [hmin k (by omega)] at hx
        cases hx
      · rw [readAt] at hx ⊢
        rw [hag q hq]
        cases hb : b q with
        | none => rw [hb] at hx; cases hx
        | some node =>
          rw [hb] at hx
          cases node with
          | file data perm => exact hx
          | symlink t => exact ih (by omega) _ x hx
          | other mode => cases hx
  obtain ⟨x, hx⟩ := Option.isSome_iff_exists.mp (Nat.find_spec hex)
  have hxd : x = d := by
    have := readAt_le hn0 hx
    rw [h] at this
    cases this
    rfl
  subst hxd
  exact readAt_le hn0 (hkey _ (Nat.le_refl _) _ _ hx)

/-- The first try of `ioutil.TempFile` succeeds when the name it draws is
free and the filesystem does not refuse to create it. -/
theorem NewNoDeref_first_try {fs : FS} {p : String}
    (hfree : fs.names (filepath.Join [filepath.Dir p, ".new." ++ fs.rands fs.randPos]) = none)
    (hcreate :
      fs.faults.create (filepath.Join [filepath.Dir p, ".new." ++ fs.rands fs.randPos]) = none) :
    (NewNoDeref fs p).1 =
      .ok ⟨filepath.Join [filepath.Dir p, ".new." ++ fs.rands fs.randPos], fs.nextFd⟩ := by
  unfold NewNoDeref TempFile
  have h1 : (10000 : Nat) = 9999 + 1 := rfl
  rw [h1, tempFileLoop]
  simp only [OpenFileExcl, hfree, hcreate]

/-- C19: `NewNoDeref p` looks at nothing but the directory part of `p`: it
gives the same result for every name in the same directory, whatever is bound
to it; it succeeds at the first try when the name drawn in `filepath.Dir p` is
free and its creation is not refused; and when it succeeds the staging file is
a new empty file in `filepath.Dir p` (the random strings being decimal
digits).  When `p` is a symbolic link, a following successful `Commit` of `p`
binds `p` itself to a regular file with the staging content, changes no
other name, and a reader of the path the link pointed to still finds the
content that was there. -/
theorem NewNoDeref_replaces_link (fs : FS) (p : String)
    (hrand : ∀ i, ∀ c ∈ (fs.rands i).data, c.isDigit = true) :
    (∀ p2, filepath.Dir p2 = filepath.Dir p → NewNoDeref fs p2 = NewNoDeref fs p) ∧
    (fs.names (filepath.Join [filepath.Dir p, ".new." ++ fs.rands fs.randPos]) = none →
      fs.faults.create (filepath.Join [filepath.Dir p, ".new." ++ fs.rands fs.randPos]) = none →
      (NewNoDeref fs p).1 =
        .ok ⟨filepath.Join [filepath.Dir p, ".new." ++ fs.rands fs.randPos], fs.nextFd⟩) ∧
    (∀ f fs1, NewNoDeref fs p = (.ok f, fs1) →
      filepath.Dir f.name = filepath.Dir p ∧ fs.names f.name = none ∧
        fs1.names = upd fs.names f.name (some (.file [] 384))) ∧
    (∀ f fs1 fs3 text chunks, fs.names p = some (.symlink text) →
      NewNoDeref fs p = (.ok f, fs1) →
      Commit (writeAll fs1 f chunks) p f = (none, fs3) →
      ∃ data m, (writeAll fs1 f chunks).read f.name = some data ∧
        fs3.names p = some (.file data m) ∧
        (∀ q, q ≠ p → fs3.names q = fs.names q) ∧
        ∀ d, fs.read (linkTarget p text) = some d → fs3.read (linkTarget p text) = some d) := by
  refine ⟨?_, NewNoDeref_first_try, ?_, ?_⟩
  · intro p2 h
    unfold NewNoDeref
    rw [h]
  · intro f fs1 h
    obtain ⟨hfree, hnames, _, _⟩ := NewNoDeref_ok h
    exact ⟨(NewNoDeref_name hrand h).1, hfree, hnames⟩
  · intro f fs1 fs3 text chunks hp hnew hcommit
    obtain ⟨hfree, data, m, hread, _, hfinal, hgone, hother⟩ := session_commit_ok hnew hcommit
    have hne : f.name ≠ p := by
      intro h
      rw [h, hp] at hfree
      cases hfree
    have hag : ∀ q, q ≠ p → fs3.names q = fs.names q := by
      intro q hq
      by_cases hqf : q = f.name
      · rw [hqf, hgone hne, hfree]
      · exact hother q hqf hq
    exact ⟨data, m, hread, hfinal, hag, fun d hd => readAt_replace_link hp hag _ d hd⟩

/-- C19 at `TestSymlinkRel`: `NewNoDeref`, the write of `testing` and `Commit`
on the link `sym` turn `sym` into a regular file holding `testing` (with the
mode `0644` that `Stat` found behind the link), and `sym_target` still
reads `original`. -/
theorem NewNoDeref_replaces_link_witness :
    (NewNoDeref fsSymlinkRel "/tmp/d/sym").1 = .ok staging ∧
    filepath.Dir staging.name = filepath.Dir "/tmp/d/sym" ∧
    (Commit (writeAll (NewNoDeref fsSymlinkRel "/tmp/d/sym").2 staging
      [[116, 101, 115, 116, 105, 110, 103]]) "/tmp/d/sym" staging).2.names "/tmp/d/sym" =
        some (.file [116, 101, 115, 116, 105, 110, 103] 420) ∧
    ∃ data m,
      (writeAll (NewNoDeref fsSymlinkRel "/tmp/d/sym").2 staging
        [[116, 101, 115, 116, 105, 110, 103]]).read staging.name = some data ∧
      (Commit (writeAll (NewNoDeref fsSymlinkRel "/tmp/d/sym").2 staging
        [[116, 101, 115, 116, 105, 110, 103]]) "/tmp/d/sym" staging).2.names "/tmp/d/sym" =
          some (.file data m) ∧
      (∀ q, q ≠ "/tmp/d/sym" →
        (Commit (writeAll (NewNoDeref fsSymlinkRel "/tmp/d/sym").2 staging
          [[116, 101, 115, 116, 105, 110, 103]]) "/tmp/d/sym" staging).2.names q =
            fsSymlinkRel.names q) ∧
      ∀ d, fsSymlinkRel.read (linkTarget "/tmp/d/sym" "sym_target") = some d →
        (Commit (writeAll (NewNoDeref fsSymlinkRel "/tmp/d/sym").2 staging
          [[116, 101, 115, 116, 105, 110, 103]]) "/tmp/d/sym" staging).2.read
            (linkTarget "/tmp/d/sym" "sym_target") = some d :=
  have h := NewNoDeref_replaces_link fsSymlinkRel "/tmp/d/sym"
    (fun _ c hc => by
      have h : c ∈ ['0', '0', '0', '0', '0', '0', '0', '0', '7'] := hc
      simp only [List.mem_cons, List.mem_singleton, List.not_mem_nil, or_false] at h
      rcases h with h | h | h | h | h | h | h | h | h <;> rw [h] <;> decide)
  ⟨h.2.1 rfl rfl, (h.2.2.1 staging (NewNoDeref fsSymlinkRel "/tmp/d/sym").2 rfl).1, rfl,
    h.2.2.2 staging (NewNoDeref fsSymlinkRel "/tmp/d/sym").2
      (Commit (writeAll (NewNoDeref fsSymlinkRel "/tmp/d/sym").2 staging
        [[116, 101, 115, 116, 105, 110, 103]]) "/tmp/d/sym" staging).2
      "sym_target" [[116, 101, 115, 116, 105, 110, 103]] rfl rfl rfl⟩

/-! ## `Commit`: the order of its calls -/

theorem callsSince_append {fs fs1 : FS} {steps : List Step} (h : fs1.log = fs.log ++ steps) :
    callsSince fs fs1 = calls steps := by
  simp [callsSince, h]

/-- A `Sync` on a closed handle fails and records nothing; on an open handle
it records one `sync` call, successful exactly when nil is returned, and
leaves names, descriptors and faults as they are. -/
theorem Sync_log (fs : FS) (f : File) :
    (fs.fds f.fd = none ∧ (f.Sync fs).1 ≠ none ∧ (f.Sync fs).2 = fs) ∨
    (fs.fds f.fd ≠ none ∧ ∃ ok names,
      (f.Sync fs).2.log = fs.log ++ [⟨.sync f.fd, ok, names⟩] ∧
      (ok = true ↔ (f.Sync fs).1 = none) ∧ (f.Sync fs).2.fds = fs.fds) := by
  unfold File.Sync
  cases hfd : fs.fds f.fd with
  | none => left; simp
  | some nm =>
    right
    refine ⟨by simp, ?_⟩
    cases hs : fs.faults.sync f.fd with
    | some flt => exact ⟨false, fs.names, by simp [FS.record], by simp, rfl⟩
    | none => exact ⟨true, fs.names, by simp [FS.record], by simp, rfl⟩

/-- A `Chmod` on an open handle records one `chmod` call and leaves the
descriptors as they are. -/
theorem Chmod_log {fs : FS} {f : File} (hfd : fs.fds f.fd ≠ none) (mode : FileMode) :
    ∃ ok names, (f.Chmod fs mode).2.log = fs.log ++ [⟨.chmod f.fd mode, ok, names⟩] ∧
      (f.Chmod fs mode).2.fds = fs.fds := by
  unfold File.Chmod
  cases h : fs.fds f.fd with
  | none => exact absurd h hfd
  | some nm =>
    cases hc : fs.faults.chmod f.fd with
    | some flt => exact ⟨false, fs.names, by simp [FS.record], rfl⟩
    | none =>
      simp only
      split
      · exact ⟨true, _, rfl, rfl⟩
      · exact ⟨false, _, rfl, rfl⟩

/-- A `Close` on an open handle records one `close` call, successful exactly
when nil is returned. -/
theorem Close_log {fs : FS} {f : File} (hfd : fs.fds f.fd ≠ none) :
    ∃ ok names, (f.Close fs).2.log = fs.log ++ [⟨.close f.fd, ok, names⟩] ∧
      (ok = true ↔ (f.Close fs).1 = none) := by
  unfold File.Close
  cases h : fs.fds f.fd with
  | none => exact absurd h hfd
  | some nm =>
    cases hc : fs.faults.close f.fd with
    | some flt => exact ⟨false, fs.names, by simp [FS.record], by simp⟩
    | none => exact ⟨true, fs.names, by simp [FS.record], by simp⟩

/-- A `Rename` records one `rename` call, successful exactly when nil is
returned. -/
theorem Rename_log (fs : FS) (a b : String) :
    ∃ ok names, (Rename fs a b).2.log = fs.log ++ [⟨.rename a b, ok, names⟩] ∧
      (ok = true ↔ (Rename fs a b).1 = none) := by
  unfold Rename
  split
  · exact ⟨false, _, rfl, by simp⟩
  · split
    · exact ⟨false, _, rfl, by simp⟩
    · split
      · exact ⟨true, _, rfl, by simp⟩
      · split
        · split
          · exact ⟨false, _, rfl, by simp⟩
          · split
            · exact ⟨false, _, rfl, by simp⟩
            · exact ⟨true, _, rfl, by simp⟩
        · exact ⟨true, _, rfl, by simp⟩

/-- The permission-copy step on an open handle records the `chmod` call when
`Stat` of the final name succeeds, and nothing when it fails. -/
theorem permCopy_log {fs : FS} {f : File} (hfd : fs.fds f.fd ≠ none) (finalFname : String) :
    ∃ ok steps, (permCopy fs finalFname f).log = fs.log ++ steps ∧
      calls steps = chmodCalls fs finalFname f ok ∧
      (permCopy fs finalFname f).fds f.fd ≠ none := by
  unfold permCopy chmodCalls
  cases hst : Stat fs finalFname with
  | error e => exact ⟨true, [], by simp, rfl, hfd⟩
  | ok info =>
    obtain ⟨ok, names, hl, hf⟩ := Chmod_log hfd (info.mode &&& ModePerm)
    exact ⟨ok, _, hl, rfl, by simp only; rw [hf]; exact hfd⟩

/-- C34: in every execution of `Commit` the calls on the staging file come
in the fixed order sync, (stat of the final name and the optional chmod),
close, rename.  The calls that `Commit` adds to the history are exactly one of
these five runs: on a closed handle, the remove alone; a failed sync and the
remove; a successful sync, the chmod if any, a failed close and the remove; a
successful sync, the chmod if any, a successful close, a failed rename and
the remove; a successful sync, the chmod if any, a successful close and a
successful rename.  So a rename is only made after a successful sync and a
successful close, and a chmod only when `Stat` of the final name succeeded
(`chmodCalls` is empty otherwise); `Commit` returns nil in the last run
only. -/
theorem Commit_order (fs : FS) (finalFname : String) (f : File) :
    ∃ okc okr : Bool,
      (fs.fds f.fd = none ∧ (Commit fs finalFname f).1 ≠ none ∧
        callsSince fs (Commit fs finalFname f).2 = [(.remove f.name, okr)]) ∨
      ((Commit fs finalFname f).1 ≠ none ∧
        callsSince fs (Commit fs finalFname f).2 =
          [(.sync f.fd, false), (.remove f.name, okr)]) ∨
      ((Commit fs finalFname f).1 ≠ none ∧
        callsSince fs (Commit fs finalFname f).2 =
          (.sync f.fd, true) :: chmodCalls fs finalFname f okc ++
            [(.close f.fd, false), (.remove f.name, okr)]) ∨
      ((Commit fs finalFname f).1 ≠ none ∧
        callsSince fs (Commit fs finalFname f).2 =
          (.sync f.fd, true) :: chmodCalls fs finalFname f okc ++
            [(.close f.fd, true), (.rename f.name finalFname, false),
              (.remove f.name, okr)]) ∨
      ((Commit fs finalFname f).1 = none ∧
        callsSince fs (Commit fs finalFname f).2 =
          (.sync f.fd, true) :: chmodCalls fs finalFname f okc ++
            [(.close f.fd, true), (.rename f.name finalFname, true)]) := by
  rw [Commit_eq]
  have hnames := Sync_names fs f
  have hfaults := Sync_faults fs f
  rcases Sync_log fs f with ⟨hclosed, hne, hsame⟩ | ⟨hopen, ok1, n1, hl1, hok1, hfds1⟩
  · cases hS : f.Sync fs with
    | mk e1 fs1 =>
      rw [hS] at hne hsame
      simp only at hne hsame
      cases e1 with
      | none => exact absurd rfl hne
      | some err =>
        simp only
        obtain ⟨okr, nr, hr⟩ := Remove_last fs1 f.name
        rw [hsame] at hr ⊢
        exact ⟨true, okr, Or.inl ⟨hclosed, by simp, by rw [callsSince_append hr]; rfl⟩⟩
  · cases hS : f.Sync fs with
    | mk e1 fs1 =>
      rw [hS] at hl1 hok1 hfds1 hnames hfaults
      simp only at hl1 hok1 hfds1 hnames hfaults
      cases e1 with
      | some err =>
        have hok : ok1 = false := by
          cases ok1
          · rfl
          · exact absurd (hok1.mp rfl) (by simp)
        obtain ⟨okr, nr, hr⟩ := Remove_last fs1 f.name
        have hlog : (Remove fs1 f.name).2.log =
            fs.log ++ [⟨.sync f.fd, ok1, n1⟩, ⟨.remove f.name, okr, nr⟩] := by
          rw [hr, hl1]; simp
        refine ⟨true, okr, Or.inr (Or.inl ⟨by simp, ?_⟩)⟩
        rw [callsSince_append hlog]
        simp [calls, hok]
      | none =>
        simp only
        have hok : ok1 = true := hok1.mpr rfl
        have hst : Stat fs1 finalFname = Stat fs finalFname := Stat_congr hnames hfaults _
        have hopen1 : fs1.fds f.fd ≠ none := by rw [hfds1]; exact hopen
        obtain ⟨okc, steps, hl2, hc2, hopen2⟩ := permCopy_log hopen1 finalFname
        have hch : chmodCalls fs1 finalFname f okc = chmodCalls fs finalFname f okc := by
          unfold chmodCalls; rw [hst]
        rw [hch] at hc2
        obtain ⟨ok3, n3, hl3, hok3⟩ := Close_log hopen2
        cases hC : f.Close (permCopy fs1 finalFname f) with
        | mk e3 fs3 =>
          rw [hC] at hl3 hok3
          simp only at hl3 hok3
          cases e3 with
          | some err =>
            have hok3f : ok3 = false := by
              cases ok3
              · rfl
              · exact absurd (hok3.mp rfl) (by simp)
            obtain ⟨okr, nr, hr⟩ := Remove_last fs3 f.name
            have hlog : (Remove fs3 f.name).2.log =
                fs.log ++ (⟨.sync f.fd, ok1, n1⟩ :: steps ++
                  [⟨.close f.fd, ok3, n3⟩, ⟨.remove f.name, okr, nr⟩]) := by
              rw [hr, hl3, hl2, hl1]; simp
            refine ⟨okc, okr, Or.inr (Or.inr (Or.inl ⟨by simp, ?_⟩))⟩
            rw [callsSince_append hlog, ← hc2]
            simp [calls, hok, hok3f]
          | none =>
            simp only
            have hok3t : ok3 = true := hok3.mpr rfl
            obtain ⟨ok4, n4, hl4, hok4⟩ := Rename_log fs3 f.name finalFname
            cases hR : Rename fs3 f.name finalFname with
            | mk e4 fs4 =>
              rw [hR] at hl4 hok4
              simp only at hl4 hok4
              cases e4 with
              | some err =>
                have hok4f : ok4 = false := by
                  cases ok4
                  · rfl
                  · exact absurd (hok4.mp rfl) (by simp)
                obtain ⟨okr, nr, hr⟩ := Remove_last fs4 f.name
                have hlog : (Remove fs4 f.name).2.log =
                    fs.log ++ (⟨.sync f.fd, ok1, n1⟩ :: steps ++
                      [⟨.close f.fd, ok3, n3⟩, ⟨.rename f.name finalFname, ok4, n4⟩,
                        ⟨.remove f.name, okr, nr⟩]) := by
                  rw [hr, hl4, hl3, hl2, hl1]; simp
                refine ⟨okc, okr, Or.inr (Or.inr (Or.inr (Or.inl ⟨by simp, ?_⟩)))⟩
                rw [callsSince_append hlog, ← hc2]
                simp [calls, hok, hok3t, hok4f]
              | none =>
                have hok4t : ok4 = true := hok4.mpr rfl
                have hlog : fs4.log =
                    fs.log ++ (⟨.sync f.fd, ok1, n1⟩ :: steps ++
                      [⟨.close f.fd, ok3, n3⟩, ⟨.rename f.name finalFname, ok4, n4⟩]) := by
                  rw [hl4, hl3, hl2, hl1]; simp
                refine ⟨okc, true, Or.inr (Or.inr (Or.inr (Or.inr ⟨rfl, ?_⟩)))⟩
                rw [callsSince_append hlog, ← hc2]
                simp [calls, hok, hok3t, hok4t]

/-- The runs of C34 on the `TestOverwrite` filesystem with the staging file
written: `Commit` makes the calls sync, chmod to `0644`, close and rename,
all successful; with a failing `fsync` it makes a failed sync and the
remove. -/
theorem Commit_order_TestOverwrite :
    callsSince fsOverwriteStaged (Commit fsOverwriteStaged "/tmp/d/overwrite" staging).2 =
      [(.sync 3, true), (.chmod 3 420, true), (.close 3, true),
        (.rename "/tmp/d/.new.000000007" "/tmp/d/overwrite", true)] ∧
    callsSince fsOverwriteStuck (Commit fsOverwriteStuck "/tmp/d/overwrite" staging).2 =
      [(.sync 3, false), (.remove "/tmp/d/.new.000000007", false)] := by
  constructor <;> decide

/-! # The session on a hierarchical file system -/

namespace posix

/-! ## Well-formed trees -/

theorem lookup_mem {c : String} {k : Ino} :
    ∀ (es : List (String × Ino)), es.lookup c = some k → (c, k) ∈ es := by
  intro es
  induction es with
  | nil => intro h; simp at h
  | cons e es ih =>
    intro h
    obtain ⟨a, b⟩ := e
    simp only [List.lookup] at h
    by_cases hc : c = a
    · subst hc
      simp at h
      subst h
      simp
    · have hne : (c == a) = false := by simpa using hc
      rw [hne] at h
      exact List.mem_cons_of_mem _ (ih h)

/-- A tree that passes the check `wf` is well formed. -/
theorem WF_of_wf {t : Tree} (h : t.wf = true) : t.WF := by
  unfold Tree.wf at h
  simp only [Bool.and_eq_true, decide_eq_true_eq, List.all_eq_true] at h
  obtain ⟨⟨h1, h2⟩, h3⟩ := h
  have key : ∀ (j par : Ino) (es : List (String × Ino)) (perm : FileMode),
      t.inodes[j]? = some (.dir par es perm) →
      par < t.inodes.length ∧ ∀ e ∈ es, e.2 < t.inodes.length := by
    intro j par es perm hj
    have hmem : Inode.dir par es perm ∈ t.inodes := List.getElem?_mem hj
    have := h3 _ hmem
    simpa only [Bool.and_eq_true, decide_eq_true_eq, List.all_eq_true] using this
  refine ⟨h1, h2, fun j par es perm hj => (key j par es perm hj).1, ?_, ?_⟩
  · intro d c k hk
    unfold Tree.entryAt at hk
    cases hd : t.inodes[d]? with
    | none => simp [hd] at hk
    | some node =>
      cases node with
      | dir par es perm =>
        simp only [hd] at hk
        exact (key d par es perm hd).2 _ (lookup_mem es hk)
      | file a b => simp [hd] at hk
      | symlink a => simp [hd] at hk
      | other a => simp [hd] at hk
  · intro j mode hj
    have := h3 _ (List.getElem?_mem hj)
    simpa using this

theorem WalkRel_err {X : Ino → String → Prop} {t s : Tree} (e e' : Nat) :
    WalkRel X t s (.err e) (.err e') := by
  refine ⟨?_, ?_, ?_, ?_, ?_⟩
  · intro j v h; cases h
  · intro j d c h; cases h
  · intro d c h; cases h
  · intro d c last h; cases h
  · intro _ _ j v h; cases h

theorem WalkRel_ok {X : Ino → String → Prop} {t s : Tree} {j : Ino}
    {via : Option (Ino × String)} (hj : j < t.inodes.length)
    (hvia : ∀ d c, via = some (d, c) → ¬ X d c) :
    WalkRel X t s (.ok j via) (.ok j via) := by
  refine ⟨?_, ?_, ?_, ?_, ?_⟩
  · intro j' v h _
    cases h
    exact ⟨rfl, hj⟩
  · intro j' d c h hx
    cases h
    exact absurd hx (hvia d c rfl)
  · intro d c h; cases h
  · intro d c last h; cases h
  · intro h _
    exact absurd rfl (h j via)

theorem WalkRel_missing {X : Ino → String → Prop} {t s : Tree} {d : Ino} {c : String}
    {last : Bool} (hx : ¬ X d c) :
    WalkRel X t s (.missing d c last) (.missing d c last) := by
  refine ⟨?_, ?_, ?_, ?_, ?_⟩
  · intro j v h; cases h
  · intro j d' c' h; cases h
  · intro d' c' h hx'
    cases h
    exact absurd hx' hx
  · intro d' c' last' h _
    cases h
    rfl
  · intro _ _ j v h; cases h

/-- A walk that has reached a regular file with components left fails. -/
theorem walk_file {t : Tree} {i : Ino} {data : Bytes} {perm : FileMode}
    (hi : t.inodes[i]? = some (.file data perm)) (follow : Bool) (fuel nl : Nat)
    (via : Option (Ino × String)) (c : String) (rest : List String) :
    ∃ e, t.walk follow fuel nl i via (c :: rest) = .err e := by
  cases fuel with
  | zero => exact ⟨ENAMETOOLONG, by simp [Tree.walk]⟩
  | succ fuel => exact ⟨ENOTDIR, by simp [Tree.walk, hi]⟩

/-- One step of a walk at an entry that is bound to nothing or to a regular
file. -/
theorem walk_at_leaf {t : Tree} {cur par : Ino} {es : List (String × Ino)} {perm : FileMode}
    {c : String} (hcur : t.inodes[cur]? = some (.dir par es perm)) (hc1 : c ≠ ".")
    (hc2 : c ≠ "..") (hleaf : t.fileOrNone (t.entryAt cur c)) (follow : Bool) (fuel nl : Nat)
    (via : Option (Ino × String)) (rest : List String) :
    (rest = [] → t.walk follow (fuel + 1) nl cur via (c :: rest) = t.outcome cur c) ∧
    (rest ≠ [] → (t.walk follow (fuel + 1) nl cur via (c :: rest) = .missing cur c false ∨
      ∃ e, t.walk follow (fuel + 1) nl cur via (c :: rest) = .err e)) := by
  have hent : t.entryAt cur c = es.lookup c := by simp [Tree.entryAt, hcur]
  unfold Tree.outcome
  rw [hent] at hleaf ⊢
  cases hl : es.lookup c with
  | none =>
    constructor
    · intro hr
      simp [Tree.walk, hcur, hc1, hc2, hl, hr]
    · intro hr
      left
      simp [Tree.walk, hcur, hc1, hc2, hl, hr]
  | some i =>
    rw [hl] at hleaf
    obtain ⟨data, pm, hi⟩ := hleaf
    constructor
    · intro hr
      simp [Tree.walk, hcur, hc1, hc2, hl, hr, hi]
    · intro hr
      right
      obtain ⟨c2, r2, rfl⟩ := List.exists_cons_of_ne_nil hr
      obtain ⟨e, he⟩ := walk_file hi follow fuel nl (some (cur, c)) c2 r2
      exact ⟨e, by simp [Tree.walk, hcur, hc1, hc2, hl, hi, he]⟩

theorem WalkRel_outcome {X : Ino → String → Prop} {t s : Tree} {cur : Ino} {c : String}
    (hx : X cur c) : WalkRel X t s (t.outcome cur c) (s.outcome cur c) := by
  unfold Tree.outcome
  cases ht : t.entryAt cur c with
  | none =>
    refine ⟨?_, ?_, ?_, ?_, ?_⟩
    · intro j v h; cases h
    · intro j d c' h; cases h
    · intro d c' h _
      cases h
      rfl
    · intro d c' last h hnx
      cases h
      exact absurd hx hnx
    · intro _ h
      exact absurd rfl (h cur c hx)
  | some i =>
    refine ⟨?_, ?_, ?_, ?_, ?_⟩
    · intro j v h hv
      cases h
      exact absurd hx (hv cur c rfl)
    · intro j d c' h _
      cases h
      rfl
    · intro d c' h; cases h
    · intro d c' last h; cases h
    · intro h _
      exact absurd rfl (h i (some (cur, c)))

theorem WalkRel_fail {X : Ino → String → Prop} {t s : Tree} {cur : Ino} {c : String}
    {r r' : Found} (hx : X cur c) (hr : r = .missing cur c false ∨ ∃ e, r = .err e)
    (hr' : r' = .missing cur c false ∨ ∃ e, r' = .err e) : WalkRel X t s r r' := by
  refine ⟨?_, ?_, ?_, ?_, ?_⟩
  · intro j v h
    rcases hr with hr | ⟨e, hr⟩ <;> rw [hr] at h <;> cases h
  · intro j d c' h
    rcases hr with hr | ⟨e, hr⟩ <;> rw [hr] at h <;> cases h
  · intro d c' h
    rcases hr with hr | ⟨e, hr⟩ <;> rw [hr] at h <;> cases h
  · intro d c' last h hnx
    rcases hr with hr | ⟨e, hr⟩
    · rw [hr] at h
      cases h
      exact absurd hx hnx
    · rw [hr] at h
      cases h
  · intro _ _ j v h
    rcases hr' with hr' | ⟨e, hr'⟩ <;> rw [hr'] at h <;> cases h

/-- The lookup in two trees that agree off `X`: the walks are related step
by step. -/
theorem walk_agree {X : Ino → String → Prop} {t s : Tree} (hwf : t.WF) (h : AgreeOff X t s)
    (follow : Bool) :
    ∀ (fuel nl : Nat) (cur : Ino) (via : Option (Ino × String)) (cs : List String),
      cur < t.inodes.length → (∀ d c, via = some (d, c) → ¬ X d c) →
      WalkRel X t s (t.walk follow fuel nl cur via cs) (s.walk follow fuel nl cur via cs) := by
  intro fuel
  induction fuel with
  | zero =>
    intro nl cur via cs hcur hvia
    cases cs with
    | nil =>
      simp only [Tree.walk]
      exact WalkRel_ok hcur hvia
    | cons c rest =>
      simp only [Tree.walk]
      exact WalkRel_err _ _
  | succ fuel ih =>
    intro nl cur via cs hcur hvia
    cases cs with
    | nil =>
      simp only [Tree.walk]
      exact WalkRel_ok hcur hvia
    | cons c rest =>
      obtain ⟨node, hnode⟩ : ∃ node, t.inodes[cur]? = some node :=
        ⟨t.inodes[cur], List.getElem?_eq_getElem hcur⟩
      by_cases hdir : ∃ par es perm, node = .dir par es perm
      · obtain ⟨par, es, perm, rfl⟩ := hdir
        obtain ⟨es', hs, hlook⟩ := h.dirs cur par es perm hnode
        by_cases hc1 : c = "."
        · have e1 : t.walk follow (fuel + 1) nl cur via (c :: rest) =
              t.walk follow fuel nl cur none rest := by simp [Tree.walk, hnode, hc1]
          have e2 : s.walk follow (fuel + 1) nl cur via (c :: rest) =
              s.walk follow fuel nl cur none rest := by simp [Tree.walk, hs, hc1]
          rw [e1, e2]
          exact ih nl cur none rest hcur (fun d c h => by cases h)
        · by_cases hc2 : c = ".."
          · have e1 : t.walk follow (fuel + 1) nl cur via (c :: rest) =
                t.walk follow fuel nl par none rest := by simp [Tree.walk, hnode, hc2]
            have e2 : s.walk follow (fuel + 1) nl cur via (c :: rest) =
                s.walk follow fuel nl par none rest := by simp [Tree.walk, hs, hc2]
            rw [e1, e2]
            exact ih nl par none rest (hwf.parent_lt cur par es perm hnode)
              (fun d c h => by cases h)
          · by_cases hx : X cur c
            · have lt := walk_at_leaf hnode hc1 hc2 (h.offT cur c hx) follow fuel nl via rest
              have ls := walk_at_leaf hs hc1 hc2 (h.offS cur c hx) follow fuel nl via rest
              by_cases hr : rest = []
              · rw [lt.1 hr, ls.1 hr]
                exact WalkRel_outcome hx
              · exact WalkRel_fail hx (lt.2 hr) (ls.2 hr)
            · have hl := hlook c hx
              cases hlk : es.lookup c with
              | none =>
                have e1 : t.walk follow (fuel + 1) nl cur via (c :: rest) =
                    .missing cur c (decide (rest = [])) := by
                  simp [Tree.walk, hnode, hc1, hc2, hlk]
                have e2 : s.walk follow (fuel + 1) nl cur via (c :: rest) =
                    .missing cur c (decide (rest = [])) := by
                  simp [Tree.walk, hs, hc1, hc2, hl, hlk]
                rw [e1, e2]
                exact WalkRel_missing hx
              | some i =>
                have hi : i < t.inodes.length :=
                  hwf.entry_lt cur c i (by simp [Tree.entryAt, hnode, hlk])
                obtain ⟨nodei, hnodei⟩ : ∃ nodei, t.inodes[i]? = some nodei :=
                  ⟨t.inodes[i], List.getElem?_eq_getElem hi⟩
                cases nodei with
                | symlink text =>
                  have hsi := h.keep i _ hnodei (fun _ _ _ hh => by cases hh)
                  by_cases hlast : rest = [] ∧ follow = false
                  · have e1 : t.walk follow (fuel + 1) nl cur via (c :: rest) =
                        .ok i (some (cur, c)) := by
                      simp [Tree.walk, hnode, hc1, hc2, hlk, hnodei, hlast.1, hlast.2]
                    have e2 : s.walk follow (fuel + 1) nl cur via (c :: rest) =
                        .ok i (some (cur, c)) := by
                      simp [Tree.walk, hs, hc1, hc2, hl, hlk, hsi, hlast.1, hlast.2]
                    rw [e1, e2]
                    exact WalkRel_ok hi (fun d c' hh => by cases hh; exact hx)
                  · by_cases hnl : nl ≥ MAXSYMLINKS
                    · have e1 : t.walk follow (fuel + 1) nl cur via (c :: rest) =
                          .err ELOOP := by
                        simp only [Tree.walk, hnode, hc1, hc2, hlk, hnodei, if_false, hlast]
                        simp [hnl]
                      have e2 : s.walk follow (fuel + 1) nl cur via (c :: rest) =
                          .err ELOOP := by
                        simp only [Tree.walk, hs, hc1, hc2, hl, hlk, hsi, if_false, hlast]
                        simp [hnl]
                      rw [e1, e2]
                      exact WalkRel_err _ _
                    · by_cases htext : text = ""
                      · have e1 : t.walk follow (fuel + 1) nl cur via (c :: rest) =
                            .err ENOENT := by
                          simp only [Tree.walk, hnode, hc1, hc2, hlk, hnodei, if_false, hlast]
                          simp [hnl, htext]
                        have e2 : s.walk follow (fuel + 1) nl cur via (c :: rest) =
                            .err ENOENT := by
                          simp only [Tree.walk, hs, hc1, hc2, hl, hlk, hsi, if_false, hlast]
                          simp [hnl, htext]
                        rw [e1, e2]
                        exact WalkRel_err _ _
                      · have e1 : t.walk follow (fuel + 1) nl cur via (c :: rest) =
                            t.walk follow fuel (nl + 1)
                              (if filepath.IsAbs text then t.root else cur) none
                              (comps text ++ rest) := by
                          simp only [Tree.walk, hnode, hc1, hc2, hlk, hnodei, if_false, hlast]
                          simp [hnl, htext]
                        have e2 : s.walk follow (fuel + 1) nl cur via (c :: rest) =
                            s.walk follow fuel (nl + 1)
                              (if filepath.IsAbs text then t.root else cur) none
                              (comps text ++ rest) := by
                          simp only [Tree.walk, hs, hc1, hc2, hl, hlk, hsi, if_false, hlast]
                          simp [hnl, htext, h.root]
                        rw [e1, e2]
                        refine ih (nl + 1) _ none _ ?_ (fun d c h => by cases h)
                        split
                        · exact hwf.root_lt
                        · exact hcur
                | file data pm =>
                  have hsi := h.keep i _ hnodei (fun _ _ _ hh => by cases hh)
                  have e1 : t.walk follow (fuel + 1) nl cur via (c :: rest) =
                      t.walk follow fuel nl i (some (cur, c)) rest := by
                    simp [Tree.walk, hnode, hc1, hc2, hlk, hnodei]
                  have e2 : s.walk follow (fuel + 1) nl cur via (c :: rest) =
                      s.walk follow fuel nl i (some (cur, c)) rest := by
                    simp [Tree.walk, hs, hc1, hc2, hl, hlk, hsi]
                  rw [e1, e2]
                  exact ih nl i _ rest hi (fun d c' hh => by cases hh; exact hx)
                | other m =>
                  have hsi := h.keep i _ hnodei (fun _ _ _ hh => by cases hh)
                  have e1 : t.walk follow (fuel + 1) nl cur via (c :: rest) =
                      t.walk follow fuel nl i (some (cur, c)) rest := by
                    simp [Tree.walk, hnode, hc1, hc2, hlk, hnodei]
                  have e2 : s.walk follow (fuel + 1) nl cur via (c :: rest) =
                      s.walk follow fuel nl i (some (cur, c)) rest := by
                    simp [Tree.walk, hs, hc1, hc2, hl, hlk, hsi]
                  rw [e1, e2]
                  exact ih nl i _ rest hi (fun d c' hh => by cases hh; exact hx)
                | dir p2 es2 pm2 =>
                  obtain ⟨es2', hsi, _⟩ := h.dirs i p2 es2 pm2 hnodei
                  have e1 : t.walk follow (fuel + 1) nl cur via (c :: rest) =
                      t.walk follow fuel nl i (some (cur, c)) rest := by
                    simp [Tree.walk, hnode, hc1, hc2, hlk, hnodei]
                  have e2 : s.walk follow (fuel + 1) nl cur via (c :: rest) =
                      s.walk follow fuel nl i (some (cur, c)) rest := by
                    simp [Tree.walk, hs, hc1, hc2, hl, hlk, hsi]
                  rw [e1, e2]
                  exact ih nl i _ rest hi (fun d c' hh => by cases hh; exact hx)
      · have hsn := h.keep cur node hnode (fun par es perm hh => hdir ⟨par, es, perm, hh⟩)
        have e1 : t.walk follow (fuel + 1) nl cur via (c :: rest) = .err ENOTDIR := by
          cases node with
          | dir par es perm => exact absurd ⟨par, es, perm, rfl⟩ hdir
          | file a b => simp [Tree.walk, hnode]
          | symlink a => simp [Tree.walk, hnode]
          | other a => simp [Tree.walk, hnode]
        have e2 : s.walk follow (fuel + 1) nl cur via (c :: rest) = .err ENOTDIR := by
          cases node with
          | dir par es perm => exact absurd ⟨par, es, perm, rfl⟩ hdir
          | file a b => simp [Tree.walk, hsn]
          | symlink a => simp [Tree.walk, hsn]
          | other a => simp [Tree.walk, hsn]
        rw [e1, e2]
        exact WalkRel_err _ _

theorem ViaRel_err (t : Tree) (e : Nat) : ViaRel t (.err e) :=
  ⟨fun j d c h => (by cases h), fun d c last h => (by cases h)⟩

/-- The entry through which a walk reached its inode is bound to that
inode, and a walk fails with `missing` at an unbound entry of a directory. -/
theorem walk_via {t : Tree} (follow : Bool) :
    ∀ (fuel nl : Nat) (cur : Ino) (via : Option (Ino × String)) (cs : List String),
      (∀ d c, via = some (d, c) → t.entryAt d c = some cur) →
      ViaRel t (t.walk follow fuel nl cur via cs) := by
  have hok : ∀ (cur : Ino) (via : Option (Ino × String)),
      (∀ d c, via = some (d, c) → t.entryAt d c = some cur) → ViaRel t (.ok cur via) := by
    intro cur via hvia
    refine ⟨?_, fun d c last h => by cases h⟩
    intro j d c h
    cases h
    exact hvia d c rfl
  have hnone : ∀ d c (x : Ino), (none : Option (Ino × String)) = some (d, c) →
      t.entryAt d c = some x := fun d c x h => by cases h
  intro fuel
  induction fuel with
  | zero =>
    intro nl cur via cs hvia
    cases cs with
    | nil =>
      have e1 : t.walk follow 0 nl cur via [] = .ok cur via := by simp [Tree.walk]
      rw [e1]
      exact hok cur via hvia
    | cons c rest =>
      have e1 : t.walk follow 0 nl cur via (c :: rest) = .err ENAMETOOLONG := by
        simp [Tree.walk]
      rw [e1]
      exact ViaRel_err t _
  | succ fuel ih =>
    intro nl cur via cs hvia
    cases cs with
    | nil =>
      have e1 : t.walk follow (fuel + 1) nl cur via [] = .ok cur via := by simp [Tree.walk]
      rw [e1]
      exact hok cur via hvia
    | cons c rest =>
      have hnd : (∀ par es perm, t.inodes[cur]? ≠ some (.dir par es perm)) →
          t.walk follow (fuel + 1) nl cur via (c :: rest) = .err ENOTDIR := by
        intro h
        cases hnode : t.inodes[cur]? with
        | none => simp [Tree.walk, hnode]
        | some node =>
          cases node with
          | dir par es perm => exact absurd hnode (h par es perm)
          | file a b => simp [Tree.walk, hnode]
          | symlink a => simp [Tree.walk, hnode]
          | other a => simp [Tree.walk, hnode]
      by_cases hdir : ∃ par es perm, t.inodes[cur]? = some (.dir par es perm)
      · obtain ⟨par, es, perm, hnode⟩ := hdir
        by_cases hc1 : c = "."
        · have e1 : t.walk follow (fuel + 1) nl cur via (c :: rest) =
              t.walk follow fuel nl cur none rest := by simp [Tree.walk, hnode, hc1]
          rw [e1]
          exact ih nl cur none rest (fun d c => hnone d c cur)
        · by_cases hc2 : c = ".."
          · have e1 : t.walk follow (fuel + 1) nl cur via (c :: rest) =
                t.walk follow fuel nl par none rest := by simp [Tree.walk, hnode, hc2]
            rw [e1]
            exact ih nl par none rest (fun d c => hnone d c par)
          · have hent : t.entryAt cur c = es.lookup c := by simp [Tree.entryAt, hnode]
            cases hlk : es.lookup c with
            | none =>
              have e1 : t.walk follow (fuel + 1) nl cur via (c :: rest) =
                  .missing cur c (decide (rest = [])) := by
                simp [Tree.walk, hnode, hc1, hc2, hlk]
              rw [e1]
              refine ⟨fun j d c h => (by cases h), ?_⟩
              intro d c' last h
              cases h
              exact ⟨by rw [hent, hlk], par, es, perm, hnode⟩
            | some i =>
              have hvi : ∀ d c', some (cur, c) = some (d, c') → t.entryAt d c' = some i := by
                intro d c' h
                cases h
                rw [hent, hlk]
              by_cases hsym : ∃ text, t.inodes[i]? = some (.symlink text)
              · obtain ⟨text, hnodei⟩ := hsym
                by_cases hlast : rest = [] ∧ follow = false
                · have e1 : t.walk follow (fuel + 1) nl cur via (c :: rest) =
                      .ok i (some (cur, c)) := by
                    simp [Tree.walk, hnode, hc1, hc2, hlk, hnodei, hlast.1, hlast.2]
                  rw [e1]
                  exact hok i _ hvi
                · by_cases hnl : nl ≥ MAXSYMLINKS
                  · have e1 : t.walk follow (fuel + 1) nl cur via (c :: rest) =
                        .err ELOOP := by
                      simp only [Tree.walk, hnode, hc1, hc2, hlk, hnodei, if_false, hlast]
                      simp [hnl]
                    rw [e1]
                    exact ViaRel_err t _
                  · by_cases htext : text = ""
                    · have e1 : t.walk follow (fuel + 1) nl cur via (c :: rest) =
                          .err ENOENT := by
                        simp only [Tree.walk, hnode, hc1, hc2, hlk, hnodei, if_false, hlast]
                        simp [hnl, htext]
                      rw [e1]
                      exact ViaRel_err t _
                    · have e1 : t.walk follow (fuel + 1) nl cur via (c :: rest) =
                          t.walk follow fuel (nl + 1)
                            (if filepath.IsAbs text then t.root else cur) none
                            (comps text ++ rest) := by
                        simp only [Tree.walk, hnode, hc1, hc2, hlk, hnodei, if_false, hlast]
                        simp [hnl, htext]
                      rw [e1]
                      exact ih (nl + 1) _ none _ (fun d c => hnone d c _)
              · have e1 : t.walk follow (fuel + 1) nl cur via (c :: rest) =
                    t.walk follow fuel nl i (some (cur, c)) rest := by
                  cases hnodei : t.inodes[i]? with
                  | none => simp [Tree.walk, hnode, hc1, hc2, hlk, hnodei]
                  | some nodei =>
                    cases nodei with
                    | symlink text => exact absurd ⟨text, hnodei⟩ hsym
                    | file a b => simp [Tree.walk, hnode, hc1, hc2, hlk, hnodei]
                    | other a => simp [Tree.walk, hnode, hc1, hc2, hlk, hnodei]
                    | dir a b c' => simp [Tree.walk, hnode, hc1, hc2, hlk, hnodei]
                rw [e1]
                exact ih nl i _ rest hvi
      · rw [hnd (fun par es perm h => hdir ⟨par, es, perm, h⟩)]
        exact ViaRel_err t _

/-- A lookup that does not end at a symbolic link has the same outcome
whether or not a link in the last component is followed. -/
theorem walk_follow {t : Tree} :
    ∀ (fuel nl : Nat) (cur : Ino) (via : Option (Ino × String)) (cs : List String),
      (∀ j v text, t.walk false fuel nl cur via cs = .ok j v →
        t.inodes[j]? ≠ some (.symlink text)) →
      t.walk true fuel nl cur via cs = t.walk false fuel nl cur via cs := by
  intro fuel
  induction fuel with
  | zero =>
    intro nl cur via cs _
    cases cs <;> simp [Tree.walk]
  | succ fuel ih =>
    intro nl cur via cs hns
    cases cs with
    | nil => simp [Tree.walk]
    | cons c rest =>
      cases hnode : t.inodes[cur]? with
      | none => simp [Tree.walk, hnode]
      | some node =>
        cases node with
        | file a b => simp [Tree.walk, hnode]
        | symlink a => simp [Tree.walk, hnode]
        | other a => simp [Tree.walk, hnode]
        | dir par es perm =>
          by_cases hc1 : c = "."
          · have e1 : ∀ fl, t.walk fl (fuel + 1) nl cur via (c :: rest) =
                t.walk fl fuel nl cur none rest := by
              intro fl; simp [Tree.walk, hnode, hc1]
            rw [e1, e1]
            rw [e1] at hns
            exact ih nl cur none rest hns
          · by_cases hc2 : c = ".."
            · have e1 : ∀ fl, t.walk fl (fuel + 1) nl cur via (c :: rest) =
                  t.walk fl fuel nl par none rest := by
                intro fl; simp [Tree.walk, hnode, hc2]
              rw [e1, e1]
              rw [e1] at hns
              exact ih nl par none rest hns
            · cases hlk : es.lookup c with
              | none => simp [Tree.walk, hnode, hc1, hc2, hlk]
              | some i =>
                cases hnodei : t.inodes[i]? with
                | none =>
                  have e1 : ∀ fl, t.walk fl (fuel + 1) nl cur via (c :: rest) =
                      t.walk fl fuel nl i (some (cur, c)) rest := by
                    intro fl; simp [Tree.walk, hnode, hc1, hc2, hlk, hnodei]
                  rw [e1, e1]
                  rw [e1] at hns
                  exact ih nl i _ rest hns
                | some nodei =>
                  cases nodei with
                  | symlink text =>
                    by_cases hr : rest = []
                    · exfalso
                      have e1 : t.walk false (fuel + 1) nl cur via (c :: rest) =
                          .ok i (some (cur, c)) := by
                        simp [Tree.walk, hnode, hc1, hc2, hlk, hnodei, hr]
                      exact hns i _ text e1 hnodei
                    · by_cases hnl : nl ≥ MAXSYMLINKS
                      · have e1 : ∀ fl, t.walk fl (fuel + 1) nl cur via (c :: rest) =
                            .err ELOOP := by
                          intro fl
                          simp only [Tree.walk, hnode, hc1, hc2, hlk, hnodei, if_false, hr,
                            false_and]
                          simp [hnl]
                        rw [e1, e1]
                      · by_cases htext : text = ""
                        · have e1 : ∀ fl, t.walk fl (fuel + 1) nl cur via (c :: rest) =
                              .err ENOENT := by
                            intro fl
                            simp only [Tree.walk, hnode, hc1, hc2, hlk, hnodei, if_false, hr,
                              false_and]
                            simp [hnl, htext]
                          rw [e1, e1]
                        · have e1 : ∀ fl, t.walk fl (fuel + 1) nl cur via (c :: rest) =
                              t.walk fl fuel (nl + 1)
                                (if filepath.IsAbs text then t.root else cur) none
                                (comps text ++ rest) := by
                            intro fl
                            simp only [Tree.walk, hnode, hc1, hc2, hlk, hnodei, if_false, hr,
                              false_and]
                            simp [hnl, htext]
                          rw [e1, e1]
                          rw [e1] at hns
                          exact ih (nl + 1) _ none _ hns
                  | file data pm =>
                    have e1 : ∀ fl, t.walk fl (fuel + 1) nl cur via (c :: rest) =
                        t.walk fl fuel nl i (some (cur, c)) rest := by
                      intro fl; simp [Tree.walk, hnode, hc1, hc2, hlk, hnodei]
                    rw [e1, e1]
                    rw [e1] at hns
                    exact ih nl i _ rest hns
                  | other m =>
                    have e1 : ∀ fl, t.walk fl (fuel + 1) nl cur via (c :: rest) =
                        t.walk fl fuel nl i (some (cur, c)) rest := by
                      intro fl; simp [Tree.walk, hnode, hc1, hc2, hlk, hnodei]
                    rw [e1, e1]
                    rw [e1] at hns
                    exact ih nl i _ rest hns
                  | dir p2 es2 pm2 =>
                    have e1 : ∀ fl, t.walk fl (fuel + 1) nl cur via (c :: rest) =
                        t.walk fl fuel nl i (some (cur, c)) rest := by
                      intro fl; simp [Tree.walk, hnode, hc1, hc2, hlk, hnodei]
                    rw [e1, e1]
                    rw [e1] at hns
                    exact ih nl i _ rest hns

/-! ## Lookups in trees that agree off some entries -/

theorem lookup_agree {X : Ino → String → Prop} {t s : Tree} (hwf : t.WF) (h : AgreeOff X t s)
    (follow : Bool) (path : String) :
    WalkRel X t s (t.lookup follow path) (s.lookup follow path) := by
  unfold Tree.lookup
  by_cases hp : path = ""
  · simp only [hp, if_true]
    exact WalkRel_err _ _
  · simp only [hp, if_false, h.root, h.cwd]
    refine walk_agree hwf h follow _ _ _ none _ ?_ (fun d c hh => by cases hh)
    split
    · exact hwf.root_lt
    · exact hwf.cwd_lt

theorem lookup_via (t : Tree) (follow : Bool) (path : String) :
    ViaRel t (t.lookup follow path) := by
  unfold Tree.lookup
  by_cases hp : path = ""
  · simp only [hp, if_true]
    exact ViaRel_err t _
  · simp only [hp, if_false]
    exact walk_via follow _ _ _ none _ (fun d c hh => by cases hh)

theorem lookup_follow {t : Tree} {path : String}
    (h : ∀ j v text, t.lookup false path = .ok j v → t.inodes[j]? ≠ some (.symlink text)) :
    t.lookup true path = t.lookup false path := by
  unfold Tree.lookup at h ⊢
  by_cases hp : path = ""
  · simp only [hp, if_true]
  · simp only [hp, if_false] at h ⊢
    exact walk_follow _ _ _ none _ h

theorem read_of_not_ok {t : Tree} {path : String}
    (h : ∀ j v, t.lookup true path ≠ .ok j v) : t.read path = none := by
  unfold Tree.read
  cases hr : t.lookup true path with
  | ok j v => exact absurd hr (h j v)
  | missing d c last => rfl
  | err e => rfl

/-- A path whose lookup does not end at an entry in `X` leads to the same
inode, and shows the same content, in two trees that agree off `X`. -/
theorem read_agree {X : Ino → String → Prop} {t s : Tree} (hwf : t.WF) (h : AgreeOff X t s)
    (path : String) (hmiss : ∀ d c, X d c → t.lookup true path ≠ .missing d c true)
    (hok : ∀ j d c, X d c → t.lookup true path ≠ .ok j (some (d, c))) :
    s.read path = t.read path ∧
    (∀ j v, t.lookup true path = .ok j v → s.lookup true path = .ok j v) ∧
    ((∀ j v, t.lookup true path ≠ .ok j v) → ∀ j v, s.lookup true path ≠ .ok j v) := by
  obtain ⟨c1, _, _, _, c5⟩ := lookup_agree hwf h true path
  cases hr : t.lookup true path with
  | ok j v =>
    have hv : ∀ d c, v = some (d, c) → ¬ X d c := by
      intro d c hvv hx
      rw [hvv] at hr
      exact hok j d c hx hr
    obtain ⟨hs, hj⟩ := c1 j v hr hv
    refine ⟨?_, ?_, ?_⟩
    · unfold Tree.read
      rw [hr, hs]
      obtain ⟨node, hnode⟩ : ∃ node, t.inodes[j]? = some node :=
        ⟨t.inodes[j], List.getElem?_eq_getElem hj⟩
      cases node with
      | dir par es perm =>
        obtain ⟨es', hsd, _⟩ := h.dirs j par es perm hnode
        simp only [hnode, hsd]
      | file a b =>
        simp only [h.keep j _ hnode (fun _ _ _ hh => by cases hh), hnode]
      | symlink a =>
        simp only [h.keep j _ hnode (fun _ _ _ hh => by cases hh), hnode]
      | other a =>
        simp only [h.keep j _ hnode (fun _ _ _ hh => by cases hh), hnode]
    · intro j' v' hh
      cases hh
      exact hs
    · intro hh
      exact absurd rfl (hh j v)
  | missing d c last =>
    have hno : ∀ j v, s.lookup true path ≠ .ok j v := by
      refine c5 (fun j v hh => ?_) (fun d' c' hx hh => hmiss d' c' hx hh)
      rw [hr] at hh
      cases hh
    refine ⟨?_, ?_, fun _ => hno⟩
    · rw [read_of_not_ok hno]
      unfold Tree.read
      rw [hr]
    · intro j v hh
      cases hh
  | err e =>
    have hno : ∀ j v, s.lookup true path ≠ .ok j v := by
      refine c5 (fun j v hh => ?_) (fun d' c' hx hh => hmiss d' c' hx hh)
      rw [hr] at hh
      cases hh
    refine ⟨?_, ?_, fun _ => hno⟩
    · rw [read_of_not_ok hno]
      unfold Tree.read
      rw [hr]
    · intro j v hh
      cases hh

/-! ## Changing the tree -/

theorem lookup_filter_ne (n c : String) :
    ∀ es : List (String × Ino),
      (es.filter fun e => e.1 ≠ n).lookup c = if c = n then none else es.lookup c := by
  intro es
  induction es with
  | nil => simp
  | cons e es ih =>
    obtain ⟨a, b⟩ := e
    by_cases ha : a = n
    · subst ha
      simp only [List.filter, ne_eq, not_true_eq_false, decide_False]
      rw [ih]
      by_cases hc : c = a
      · simp [hc]
      · have : (c == a) = false := by simpa using hc
        simp [hc, List.lookup, this]
    · have hd : decide (a ≠ n) = true := by simpa using ha
      simp only [List.filter, hd, List.lookup]
      by_cases hc : c = a
      · subst hc
        simp [ha]
      · have : (c == a) = false := by simpa using hc
        rw [this]
        exact ih

theorem lookup_bindEntry (es : List (String × Ino)) (n : String) (i : Ino) (c : String) :
    (bindEntry es n i).lookup c = if c = n then some i else es.lookup c := by
  unfold bindEntry
  by_cases hc : c = n
  · subst hc
    simp [List.lookup]
  · have : (c == n) = false := by simpa using hc
    simp only [List.lookup, this, hc, if_false]
    rw [lookup_filter_ne, if_neg hc]

theorem lookup_dropEntry (es : List (String × Ino)) (n : String) (c : String) :
    (dropEntry es n).lookup c = if c = n then none else es.lookup c :=
  lookup_filter_ne n c es

theorem entryAt_dir {t : Tree} {d par : Ino} {es : List (String × Ino)} {perm : FileMode}
    (h : t.inodes[d]? = some (.dir par es perm)) (c : String) :
    t.entryAt d c = es.lookup c := by
  simp [Tree.entryAt, h]

theorem entryAt_not_dir {t : Tree} {d : Ino}
    (h : ∀ par es perm, t.inodes[d]? ≠ some (.dir par es perm)) (c : String) :
    t.entryAt d c = none := by
  unfold Tree.entryAt
  cases hn : t.inodes[d]? with
  | none => rfl
  | some node =>
    cases node with
    | dir par es perm => exact absurd hn (h par es perm)
    | file a b => rfl
    | symlink a => rfl
    | other a => rfl

theorem AgreeOff.agree_self {X : Ino → String → Prop} {t : Tree}
    (hX : ∀ d c, X d c → t.fileOrNone (t.entryAt d c)) : AgreeOff X t t :=
  ⟨rfl, rfl, fun _ _ h _ => h, fun _ par es perm h => ⟨es, h, fun _ _ => rfl⟩, hX, hX⟩

/-- A change of `s` that leaves every inode of `t` as it is, but for the
entries in `X`, keeps the agreement with `t`. -/
theorem AgreeOff.agree_step {X : Ino → String → Prop} {t s s' : Tree} (h : AgreeOff X t s)
    (hroot : s'.root = s.root) (hcwd : s'.cwd = s.cwd)
    (hkeep : ∀ (j : Ino) (node : Inode), j < t.inodes.length → s.inodes[j]? = some node →
      (∀ (par : Ino) (es : List (String × Ino)) (perm : FileMode), node ≠ .dir par es perm) →
      s'.inodes[j]? = some node)
    (hdirs : ∀ (j par : Ino) (es : List (String × Ino)) (perm : FileMode),
      j < t.inodes.length → s.inodes[j]? = some (.dir par es perm) →
      ∃ es', s'.inodes[j]? = some (.dir par es' perm) ∧
        ∀ c, ¬ X j c → es'.lookup c = es.lookup c)
    (hoff : ∀ d c, X d c → s'.fileOrNone (s'.entryAt d c)) : AgreeOff X t s' := by
  refine ⟨by rw [hroot, h.root], by rw [hcwd, h.cwd], ?_, ?_, h.offT, hoff⟩
  · intro j node hj hnd
    exact hkeep j node (List.getElem?_eq_some_iff.mp hj).1 (h.keep j node hj hnd) hnd
  · intro j par es perm hj
    obtain ⟨es1, h1, h2⟩ := h.dirs j par es perm hj
    obtain ⟨es2, h3, h4⟩ := hdirs j par es1 perm (List.getElem?_eq_some_iff.mp hj).1 h1
    exact ⟨es2, h3, fun c hc => by rw [h4 c hc, h2 c hc]⟩

/-- Trees that agree off `X` and also on the entries in `X` agree
everywhere. -/
theorem AgreeOff.agree_all {X : Ino → String → Prop} {t s : Tree} (h : AgreeOff X t s)
    (hX : ∀ d c, X d c → s.entryAt d c = t.entryAt d c) :
    AgreeOff (fun _ _ => False) t s := by
  refine ⟨h.root, h.cwd, h.keep, ?_, fun _ _ hh => hh.elim, fun _ _ hh => hh.elim⟩
  intro j par es perm hj
  obtain ⟨es', h1, h2⟩ := h.dirs j par es perm hj
  refine ⟨es', h1, fun c _ => ?_⟩
  by_cases hx : X j c
  · have := hX j c hx
    rw [entryAt_dir h1, entryAt_dir hj] at this
    exact this
  · exact h2 c hx

theorem bind_dir {t : Tree} {d par : Ino} {es : List (String × Ino)} {perm : FileMode}
    (h : t.inodes[d]? = some (.dir par es perm)) (c : String) (i : Ino) :
    t.bind d c i = { t with inodes := t.inodes.set d (.dir par (bindEntry es c i) perm) } := by
  simp [Tree.bind, h]

theorem unbind_dir {t : Tree} {d par : Ino} {es : List (String × Ino)} {perm : FileMode}
    (h : t.inodes[d]? = some (.dir par es perm)) (c : String) :
    t.unbind d c = { t with inodes := t.inodes.set d (.dir par (dropEntry es c) perm) } := by
  simp [Tree.unbind, h]

theorem unbind_not_dir {t : Tree} {d : Ino}
    (h : ∀ par es perm, t.inodes[d]? ≠ some (.dir par es perm)) (c : String) :
    t.unbind d c = t := by
  unfold Tree.unbind
  cases hn : t.inodes[d]? with
  | none => rfl
  | some node =>
    cases node with
    | dir par es perm => exact absurd hn (h par es perm)
    | file a b => rfl
    | symlink a => rfl
    | other a => rfl

/-- The inodes of a tree after its entry `c` of directory `d` is changed. -/
theorem set_dir_inodes {t : Tree} {d par : Ino} {es es' : List (String × Ino)}
    {perm : FileMode} (h : t.inodes[d]? = some (.dir par es perm)) :
    (t.inodes.set d (.dir par es' perm))[d]? = some (.dir par es' perm) ∧
    (∀ j, j ≠ d → (t.inodes.set d (.dir par es' perm))[j]? = t.inodes[j]?) ∧
    (t.inodes.set d (.dir par es' perm)).length = t.inodes.length := by
  have hd := (List.getElem?_eq_some_iff.mp h).1
  refine ⟨by simp [List.getElem?_set, hd], ?_, by simp⟩
  intro j hj
  simp [List.getElem?_set, hj.symm]

/-- The entries of a tree after entry `c` of directory `d` is given the
value that `f` computes from the entries of `d`. -/
theorem entryAt_set_dir {t : Tree} {d par : Ino} {es es' : List (String × Ino)}
    {perm : FileMode} (h : t.inodes[d]? = some (.dir par es perm)) (d' : Ino) (c' : String) :
    Tree.entryAt { t with inodes := t.inodes.set d (.dir par es' perm) } d' c' =
      if d' = d then es'.lookup c' else t.entryAt d' c' := by
  obtain ⟨h1, h2, _⟩ := @set_dir_inodes t d par es es' perm h
  by_cases hd : d' = d
  · subst hd
    simp only [if_true]
    exact entryAt_dir h1 c'
  · simp only [hd, if_false, Tree.entryAt]
    rw [h2 d' hd]

theorem entryAt_bind {t : Tree} {d par : Ino} {es : List (String × Ino)} {perm : FileMode}
    (h : t.inodes[d]? = some (.dir par es perm)) (c : String) (i : Ino) (d' : Ino)
    (c' : String) :
    (t.bind d c i).entryAt d' c' = if d' = d ∧ c' = c then some i else t.entryAt d' c' := by
  rw [bind_dir h, entryAt_set_dir h, lookup_bindEntry]
  by_cases hd : d' = d
  · subst hd
    by_cases hc : c' = c
    · simp [hc]
    · simp [hc, entryAt_dir h]
  · simp [hd]

theorem entryAt_unbind (t : Tree) (d : Ino) (c : String) (d' : Ino) (c' : String) :
    (t.unbind d c).entryAt d' c' = if d' = d ∧ c' = c then none else t.entryAt d' c' := by
  by_cases hdir : ∃ par es perm, t.inodes[d]? = some (.dir par es perm)
  · obtain ⟨par, es, perm, h⟩ := hdir
    rw [unbind_dir h, entryAt_set_dir h, lookup_dropEntry]
    by_cases hd : d' = d
    · subst hd
      by_cases hc : c' = c
      · simp [hc]
      · simp [hc, entryAt_dir h]
    · simp [hd]
  · have hnd : ∀ par es perm, t.inodes[d]? ≠ some (.dir par es perm) :=
      fun par es perm hh => hdir ⟨par, es, perm, hh⟩
    rw [unbind_not_dir hnd]
    by_cases hd : d' = d ∧ c' = c
    · rw [if_pos hd, hd.1]
      exact entryAt_not_dir hnd c'
    · rw [if_neg hd]

/-- An inode that is not the directory `d` is not touched when an entry of
`d` is bound or unbound; a regular file never is. -/
theorem inodes_bind (t : Tree) (d : Ino) (c : String) (i j : Ino)
    (h : j ≠ d ∨ ∃ data perm, t.inodes[j]? = some (.file data perm)) :
    (t.bind d c i).inodes[j]? = t.inodes[j]? := by
  unfold Tree.bind
  cases hn : t.inodes[d]? with
  | none => rfl
  | some node =>
    cases node with
    | dir par es perm =>
      have hjd : j ≠ d := by
        rcases h with h | ⟨data, pm, h⟩
        · exact h
        · intro hh
          rw [hh, hn] at h
          cases h
      exact (set_dir_inodes hn).2.1 j hjd
    | file a b => rfl
    | symlink a => rfl
    | other a => rfl

theorem inodes_unbind (t : Tree) (d : Ino) (c : String) (j : Ino)
    (h : j ≠ d ∨ ∃ data perm, t.inodes[j]? = some (.file data perm)) :
    (t.unbind d c).inodes[j]? = t.inodes[j]? := by
  unfold Tree.unbind
  cases hn : t.inodes[d]? with
  | none => rfl
  | some node =>
    cases node with
    | dir par es perm =>
      have hjd : j ≠ d := by
        rcases h with h | ⟨data, pm, h⟩
        · exact h
        · intro hh
          rw [hh, hn] at h
          cases h
      exact (set_dir_inodes hn).2.1 j hjd
    | file a b => rfl
    | symlink a => rfl
    | other a => rfl

theorem getElem?_append_one (l : List Inode) (a : Inode) (j : Nat) :
    (l ++ [a])[j]? = if j = l.length then some a else l[j]? := by
  by_cases h : j < l.length
  · have hne : j ≠ l.length := by omega
    simp [List.getElem?_append, h, hne]
  · by_cases h2 : j = l.length
    · subst h2
      simp
    · have h3 : l.length < j := by omega
      have e1 : (l ++ [a])[j]? = none := List.getElem?_eq_none (by simp; omega)
      have e2 : l[j]? = none := List.getElem?_eq_none (by omega)
      simp [h2, e1, e2]

theorem entryAt_append_file (t : Tree) (data : Bytes) (perm : FileMode) (d : Ino)
    (c : String) :
    Tree.entryAt { t with inodes := t.inodes ++ [.file data perm] } d c = t.entryAt d c := by
  simp only [Tree.entryAt, getElem?_append_one]
  by_cases h : d = t.inodes.length
  · subst h
    simp
  · simp [h]

/-- What a successful exclusive create does: the name led to an unbound
entry of a directory, and the new tree has one more inode, an empty regular
file, bound to that entry. -/
theorem create_spec {t t' : Tree} {name : String} {perm : FileMode} {i : Ino} (hwf : t.WF)
    (h : t.create name perm = .ok (t', i)) :
    ∃ p n, t.lookup false name = .missing p n true ∧ endsInSep name = false ∧
      i = t.inodes.length ∧ Staged t p n t' ∧ t'.inodes[i]? = some (.file [] perm) ∧
      t'.inodes.length = i + 1 := by
  unfold Tree.create at h
  by_cases hs : endsInSep name = true
  · simp [hs] at h
  · simp only [hs, Bool.false_eq_true, if_false] at h
    cases hl : t.lookup false name with
    | ok j v => simp [hl] at h
    | err e => simp [hl] at h
    | missing d c last =>
      cases last with
      | false => simp [hl] at h
      | true =>
        simp only [hl, Except.ok.injEq, Prod.mk.injEq] at h
        obtain ⟨ht', hi⟩ := h
        obtain ⟨hfree, par, es, pm, hdir⟩ := (lookup_via t false name).2 d c true hl
        have hb := bind_dir hdir c t.inodes.length
        obtain ⟨s1, s2, s3⟩ := @set_dir_inodes t d par es (bindEntry es c t.inodes.length) pm hdir
        have hdlt : d < t.inodes.length := (List.getElem?_eq_some_iff.mp hdir).1
        have hin : ∀ j, t'.inodes[j]? =
            if j = t.inodes.length then some (.file [] perm)
            else if j = d then some (.dir par (bindEntry es c t.inodes.length) pm)
            else t.inodes[j]? := by
          intro j
          rw [← ht', hb]
          simp only [getElem?_append_one, s3]
          by_cases hj : j = t.inodes.length
          · simp [hj]
          · by_cases hjd : j = d
            · subst hjd
              simp [hj, s1]
            · simp [hj, hjd, s2 j hjd]
        have hent : ∀ d' c', t'.entryAt d' c' =
            if d' = d ∧ c' = c then some t.inodes.length else t.entryAt d' c' := by
          intro d' c'
          rw [← ht', entryAt_append_file, entryAt_bind hdir]
        have hlen : t'.inodes.length = t.inodes.length + 1 := by
          rw [← ht', hb]
          simp
        have hroot : t'.root = t.root := by rw [← ht', hb]
        have hcwd : t'.cwd = t.cwd := by rw [← ht', hb]
        have hfile : t'.inodes[t.inodes.length]? = some (.file [] perm) := by
          rw [hin]; simp
        refine ⟨d, c, rfl, by simpa using hs, hi.symm, ⟨hfree, ?_, ?_, ?_, ⟨[], perm, hfile⟩⟩,
          by rw [← hi]; exact hfile, by rw [hlen, hi]⟩
        · refine AgreeOff.agree_step
            (AgreeOff.agree_self (fun d' c' hx => by rw [hx.1, hx.2, hfree]; trivial))
            hroot hcwd ?_ ?_ ?_
          · intro j node hj hnode hnd
            have hjd : j ≠ d := by
              intro hh
              rw [hh, hdir] at hnode
              cases hnode
              exact hnd par es pm rfl
            rw [hin, if_neg (Nat.ne_of_lt hj), if_neg hjd, hnode]
          · intro j par' es' pm' hj hnode
            by_cases hjd : j = d
            · subst hjd
              rw [hdir] at hnode
              cases hnode
              refine ⟨_, by rw [hin, if_neg (Nat.ne_of_lt hj), if_pos rfl], ?_⟩
              intro c' hc'
              rw [lookup_bindEntry, if_neg (fun hh => hc' ⟨rfl, hh⟩)]
            · exact ⟨es', by rw [hin, if_neg (Nat.ne_of_lt hj), if_neg hjd, hnode], fun _ _ => rfl⟩
          · intro d' c' hx
            rw [hent, if_pos hx]
            exact ⟨[], perm, hfile⟩
        · refine ⟨by rw [hroot, hlen]; exact Nat.lt_succ_of_lt hwf.root_lt,
            by rw [hcwd, hlen]; exact Nat.lt_succ_of_lt hwf.cwd_lt, ?_, ?_, ?_⟩
          · intro j par' es' pm' hj
            rw [hin] at hj
            rw [hlen]
            by_cases h1 : j = t.inodes.length
            · simp [h1] at hj
            · by_cases h2 : j = d
              · rw [if_neg h1, if_pos h2] at hj
                cases hj
                exact Nat.lt_succ_of_lt (hwf.parent_lt d par es pm hdir)
              · simp only [h1, h2, if_false] at hj
                exact Nat.lt_succ_of_lt (hwf.parent_lt j par' es' pm' hj)
          · intro d' c' k hk
            rw [hent] at hk
            rw [hlen]
            by_cases hx : d' = d ∧ c' = c
            · rw [if_pos hx] at hk
              cases hk
              exact Nat.lt_succ_self _
            · rw [if_neg hx] at hk
              exact Nat.lt_succ_of_lt (hwf.entry_lt d' c' k hk)
          · intro j mode hj
            rw [hin] at hj
            by_cases h1 : j = t.inodes.length
            · simp [h1] at hj
            · by_cases h2 : j = d
              · rw [if_neg h1, if_pos h2] at hj
                cases hj
              · simp only [h1, h2, if_false] at hj
                exact hwf.other_type j mode hj
        · rw [hent, if_pos ⟨rfl, rfl⟩]

theorem setInode_inodes (t : Tree) (i : Ino) (node : Inode) (j : Ino) :
    (t.setInode i node).inodes[j]? =
      if j = i then (if i < t.inodes.length then some node else none) else t.inodes[j]? := by
  simp only [Tree.setInode, List.getElem?_set]
  by_cases h : i = j
  · subst h; simp
  · have h2 : ¬ j = i := fun hh => h hh.symm
    simp [h, h2]

/-- Rewriting a regular file changes no entry. -/
theorem entryAt_setFile {t : Tree} {i : Ino} {data : Bytes} {perm : FileMode}
    (h : t.inodes[i]? = some (.file data perm)) (data' : Bytes) (perm' : FileMode) (d : Ino)
    (c : String) : (t.setInode i (.file data' perm')).entryAt d c = t.entryAt d c := by
  have hi := (List.getElem?_eq_some_iff.mp h).1
  simp only [Tree.entryAt, setInode_inodes]
  by_cases hd : d = i
  · subst hd
    simp [hi, h]
  · simp [hd]

/-- Rewriting the staging file keeps the tree staged. -/
theorem Staged.setFile {t0 t : Tree} {p : Ino} {n : String} (h : Staged t0 p n t)
    (data' : Bytes) (perm' : FileMode) :
    Staged t0 p n (t.setInode t0.inodes.length (.file data' perm')) := by
  obtain ⟨data, perm, hf⟩ := h.file
  have hi := (List.getElem?_eq_some_iff.mp hf).1
  have hfile : (t.setInode t0.inodes.length (.file data' perm')).inodes[t0.inodes.length]? =
      some (.file data' perm') := by
    rw [setInode_inodes]; simp [hi]
  refine ⟨h.free, ?_, ?_, by rw [entryAt_setFile hf]; exact h.entry, ⟨data', perm', hfile⟩⟩
  · refine AgreeOff.agree_step h.agree rfl rfl ?_ ?_ ?_
    · intro j node hj hnode _
      rw [setInode_inodes, if_neg (Nat.ne_of_lt hj), hnode]
    · intro j par es pm hj hnode
      exact ⟨es, by rw [setInode_inodes, if_neg (Nat.ne_of_lt hj), hnode], fun _ _ => rfl⟩
    · intro d c hx
      rw [entryAt_setFile hf, hx.1, hx.2, h.entry]
      exact ⟨data', perm', hfile⟩
  · refine ⟨h.wf.root_lt.trans_eq (by simp [Tree.setInode]),
      h.wf.cwd_lt.trans_eq (by simp [Tree.setInode]), ?_, ?_, ?_⟩
    · intro j par es pm hj
      rw [setInode_inodes] at hj
      have hlen : (t.setInode t0.inodes.length (.file data' perm')).inodes.length =
          t.inodes.length := by simp [Tree.setInode]
      rw [hlen]
      by_cases h1 : j = t0.inodes.length
      · simp [h1, hi] at hj
      · simp only [h1, if_false] at hj
        exact h.wf.parent_lt j par es pm hj
    · intro d c k hk
      rw [entryAt_setFile hf] at hk
      have hlen : (t.setInode t0.inodes.length (.file data' perm')).inodes.length =
          t.inodes.length := by simp [Tree.setInode]
      rw [hlen]
      exact h.wf.entry_lt d c k hk
    · intro j mode hj
      rw [setInode_inodes] at hj
      by_cases h1 : j = t0.inodes.length
      · simp [h1, hi] at hj
      · simp only [h1, if_false] at hj
        exact h.wf.other_type j mode hj

theorem bind_root (t : Tree) (d : Ino) (c : String) (i : Ino) :
    (t.bind d c i).root = t.root ∧ (t.bind d c i).cwd = t.cwd ∧
      (t.bind d c i).inodes.length = t.inodes.length := by
  unfold Tree.bind
  cases hn : t.inodes[d]? with
  | none => exact ⟨rfl, rfl, rfl⟩
  | some node => cases node <;> simp

theorem unbind_root (t : Tree) (d : Ino) (c : String) :
    (t.unbind d c).root = t.root ∧ (t.unbind d c).cwd = t.cwd ∧
      (t.unbind d c).inodes.length = t.inodes.length := by
  unfold Tree.unbind
  cases hn : t.inodes[d]? with
  | none => exact ⟨rfl, rfl, rfl⟩
  | some node => cases node <;> simp

theorem inodes_unbind_nondir {t : Tree} {j : Ino} {node : Inode}
    (h : t.inodes[j]? = some node)
    (hnd : ∀ (par : Ino) (es : List (String × Ino)) (perm : FileMode), node ≠ .dir par es perm)
    (d : Ino) (c : String) : (t.unbind d c).inodes[j]? = some node := by
  by_cases hdir : ∃ par es perm, t.inodes[d]? = some (.dir par es perm)
  · obtain ⟨par, es, perm, hd⟩ := hdir
    have hjd : j ≠ d := by
      intro hh
      rw [hh, hd] at h
      cases h
      exact hnd par es perm rfl
    rw [inodes_unbind t d c j (Or.inl hjd), h]
  · rw [unbind_not_dir (fun par es perm hh => hdir ⟨par, es, perm, hh⟩), h]

theorem bind_not_dir {t : Tree} {d : Ino}
    (h : ∀ par es perm, t.inodes[d]? ≠ some (.dir par es perm)) (c : String) (i : Ino) :
    t.bind d c i = t := by
  unfold Tree.bind
  cases hn : t.inodes[d]? with
  | none => rfl
  | some node =>
    cases node with
    | dir par es perm => exact absurd hn (h par es perm)
    | file a b => rfl
    | symlink a => rfl
    | other a => rfl

theorem inodes_bind_nondir {t : Tree} {j : Ino} {node : Inode}
    (h : t.inodes[j]? = some node)
    (hnd : ∀ (par : Ino) (es : List (String × Ino)) (perm : FileMode), node ≠ .dir par es perm)
    (d : Ino) (c : String) (i : Ino) : (t.bind d c i).inodes[j]? = some node := by
  by_cases hdir : ∃ par es perm, t.inodes[d]? = some (.dir par es perm)
  · obtain ⟨par, es, perm, hd⟩ := hdir
    have hjd : j ≠ d := by
      intro hh
      rw [hh, hd] at h
      cases h
      exact hnd par es perm rfl
    rw [inodes_bind t d c i j (Or.inl hjd), h]
  · rw [bind_not_dir (fun par es perm hh => hdir ⟨par, es, perm, hh⟩), h]

theorem unbind_dirs {t : Tree} {j par : Ino} {es : List (String × Ino)} {perm : FileMode}
    (h : t.inodes[j]? = some (.dir par es perm)) (d : Ino) (c : String) :
    ∃ es', (t.unbind d c).inodes[j]? = some (.dir par es' perm) ∧
      ∀ c', ¬ (j = d ∧ c' = c) → es'.lookup c' = es.lookup c' := by
  by_cases hjd : j = d
  · subst hjd
    rw [unbind_dir h]
    refine ⟨_, (set_dir_inodes h).1, ?_⟩
    intro c' hc'
    rw [lookup_dropEntry, if_neg (fun hh => hc' ⟨rfl, hh⟩)]
  · exact ⟨es, by rw [inodes_unbind t d c j (Or.inl hjd), h], fun _ _ => rfl⟩

theorem bind_dirs {t : Tree} {j par : Ino} {es : List (String × Ino)} {perm : FileMode}
    (h : t.inodes[j]? = some (.dir par es perm)) (d : Ino) (c : String) (i : Ino) :
    ∃ es', (t.bind d c i).inodes[j]? = some (.dir par es' perm) ∧
      ∀ c', ¬ (j = d ∧ c' = c) → es'.lookup c' = es.lookup c' := by
  by_cases hjd : j = d
  · subst hjd
    rw [bind_dir h]
    refine ⟨_, (set_dir_inodes h).1, ?_⟩
    intro c' hc'
    rw [lookup_bindEntry, if_neg (fun hh => hc' ⟨rfl, hh⟩)]
  · exact ⟨es, by rw [inodes_bind t d c i j (Or.inl hjd), h], fun _ _ => rfl⟩

theorem fileOrNone_of_inodes {t s : Tree} {o : Option Ino}
    (h : ∀ (k : Ino) (data : Bytes) (perm : FileMode),
      t.inodes[k]? = some (.file data perm) → s.inodes[k]? = some (.file data perm))
    (ho : t.fileOrNone o) : s.fileOrNone o := by
  cases o with
  | none => trivial
  | some k =>
    obtain ⟨data, perm, hk⟩ := ho
    exact ⟨data, perm, h k data perm hk⟩

theorem AgreeOff.agree_unbind {X : Ino → String → Prop} {t s : Tree} (h : AgreeOff X t s)
    {d : Ino} {c : String} (hx : X d c) : AgreeOff X t (s.unbind d c) := by
  refine AgreeOff.agree_step h (unbind_root s d c).1 (unbind_root s d c).2.1 ?_ ?_ ?_
  · intro j node _ hnode hnd
    exact inodes_unbind_nondir hnode hnd d c
  · intro j par es perm _ hnode
    obtain ⟨es', h1, h2⟩ := unbind_dirs hnode d c
    refine ⟨es', h1, fun c' hc' => h2 c' ?_⟩
    rintro ⟨rfl, rfl⟩
    exact hc' hx
  · intro d' c' hx'
    rw [entryAt_unbind]
    by_cases hh : d' = d ∧ c' = c
    · rw [if_pos hh]; trivial
    · rw [if_neg hh]
      exact fileOrNone_of_inodes
        (fun k data perm hk => by rw [inodes_unbind s d c k (Or.inr ⟨data, perm, hk⟩), hk])
        (h.offS d' c' hx')

theorem AgreeOff.agree_bind {X : Ino → String → Prop} {t s : Tree} (h : AgreeOff X t s)
    {d : Ino} {c : String} (hx : X d c) {i : Ino}
    (hi : ∃ data perm, s.inodes[i]? = some (.file data perm)) :
    AgreeOff X t (s.bind d c i) := by
  by_cases hdir : ∃ par es perm, s.inodes[d]? = some (.dir par es perm)
  · obtain ⟨par, es, perm, hd⟩ := hdir
    refine AgreeOff.agree_step h (bind_root s d c i).1 (bind_root s d c i).2.1 ?_ ?_ ?_
    · intro j node _ hnode hnd
      exact inodes_bind_nondir hnode hnd d c i
    · intro j par' es' perm' _ hnode
      obtain ⟨es'', h1, h2⟩ := bind_dirs hnode d c i
      refine ⟨es'', h1, fun c' hc' => h2 c' ?_⟩
      rintro ⟨rfl, rfl⟩
      exact hc' hx
    · intro d' c' hx'
      have hfiles : ∀ (k : Ino) (data : Bytes) (perm : FileMode),
          s.inodes[k]? = some (.file data perm) →
          (s.bind d c i).inodes[k]? = some (.file data perm) := fun k data perm hk => by
        rw [inodes_bind s d c i k (Or.inr ⟨data, perm, hk⟩), hk]
      rw [entryAt_bind hd]
      by_cases hh : d' = d ∧ c' = c
      · rw [if_pos hh]
        obtain ⟨data, pm, hk⟩ := hi
        exact ⟨data, pm, hfiles i data pm hk⟩
      · rw [if_neg hh]
        exact fileOrNone_of_inodes hfiles (h.offS d' c' hx')
  · rw [bind_not_dir (fun par es perm hh => hdir ⟨par, es, perm, hh⟩)]
    exact h

/-- A path that does not end in a separator is its own entry name. -/
theorem strip_id {path : String} (h : endsInSep path = false) :
    filepath.stripTrailingSep path.data = path.data := by
  unfold endsInSep at h
  unfold filepath.stripTrailingSep
  cases hrev : path.data.reverse with
  | nil =>
    have : path.data = [] := by simpa using hrev
    simp [this]
  | cons x xs =>
    have hlast : path.data.getLast? = some x := by
      have : path.data = (x :: xs).reverse := by rw [← hrev]; simp
      rw [this]
      simp
    have hx : x ≠ '/' := by
      intro hh
      rw [hlast, hh] at h
      simp at h
    have : (x :: xs).dropWhile (fun c => decide (c = '/')) = x :: xs := by
      simp [List.dropWhile, hx]
    rw [this, ← hrev]
    simp

theorem entry_eq_lookup {t : Tree} {path : String} (h : endsInSep path = false) :
    t.entry path = t.lookup false path := by
  unfold Tree.entry
  rw [strip_id h]
  have h1 : ¬ (path ≠ "" ∧ path.data = []) := by
    rintro ⟨a, b⟩
    exact a (by cases path; simp_all)
  rw [if_neg h1]
  have h2 : String.mk path.data = path := rfl
  rw [h2]
  cases t.lookup false path with
  | ok i via => simp [h]
  | missing d c l => rfl
  | err e => rfl

/-- In a staged tree the staging name leads to the staging file. -/
theorem Staged.lookup_name {t0 t : Tree} {p : Ino} {n : String} (hwf : t0.WF)
    (h : Staged t0 p n t) {name : String} (hname : t0.lookup false name = .missing p n true)
    (follow : Bool) : t.lookup follow name = .ok t0.inodes.length (some (p, n)) := by
  have hout : t.outcome p n = .ok t0.inodes.length (some (p, n)) := by
    simp [Tree.outcome, h.entry]
  have hname2 : t0.lookup follow name = .missing p n true := by
    cases follow with
    | false => exact hname
    | true =>
      rw [lookup_follow, hname]
      intro j v text hh
      rw [hname] at hh
      cases hh
  rw [(lookup_agree hwf h.agree follow name).2.2.1 p n hname2 ⟨rfl, rfl⟩, hout]

theorem Staged.read_name {t0 t : Tree} {p : Ino} {n : String} (hwf : t0.WF)
    (h : Staged t0 p n t) {name : String} (hname : t0.lookup false name = .missing p n true)
    {data : Bytes} {perm : FileMode}
    (hf : t.inodes[t0.inodes.length]? = some (.file data perm)) : t.read name = some data := by
  unfold Tree.read
  rw [h.lookup_name hwf hname true]
  simp [hf]

/-- In a staged tree every path that does not dangle at the staging entry
leads where it led before, and shows the same content. -/
theorem Staged.read_eq {t0 t : Tree} {p : Ino} {n : String} (hwf : t0.WF)
    (h : Staged t0 p n t) (path : String) (hne : t0.missingAt path ≠ some (p, n)) :
    t.read path = t0.read path ∧
    (∀ j v, t0.lookup true path = .ok j v → t.lookup true path = .ok j v) := by
  have hmiss : ∀ d c, d = p ∧ c = n → t0.lookup true path ≠ .missing d c true := by
    rintro d c ⟨rfl, rfl⟩ hh
    exact hne (by simp [Tree.missingAt, hh])
  have hok : ∀ j d c, d = p ∧ c = n → t0.lookup true path ≠ .ok j (some (d, c)) := by
    rintro j d c ⟨rfl, rfl⟩ hh
    have := (lookup_via t0 true path).1 j d c hh
    rw [h.free] at this
    cases this
  obtain ⟨a, b, _⟩ := read_agree hwf h.agree path hmiss hok
  exact ⟨a, b⟩

/-- Removing the staging entry gives back the tree as it was, but for the
inode left behind. -/
theorem Staged.unbind_same {t0 t : Tree} {p : Ino} {n : String} (h : Staged t0 p n t) :
    AgreeOff (fun _ _ => False) t0 (t.unbind p n) := by
  refine (h.agree.agree_unbind ⟨rfl, rfl⟩).agree_all ?_
  rintro d c ⟨rfl, rfl⟩
  rw [entryAt_unbind, if_pos ⟨rfl, rfl⟩, h.free]

theorem same_read {t0 t : Tree} (hwf : t0.WF) (h : AgreeOff (fun _ _ => False) t0 t)
    (path : String) :
    t.read path = t0.read path ∧
    (∀ j v, t0.lookup true path = .ok j v → t.lookup true path = .ok j v) := by
  obtain ⟨a, b, _⟩ := read_agree hwf h path (fun _ _ hh => hh.elim) (fun _ _ _ hh => hh.elim)
  exact ⟨a, b⟩

/-- `os.Remove` of the staging name in a staged tree removes the staging
entry. -/
theorem Staged.remove_name {t0 t : Tree} {p : Ino} {n : String} (hwf : t0.WF)
    (h : Staged t0 p n t) {name : String} (hname : t0.lookup false name = .missing p n true)
    (hsep : endsInSep name = false) : t.remove name = .ok (t.unbind p n) := by
  obtain ⟨data, perm, hf⟩ := h.file
  unfold Tree.remove
  rw [entry_eq_lookup hsep, h.lookup_name hwf hname false]
  simp [hf]

theorem entry_ok_file {t : Tree} {path : String} {j : Ino} {e : Ino × String}
    (h : t.entry path = .ok j (some e)) (hj : t.isDir j = false) :
    endsInSep path = false := by
  unfold Tree.entry at h
  by_cases h1 : path ≠ "" ∧ filepath.stripTrailingSep path.data = []
  · rw [if_pos h1] at h
    cases h
  · rw [if_neg h1] at h
    cases hl : t.lookup false (String.mk (filepath.stripTrailingSep path.data)) with
    | ok i via =>
      rw [hl] at h
      simp only at h
      by_cases h2 : endsInSep path = true ∧ t.isDir i = false
      · rw [if_pos h2] at h
        cases h
      · rw [if_neg h2] at h
        cases h
        cases hs : endsInSep path with
        | false => rfl
        | true => exact absurd ⟨hs, hj⟩ h2
    | missing d c l =>
      rw [hl] at h
      cases h
    | err e' =>
      rw [hl] at h
      cases h

theorem isDir_of_file {t : Tree} {i : Ino} {data : Bytes} {perm : FileMode}
    (h : t.inodes[i]? = some (.file data perm)) : t.isDir i = false := by
  simp [Tree.isDir, h]

theorem entryAt_some_dir {t : Tree} {d : Ino} {c : String} {k : Ino}
    (h : t.entryAt d c = some k) : ∃ par es perm, t.inodes[d]? = some (.dir par es perm) := by
  by_contra hn
  rw [entryAt_not_dir (fun par es perm hh => hn ⟨par, es, perm, hh⟩)] at h
  cases h

/-- The tree after the staging entry `(p, n)` is moved to the entry
`(q, m)`, which the path `final` names and which is bound to nothing or to a
regular file: the path leads to the staging file. -/
theorem Staged.move {t0 t : Tree} {p : Ino} {n : String} (h : Staged t0 p n t)
    {final : String} {q : Ino} {m : String}
    (hq : t.lookup false final = .missing q m true ∨
      ∃ j data perm, t.lookup false final = .ok j (some (q, m)) ∧
        t.inodes[j]? = some (.file data perm)) :
    ∃ v, ((t.unbind p n).bind q m t0.inodes.length).lookup true final =
        .ok t0.inodes.length v ∧
      ((t.unbind p n).bind q m t0.inodes.length).inodes[t0.inodes.length]? =
        t.inodes[t0.inodes.length]? := by
  obtain ⟨data, perm, hf⟩ := h.file
  have hfu : (t.unbind p n).inodes[t0.inodes.length]? = some (.file data perm) := by
    rw [inodes_unbind t p n _ (Or.inr ⟨data, perm, hf⟩), hf]
  have hf3 : ((t.unbind p n).bind q m t0.inodes.length).inodes[t0.inodes.length]? =
      some (.file data perm) := by
    rw [inodes_bind _ q m _ _ (Or.inr ⟨data, perm, hfu⟩), hfu]
  have hXt : ∀ d c, (d = p ∧ c = n) ∨ (d = q ∧ c = m) → t.fileOrNone (t.entryAt d c) := by
    rintro d c (⟨rfl, rfl⟩ | ⟨rfl, rfl⟩)
    · rw [h.entry]
      exact ⟨data, perm, hf⟩
    · rcases hq with hq | ⟨j, d2, m2, hq, hj⟩
      · rw [((lookup_via t false final).2 _ _ _ hq).1]
        trivial
      · rw [(lookup_via t false final).1 _ _ _ hq]
        exact ⟨d2, m2, hj⟩
  have hagree : AgreeOff (fun d c => (d = p ∧ c = n) ∨ (d = q ∧ c = m)) t
      ((t.unbind p n).bind q m t0.inodes.length) :=
    ((AgreeOff.agree_self hXt).agree_unbind (Or.inl ⟨rfl, rfl⟩)).agree_bind
      (Or.inr ⟨rfl, rfl⟩) ⟨data, perm, hfu⟩
  have hqdir : ∃ par es perm, t.inodes[q]? = some (.dir par es perm) := by
    rcases hq with hq | ⟨j, d2, m2, hq, hj⟩
    · exact ((lookup_via t false final).2 _ _ _ hq).2
    · exact entryAt_some_dir ((lookup_via t false final).1 _ _ _ hq)
  obtain ⟨par, es, pm, hqd⟩ := hqdir
  obtain ⟨es', hqd', _⟩ := unbind_dirs hqd p n
  have hent3 : ((t.unbind p n).bind q m t0.inodes.length).entryAt q m =
      some t0.inodes.length := by
    rw [entryAt_bind hqd', if_pos ⟨rfl, rfl⟩]
  have hout : ((t.unbind p n).bind q m t0.inodes.length).outcome q m =
      .ok t0.inodes.length (some (q, m)) := by
    simp [Tree.outcome, hent3]
  have hl3 : ((t.unbind p n).bind q m t0.inodes.length).lookup false final =
      .ok t0.inodes.length (some (q, m)) := by
    rw [← hout]
    rcases hq with hq | ⟨j, d2, m2, hq, hj⟩
    · exact (lookup_agree h.wf hagree false final).2.2.1 q m hq (Or.inr ⟨rfl, rfl⟩)
    · exact (lookup_agree h.wf hagree false final).2.1 j q m hq (Or.inr ⟨rfl, rfl⟩)
  refine ⟨some (q, m), ?_, by rw [hf3, hf]⟩
  rw [lookup_follow, hl3]
  intro j v text hh
  rw [hl3] at hh
  cases hh
  rw [hf3]
  intro hc
  cases hc

/-- A successful `rename(2)` of the staging file onto a path that leads to a
regular file or to nothing: afterwards the path leads to the staging
file. -/
theorem Staged.rename_ok {t0 t t3 : Tree} {p : Ino} {n : String} (hwf : t0.WF)
    (h : Staged t0 p n t) {name : String} (hname : t0.lookup false name = .missing p n true)
    (hsep : endsInSep name = false) {final : String}
    (hfin : ∀ j v, t.lookup false final = .ok j v →
      ∃ data perm, t.inodes[j]? = some (.file data perm))
    (hr : t.rename name final = .ok t3) :
    ∃ v, t3.lookup true final = .ok t0.inodes.length v ∧
      t3.inodes[t0.inodes.length]? = t.inodes[t0.inodes.length]? := by
  obtain ⟨data, perm, hf⟩ := h.file
  have hNdir := isDir_of_file hf
  have hent : t.entry name = .ok t0.inodes.length (some (p, n)) := by
    rw [entry_eq_lookup hsep]
    exact h.lookup_name hwf hname false
  unfold Tree.rename at hr
  rw [hent] at hr
  simp only at hr
  cases he : t.entry final with
  | err e =>
    rw [he] at hr
    cases hr
  | missing q m last =>
    rw [he] at hr
    cases last with
    | false => cases hr
    | true =>
      simp only [hNdir, Bool.false_eq_true, if_false] at hr
      by_cases hs : endsInSep final = true
      · rw [if_pos hs] at hr
        cases hr
      · rw [if_neg hs] at hr
        cases hr
        have hs2 : endsInSep final = false := by simpa using hs
        rw [entry_eq_lookup hs2] at he
        exact h.move (Or.inl he)
  | ok j via =>
    rw [he] at hr
    cases via with
    | none => cases hr
    | some e =>
      obtain ⟨q, m⟩ := e
      simp only at hr
      by_cases hN : t0.inodes.length = j
      · rw [if_pos hN] at hr
        cases hr
        subst hN
        have hs2 := entry_ok_file he hNdir
        rw [entry_eq_lookup hs2] at he
        refine ⟨some (q, m), ?_, rfl⟩
        rw [lookup_follow, he]
        intro j v text hh
        rw [he] at hh
        cases hh
        rw [hf]
        intro hc
        cases hc
      · rw [if_neg hN, hf] at hr
        cases hjd : t.isDir j with
        | true =>
          exfalso
          unfold Tree.isDir at hjd
          cases hj : t.inodes[j]? with
          | none => simp [hj] at hjd
          | some node =>
            cases node with
            | dir a b c => simp [hj] at hr
            | file a b => simp [hj] at hjd
            | symlink a => simp [hj] at hjd
            | other a => simp [hj] at hjd
        | false =>
          have hs2 := entry_ok_file he hjd
          rw [entry_eq_lookup hs2] at he
          obtain ⟨d2, m2, hj⟩ := hfin j _ he
          rw [hj] at hr
          simp only [Except.ok.injEq] at hr
          rw [← hr]
          exact h.move (Or.inr ⟨j, d2, m2, he, hj⟩)

/-! ## The calls of a session on a staged tree -/

theorem LogAll.log_refl (P : Tree → Prop) (fs : FS) : LogAll P fs fs :=
  ⟨[], by simp, by simp⟩

theorem LogAll.log_trans {P : Tree → Prop} {a b c : FS} (h1 : LogAll P a b)
    (h2 : LogAll P b c) : LogAll P a c := by
  obtain ⟨s1, e1, p1⟩ := h1
  obtain ⟨s2, e2, p2⟩ := h2
  refine ⟨s1 ++ s2, by rw [e2, e1, List.append_assoc], ?_⟩
  intro st hst
  rcases List.mem_append.mp hst with h | h
  · exact p1 st h
  · exact p2 st h

theorem LogAll.log_mono {P Q : Tree → Prop} {a b : FS} (h : LogAll P a b)
    (hPQ : ∀ t, P t → Q t) : LogAll Q a b := by
  obtain ⟨s, e, p⟩ := h
  exact ⟨s, e, fun st hst => hPQ _ (p st hst)⟩

theorem LogAll.log_one {P : Tree → Prop} {fs fs1 : FS} {st : Snap}
    (h : fs1.log = fs.log ++ [st]) (hP : P st.tree) : LogAll P fs fs1 :=
  ⟨[st], h, by simpa using hP⟩

theorem callsSince_steps {fs fs1 : FS} {steps : List Snap} (h : fs1.log = fs.log ++ steps) :
    callsSince fs fs1 = calls steps := by
  simp [callsSince, h]

/-- A successful exclusive create. -/
theorem OpenFileExcl_staged {fs fs1 : FS} {name : String} {perm : FileMode} {f : File}
    (hwf : fs.tree.WF) (h : OpenFileExcl fs name perm = (.ok f, fs1)) :
    ∃ p n, fs.tree.lookup false name = .missing p n true ∧ endsInSep name = false ∧
      Staged fs.tree p n fs1.tree ∧ f.name = name ∧
      fs1.fds f.fd = some fs.tree.inodes.length ∧
      fs1.tree.inodes[fs.tree.inodes.length]? = some (.file [] perm) ∧
      fs1.faults = fs.faults ∧ fs1.log = fs.log ++ [⟨.create name, true, fs1.tree⟩] := by
  unfold OpenFileExcl at h
  cases hc : fs.faults.create name with
  | some flt => simp [hc] at h
  | none =>
    simp only [hc] at h
    cases hcr : fs.tree.create name perm with
    | error e => simp [hcr] at h
    | ok r =>
      obtain ⟨t, i⟩ := r
      simp only [hcr, Prod.mk.injEq, Except.ok.injEq] at h
      obtain ⟨hf, hfs⟩ := h
      obtain ⟨p, n, h1, h2, h3, h4, h5, _⟩ := create_spec hwf hcr
      subst hf hfs
      refine ⟨p, n, h1, h2, h4, rfl, ?_, ?_, rfl, rfl⟩
      · simp [FS.record, updFd, h3]
      · rw [← h3]; exact h5

/-- A failed exclusive create leaves the tree as it is. -/
theorem OpenFileExcl_failed {fs fs1 : FS} {name : String} {perm : FileMode} {e : GoError}
    (h : OpenFileExcl fs name perm = (.error e, fs1)) :
    fs1.tree = fs.tree ∧ fs1.faults = fs.faults ∧ fs1.fds = fs.fds ∧
      fs1.log = fs.log ++ [⟨.create name, false, fs.tree⟩] := by
  unfold OpenFileExcl at h
  cases hc : fs.faults.create name with
  | some flt =>
    simp only [hc, Prod.mk.injEq] at h
    rw [← h.2]
    exact ⟨rfl, rfl, rfl, rfl⟩
  | none =>
    simp only [hc] at h
    cases hcr : fs.tree.create name perm with
    | error e' =>
      simp only [hcr, Prod.mk.injEq] at h
      rw [← h.2]
      exact ⟨rfl, rfl, rfl, rfl⟩
    | ok r => simp [hcr] at h

theorem Created.after_same {fs fs2 fs1 : FS} {f : File} {p : Ino} {n : String}
    (h : Created fs2 f p n fs1) (ht : fs2.tree = fs.tree) (hf : fs2.faults = fs.faults)
    (hl : LogAll (fun t => t = fs.tree) fs fs2) : Created fs f p n fs1 := by
  obtain ⟨a, b, c, d, e, g, l⟩ := h
  rw [ht] at a c d e l
  refine ⟨a, b, c, d, e, by rw [g, hf], ?_⟩
  exact (hl.log_mono (fun t h => Or.inl h)).log_trans l

theorem tempFileLoop_created (dir pfx : String) :
    ∀ (n : Nat) (fs fs1 : FS) (f : File), fs.tree.WF →
      tempFileLoop dir pfx n fs = (.ok f, fs1) → ∃ p nm, Created fs f p nm fs1 := by
  intro n
  induction n with
  | zero =>
    intro fs fs1 f _ h
    simp [tempFileLoop] at h
  | succ n ih =>
    intro fs fs1 f hwf h
    rw [tempFileLoop] at h
    cases ho : OpenFileExcl { fs with randPos := fs.randPos + 1 }
        (joinPath dir pfx ++ fs.rands fs.randPos) 384 with
    | mk r fs2 =>
      rw [ho] at h
      cases r with
      | error err =>
        simp only at h
        obtain ⟨h1, h2, _, h4⟩ := OpenFileExcl_failed ho
        by_cases hex : IsExist err = true
        · rw [if_pos hex] at h
          obtain ⟨p, nm, hc⟩ := ih fs2 fs1 f (by rw [h1]; exact hwf) h
          exact ⟨p, nm, hc.after_same h1 h2 (LogAll.log_one h4 rfl)⟩
        · rw [if_neg hex] at h
          cases h
      | ok f' =>
        simp only [Prod.mk.injEq, Except.ok.injEq] at h
        obtain ⟨hf, hfs⟩ := h
        subst hf hfs
        obtain ⟨p, nm, a, b, c, d, e, g, k, l⟩ :=
          @OpenFileExcl_staged { fs with randPos := fs.randPos + 1 } _ _ _ _ hwf ho
        refine ⟨p, nm, by rw [d]; exact a, by rw [d]; exact b, c, e, g, k, ?_⟩
        exact LogAll.log_one l (Or.inr c)

/-! ## The calls of a session, one by one -/

theorem Commit_unfold (fs : FS) (finalFname : String) (f : File) :
    Commit fs finalFname f =
      match f.Sync fs with
      | (some err, fs1) => (some err, (Remove fs1 f.name).2)
      | (none, fs1) =>
        match f.Close (permCopy fs1 finalFname f) with
        | (some err, fs3) => (some err, (Remove fs3 f.name).2)
        | (none, fs3) =>
          match Rename fs3 f.name finalFname with
          | (some err, fs4) => (some err, (Remove fs4 f.name).2)
          | (none, fs4) => (none, fs4) := rfl

theorem Created.session {fs fs1 : FS} {f : File} {p : Ino} {n : String} (hwf : fs.tree.WF)
    (h : Created fs f p n fs1) : Session fs f p n fs1 :=
  ⟨hwf, h.1, h.2.1, h.2.2.1, h.2.2.2.1, h.2.2.2.2.2.1⟩

theorem Session.after_record {fs0 fs : FS} {f : File} {p : Ino} {n : String}
    (h : Session fs0 f p n fs) (c : Call) (ok : Bool) : Session fs0 f p n (fs.record c ok) :=
  ⟨h.wf0, h.name, h.sep, h.staged, h.fd, h.faults⟩

/-- A name that dangles at its last entry dangles there for a reader
too. -/
theorem lookup_missing_follow {t : Tree} {name : String} {p : Ino} {n : String} {last : Bool}
    (h : t.lookup false name = .missing p n last) : t.lookup true name = .missing p n last := by
  rw [lookup_follow, h]
  intro j v text hh
  rw [h] at hh
  cases hh

theorem Session.missingAt_name {fs0 fs : FS} {f : File} {p : Ino} {n : String}
    (h : Session fs0 f p n fs) : fs0.tree.missingAt f.name = some (p, n) := by
  simp [Tree.missingAt, lookup_missing_follow h.name]

/-- A write to the staging handle appends to the staging file and to
nothing else. -/
theorem Session.write_step {fs0 fs : FS} {f : File} {p : Ino} {n : String}
    (h : Session fs0 f p n fs) (b : Bytes) {data : Bytes} {perm : FileMode}
    (hd : fs.tree.inodes[fs0.tree.inodes.length]? = some (.file data perm)) :
    Session fs0 f p n (f.Write fs b).2 ∧
    (∃ st, (f.Write fs b).2.log = fs.log ++ [st] ∧ st.tree = (f.Write fs b).2.tree) ∧
    ∃ b', (f.Write fs b).2.tree.inodes[fs0.tree.inodes.length]? =
        some (.file (data ++ b') perm) ∧
      (fs0.faults.write f.fd = none → b' = b) := by
  have hi := (List.getElem?_eq_some_iff.mp hd).1
  unfold File.Write
  rw [h.fd]
  simp only [hd]
  rw [h.faults]
  cases hw : fs0.faults.write f.fd with
  | some kf =>
    obtain ⟨k, flt⟩ := kf
    simp only
    refine ⟨⟨h.wf0, h.name, h.sep, h.staged.setFile _ _, h.fd, rfl⟩, ⟨_, rfl, rfl⟩,
      b.take k, ?_, ?_⟩
    · simp [FS.record, setInode_inodes, hi]
    · intro hh
      cases hh
  | none =>
    simp only
    refine ⟨⟨h.wf0, h.name, h.sep, h.staged.setFile _ _, h.fd, rfl⟩, ⟨_, rfl, rfl⟩,
      b, ?_, fun _ => rfl⟩
    simp [FS.record, setInode_inodes, hi]

/-- The writes of a session keep the tree staged, state after state. -/
theorem Session.writeAll_steps {fs0 : FS} {f : File} {p : Ino} {n : String}
    (chunks : List Bytes) :
    ∀ (fs : FS) (data : Bytes) (perm : FileMode), Session fs0 f p n fs →
      fs.tree.inodes[fs0.tree.inodes.length]? = some (.file data perm) →
      Session fs0 f p n (writeAll fs f chunks) ∧
      LogAll (Staged fs0.tree p n) fs (writeAll fs f chunks) ∧
      ∃ data', (writeAll fs f chunks).tree.inodes[fs0.tree.inodes.length]? =
          some (.file data' perm) ∧
        (fs0.faults.write f.fd = none → data' = data ++ chunks.flatten) := by
  induction chunks with
  | nil =>
    intro fs data perm h hd
    exact ⟨h, LogAll.log_refl _ _, data, hd, fun _ => by simp⟩
  | cons b bs ih =>
    intro fs data perm h hd
    obtain ⟨h1, ⟨st, hlog, htree⟩, b', hd1, hb'⟩ := h.write_step b hd
    obtain ⟨h2, hlog2, data', hd2, hdata'⟩ := ih _ _ _ h1 hd1
    refine ⟨h2, ?_, data', hd2, ?_⟩
    · exact (LogAll.log_one hlog (by rw [htree]; exact h1.staged)).log_trans hlog2
    · intro hw
      rw [hdata' hw, hb' hw]
      simp

theorem Session.sync_step {fs0 fs : FS} {f : File} {p : Ino} {n : String}
    (h : Session fs0 f p n fs) :
    (fs0.faults.sync f.fd = none ∧ f.Sync fs = (none, fs.record (.sync f.fd) true)) ∨
    (∃ flt, fs0.faults.sync f.fd = some flt ∧
      f.Sync fs =
        (some (.pathError "sync" f.name (.errno flt.errno)), fs.record (.sync f.fd) false)) := by
  unfold File.Sync
  rw [h.fd, h.faults]
  cases hs : fs0.faults.sync f.fd with
  | none => exact Or.inl ⟨rfl, rfl⟩
  | some flt => exact Or.inr ⟨flt, rfl, rfl⟩

theorem Session.chmod_step {fs0 fs : FS} {f : File} {p : Ino} {n : String}
    (h : Session fs0 f p n fs) (mode : FileMode) {data : Bytes} {perm : FileMode}
    (hd : fs.tree.inodes[fs0.tree.inodes.length]? = some (.file data perm)) :
    Session fs0 f p n (f.Chmod fs mode).2 ∧
    (∃ ok, (f.Chmod fs mode).2.log =
      fs.log ++ [⟨.chmod f.fd mode, ok, (f.Chmod fs mode).2.tree⟩]) ∧
    ∃ perm', (f.Chmod fs mode).2.tree.inodes[fs0.tree.inodes.length]? =
      some (.file data perm') := by
  have hi := (List.getElem?_eq_some_iff.mp hd).1
  unfold File.Chmod
  rw [h.fd]
  simp only
  cases hc : fs.faults.chmod f.fd with
  | some flt => exact ⟨h.after_record _ _, ⟨false, rfl⟩, perm, hd⟩
  | none =>
    simp only [hd]
    refine ⟨⟨h.wf0, h.name, h.sep, h.staged.setFile _ _, h.fd, h.faults⟩, ⟨true, rfl⟩, mode, ?_⟩
    simp [FS.record, setInode_inodes, hi]

theorem Session.permCopy_session {fs0 fs : FS} {f : File} {p : Ino} {n : String}
    (h : Session fs0 f p n fs) (final : String) {data : Bytes} {perm : FileMode}
    (hd : fs.tree.inodes[fs0.tree.inodes.length]? = some (.file data perm)) :
    Session fs0 f p n (permCopy fs final f) ∧
    (∃ pre, (permCopy fs final f).log = fs.log ++ pre ∧
      ∀ st ∈ pre, Staged fs0.tree p n st.tree ∧ ∃ m, st.call = .chmod f.fd m) ∧
    ∃ perm', (permCopy fs final f).tree.inodes[fs0.tree.inodes.length]? =
      some (.file data perm') := by
  unfold permCopy
  cases hs : Stat fs final with
  | error e => exact ⟨h, ⟨[], by simp, by simp⟩, perm, hd⟩
  | ok st =>
    simp only
    obtain ⟨h1, ⟨ok, hlog⟩, hd1⟩ := h.chmod_step (st.mode &&& ModePerm) hd
    refine ⟨h1, ⟨_, hlog, ?_⟩, hd1⟩
    intro s hs
    simp only [List.mem_singleton] at hs
    subst hs
    exact ⟨h1.staged, _, rfl⟩

theorem Session.close_step {fs0 fs : FS} {f : File} {p : Ino} {n : String}
    (h : Session fs0 f p n fs) :
    ∃ ok,
      ((fs0.faults.close f.fd = none ∧ ok = true ∧ (f.Close fs).1 = none) ∨
        ∃ flt, fs0.faults.close f.fd = some flt ∧ ok = false ∧
          (f.Close fs).1 = some (.pathError "close" f.name (.errno flt.errno))) ∧
      (f.Close fs).2.tree = fs.tree ∧ (f.Close fs).2.faults = fs0.faults ∧
      (f.Close fs).2.log = fs.log ++ [⟨.close f.fd, ok, fs.tree⟩] := by
  unfold File.Close
  rw [h.fd, h.faults]
  cases hs : fs0.faults.close f.fd with
  | none => exact ⟨true, Or.inl ⟨rfl, rfl, rfl⟩, rfl, rfl, rfl⟩
  | some flt => exact ⟨false, Or.inr ⟨flt, rfl, rfl, rfl⟩, rfl, rfl, rfl⟩

/-- Go `os.Rename` either fails and leaves the tree as it is, or performs
`rename(2)`. -/
theorem Rename_step (fs : FS) (old new : String) :
    (∃ c, (Rename fs old new).1 = some (.linkError "rename" old new c) ∧
      (Rename fs old new).2.tree = fs.tree ∧ (Rename fs old new).2.faults = fs.faults ∧
      (Rename fs old new).2.log = fs.log ++ [⟨.rename old new, false, fs.tree⟩]) ∨
    (∃ t, fs.tree.rename old new = .ok t ∧ (Rename fs old new).1 = none ∧
      (Rename fs old new).2.tree = t ∧ (Rename fs old new).2.faults = fs.faults ∧
      (Rename fs old new).2.log = fs.log ++ [⟨.rename old new, true, t⟩]) := by
  unfold Rename
  dsimp only
  split
  · exact Or.inl ⟨_, rfl, rfl, rfl, rfl⟩
  · split
    · exact Or.inl ⟨_, rfl, rfl, rfl, rfl⟩
    · split
      · exact Or.inl ⟨_, rfl, rfl, rfl, rfl⟩
      · next t ht => exact Or.inr ⟨t, ht, rfl, rfl, rfl, rfl⟩

/-- The `Remove` of the staging name on a staged tree. -/
theorem Remove_staged {fs0 : FS} (s : FS) {f : File} {p : Ino} {n : String} (hwf : fs0.tree.WF)
    (hname : fs0.tree.lookup false f.name = .missing p n true) (hsep : endsInSep f.name = false)
    (hst : Staged fs0.tree p n s.tree) (hf : s.faults = fs0.faults) :
    ∃ rm, (Remove s f.name).2.log = s.log ++ [rm] ∧ Removed fs0 f p n s.tree rm ∧
      (Remove s f.name).2.tree = rm.tree := by
  unfold Remove
  rw [hf]
  cases hr : fs0.faults.remove f.name with
  | some flt =>
    exact ⟨⟨.remove f.name, false, s.tree⟩, rfl, ⟨rfl, Or.inr ⟨by rw [hr]; simp, rfl, rfl⟩⟩, rfl⟩
  | none =>
    simp only [hst.remove_name hwf hname hsep]
    exact ⟨⟨.remove f.name, true, s.tree.unbind p n⟩, rfl, ⟨rfl, Or.inl ⟨hr, rfl, rfl⟩⟩, rfl⟩

/-! ## What a successful `New` has done -/

/-- A lookup ends at an inode of the tree. -/
theorem lookup_lt {t : Tree} (hwf : t.WF) {follow : Bool} {path : String} {j : Ino}
    {v : Option (Ino × String)} (h : t.lookup follow path = .ok j v) : j < t.inodes.length := by
  have hag : AgreeOff (fun _ _ => False) t t := AgreeOff.agree_self (fun _ _ hh => hh.elim)
  exact ((lookup_agree hwf hag follow path).1 j v h (fun _ _ _ hh => hh)).2

theorem dir_not_regular (x : Nat) : IsRegular (ModeDir ||| x) = false := by
  unfold IsRegular
  have h : ((ModeDir ||| x) &&& ModeType).testBit 31 = true := by
    rw [Nat.testBit_and, Nat.testBit_or]
    have h1 : ModeDir.testBit 31 = true := by decide
    have h2 : ModeType.testBit 31 = true := by decide
    simp [h1, h2]
  cases hz : ((ModeDir ||| x) &&& ModeType == 0) with
  | false => rfl
  | true =>
    have h0 : (ModeDir ||| x) &&& ModeType = 0 := by simpa using hz
    rw [h0] at h
    simp at h

/-- Only a regular file has the mode of one. -/
theorem regular_is_file {t : Tree} (hwf : t.WF) {j : Ino} {node : Inode}
    (hj : t.inodes[j]? = some node) (hreg : IsRegular node.mode = true) :
    ∃ data perm, t.inodes[j]? = some (.file data perm) := by
  cases node with
  | file data perm => exact ⟨data, perm, hj⟩
  | symlink text =>
    have : IsRegular (ModeSymlink ||| ModePerm) = false := by decide
    simp only [Inode.mode] at hreg
    rw [this] at hreg
    cases hreg
  | dir par es perm =>
    simp only [Inode.mode] at hreg
    rw [dir_not_regular] at hreg
    cases hreg
  | other mode =>
    simp only [Inode.mode] at hreg
    rw [hwf.other_type j mode hj] at hreg
    cases hreg

/-- When `Lstat` reports that a name does not exist, its lookup leads to no
inode. -/
theorem Lstat_notexist {fs : FS} (hwf : fs.tree.WF) {name : String} {err : GoError}
    (h : Lstat fs name = .error err) (hne : IsNotExist err = true) :
    ∀ j v, fs.tree.lookup false name ≠ .ok j v := by
  intro j v hl
  unfold Lstat at h
  cases hf : fs.faults.lstat name with
  | some flt =>
    rw [hf] at h
    simp only [Except.error.injEq] at h
    rw [← h] at hne
    simp only [IsNotExist, GoError.cause] at hne
    rw [Fault_not_enoent] at hne
    cases hne
  | none =>
    rw [hf, hl] at h
    have hlt := lookup_lt hwf hl
    obtain ⟨node, hnode⟩ : ∃ node, fs.tree.inodes[j]? = some node :=
      ⟨_, List.getElem?_eq_getElem hlt⟩
    simp [Tree.info, hnode] at h

/-- When `Lstat` reports a regular file, the lookup of the name leads to
one. -/
theorem Lstat_regular {fs : FS} (hwf : fs.tree.WF) {name : String} {info : FileInfo}
    (h : Lstat fs name = .ok info) (hreg : IsRegular info.mode = true) :
    ∀ j v, fs.tree.lookup false name = .ok j v →
      ∃ data perm, fs.tree.inodes[j]? = some (.file data perm) := by
  intro j v hl
  unfold Lstat at h
  cases hf : fs.faults.lstat name with
  | some flt =>
    rw [hf] at h
    cases h
  | none =>
    rw [hf, hl] at h
    have hlt := lookup_lt hwf hl
    obtain ⟨node, hnode⟩ : ∃ node, fs.tree.inodes[j]? = some node :=
      ⟨_, List.getElem?_eq_getElem hlt⟩
    simp only [Tree.info, hnode, Except.ok.injEq] at h
    rw [← h] at hreg
    exact regular_is_file hwf hnode hreg

/-- A successful `New`: the staging file was created at an entry that was
unbound, and the final name leads to a regular file or to no inode. -/
theorem NewLoop_created {fs fs1 : FS} {target final : String} {f : File} (hwf : fs.tree.WF) :
    ∀ (k : Nat) (cur : String), NewLoop fs target k cur = (⟨final, some f, none⟩, fs1) →
      ∃ p n, Created fs f p n fs1 ∧
        ∀ j v, fs.tree.lookup false final = .ok j v →
          ∃ data perm, fs.tree.inodes[j]? = some (.file data perm) := by
  intro k
  induction k with
  | zero =>
    intro cur h
    simp [NewLoop] at h
  | succ k ih =>
    intro cur h
    have stage : ∀ r : Except GoError File × FS,
        NewNoDeref fs cur = r →
        (match r with
          | (.ok f1, s1) => ((⟨cur, some f1, none⟩ : NewResult), s1)
          | (.error e1, s1) => (⟨cur, none, some e1⟩, s1)) = (⟨final, some f, none⟩, fs1) →
        cur = final ∧ NewNoDeref fs cur = (.ok f, fs1) := by
      intro r hr h1
      rw [hr]
      rcases r with ⟨_ | f1, s1⟩
      · simp at h1
      · simp only [Prod.mk.injEq, NewResult.mk.injEq, Option.some.injEq, and_true] at h1
        obtain ⟨⟨hc, hf⟩, hs⟩ := h1
        subst hc hf hs
        exact ⟨rfl, rfl⟩
    rw [NewLoop] at h
    cases hl : Lstat fs cur with
    | error err =>
      rw [hl] at h
      by_cases hne : IsNotExist err = true
      · simp only [hne, Bool.not_true, Bool.false_eq_true, if_false] at h
        obtain ⟨hc, hs⟩ := stage _ rfl h
        subst hc
        obtain ⟨p, n, hcr⟩ := tempFileLoop_created _ _ _ _ _ _ hwf hs
        exact ⟨p, n, hcr, fun j v hj => absurd hj (Lstat_notexist hwf hl hne j v)⟩
      · simp only [Bool.not_eq_true] at hne
        simp [hne] at h
    | ok info =>
      rw [hl] at h
      by_cases hreg : IsRegular info.mode = true
      · simp only [hreg, if_true] at h
        obtain ⟨hc, hs⟩ := stage _ rfl h
        subst hc
        obtain ⟨p, n, hcr⟩ := tempFileLoop_created _ _ _ _ _ _ hwf hs
        exact ⟨p, n, hcr, Lstat_regular hwf hl hreg⟩
      · simp only [hreg, Bool.false_eq_true, if_false] at h
        by_cases hm : info.mode &&& ModeType = ModeSymlink
        · simp only [hm, if_true] at h
          cases hr : Readlink fs cur with
          | error err =>
            rw [hr] at h
            simp at h
          | ok text =>
            rw [hr] at h
            by_cases ha : filepath.IsAbs text = true
            · exact ih _ (by simpa [ha] using h)
            · exact ih _ (by simpa [ha] using h)
        · simp [hm] at h

theorem New_created {fs fs1 : FS} {target final : String} {f : File} (hwf : fs.tree.WF)
    (h : New fs target = (⟨final, some f, none⟩, fs1)) :
    ∃ p n, Created fs f p n fs1 ∧
      ∀ j v, fs.tree.lookup false final = .ok j v →
        ∃ data perm, fs.tree.inodes[j]? = some (.file data perm) :=
  NewLoop_created hwf _ _ h

/-- What the final name leads to in a staged tree is a regular file. -/
theorem Staged.final_file {t0 t : Tree} {p : Ino} {n : String} (hwf : t0.WF)
    (h : Staged t0 p n t) {final : String}
    (hfin : ∀ j v, t0.lookup false final = .ok j v →
      ∃ data perm, t0.inodes[j]? = some (.file data perm)) :
    ∀ j v, t.lookup false final = .ok j v →
      ∃ data perm, t.inodes[j]? = some (.file data perm) := by
  intro j v hl
  obtain ⟨c1, c2, c3, c4, c5⟩ := lookup_agree hwf h.agree false final
  cases hr : t0.lookup false final with
  | ok j0 v0 =>
    have hv : ∀ d c, v0 = some (d, c) → ¬ (d = p ∧ c = n) := by
      rintro d c rfl ⟨rfl, rfl⟩
      have := (lookup_via t0 false final).1 j0 _ _ hr
      rw [h.free] at this
      cases this
    obtain ⟨hs, _⟩ := c1 j0 v0 hr hv
    rw [hl] at hs
    cases hs
    obtain ⟨data, perm, hd⟩ := hfin _ _ hr
    exact ⟨data, perm, h.agree.keep _ _ hd (fun _ _ _ hh => by cases hh)⟩
  | missing d c last =>
    by_cases hx : d = p ∧ c = n
    · cases last with
      | true =>
        have := c3 d c hr hx
        obtain ⟨rfl, rfl⟩ := hx
        rw [hl] at this
        simp only [Tree.outcome, h.entry, Found.ok.injEq] at this
        rw [this.1]
        exact h.file
      | false =>
        exact absurd hl (c5 (fun _ _ hh => by rw [hr] at hh; cases hh)
          (fun _ _ _ hh => by rw [hr] at hh; cases hh) j v)
    · have := c4 d c last hr hx
      rw [hl] at this
      cases this
  | err e =>
    exact absurd hl (c5 (fun _ _ hh => by rw [hr] at hh; cases hh)
      (fun _ _ _ hh => by rw [hr] at hh; cases hh) j v)

/-! ## The runs of `Abort` and of `Commit` -/

/-- The two calls of `Abort` in a session. -/
theorem Abort_steps {fs0 fs : FS} {f : File} {p : Ino} {n : String}
    (h : Session fs0 f p n fs) :
    ∃ ok rm, (Abort fs f).log = fs.log ++ [⟨.close f.fd, ok, fs.tree⟩, rm] ∧
      Removed fs0 f p n fs.tree rm ∧ (Abort fs f).tree = rm.tree := by
  obtain ⟨ok, _, htree, hflt, hlog⟩ := h.close_step
  obtain ⟨rm, hl, hrm, ht⟩ := Remove_staged (f.Close fs).2 h.wf0 h.name h.sep
    (by rw [htree]; exact h.staged) hflt
  refine ⟨ok, rm, ?_, by rw [htree] at hrm; exact hrm, ht⟩
  unfold Abort
  simp only
  rw [hl, hlog]
  simp

/-- The four runs of `Commit` in a session whose staging file holds `data`:
`Sync` fails; `Close` fails; `Rename` fails; or all three succeed.  After
`Sync` come the calls `pre` of the permission copy (none, or one `Chmod`),
which leave the staged tree `t2` with the same content in the staging file;
a failure is followed by the `Remove` of the staging name. -/
theorem Commit_runs {fs0 ws : FS} {f : File} {p : Ino} {n : String}
    (h : Session fs0 f p n ws) (final : String) {data : Bytes} {perm : FileMode}
    (hd : ws.tree.inodes[fs0.tree.inodes.length]? = some (.file data perm)) :
    ∃ (pre : List Snap) (t2 : Tree),
      (∀ st ∈ pre, Staged fs0.tree p n st.tree ∧ ∃ m, st.call = .chmod f.fd m) ∧
      Staged fs0.tree p n t2 ∧
      (∃ perm', t2.inodes[fs0.tree.inodes.length]? = some (.file data perm')) ∧
      ((∃ flt rm, fs0.faults.sync f.fd = some flt ∧
          (Commit ws final f).1 = some (.pathError "sync" f.name (.errno flt.errno)) ∧
          (Commit ws final f).2.log = ws.log ++ [⟨.sync f.fd, false, ws.tree⟩, rm] ∧
          Removed fs0 f p n ws.tree rm ∧ (Commit ws final f).2.tree = rm.tree) ∨
        (∃ flt rm, fs0.faults.sync f.fd = none ∧ fs0.faults.close f.fd = some flt ∧
          (Commit ws final f).1 = some (.pathError "close" f.name (.errno flt.errno)) ∧
          (Commit ws final f).2.log =
            ws.log ++ ([⟨.sync f.fd, true, ws.tree⟩] ++ pre ++ [⟨.close f.fd, false, t2⟩, rm]) ∧
          Removed fs0 f p n t2 rm ∧ (Commit ws final f).2.tree = rm.tree) ∨
        (∃ c rm, fs0.faults.sync f.fd = none ∧ fs0.faults.close f.fd = none ∧
          (Commit ws final f).1 = some (.linkError "rename" f.name final c) ∧
          (Commit ws final f).2.log =
            ws.log ++ ([⟨.sync f.fd, true, ws.tree⟩] ++ pre ++
              [⟨.close f.fd, true, t2⟩, ⟨.rename f.name final, false, t2⟩, rm]) ∧
          Removed fs0 f p n t2 rm ∧ (Commit ws final f).2.tree = rm.tree) ∨
        (∃ t3, fs0.faults.sync f.fd = none ∧ fs0.faults.close f.fd = none ∧
          (Commit ws final f).1 = none ∧
          (Commit ws final f).2.log =
            ws.log ++ ([⟨.sync f.fd, true, ws.tree⟩] ++ pre ++
              [⟨.close f.fd, true, t2⟩, ⟨.rename f.name final, true, t3⟩]) ∧
          t2.rename f.name final = .ok t3 ∧ (Commit ws final f).2.tree = t3)) := by
  rw [Commit_unfold]
  rcases h.sync_step with ⟨hs, hsync⟩ | ⟨flt, hs, hsync⟩
  · rw [hsync]
    simp only
    have h1 := h.after_record (.sync f.fd) true
    have hd1 : (ws.record (.sync f.fd) true).tree.inodes[fs0.tree.inodes.length]? =
        some (.file data perm) := hd
    obtain ⟨h2, ⟨pre, hlog2, hpre⟩, perm', hd2⟩ := h1.permCopy_session final hd1
    generalize permCopy (ws.record (.sync f.fd) true) final f = fs2 at h2 hlog2 hd2 ⊢
    have hlog2' : fs2.log = ws.log ++ ([⟨.sync f.fd, true, ws.tree⟩] ++ pre) := by
      rw [hlog2]
      simp [FS.record]
    obtain ⟨ok, hres, htree, hflt, hlog3⟩ := h2.close_step
    refine ⟨pre, fs2.tree, hpre, h2.staged, ⟨perm', hd2⟩, ?_⟩
    cases hc : f.Close fs2 with
    | mk r fs3 =>
      rw [hc] at hres htree hflt hlog3
      simp only at hres htree hflt hlog3
      rcases hres with ⟨hcl, rfl, rfl⟩ | ⟨flt, hcl, rfl, rfl⟩
      · simp only
        rcases Rename_step fs3 f.name final with
          ⟨c, hr1, hr2, hr3, hr4⟩ | ⟨t3, hr0, hr1, hr2, hr3, hr4⟩
        · cases hrn : Rename fs3 f.name final with
          | mk r4 fs4 =>
            rw [hrn] at hr1 hr2 hr3 hr4
            simp only at hr1 hr2 hr3 hr4
            subst hr1
            simp only
            obtain ⟨rm, hl5, hrm, ht5⟩ := Remove_staged fs4 h.wf0 h.name h.sep
              (by rw [hr2, htree]; exact h2.staged) (by rw [hr3, hflt])
            refine Or.inr (Or.inr (Or.inl ⟨c, rm, hs, hcl, rfl, ?_, ?_, ht5⟩))
            · rw [hl5, hr4, hlog3, hlog2']
              simp [htree]
            · rw [hr2, htree] at hrm
              exact hrm
        · cases hrn : Rename fs3 f.name final with
          | mk r4 fs4 =>
            rw [hrn] at hr1 hr2 hr3 hr4
            simp only at hr1 hr2 hr3 hr4
            subst hr1
            simp only
            refine Or.inr (Or.inr (Or.inr ⟨t3, hs, hcl, trivial, ?_, ?_, hr2⟩))
            · rw [hr4, hlog3, hlog2']
              simp
            · rw [← htree]
              exact hr0
      · simp only
        obtain ⟨rm, hl5, hrm, ht5⟩ := Remove_staged fs3 h.wf0 h.name h.sep
          (by rw [htree]; exact h2.staged) hflt
        refine Or.inr (Or.inl ⟨flt, rm, hs, hcl, rfl, ?_, ?_, ht5⟩)
        · rw [hl5, hlog3, hlog2']
          simp
        · rw [htree] at hrm
          exact hrm
  · rw [hsync]
    simp only
    obtain ⟨rm, hl, hrm, ht⟩ := Remove_staged (ws.record (.sync f.fd) false) h.wf0 h.name
      h.sep h.staged h.faults
    refine ⟨[], ws.tree, by simp, h.staged, ⟨perm, hd⟩, Or.inl ⟨flt, rm, hs, rfl, ?_, hrm, ht⟩⟩
    rw [hl]
    simp [FS.record]

/-! ## A session from `New` on -/

theorem Removed.tree_cases {fs0 : FS} {f : File} {p : Ino} {n : String} {t : Tree} {rm : Snap}
    (hst : Staged fs0.tree p n t) (h : Removed fs0 f p n t rm) :
    Staged fs0.tree p n rm.tree ∨ AgreeOff (fun _ _ => False) fs0.tree rm.tree := by
  rcases h.2 with ⟨_, _, ht⟩ | ⟨_, _, ht⟩
  · right
    rw [ht]
    exact hst.unbind_same
  · left
    rw [ht]
    exact hst

/-- In a tree that is the staged one, or the old one but for inodes left
behind, every path that does not dangle at the staging entry leads where it
led and shows what it showed. -/
theorem read_unchanged {t0 t : Tree} {p : Ino} {n : String} (hwf : t0.WF)
    (h : Staged t0 p n t ∨ AgreeOff (fun _ _ => False) t0 t) (path : String)
    (hne : t0.missingAt path ≠ some (p, n)) :
    t.read path = t0.read path ∧
    (∀ j v, t0.lookup true path = .ok j v → t.lookup true path = .ok j v) := by
  rcases h with h | h
  · exact h.read_eq hwf path hne
  · exact same_read hwf h path

/-- The state of a session after `New` and the writes. -/
theorem New_session {fs fs1 : FS} {target final : String} {f : File} (hwf : fs.tree.wf = true)
    (hnew : New fs target = (⟨final, some f, none⟩, fs1)) (chunks : List Bytes) :
    ∃ p n data, Session fs f p n fs1 ∧ Session fs f p n (writeAll fs1 f chunks) ∧
      fs.tree.missingAt f.name = some (p, n) ∧
      (writeAll fs1 f chunks).tree.inodes[fs.tree.inodes.length]? = some (.file data 384) ∧
      (fs.faults.write f.fd = none → data = chunks.flatten) ∧
      LogAll (fun t => Staged fs.tree p n t ∨ AgreeOff (fun _ _ => False) fs.tree t) fs
        (writeAll fs1 f chunks) ∧
      ∀ j v, fs.tree.lookup false final = .ok j v →
        ∃ data perm, fs.tree.inodes[j]? = some (.file data perm) := by
  have hWF := WF_of_wf hwf
  obtain ⟨p, n, hcr, hfin⟩ := New_created hWF hnew
  have hs1 := hcr.session hWF
  have hd1 := hcr.2.2.2.2.1
  obtain ⟨hs2, hlog2, data, hd2, hdata⟩ := Session.writeAll_steps chunks fs1 [] 384 hs1 hd1
  refine ⟨p, n, data, hs1, hs2, hs1.missingAt_name, hd2, ?_, ?_, hfin⟩
  · intro hw
    rw [hdata hw]
    simp
  · refine (hcr.2.2.2.2.2.2.log_mono ?_).log_trans (hlog2.log_mono (fun t h => Or.inl h))
    rintro t (rfl | h)
    · exact Or.inr (AgreeOff.agree_self (fun _ _ hh => hh.elim))
    · exact Or.inl h

theorem LogAll.drop_log {P : Tree → Prop} {a b : FS} (h : LogAll P a b) :
    ∀ st ∈ b.log.drop a.log.length, P st.tree := by
  obtain ⟨steps, e, hp⟩ := h
  rw [e]
  simpa using hp

/-- C2, amended: in every session on a well-formed tree, for every path (the
target path and the resolved path among them) that does not dangle at the
very directory entry in which the staging file is created, what a reader
finds at the path,
content or absence, is unchanged by `New`, by any writes to the staging
handle and by `Abort`, and is the same after every call made in between.
Paths are looked up as the kernel does, so the proviso holds for a path
however it is spelled, and it holds for every path at which something
exists. -/
theorem Session_unchanged (fs fs1 : FS) (target final : String) (f : File)
    (chunks : List Bytes) (path : String) (hwf : fs.tree.wf = true)
    (hnew : New fs target = (⟨final, some f, none⟩, fs1))
    (hne : ∀ e, fs.tree.missingAt path = some e → fs.tree.missingAt f.name ≠ some e) :
    fs1.read path = fs.read path ∧
    (writeAll fs1 f chunks).read path = fs.read path ∧
    (Abort (writeAll fs1 f chunks) f).read path = fs.read path ∧
    ∀ st ∈ (Abort (writeAll fs1 f chunks) f).log.drop fs.log.length,
      st.tree.read path = fs.read path := by
  have hWF := WF_of_wf hwf
  obtain ⟨p, n, data, hs1, hs2, hname, _, _, hlog, _⟩ := New_session hwf hnew chunks
  have hne' : fs.tree.missingAt path ≠ some (p, n) := fun hh => hne _ hh hname
  obtain ⟨ok, rm, hlog3, hrm, htree3⟩ := Abort_steps hs2
  have hrm' := hrm.tree_cases hs2.staged
  have hall : LogAll (fun t => Staged fs.tree p n t ∨ AgreeOff (fun _ _ => False) fs.tree t) fs
      (Abort (writeAll fs1 f chunks) f) := by
    refine hlog.log_trans ⟨_, hlog3, ?_⟩
    intro st hst
    simp only [List.mem_cons, List.mem_singleton, List.not_mem_nil, or_false] at hst
    rcases hst with rfl | rfl
    · exact Or.inl hs2.staged
    · exact hrm'
  refine ⟨(read_unchanged hWF (Or.inl hs1.staged) path hne').1,
    (read_unchanged hWF (Or.inl hs2.staged) path hne').1, ?_, ?_⟩
  · unfold FS.read
    rw [htree3]
    exact (read_unchanged hWF hrm' path hne').1
  · intro st hst
    exact (read_unchanged hWF (hall.drop_log st hst) path hne').1

/-- C3, amended: in every session `New`, writes, `Commit` on a well-formed
tree whose resolved path does not dangle at the very directory entry in which the staging file
is created, after every call of the session (create, each write, sync,
chmod, close, rename, and the remove of a failed `Commit`) a reader finds at
the resolved path either what was there before the session (content or
absence) or the complete new content `data`, the content of the staging file
when `Commit` is called (all the chunks, when no write fails); when the path
led to an inode before, it leads to one after every call; and when `Commit`
returns no error, the path shows the new content. -/
theorem Commit_all_or_nothing (fs fs1 : FS) (target final : String) (f : File)
    (chunks : List Bytes) (hwf : fs.tree.wf = true)
    (hnew : New fs target = (⟨final, some f, none⟩, fs1))
    (hne : ∀ e, fs.tree.missingAt final = some e → fs.tree.missingAt f.name ≠ some e) :
    ∃ data steps,
      (writeAll fs1 f chunks).read f.name = some data ∧
      (fs.faults.write f.fd = none → data = chunks.flatten) ∧
      (Commit (writeAll fs1 f chunks) final f).2.log = fs.log ++ steps ∧
      (∀ st ∈ steps,
        (st.tree.read final = fs.read final ∨ st.tree.read final = some data) ∧
        ((∃ j v, fs.tree.lookup true final = .ok j v) →
          ∃ j v, st.tree.lookup true final = .ok j v)) ∧
      ((Commit (writeAll fs1 f chunks) final f).1 = none →
        (Commit (writeAll fs1 f chunks) final f).2.read final = some data) := by
  have hWF := WF_of_wf hwf
  obtain ⟨p, n, data, _, hs2, hname, hd, hdata, hlog, hfin⟩ := New_session hwf hnew chunks
  have hne' : fs.tree.missingAt final ≠ some (p, n) := fun hh => hne _ hh hname
  obtain ⟨pre, t2, hpre, hst2, ⟨perm2, hd2⟩, hruns⟩ := Commit_runs hs2 final hd
  -- what a tree of the session shows at the resolved path
  have hold : ∀ t, Staged fs.tree p n t ∨ AgreeOff (fun _ _ => False) fs.tree t →
      (t.read final = fs.read final ∨ t.read final = some data) ∧
      ((∃ j v, fs.tree.lookup true final = .ok j v) → ∃ j v, t.lookup true final = .ok j v) := by
    intro t ht
    obtain ⟨a, b⟩ := read_unchanged hWF ht final hne'
    exact ⟨Or.inl a, fun ⟨j, v, hjv⟩ => ⟨j, v, b j v hjv⟩⟩
  have hnew3 : ∀ t3, t2.rename f.name final = .ok t3 →
      t3.read final = some data ∧ ∃ j v, t3.lookup true final = .ok j v := by
    intro t3 hr
    obtain ⟨v, hl, hi⟩ := hst2.rename_ok hWF hs2.name hs2.sep (hst2.final_file hWF hfin) hr
    refine ⟨?_, _, _, hl⟩
    unfold Tree.read
    rw [hl]
    simp only
    rw [hi, hd2]
  have hpre' : ∀ st ∈ pre, Staged fs.tree p n st.tree ∨
      AgreeOff (fun _ _ => False) fs.tree st.tree := fun st hst => Or.inl (hpre st hst).1
  obtain ⟨steps0, hsteps0, hall0⟩ := hlog
  refine ⟨data, steps0 ++ (Commit (writeAll fs1 f chunks) final f).2.log.drop
      (writeAll fs1 f chunks).log.length, hs2.staged.read_name hWF hs2.name hd, hdata, ?_, ?_, ?_⟩
  · rcases hruns with ⟨_, _, _, _, hl, _⟩ | ⟨_, _, _, _, _, hl, _⟩ | ⟨_, _, _, _, _, hl, _⟩ |
      ⟨_, _, _, _, hl, _⟩ <;>
    · rw [hl, List.drop_left, hsteps0, List.append_assoc]
  · intro st hst
    rcases List.mem_append.mp hst with hst | hst
    · exact hold _ (hall0 st hst)
    · rcases hruns with ⟨_, rm, _, _, hl, hrm, _⟩ | ⟨_, rm, _, _, _, hl, hrm, _⟩ |
        ⟨_, rm, _, _, _, hl, hrm, _⟩ | ⟨t3, _, _, _, hl, hr, _⟩
      · rw [hl, List.drop_left] at hst
        simp only [List.mem_cons, List.mem_singleton, List.not_mem_nil, or_false] at hst
        rcases hst with rfl | rfl
        · exact hold _ (Or.inl hs2.staged)
        · exact hold _ (hrm.tree_cases hs2.staged)
      · rw [hl, List.drop_left] at hst
        simp only [List.mem_append, List.mem_cons, List.mem_singleton, List.not_mem_nil,
          or_false] at hst
        rcases hst with (rfl | hst) | rfl | rfl
        · exact hold _ (Or.inl hs2.staged)
        · exact hold _ (hpre' st hst)
        · exact hold _ (Or.inl hst2)
        · exact hold _ (hrm.tree_cases hst2)
      · rw [hl, List.drop_left] at hst
        simp only [List.mem_append, List.mem_cons, List.mem_singleton, List.not_mem_nil,
          or_false] at hst
        rcases hst with (rfl | hst) | rfl | rfl | rfl
        · exact hold _ (Or.inl hs2.staged)
        · exact hold _ (hpre' st hst)
        · exact hold _ (Or.inl hst2)
        · exact hold _ (Or.inl hst2)
        · exact hold _ (hrm.tree_cases hst2)
      · rw [hl, List.drop_left] at hst
        simp only [List.mem_append, List.mem_cons, List.mem_singleton, List.not_mem_nil,
          or_false] at hst
        rcases hst with (rfl | hst) | rfl | rfl
        · exact hold _ (Or.inl hs2.staged)
        · exact hold _ (hpre' st hst)
        · exact hold _ (Or.inl hst2)
        · obtain ⟨a, b⟩ := hnew3 t3 hr
          exact ⟨Or.inr a, fun _ => b⟩
  · intro hnone
    rcases hruns with ⟨_, _, _, he, _⟩ | ⟨_, _, _, _, he, _⟩ | ⟨_, _, _, _, he, _⟩ |
      ⟨t3, _, _, _, _, hr, ht⟩
    · rw [he] at hnone
      cases hnone
    · rw [he] at hnone
      cases hnone
    · rw [he] at hnone
      cases hnone
    · unfold FS.read
      rw [ht]
      exact (hnew3 t3 hr).1

/-- After the staging entry is removed, the staging name leads nowhere
again. -/
theorem Staged.unbind_name {t0 t : Tree} {p : Ino} {n : String} (hwf : t0.WF)
    (h : Staged t0 p n t) {name : String} (hname : t0.lookup false name = .missing p n true) :
    (t.unbind p n).lookup false name = .missing p n true :=
  (lookup_agree hwf h.unbind_same false name).2.2.2.1 p n true hname (fun hh => hh)

/-- C16, amended: when `Commit` at the end of a session `New`, writes,
`Commit` on a well-formed tree returns an error `e`, then `e` is the error of the first of `Sync`,
`Close`, `Rename` that fails, and the calls `Commit` has made are: the failed
`Sync` alone; or `Sync`, the permission copy (no call, or one `Chmod`) and
the failed `Close`; or these and, after a successful `Close`, the failed
`Rename`; each followed by one `Remove` of the staging name and by nothing
else, so that no step after the failed one is performed and no `Rename`
takes effect.  The result of the `Remove` is discarded.  When the file
system does not refuse it, the staging name leads nowhere again and every
path leads where it led and shows what it showed before `New`; when it is
refused, the staging file stays, and every path that does not dangle at the
very directory entry of the staging file (the target path and the resolved
path, unless they name that entry) still shows what it showed before
`New`. -/
theorem Commit_failure_cleanup (fs fs1 : FS) (target final : String) (f : File)
    (chunks : List Bytes) (e : GoError) (hwf : fs.tree.wf = true)
    (hnew : New fs target = (⟨final, some f, none⟩, fs1))
    (herr : (Commit (writeAll fs1 f chunks) final f).1 = some e) :
    (∃ (ok : Bool) (pre : List (Call × Bool)),
      (∀ c ∈ pre, ∃ m b, c = (Call.chmod f.fd m, b)) ∧
      (ok = true ↔ fs.faults.remove f.name = none) ∧
      ((∃ flt, fs.faults.sync f.fd = some flt ∧
          e = .pathError "sync" f.name (.errno flt.errno) ∧
          callsSince (writeAll fs1 f chunks) (Commit (writeAll fs1 f chunks) final f).2 =
            [(.sync f.fd, false), (.remove f.name, ok)]) ∨
        (∃ flt, fs.faults.sync f.fd = none ∧ fs.faults.close f.fd = some flt ∧
          e = .pathError "close" f.name (.errno flt.errno) ∧
          callsSince (writeAll fs1 f chunks) (Commit (writeAll fs1 f chunks) final f).2 =
            [(.sync f.fd, true)] ++ pre ++ [(.close f.fd, false), (.remove f.name, ok)]) ∨
        (∃ c, fs.faults.sync f.fd = none ∧ fs.faults.close f.fd = none ∧
          e = .linkError "rename" f.name final c ∧
          callsSince (writeAll fs1 f chunks) (Commit (writeAll fs1 f chunks) final f).2 =
            [(.sync f.fd, true)] ++ pre ++
              [(.close f.fd, true), (.rename f.name final, false), (.remove f.name, ok)]))) ∧
    (fs.faults.remove f.name = none →
      (∃ d c, (Commit (writeAll fs1 f chunks) final f).2.tree.lookup false f.name =
        .missing d c true) ∧
      ∀ path, (Commit (writeAll fs1 f chunks) final f).2.read path = fs.read path ∧
        ∀ j v, fs.tree.lookup true path = .ok j v →
          (Commit (writeAll fs1 f chunks) final f).2.tree.lookup true path = .ok j v) ∧
    (∀ path, (∀ e', fs.tree.missingAt path = some e' → fs.tree.missingAt f.name ≠ some e') →
      (Commit (writeAll fs1 f chunks) final f).2.read path = fs.read path) := by
  have hWF := WF_of_wf hwf
  obtain ⟨p, n, data, _, hs2, hname, hd, _, _, _⟩ := New_session hwf hnew chunks
  obtain ⟨pre, t2, hpre, hst2, _, hruns⟩ := Commit_runs hs2 final hd
  have hpre' : ∀ c ∈ calls pre, ∃ m b, c = (Call.chmod f.fd m, b) := by
    intro c hc
    simp only [calls, List.mem_map] at hc
    obtain ⟨st, hst, rfl⟩ := hc
    obtain ⟨m, hm⟩ := (hpre st hst).2
    exact ⟨m, st.ok, by rw [hm]⟩
  -- the tree on which `Remove` was called, and what `Remove` left
  have key : ∃ (t : Tree) (rm : Snap), Staged fs.tree p n t ∧ Removed fs f p n t rm ∧
      (Commit (writeAll fs1 f chunks) final f).2.tree = rm.tree ∧
      ((∃ flt, fs.faults.sync f.fd = some flt ∧
          e = .pathError "sync" f.name (.errno flt.errno) ∧
          callsSince (writeAll fs1 f chunks) (Commit (writeAll fs1 f chunks) final f).2 =
            [(.sync f.fd, false), (.remove f.name, rm.ok)]) ∨
        (∃ flt, fs.faults.sync f.fd = none ∧ fs.faults.close f.fd = some flt ∧
          e = .pathError "close" f.name (.errno flt.errno) ∧
          callsSince (writeAll fs1 f chunks) (Commit (writeAll fs1 f chunks) final f).2 =
            [(.sync f.fd, true)] ++ calls pre ++
              [(.close f.fd, false), (.remove f.name, rm.ok)]) ∨
        (∃ c, fs.faults.sync f.fd = none ∧ fs.faults.close f.fd = none ∧
          e = .linkError "rename" f.name final c ∧
          callsSince (writeAll fs1 f chunks) (Commit (writeAll fs1 f chunks) final f).2 =
            [(.sync f.fd, true)] ++ calls pre ++
              [(.close f.fd, true), (.rename f.name final, false), (.remove f.name, rm.ok)])) := by
    rcases hruns with ⟨flt, rm, hs, he, hl, hrm, ht⟩ | ⟨flt, rm, hs, hc, he, hl, hrm, ht⟩ |
      ⟨c, rm, hs, hc, he, hl, hrm, ht⟩ | ⟨_, _, _, he, _⟩
    · rw [he] at herr
      cases herr
      refine ⟨_, rm, hs2.staged, hrm, ht, Or.inl ⟨flt, hs, rfl, ?_⟩⟩
      rw [callsSince_steps hl]
      simp [calls, hrm.1]
    · rw [he] at herr
      cases herr
      refine ⟨_, rm, hst2, hrm, ht, Or.inr (Or.inl ⟨flt, hs, hc, rfl, ?_⟩)⟩
      rw [callsSince_steps hl]
      simp [calls, hrm.1]
    · rw [he] at herr
      cases herr
      refine ⟨_, rm, hst2, hrm, ht, Or.inr (Or.inr ⟨c, hs, hc, rfl, ?_⟩)⟩
      rw [callsSince_steps hl]
      simp [calls, hrm.1]
    · rw [he] at herr
      cases herr
  obtain ⟨t, rm, hst, hrm, ht, hcalls⟩ := key
  refine ⟨⟨rm.ok, calls pre, hpre', ?_, hcalls⟩, ?_, ?_⟩
  · rcases hrm.2 with ⟨a, b, _⟩ | ⟨a, b, _⟩
    · simp [a, b]
    · simp [a, b]
  · intro hrem
    rcases hrm.2 with ⟨_, _, hrt⟩ | ⟨a, _, _⟩
    · refine ⟨⟨p, n, ?_⟩, ?_⟩
      · rw [ht, hrt]
        exact hst.unbind_name hWF hs2.name
      · intro path
        unfold FS.read
        rw [ht, hrt]
        exact same_read hWF hst.unbind_same path
    · exact absurd hrem a
  · intro path hne
    have hne' : fs.tree.missingAt path ≠ some (p, n) := fun hh => hne _ hh hname
    unfold FS.read
    rw [ht]
    exact (read_unchanged hWF (hrm.tree_cases hst) path hne').1

/-- The staging file under another spelling of the target.  The target
`/tmp/d/./.new.1804289383` does not exist; `New` creates the staging file
`/tmp/d/.new.1804289383`, which is the same directory entry, and a reader of
the target finds the empty staging file, and then what was written to it.
The two names are different strings, and dangle at the same entry before
`New`. -/
theorem staging_alias :
    (New fsBare "/tmp/d/./.new.1804289383").1 =
      ⟨"/tmp/d/./.new.1804289383", some staging, none⟩ ∧
    staging.name ≠ "/tmp/d/./.new.1804289383" ∧
    fsBare.tree.missingAt "/tmp/d/./.new.1804289383" = fsBare.tree.missingAt staging.name ∧
    fsBare.read "/tmp/d/./.new.1804289383" = none ∧
    (New fsBare "/tmp/d/./.new.1804289383").2.read "/tmp/d/./.new.1804289383" = some [] ∧
    (staging.Write (New fsBare "/tmp/d/./.new.1804289383").2 [1, 2]).2.read
      "/tmp/d/./.new.1804289383" = some [1, 2] := by
  decide

/-- C2, amended, at `TestSymlinkRel` with the writes and the `Abort` of
`TestAbort`: `sym` and `sym_target` read `original` throughout. -/
theorem Session_unchanged_witness :
    fsSymlinkRel.read "/tmp/d/sym" = some (bytes "original") ∧
    (New fsSymlinkRel "/tmp/d/sym").1 = ⟨"/tmp/d/sym_target", some staging, none⟩ ∧
    ((New fsSymlinkRel "/tmp/d/sym").2.read "/tmp/d/sym" = fsSymlinkRel.read "/tmp/d/sym" ∧
      (writeAll (New fsSymlinkRel "/tmp/d/sym").2 staging [bytes "test", bytes "ing"]).read
          "/tmp/d/sym" = fsSymlinkRel.read "/tmp/d/sym" ∧
      (Abort (writeAll (New fsSymlinkRel "/tmp/d/sym").2 staging
          [bytes "test", bytes "ing"]) staging).read "/tmp/d/sym" =
        fsSymlinkRel.read "/tmp/d/sym" ∧
      ∀ st ∈ (Abort (writeAll (New fsSymlinkRel "/tmp/d/sym").2 staging
          [bytes "test", bytes "ing"]) staging).log.drop fsSymlinkRel.log.length,
        st.tree.read "/tmp/d/sym" = fsSymlinkRel.read "/tmp/d/sym") ∧
    ((New fsSymlinkRel "/tmp/d/sym").2.read "/tmp/d/sym_target" =
        fsSymlinkRel.read "/tmp/d/sym_target" ∧
      (writeAll (New fsSymlinkRel "/tmp/d/sym").2 staging [bytes "test", bytes "ing"]).read
          "/tmp/d/sym_target" = fsSymlinkRel.read "/tmp/d/sym_target" ∧
      (Abort (writeAll (New fsSymlinkRel "/tmp/d/sym").2 staging
          [bytes "test", bytes "ing"]) staging).read "/tmp/d/sym_target" =
        fsSymlinkRel.read "/tmp/d/sym_target" ∧
      ∀ st ∈ (Abort (writeAll (New fsSymlinkRel "/tmp/d/sym").2 staging
          [bytes "test", bytes "ing"]) staging).log.drop fsSymlinkRel.log.length,
        st.tree.read "/tmp/d/sym_target" = fsSymlinkRel.read "/tmp/d/sym_target") :=
  ⟨by decide, by decide,
    Session_unchanged fsSymlinkRel _ "/tmp/d/sym" "/tmp/d/sym_target" staging
      [bytes "test", bytes "ing"] "/tmp/d/sym" (by decide) rfl
      (fun e h => by
        rw [show fsSymlinkRel.tree.missingAt "/tmp/d/sym" = none by decide] at h
        cases h),
    Session_unchanged fsSymlinkRel _ "/tmp/d/sym" "/tmp/d/sym_target" staging
      [bytes "test", bytes "ing"] "/tmp/d/sym_target" (by decide) rfl
      (fun e h => by
        rw [show fsSymlinkRel.tree.missingAt "/tmp/d/sym_target" = none by decide] at h
        cases h)⟩

/-- C3, amended, at `TestSymlinkRel` with two writes: every state of the
session shows `original` at `sym_target`, until the rename shows
`testing`. -/
theorem Commit_all_or_nothing_witness :
    (Commit (writeAll (New fsSymlinkRel "/tmp/d/sym").2 staging [bytes "test", bytes "ing"])
        "/tmp/d/sym_target" staging).2.log.map (fun st => st.tree.read "/tmp/d/sym_target") =
      [some (bytes "original"), some (bytes "original"), some (bytes "original"),
        some (bytes "original"), some (bytes "original"), some (bytes "original"),
        some (bytes "testing")] ∧
    ∃ data steps,
      (writeAll (New fsSymlinkRel "/tmp/d/sym").2 staging [bytes "test", bytes "ing"]).read
        staging.name = some data ∧
      (fsSymlinkRel.faults.write staging.fd = none →
        data = [bytes "test", bytes "ing"].flatten) ∧
      (Commit (writeAll (New fsSymlinkRel "/tmp/d/sym").2 staging [bytes "test", bytes "ing"])
        "/tmp/d/sym_target" staging).2.log = fsSymlinkRel.log ++ steps ∧
      (∀ st ∈ steps,
        (st.tree.read "/tmp/d/sym_target" = fsSymlinkRel.read "/tmp/d/sym_target" ∨
          st.tree.read "/tmp/d/sym_target" = some data) ∧
        ((∃ j v, fsSymlinkRel.tree.lookup true "/tmp/d/sym_target" = .ok j v) →
          ∃ j v, st.tree.lookup true "/tmp/d/sym_target" = .ok j v)) ∧
      ((Commit (writeAll (New fsSymlinkRel "/tmp/d/sym").2 staging [bytes "test", bytes "ing"])
          "/tmp/d/sym_target" staging).1 = none →
        (Commit (writeAll (New fsSymlinkRel "/tmp/d/sym").2 staging
          [bytes "test", bytes "ing"]) "/tmp/d/sym_target" staging).2.read
            "/tmp/d/sym_target" = some data) :=
  ⟨by decide,
    Commit_all_or_nothing fsSymlinkRel _ "/tmp/d/sym" "/tmp/d/sym_target" staging
      [bytes "test", bytes "ing"] (by decide) rfl
      (fun e h => by
        rw [show fsSymlinkRel.tree.missingAt "/tmp/d/sym_target" = none by decide] at h
        cases h)⟩

/-- C16, amended, at `TestSymlinkRel` when `fsync` fails: `Commit` returns
the error of `Sync`, the staging name leads nowhere afterwards, and `sym`
and `sym_target` read `original`; and when the `unlink` is refused as well,
they still do. -/
theorem Commit_failure_cleanup_witness :
    (Commit (writeAll (New fsSyncFail "/tmp/d/sym").2 staging [bytes "testing"])
        "/tmp/d/sym_target" staging).1 =
      some (.pathError "sync" "/tmp/d/.new.1804289383" (.errno 5)) ∧
    ((∃ d c, (Commit (writeAll (New fsSyncFail "/tmp/d/sym").2 staging [bytes "testing"])
        "/tmp/d/sym_target" staging).2.tree.lookup false staging.name = .missing d c true) ∧
      ∀ path, (Commit (writeAll (New fsSyncFail "/tmp/d/sym").2 staging [bytes "testing"])
          "/tmp/d/sym_target" staging).2.read path = fsSyncFail.read path ∧
        ∀ j v, fsSyncFail.tree.lookup true path = .ok j v →
          (Commit (writeAll (New fsSyncFail "/tmp/d/sym").2 staging [bytes "testing"])
            "/tmp/d/sym_target" staging).2.tree.lookup true path = .ok j v) ∧
    (Commit (writeAll (New fsSyncFailStuck "/tmp/d/sym").2 staging [bytes "testing"])
        "/tmp/d/sym_target" staging).2.read staging.name = some (bytes "testing") ∧
    (Commit (writeAll (New fsSyncFailStuck "/tmp/d/sym").2 staging [bytes "testing"])
        "/tmp/d/sym_target" staging).2.read "/tmp/d/sym" = fsSyncFailStuck.read "/tmp/d/sym" :=
  ⟨by decide,
    (Commit_failure_cleanup fsSyncFail _ "/tmp/d/sym" "/tmp/d/sym_target" staging
      [bytes "testing"] (.pathError "sync" "/tmp/d/.new.1804289383" (.errno 5))
      (by decide) rfl rfl).2.1 rfl,
    by decide,
    (Commit_failure_cleanup fsSyncFailStuck _ "/tmp/d/sym" "/tmp/d/sym_target" staging
      [bytes "testing"] (.pathError "sync" "/tmp/d/.new.1804289383" (.errno 5))
      (by decide) rfl rfl).2.2 "/tmp/d/sym"
      (fun e h => by
        rw [show fsSyncFailStuck.tree.missingAt "/tmp/d/sym" = none by decide] at h
        cases h)⟩

/-- C18, against the code.  `New` follows a relative link text lexically,
with `filepath.Clean(filepath.Join(filepath.Dir(finalFname), tgt))`, where
the kernel follows it from the directory that holds the link.  In the first
tree `/tmp/d/sub` is a link to `/tmp/e` and `/tmp/d/sub/l` a link to `../t`:
a reader of `/tmp/d/sub/l` is led to `/tmp/t`, which holds `original`, but
`New` returns `/tmp/d/t`, and after the write of `testing` and a successful
`Commit` the file `/tmp/d/t`, which held `other`, holds `testing`, while the
link, unchanged itself, still reads `original`.  In the second tree
`/tmp/d/l` is a link to `nodir/../t` and `/tmp/d/nodir` does not exist: a reader finds nothing at
`/tmp/d/l`, before and after, but `New` returns `/tmp/d/t` and `Commit`
replaces that file.  On `TestSymlinkRel`, where the link text is a plain
name, the link reads `testing` after `Commit`. -/
theorem Commit_wrong_file :
    (fsDirLink.read "/tmp/d/sub/l" = some (bytes "original") ∧
      fsDirLink.read "/tmp/t" = some (bytes "original") ∧
      fsDirLink.read "/tmp/d/t" = some (bytes "other") ∧
      (New fsDirLink "/tmp/d/sub/l").1 = ⟨"/tmp/d/t", some staging, none⟩ ∧
      (Commit (writeAll (New fsDirLink "/tmp/d/sub/l").2 staging [bytes "testing"])
        "/tmp/d/t" staging).1 = none ∧
      (Commit (writeAll (New fsDirLink "/tmp/d/sub/l").2 staging [bytes "testing"])
        "/tmp/d/t" staging).2.read "/tmp/d/sub/l" = some (bytes "original") ∧
      (Commit (writeAll (New fsDirLink "/tmp/d/sub/l").2 staging [bytes "testing"])
        "/tmp/d/t" staging).2.read "/tmp/t" = some (bytes "original") ∧
      (Commit (writeAll (New fsDirLink "/tmp/d/sub/l").2 staging [bytes "testing"])
        "/tmp/d/t" staging).2.read "/tmp/d/t" = some (bytes "testing") ∧
      (Commit (writeAll (New fsDirLink "/tmp/d/sub/l").2 staging [bytes "testing"])
        "/tmp/d/t" staging).2.tree.lookup false "/tmp/d/sub/l" = .ok 7 (some (3, "l")) ∧
      (Commit (writeAll (New fsDirLink "/tmp/d/sub/l").2 staging [bytes "testing"])
        "/tmp/d/t" staging).2.tree.inodes[7]? = some (.symlink "../t")) ∧
    (fsDotDot.read "/tmp/d/l" = none ∧
      fsDotDot.tree.lookup true "/tmp/d/l" = .missing 2 "nodir" false ∧
      fsDotDot.read "/tmp/d/t" = some (bytes "original") ∧
      (New fsDotDot "/tmp/d/l").1 = ⟨"/tmp/d/t", some staging, none⟩ ∧
      (Commit (writeAll (New fsDotDot "/tmp/d/l").2 staging [bytes "testing"])
        "/tmp/d/t" staging).1 = none ∧
      (Commit (writeAll (New fsDotDot "/tmp/d/l").2 staging [bytes "testing"])
        "/tmp/d/t" staging).2.read "/tmp/d/l" = none ∧
      (Commit (writeAll (New fsDotDot "/tmp/d/l").2 staging [bytes "testing"])
        "/tmp/d/t" staging).2.read "/tmp/d/t" = some (bytes "testing")) ∧
    ((New fsSymlinkRel "/tmp/d/sym").1 = ⟨"/tmp/d/sym_target", some staging, none⟩ ∧
      (Commit (writeAll (New fsSymlinkRel "/tmp/d/sym").2 staging [bytes "testing"])
        "/tmp/d/sym_target" staging).2.read "/tmp/d/sym" = some (bytes "testing")) := by
  decide

end posix

end writefile

namespace versionsort

/-! # Theorems about `versionsort` -/

/-- The cases of `TestLess`: each pair is in order, and not in the reverse
order. -/
theorem Less_TestLess :
    ([("1.1", "1.2"), ("1.2", "1.10"), ("x100", "x101"), ("x99", "x100"), ("x100x", "x101x"),
      ("x99x", "x100x"),
      ("100000000000000000000000000000000", "100000000000000000000000000000001"),
      ("abc", "xyz"), ("x1", "x11"), ("1.1.1", "1.1.2"), ("1.2.1", "1.2.3"),
      ("1.2.3", "1.3.1")].all
        (fun tc => Less (bytes tc.1) (bytes tc.2) && !Less (bytes tc.2) (bytes tc.1))) = true ∧
    (["1", "1.1", "x1", "x100", "x100x", "xx"].all
      (fun tc => !Less (bytes tc) (bytes tc))) = true := by
  constructor <;> decide

/-- The cases of `TestIntegerStartEnd`. -/
theorem integerStartEnd_TestIntegerStartEnd :
    ([("0", 0, 0, 1), ("00", 0, 1, 2), ("0x", 0, 0, 1), ("00x", 0, 1, 2), ("1", 0, 0, 1),
      ("11", 0, 0, 2), ("1x", 0, 0, 1), ("11x", 0, 0, 2), ("01", 0, 1, 2), ("01x", 0, 1, 2),
      ("x1", 1, 1, 2), ("x1x", 1, 1, 2)].all
        (fun tc => decide (integerStartEnd (bytes tc.1) tc.2.1 = tc.2.2))) = true := by
  decide

/-- C20, against the claim and against the package comment (version-aware):
with the prefix `1.` and the numerals `100` and `11`, neither with a leading
zero, `Less` reports `1.100` as less than `1.11` and `1.11` as not less than
`1.100`, although 100 is greater than 11.  The strings differ at index 3,
inside the number that starts at index 2; `integerStartEnd` is called at
index 3 and strips the zeros of `00` as if they were leading zeros, so both
fragments count as one digit long and `0` is compared with `1`.  The same
happens without the prefix. -/
theorem Less_magnitude_bug :
    endsInDigit (bytes "1.") = false ∧
    (isNumeral (bytes "100") = true ∧ noLeadingZero (bytes "100") = true) ∧
    (isNumeral (bytes "11") = true ∧ noLeadingZero (bytes "11") = true) ∧
    Less (bytes "1." ++ bytes "100") (bytes "1." ++ bytes "11") = true ∧
    Less (bytes "1." ++ bytes "11") (bytes "1." ++ bytes "100") = false ∧
    ¬ decimalValue (bytes "100") < decimalValue (bytes "11") ∧
    scan (bytes "1.100") (bytes "1.11") 4 4 0 none = (3, some 2) ∧
    integerStartEnd (bytes "1.100") 3 = (4, 5) ∧
    integerStartEnd (bytes "1.11") 3 = (3, 4) ∧
    Less (bytes "100") (bytes "11") = true := by
  refine ⟨by decide, ⟨by decide, by decide⟩, ⟨by decide, by decide⟩, by decide, by decide,
    by decide, by decide, by decide, by decide, by decide⟩

/-! ## The scan loop of `Less` -/

/-- The scan loop does not depend on the order of the two strings. -/
theorem scan_symm (v1 v2 : Str) (sl : Nat) :
    ∀ (fuel pos : Nat) (vStart : Option Nat),
      scan v2 v1 sl fuel pos vStart = scan v1 v2 sl fuel pos vStart := by
  intro fuel
  induction fuel with
  | zero => intro pos vStart; rfl
  | succ fuel ih =>
    intro pos vStart
    simp only [scan]
    by_cases hlt : pos < sl
    · by_cases heq : v1.byteAt pos = v2.byteAt pos
      · simp only [hlt, if_true, heq, ne_eq, not_true_eq_false, if_false, ih]
      · have heq2 : ¬ v2.byteAt pos = v1.byteAt pos := fun h => heq h.symm
        simp only [hlt, if_true, heq, heq2, ne_eq, not_false_eq_true]
    · simp only [hlt, if_false]

/-- Where the scan loop stops: not before `pos`, not after `smallestLen`, the
two strings agree on every index it has passed, and when it stops before
`smallestLen` the two strings differ there. -/
theorem scan_spec (v1 v2 : Str) (sl : Nat) :
    ∀ (fuel pos : Nat) (vStart : Option Nat), sl ≤ pos + fuel → pos ≤ sl →
      pos ≤ (scan v1 v2 sl fuel pos vStart).1 ∧ (scan v1 v2 sl fuel pos vStart).1 ≤ sl ∧
      (∀ i, pos ≤ i → i < (scan v1 v2 sl fuel pos vStart).1 → v1.byteAt i = v2.byteAt i) ∧
      ((scan v1 v2 sl fuel pos vStart).1 < sl →
        v1.byteAt (scan v1 v2 sl fuel pos vStart).1 ≠
          v2.byteAt (scan v1 v2 sl fuel pos vStart).1) := by
  intro fuel
  induction fuel with
  | zero =>
    intro pos vStart h1 h2
    simp only [scan]
    exact ⟨Nat.le_refl _, h2, fun i hi hi2 => absurd hi2 (by omega), fun h => absurd h (by omega)⟩
  | succ fuel ih =>
    intro pos vStart h1 h2
    simp only [scan]
    by_cases hlt : pos < sl
    · by_cases heq : v1.byteAt pos = v2.byteAt pos
      · simp only [hlt, if_true, heq, ne_eq, not_true_eq_false, if_false]
        have step : ∀ vs : Option Nat,
            pos ≤ (scan v1 v2 sl fuel (pos + 1) vs).1 ∧ (scan v1 v2 sl fuel (pos + 1) vs).1 ≤ sl ∧
            (∀ i, pos ≤ i → i < (scan v1 v2 sl fuel (pos + 1) vs).1 →
              v1.byteAt i = v2.byteAt i) ∧
            ((scan v1 v2 sl fuel (pos + 1) vs).1 < sl →
              v1.byteAt (scan v1 v2 sl fuel (pos + 1) vs).1 ≠
                v2.byteAt (scan v1 v2 sl fuel (pos + 1) vs).1) := by
          intro vs
          obtain ⟨a, b, c, d⟩ := ih (pos + 1) vs (by omega) (by omega)
          refine ⟨by omega, b, ?_, d⟩
          intro i hi hi2
          by_cases hip : i = pos
          · rw [hip]; exact heq
          · exact c i (by omega) hi2
        cases vStart with
        | none =>
          simp only
          split
          · exact step _
          · exact step _
        | some start =>
          simp only
          split
          · exact step _
          · exact step _
      · simp only [hlt, if_true, heq, ne_eq, not_false_eq_true]
        exact ⟨Nat.le_refl _, Nat.le_of_lt hlt, fun i hi hi2 => absurd hi2 (by omega),
          fun _ => trivial⟩
    · simp only [hlt, if_false]
      exact ⟨Nat.le_refl _, h2, fun i hi hi2 => absurd hi2 (by omega),
        fun h => h.elim⟩

/-- Two strings of the same length with the same byte at every index are
equal. -/
theorem ext_byteAt {v1 v2 : Str} (hlen : v1.length = v2.length)
    (h : ∀ i, i < v1.length → v1.byteAt i = v2.byteAt i) : v1 = v2 := by
  apply List.ext_getElem hlen
  intro i h1 h2
  have := h i h1
  simp only [Str.byteAt, List.getD_eq_getElem _ _ h1, List.getD_eq_getElem _ _ h2] at this
  exact this

theorem byteAt_append {v r : Str} {i : Nat} (h : i < v.length) :
    Str.byteAt (v ++ r) i = v.byteAt i := by
  simp only [Str.byteAt]
  exact List.getD_append _ _ _ _ h

theorem strLt_asymm : ∀ a b : Str, strLt a b = true → strLt b a = false := by
  intro a
  induction a with
  | nil =>
    intro b h
    cases b with
    | nil => rfl
    | cons y ys => rfl
  | cons x xs ih =>
    intro b h
    cases b with
    | nil => simp [strLt] at h
    | cons y ys =>
      simp only [strLt] at h ⊢
      by_cases hxy : x < y
      · have hyx : ¬ y < x := by omega
        simp [hyx, hxy]
      · by_cases hyx : y < x
        · simp [hxy, hyx] at h
        · simp only [hxy, hyx, if_false] at h ⊢
          exact ih ys h

theorem strLt_irrefl : ∀ a : Str, strLt a a = false := by
  intro a
  induction a with
  | nil => rfl
  | cons x xs ih => simp [strLt, ih]

/-- The length of the shorter string, as `Less` computes it, does not depend
on the order of the two strings. -/
theorem smallestLen_symm (v1 v2 : Str) :
    (if v1.length < v2.length then v1.length else v2.length) =
      (if v2.length < v1.length then v2.length else v1.length) := by
  split <;> split <;> omega

/-- The result of `Less`, with the scan loop run. -/
theorem Less_eq (v1 v2 : Str) :
    Less v1 v2 =
      if v1 = v2 then false
      else
        let r := scan v1 v2 (if v2.length < v1.length then v2.length else v1.length)
          (if v2.length < v1.length then v2.length else v1.length) 0 none
        if r.1 = v1.length then true
        else if r.1 = v2.length then false
        else if r.2 = none ∧
            (v1.byteAt r.1 < 48 ∨ v1.byteAt r.1 > 57 ∨ v2.byteAt r.1 < 48 ∨ v2.byteAt r.1 > 57) then
          strLt v1 v2
        else if (integerStartEnd v1 r.1).2 - (integerStartEnd v1 r.1).1 >
            (integerStartEnd v2 r.1).2 - (integerStartEnd v2 r.1).1 then false
        else if (integerStartEnd v1 r.1).2 - (integerStartEnd v1 r.1).1 <
            (integerStartEnd v2 r.1).2 - (integerStartEnd v2 r.1).1 then true
        else strLt (v1.slice (integerStartEnd v1 r.1).1 (integerStartEnd v1 r.1).2)
          (v2.slice (integerStartEnd v2 r.1).1 (integerStartEnd v2 r.1).2) := by
  unfold Less
  rfl

theorem Less_irrefl (v : Str) : Less v v = false := by
  unfold Less
  simp

/-- When the scan loop has run to the end of both strings, they are equal. -/
theorem scan_both_ends {v1 v2 : Str}
    (h1 : (scan v1 v2 (if v2.length < v1.length then v2.length else v1.length)
      (if v2.length < v1.length then v2.length else v1.length) 0 none).1 = v1.length)
    (h2 : (scan v1 v2 (if v2.length < v1.length then v2.length else v1.length)
      (if v2.length < v1.length then v2.length else v1.length) 0 none).1 = v2.length) :
    v1 = v2 := by
  obtain ⟨_, _, hag, _⟩ := scan_spec v1 v2 (if v2.length < v1.length then v2.length else v1.length)
    (if v2.length < v1.length then v2.length else v1.length) 0 none (by omega) (by omega)
  apply ext_byteAt (by rw [← h1, h2])
  intro i hi
  exact hag i (by omega) (by rw [h1]; exact hi)

theorem Less_asymm {v1 v2 : Str} (h : Less v1 v2 = true) : Less v2 v1 = false := by
  rw [Less_eq] at h ⊢
  by_cases heq : v1 = v2
  · simp [heq] at h
  · have heq2 : ¬ v2 = v1 := fun e => heq e.symm
    simp only [heq, heq2, if_false] at h ⊢
    rw [smallestLen_symm v1 v2, scan_symm v1 v2]
    have hboth := @scan_both_ends v1 v2
    generalize scan v1 v2 (if v2.length < v1.length then v2.length else v1.length)
      (if v2.length < v1.length then v2.length else v1.length) 0 none = r at h hboth ⊢
    by_cases hp1 : r.1 = v1.length
    · have hp2 : ¬ r.1 = v2.length := fun hp2 => heq (hboth hp1 hp2)
      rw [if_neg hp2, if_pos hp1]
    · by_cases hp2 : r.1 = v2.length
      · rw [if_neg hp1, if_pos hp2] at h
        cases h
      · simp only [hp1, hp2, if_false] at h ⊢
        by_cases hc : r.2 = none ∧
            (v1.byteAt r.1 < 48 ∨ v1.byteAt r.1 > 57 ∨ v2.byteAt r.1 < 48 ∨ v2.byteAt r.1 > 57)
        · have hc2 : r.2 = none ∧
              (v2.byteAt r.1 < 48 ∨ v2.byteAt r.1 > 57 ∨ v1.byteAt r.1 < 48 ∨ v1.byteAt r.1 > 57) := by
            obtain ⟨a, b⟩ := hc
            refine ⟨a, ?_⟩
            rcases b with b | b | b | b
            · exact Or.inr (Or.inr (Or.inl b))
            · exact Or.inr (Or.inr (Or.inr b))
            · exact Or.inl b
            · exact Or.inr (Or.inl b)
          rw [if_pos hc] at h
          rw [if_pos hc2]
          exact strLt_asymm _ _ h
        · have hc2 : ¬ (r.2 = none ∧
              (v2.byteAt r.1 < 48 ∨ v2.byteAt r.1 > 57 ∨ v1.byteAt r.1 < 48 ∨ v1.byteAt r.1 > 57)) := by
            intro hx
            apply hc
            obtain ⟨a, b⟩ := hx
            refine ⟨a, ?_⟩
            rcases b with b | b | b | b
            · exact Or.inr (Or.inr (Or.inl b))
            · exact Or.inr (Or.inr (Or.inr b))
            · exact Or.inl b
            · exact Or.inr (Or.inl b)
          rw [if_neg hc] at h
          rw [if_neg hc2]
          by_cases hgt : (integerStartEnd v1 r.1).2 - (integerStartEnd v1 r.1).1 >
              (integerStartEnd v2 r.1).2 - (integerStartEnd v2 r.1).1
          · simp [hgt] at h
          · rw [if_neg hgt] at h
            by_cases hlt : (integerStartEnd v1 r.1).2 - (integerStartEnd v1 r.1).1 <
                (integerStartEnd v2 r.1).2 - (integerStartEnd v2 r.1).1
            · rw [if_pos hlt]
            · rw [if_neg hlt] at h
              rw [if_neg hlt, if_neg hgt]
              exact strLt_asymm _ _ h

/-- C22: `Less` is asymmetric, and `Less v v` is false for every `v`. -/
theorem Less_asymmetric (v1 v2 : Str) :
    (Less v1 v2 = true → Less v2 v1 = false) ∧ Less v1 v1 = false :=
  ⟨Less_asymm, Less_irrefl v1⟩

/-- C22 at the pair `1.2`, `1.10` of the package comment. -/
theorem Less_asymmetric_witness :
    Less (bytes "1.2") (bytes "1.10") = true ∧ Less (bytes "1.10") (bytes "1.2") = false :=
  ⟨by decide, (Less_asymmetric (bytes "1.2") (bytes "1.10")).1 (by decide)⟩

/-- C24: when `v1` is a proper prefix of `v2`, `Less v1 v2` is true and
`Less v2 v1` is false. -/
theorem Less_prefix_first (v1 rest : Str) (hrest : rest ≠ []) :
    Less v1 (v1 ++ rest) = true ∧ Less (v1 ++ rest) v1 = false := by
  have hlen : (v1 ++ rest).length = v1.length + rest.length := List.length_append _ _
  have hpos : 0 < rest.length := List.length_pos.mpr hrest
  have hne : ¬ v1 = v1 ++ rest := by
    intro h
    have := congrArg List.length h
    omega
  have hsl : (if (v1 ++ rest).length < v1.length then (v1 ++ rest).length else v1.length) =
      v1.length := by
    split <;> omega
  have hscan : (scan v1 (v1 ++ rest) v1.length v1.length 0 none).1 = v1.length := by
    obtain ⟨_, hle, _, hd⟩ := scan_spec v1 (v1 ++ rest) v1.length v1.length 0 none
      (by omega) (by omega)
    by_contra hx
    have hlt : (scan v1 (v1 ++ rest) v1.length v1.length 0 none).1 < v1.length := by omega
    exact hd hlt (byteAt_append hlt).symm
  have h1 : Less v1 (v1 ++ rest) = true := by
    rw [Less_eq]
    simp only [hne, if_false, hsl, hscan, if_true]
  exact ⟨h1, Less_asymm h1⟩

/-- C24 at the pair `x1`, `x11` of `TestLess`. -/
theorem Less_prefix_first_witness :
    Less (bytes "x1") (bytes "x1" ++ bytes "1") = true ∧
      Less (bytes "x1" ++ bytes "1") (bytes "x1") = false :=
  Less_prefix_first (bytes "x1") (bytes "1") (by decide)

/-! ## Non-numeric differences -/

/-- After the scan loop `vStart` is set exactly when the byte before the
position reached is a decimal digit. -/
theorem scan_vStart (v1 v2 : Str) (sl : Nat) :
    ∀ (fuel pos : Nat) (vStart : Option Nat),
      (vStart = none ↔ ¬ (pos ≠ 0 ∧ 48 ≤ v1.byteAt (pos - 1) ∧ v1.byteAt (pos - 1) ≤ 57)) →
      ((scan v1 v2 sl fuel pos vStart).2 = none ↔
        ¬ ((scan v1 v2 sl fuel pos vStart).1 ≠ 0 ∧
          48 ≤ v1.byteAt ((scan v1 v2 sl fuel pos vStart).1 - 1) ∧
          v1.byteAt ((scan v1 v2 sl fuel pos vStart).1 - 1) ≤ 57)) := by
  intro fuel
  induction fuel with
  | zero => intro pos vStart h; exact h
  | succ fuel ih =>
    intro pos vStart h
    simp only [scan]
    by_cases hlt : pos < sl
    · by_cases heq : v1.byteAt pos = v2.byteAt pos
      · simp only [hlt, if_true, heq, ne_eq, not_true_eq_false, if_false]
        have hpos : pos + 1 - 1 = pos := by omega
        cases vStart with
        | none =>
          simp only
          split
          · rename_i hd
            apply ih
            rw [hpos, heq]
            simp only [reduceCtorEq, false_iff, not_not]
            exact ⟨by omega, hd.1, hd.2⟩
          · rename_i hd
            apply ih
            rw [hpos, heq]
            simp only [true_iff]
            intro hx
            exact hd ⟨hx.2.1, hx.2.2⟩
        | some start =>
          simp only
          split
          · rename_i hd
            apply ih
            rw [hpos, heq]
            simp only [true_iff]
            intro hx
            omega
          · rename_i hd
            apply ih
            rw [hpos, heq]
            simp only [reduceCtorEq, false_iff, not_not]
            exact ⟨by omega, by omega, by omega⟩
      · simp only [hlt, if_true, heq, ne_eq, not_false_eq_true]
        exact h
    · simp only [hlt, if_false]
      exact h

/-- At a byte that is not a decimal digit, `integerStartEnd` finds the
empty fragment. -/
theorem integerStartEnd_nondigit {s : Str} {p : Nat} (hp : p < s.length)
    (hn : s.byteAt p < 48 ∨ s.byteAt p > 57) : integerStartEnd s p = (p, p) := by
  obtain ⟨k, hk⟩ : ∃ k, s.length - p = k + 1 := ⟨s.length - p - 1, by omega⟩
  unfold integerStartEnd
  simp only [hk, scanEnd, hp, if_true, hn, Nat.sub_self, skipZeros]

/-- What `Less` returns when the two strings first differ at an index `i`
where both bytes are not decimal digits: the bytewise comparison when the
byte before `i` is not a decimal digit (or `i` is 0), and `false` when the
common prefix ends in a decimal digit. -/
theorem Less_nonnumeric {v1 v2 : Str} {i : Nat} (h1 : i < v1.length) (h2 : i < v2.length)
    (hag : ∀ j, j < i → v1.byteAt j = v2.byteAt j) (hd : v1.byteAt i ≠ v2.byteAt i)
    (hn1 : v1.byteAt i < 48 ∨ v1.byteAt i > 57) (hn2 : v2.byteAt i < 48 ∨ v2.byteAt i > 57) :
    Less v1 v2 =
      if i ≠ 0 ∧ 48 ≤ v1.byteAt (i - 1) ∧ v1.byteAt (i - 1) ≤ 57 then false
      else strLt v1 v2 := by
  have hne : ¬ v1 = v2 := by
    intro h
    rw [h] at hd
    exact hd rfl
  have hsl : i < (if v2.length < v1.length then v2.length else v1.length) := by
    split <;> omega
  obtain ⟨_, hle, hag2, hdiff⟩ := scan_spec v1 v2
    (if v2.length < v1.length then v2.length else v1.length)
    (if v2.length < v1.length then v2.length else v1.length) 0 none (by omega) (by omega)
  have hvs := scan_vStart v1 v2 (if v2.length < v1.length then v2.length else v1.length)
    (if v2.length < v1.length then v2.length else v1.length) 0 none (by simp)
  rw [Less_eq]
  simp only [hne, if_false]
  generalize scan v1 v2 (if v2.length < v1.length then v2.length else v1.length)
    (if v2.length < v1.length then v2.length else v1.length) 0 none = r at hle hag2 hdiff hvs ⊢
  have hr : r.1 = i := by
    by_contra hx
    rcases Nat.lt_or_gt_of_ne hx with hlt | hgt
    · exact hdiff (by omega) (hag r.1 hlt)
    · exact hd (hag2 i (by omega) hgt)
  rw [hr] at hvs ⊢
  have hp1 : ¬ i = v1.length := by omega
  have hp2 : ¬ i = v2.length := by omega
  simp only [hp1, hp2, if_false, integerStartEnd_nondigit h1 hn1,
    integerStartEnd_nondigit h2 hn2, Nat.sub_self, gt_iff_lt, Nat.lt_irrefl]
  by_cases hprev : i ≠ 0 ∧ 48 ≤ v1.byteAt (i - 1) ∧ v1.byteAt (i - 1) ≤ 57
  · have hsome : ¬ r.2 = none := fun hx => (hvs.mp hx) hprev
    rw [if_pos hprev, if_neg (fun hx => hsome hx.1)]
    simp [Str.slice, strLt]
  · have hnone : r.2 = none := hvs.mpr hprev
    rw [if_neg hprev, if_pos ⟨hnone, hn1.elim Or.inl (fun h => Or.inr (Or.inl h))⟩]

/-- C23, against the claim and against the comment in `Less` (a non-numeric
difference falls back to the standard lexicographical comparison): `1a` and
`1b` first differ at index 1, where both bytes are letters, and `1a < 1b`
bytewise, yet `Less` is false in both directions.  The common prefix ends in
a digit, so `vStart` is set and the guard `vStart == -1` sends the pair to the
comparison of integer fragments; both fragments are empty and compare as not
less.  The same happens for `1.2a` and `1.2b`. -/
theorem Less_nonnumeric_bug :
    (bytes "1a").byteAt 0 = (bytes "1b").byteAt 0 ∧
    (bytes "1a").byteAt 1 = 97 ∧ (bytes "1b").byteAt 1 = 98 ∧
    strLt (bytes "1a") (bytes "1b") = true ∧
    Less (bytes "1a") (bytes "1b") = false ∧
    Less (bytes "1b") (bytes "1a") = false ∧
    scan (bytes "1a") (bytes "1b") 2 2 0 none = (1, some 0) ∧
    integerStartEnd (bytes "1a") 1 = (1, 1) ∧
    integerStartEnd (bytes "1b") 1 = (1, 1) ∧
    Less (bytes "1.2a") (bytes "1.2b") = false ∧
    Less (bytes "1.2b") (bytes "1.2a") = false := by
  refine ⟨by decide, by decide, by decide, by decide, by decide, by decide, by decide,
    by decide, by decide, by decide, by decide⟩

/-! ## `Strings` -/

/-- No arrangement of the three strings `11`, `20`, `100` is in version
order. -/
theorem no_version_order_of_cycle :
    ∀ out : List Str, out.Perm [bytes "11", bytes "20", bytes "100"] →
      inVersionOrder out = false := by
  intro out h
  have hlen : out.length = 3 := h.length_eq
  match out, hlen with
  | [x, y, z], _ =>
    have hx : x ∈ [bytes "11", bytes "20", bytes "100"] := h.subset (by simp)
    have hy : y ∈ [bytes "11", bytes "20", bytes "100"] := h.subset (by simp)
    have hz : z ∈ [bytes "11", bytes "20", bytes "100"] := h.subset (by simp)
    simp only [List.mem_cons, List.mem_singleton, List.not_mem_nil, or_false] at hx hy hz
    rcases hx with rfl | rfl | rfl <;> rcases hy with rfl | rfl | rfl <;>
      rcases hz with rfl | rfl | rfl <;> revert h <;> decide

/-- C21, against the claim and against the contract of `sort.Interface`
(`Less` must describe a transitive ordering): `Less` runs in a circle on
`11`, `20`, `100`, since it reports `11` before `20`, `20` before `100` and
`100` before `11`.  Hence none of the six arrangements of these three
strings is in version order, whatever `sort.Sort` does with them.  The
expected result of `TestSort` is in version order. -/
theorem Strings_not_in_order :
    Less (bytes "11") (bytes "20") = true ∧
    Less (bytes "20") (bytes "100") = true ∧
    Less (bytes "100") (bytes "11") = true ∧
    ([[bytes "11", bytes "20", bytes "100"], [bytes "11", bytes "100", bytes "20"],
      [bytes "20", bytes "11", bytes "100"], [bytes "20", bytes "100", bytes "11"],
      [bytes "100", bytes "11", bytes "20"], [bytes "100", bytes "20", bytes "11"]].all
        (fun out => !inVersionOrder out)) = true ∧
    inVersionOrder [bytes "1", bytes "1.1", bytes "1.2", bytes "2.9", bytes "2.10",
      bytes "2.11", bytes "11", bytes "12", bytes "x"] = true := by
  refine ⟨by decide, by decide, by decide, by decide, by decide⟩

/-! ## Transitivity -/

/-- C36, against the claim and against the contract of `sort.Interface`
(`Less` must describe a transitive ordering): `Less` reports `11` before `20`
and `20` before `100`, but not `11` before `100`; it reports `100` before
`11` instead.  The strings `11` and `100` differ at index 1, inside the
number, where `integerStartEnd` strips the zeros of `00` as leading
zeros. -/
theorem Less_not_transitive :
    Less (bytes "11") (bytes "20") = true ∧
    Less (bytes "20") (bytes "100") = true ∧
    Less (bytes "11") (bytes "100") = false ∧
    Less (bytes "100") (bytes "11") = true ∧
    integerStartEnd (bytes "11") 1 = (1, 2) ∧
    integerStartEnd (bytes "100") 1 = (2, 3) := by
  refine ⟨by decide, by decide, by decide, by decide, by decide, by decide⟩

/-! ## `integerStartEnd` -/

/-- Where the first loop of `integerStartEnd` stops: at the first index from
`e` on that holds no decimal digit, or at the end of the string. -/
theorem scanEnd_spec (s : Str) :
    ∀ (fuel e : Nat), s.length ≤ e + fuel →
      e ≤ scanEnd s fuel e ∧ (e ≤ s.length → scanEnd s fuel e ≤ s.length) ∧
      (∀ i, e ≤ i → i < scanEnd s fuel e → 48 ≤ s.byteAt i ∧ s.byteAt i ≤ 57) ∧
      (scanEnd s fuel e < s.length →
        s.byteAt (scanEnd s fuel e) < 48 ∨ s.byteAt (scanEnd s fuel e) > 57) := by
  intro fuel
  induction fuel with
  | zero =>
    intro e h
    simp only [scanEnd]
    exact ⟨Nat.le_refl _, id, fun i h1 h2 => absurd h2 (by omega), fun h2 => absurd h2 (by omega)⟩
  | succ fuel ih =>
    intro e h
    simp only [scanEnd]
    by_cases hlt : e < s.length
    · by_cases hd : s.byteAt e < 48 ∨ s.byteAt e > 57
      · rw [if_pos hlt, if_pos hd]
        exact ⟨Nat.le_refl _, id, fun i h1 h2 => absurd h2 (by omega), fun _ => hd⟩
      · rw [if_pos hlt, if_neg hd]
        obtain ⟨a, b, c, d⟩ := ih (e + 1) (by omega)
        refine ⟨by omega, fun _ => b (by omega), ?_, d⟩
        intro i h1 h2
        by_cases hi : i = e
        · rw [hi]; omega
        · exact c i (by omega) h2
    · rw [if_neg hlt]
      exact ⟨Nat.le_refl _, id, fun i h1 h2 => absurd h2 (by omega), fun h2 => absurd h2 hlt⟩

/-- Where the second loop of `integerStartEnd` stops: it passes bytes `0`
only, never goes past `e - 1`, and stops at the last digit or at a byte
other than `0`. -/
theorem skipZeros_spec (s : Str) (e : Nat) :
    ∀ (fuel start : Nat), e ≤ start + fuel + 1 →
      start ≤ skipZeros s e fuel start ∧
      (start + 1 ≤ e → skipZeros s e fuel start + 1 ≤ e) ∧
      (e ≤ start → skipZeros s e fuel start = start) ∧
      (∀ i, start ≤ i → i < skipZeros s e fuel start → s.byteAt i = 48) ∧
      (skipZeros s e fuel start + 1 < e → s.byteAt (skipZeros s e fuel start) ≠ 48) := by
  intro fuel
  induction fuel with
  | zero =>
    intro start h
    simp only [skipZeros]
    exact ⟨Nat.le_refl _, id, fun _ => trivial, fun i h1 h2 => absurd h2 (by omega),
      fun h2 => absurd h2 (by omega)⟩
  | succ fuel ih =>
    intro start h
    simp only [skipZeros]
    by_cases hc : start + 1 < e ∧ s.byteAt start = 48
    · rw [if_pos hc]
      obtain ⟨a, b, _, c, d⟩ := ih (start + 1) (by omega)
      refine ⟨by omega, fun _ => b (by omega), fun h2 => absurd h2 (by omega), ?_, d⟩
      intro i h1 h2
      by_cases hi : i = start
      · rw [hi]; exact hc.2
      · exact c i (by omega) h2
    · rw [if_neg hc]
      refine ⟨Nat.le_refl _, id, fun _ => rfl, fun i h1 h2 => absurd h2 (by omega), ?_⟩
      intro h2 h3
      exact hc ⟨h2, h3⟩

theorem slice_split (s : Str) {p m e : Nat} (h1 : p ≤ m) (h2 : m ≤ e) :
    s.slice p e = s.slice p m ++ s.slice m e := by
  unfold Str.slice
  have he : e - p = (m - p) + (e - m) := by omega
  rw [he, List.take_add, List.drop_drop]
  congr 3
  omega

theorem slice_byteAt (s : Str) {p e : Nat} (he : e ≤ s.length) :
    ∀ x ∈ s.slice p e, ∃ i, p ≤ i ∧ i < e ∧ x = s.byteAt i := by
  intro x hx
  unfold Str.slice at hx
  obtain ⟨k, hk, rfl⟩ := List.mem_iff_getElem.mp hx
  have hk2 : k < e - p ∧ k < s.length - p := by
    simpa using hk
  refine ⟨p + k, by omega, by omega, ?_⟩
  rw [List.getElem_take, List.getElem_drop]
  simp only [Str.byteAt]
  rw [List.getD_eq_getElem _ _ (by omega)]

theorem decimalValue_zeros :
    ∀ (zs x : Str), (∀ b ∈ zs, b = 48) → decimalValue (zs ++ x) = decimalValue x := by
  intro zs
  induction zs with
  | nil => intro x _; rfl
  | cons z zs ih =>
    intro x h
    have hz : z = 48 := h z (List.mem_cons_self _ _)
    have := ih x (fun b hb => h b (List.mem_cons_of_mem _ hb))
    unfold decimalValue at this ⊢
    rw [List.cons_append, List.foldl_cons, hz]
    exact this

/-- What `integerStartEnd s p` returns, for `p` within the string. -/
theorem integerStartEnd_spec (s : Str) (p : Nat) (hp : p ≤ s.length) :
    p ≤ (integerStartEnd s p).1 ∧ (integerStartEnd s p).1 ≤ (integerStartEnd s p).2 ∧
    (integerStartEnd s p).2 ≤ s.length ∧
    (∀ i, p ≤ i → i < (integerStartEnd s p).2 → 48 ≤ s.byteAt i ∧ s.byteAt i ≤ 57) ∧
    ((integerStartEnd s p).2 < s.length →
      s.byteAt (integerStartEnd s p).2 < 48 ∨ s.byteAt (integerStartEnd s p).2 > 57) ∧
    (∀ i, p ≤ i → i < (integerStartEnd s p).1 → s.byteAt i = 48) ∧
    ((integerStartEnd s p).1 + 1 < (integerStartEnd s p).2 →
      s.byteAt (integerStartEnd s p).1 ≠ 48) ∧
    (p < (integerStartEnd s p).2 → (integerStartEnd s p).1 < (integerStartEnd s p).2) := by
  obtain ⟨a1, a2, a3, a4⟩ := scanEnd_spec s (s.length - p) p (by omega)
  obtain ⟨b1, b2, b3, b4, b5⟩ := skipZeros_spec s (scanEnd s (s.length - p) p)
    (scanEnd s (s.length - p) p - p) p (by omega)
  have hst : (integerStartEnd s p).1 =
      skipZeros s (scanEnd s (s.length - p) p) (scanEnd s (s.length - p) p - p) p := rfl
  have he : (integerStartEnd s p).2 = scanEnd s (s.length - p) p := rfl
  rw [hst, he]
  refine ⟨b1, ?_, a2 hp, a3, a4, b4, b5, ?_⟩
  · by_cases h : p + 1 ≤ scanEnd s (s.length - p) p
    · have := b2 h
      omega
    · have := b3 (by omega)
      omega
  · intro h
    have := b2 (by omega)
    omega

/-- The fragment that `integerStartEnd` finds denotes the same number as
the digits from `p` on. -/
theorem integerStartEnd_value (s : Str) (p : Nat) (hp : p ≤ s.length) :
    decimalValue (s.slice (integerStartEnd s p).1 (integerStartEnd s p).2) =
      decimalValue (s.slice p (integerStartEnd s p).2) := by
  obtain ⟨h1, h2, h3, _, _, hz, _, _⟩ := integerStartEnd_spec s p hp
  rw [slice_split s h1 h2]
  refine (decimalValue_zeros _ _ ?_).symm
  intro b hb
  obtain ⟨i, hi1, hi2, rfl⟩ := slice_byteAt s (by omega) b hb
  exact hz i hi1 hi2

/-- C39: for `p` within the string, `integerStartEnd s p` returns
`(start, end)` with `p ≤ start ≤ end ≤ len(s)`; `end` is the first index from
`p` on that holds no digit, or `len(s)`; the bytes of `s[p:start]` are all
`0`; `s[start:end]` has no leading zero unless it is a single digit; it
denotes the same number as `s[p:end]`; and `start < end` when `s[p]` is a
digit.  In `Less` the index reached by the scan loop is within both strings,
and strictly so when neither string is a prefix of the other, so that every
index and slice of `Less` is within bounds. -/
theorem integerStartEnd_bounds (s : Str) (p : Nat) (hp : p ≤ s.length) :
    (p ≤ (integerStartEnd s p).1 ∧ (integerStartEnd s p).1 ≤ (integerStartEnd s p).2 ∧
      (integerStartEnd s p).2 ≤ s.length) ∧
    (∀ i, p ≤ i → i < (integerStartEnd s p).2 → 48 ≤ s.byteAt i ∧ s.byteAt i ≤ 57) ∧
    ((integerStartEnd s p).2 < s.length →
      s.byteAt (integerStartEnd s p).2 < 48 ∨ s.byteAt (integerStartEnd s p).2 > 57) ∧
    (∀ i, p ≤ i → i < (integerStartEnd s p).1 → s.byteAt i = 48) ∧
    ((integerStartEnd s p).1 + 1 < (integerStartEnd s p).2 →
      s.byteAt (integerStartEnd s p).1 ≠ 48) ∧
    decimalValue (s.slice (integerStartEnd s p).1 (integerStartEnd s p).2) =
      decimalValue (s.slice p (integerStartEnd s p).2) ∧
    (p < s.length → 48 ≤ s.byteAt p → s.byteAt p ≤ 57 →
      (integerStartEnd s p).1 < (integerStartEnd s p).2) ∧
    (∀ v2 : Str,
      (scan s v2 (if v2.length < s.length then v2.length else s.length)
        (if v2.length < s.length then v2.length else s.length) 0 none).1 ≤ s.length ∧
      (scan s v2 (if v2.length < s.length then v2.length else s.length)
        (if v2.length < s.length then v2.length else s.length) 0 none).1 ≤ v2.length) := by
  obtain ⟨h1, h2, h3, h4, h5, h6, h7, h8⟩ := integerStartEnd_spec s p hp
  refine ⟨⟨h1, h2, h3⟩, h4, h5, h6, h7, integerStartEnd_value s p hp, ?_, ?_⟩
  · intro hlt hd1 hd2
    apply h8
    by_contra hx
    have heq : (integerStartEnd s p).2 = p := by omega
    rw [heq] at h5
    have := h5 hlt
    omega
  · intro v2
    obtain ⟨_, hle, _, _⟩ := scan_spec s v2 (if v2.length < s.length then v2.length else s.length)
      (if v2.length < s.length then v2.length else s.length) 0 none (by omega) (by omega)
    constructor
    · refine Nat.le_trans hle ?_
      split <;> omega
    · refine Nat.le_trans hle ?_
      split <;> omega

/-- C39 on `x007y` from index 1, and on the end of the string. -/
theorem integerStartEnd_bounds_witness :
    integerStartEnd (bytes "x007y") 1 = (3, 4) ∧
    integerStartEnd (bytes "x007y") 5 = (5, 5) ∧
    (1 ≤ (integerStartEnd (bytes "x007y") 1).1 ∧
      (integerStartEnd (bytes "x007y") 1).1 ≤ (integerStartEnd (bytes "x007y") 1).2 ∧
      (integerStartEnd (bytes "x007y") 1).2 ≤ (bytes "x007y").length) ∧
    decimalValue ((bytes "x007y").slice (integerStartEnd (bytes "x007y") 1).1
        (integerStartEnd (bytes "x007y") 1).2) =
      decimalValue ((bytes "x007y").slice 1 (integerStartEnd (bytes "x007y") 1).2) :=
  have h := integerStartEnd_bounds (bytes "x007y") 1 (by decide)
  ⟨by decide, by decide, h.1, h.2.2.2.2.2.1⟩

/-! ## Numerals of equal length -/

theorem decimalValue_foldl (xs : Str) :
    ∀ acc : Nat, xs.foldl (fun n b => 10 * n + (b - 48)) acc =
      acc * 10 ^ xs.length + xs.foldl (fun n b => 10 * n + (b - 48)) 0 := by
  induction xs with
  | nil => intro acc; simp
  | cons x xs ih =>
    intro acc
    rw [List.foldl_cons, List.foldl_cons, ih (10 * acc + (x - 48)), ih (10 * 0 + (x - 48))]
    simp only [List.length_cons, Nat.pow_succ]
    ring

theorem decimalValue_cons (x : Nat) (xs : Str) :
    decimalValue (x :: xs) = (x - 48) * 10 ^ xs.length + decimalValue xs := by
  unfold decimalValue
  rw [List.foldl_cons, decimalValue_foldl xs (10 * 0 + (x - 48))]
  simp

theorem decimalValue_lt (xs : Str) (h : ∀ b ∈ xs, 48 ≤ b ∧ b ≤ 57) :
    decimalValue xs < 10 ^ xs.length := by
  induction xs with
  | nil => simp [decimalValue]
  | cons x xs ih =>
    have hx := h x (List.mem_cons_self _ _)
    have hxs := ih (fun b hb => h b (List.mem_cons_of_mem _ hb))
    rw [decimalValue_cons, List.length_cons, Nat.pow_succ]
    have h9 : x - 48 ≤ 9 := by omega
    have : (x - 48) * 10 ^ xs.length ≤ 9 * 10 ^ xs.length := Nat.mul_le_mul_right _ h9
    omega

/-- For numerals of the same length the bytewise order is the order of the
numbers they denote. -/
theorem strLt_iff_value :
    ∀ (a b : Str), a.length = b.length → (∀ x ∈ a, 48 ≤ x ∧ x ≤ 57) →
      (∀ x ∈ b, 48 ≤ x ∧ x ≤ 57) → (strLt a b = true ↔ decimalValue a < decimalValue b) := by
  intro a
  induction a with
  | nil =>
    intro b hl _ _
    cases b with
    | nil => simp [strLt, decimalValue]
    | cons y ys => simp at hl
  | cons x xs ih =>
    intro b hl ha hb
    cases b with
    | nil => simp at hl
    | cons y ys =>
      have hlen : xs.length = ys.length := by simpa using hl
      have hx := ha x (List.mem_cons_self _ _)
      have hy := hb y (List.mem_cons_self _ _)
      have hxs : ∀ z ∈ xs, 48 ≤ z ∧ z ≤ 57 := fun z hz => ha z (List.mem_cons_of_mem _ hz)
      have hys : ∀ z ∈ ys, 48 ≤ z ∧ z ≤ 57 := fun z hz => hb z (List.mem_cons_of_mem _ hz)
      have va := decimalValue_lt xs hxs
      have vb := decimalValue_lt ys hys
      rw [← hlen] at vb
      rw [decimalValue_cons, decimalValue_cons, ← hlen]
      simp only [strLt]
      by_cases hxy : x < y
      · simp only [hxy, if_true, true_iff]
        have : (x - 48 + 1) * 10 ^ xs.length ≤ (y - 48) * 10 ^ xs.length :=
          Nat.mul_le_mul_right _ (by omega)
        rw [Nat.add_mul] at this
        omega
      · by_cases hyx : y < x
        · simp only [hxy, hyx, if_false, if_true, Bool.false_eq_true, false_iff]
          have : (y - 48 + 1) * 10 ^ xs.length ≤ (x - 48) * 10 ^ xs.length :=
            Nat.mul_le_mul_right _ (by omega)
          rw [Nat.add_mul] at this
          omega
        · have hxy2 : x = y := by omega
          simp only [hxy, hyx, if_false]
          rw [ih ys hlen hxs hys, hxy2]
          omega

/-- The bytewise order of two strings is decided at the first index where
they differ. -/
theorem strLt_first_diff :
    ∀ (i : Nat) (a b : Str), i < a.length → i < b.length →
      (∀ j, j < i → a.byteAt j = b.byteAt j) → a.byteAt i ≠ b.byteAt i →
      strLt a b = decide (a.byteAt i < b.byteAt i) := by
  intro i
  induction i with
  | zero =>
    intro a b ha hb _ hd
    cases a with
    | nil => simp at ha
    | cons x xs =>
      cases b with
      | nil => simp at hb
      | cons y ys =>
        simp only [Str.byteAt, List.getD_cons_zero] at hd ⊢
        simp only [strLt]
        by_cases hxy : x < y
        · simp [hxy]
        · have hyx : y < x := by omega
          simp [hxy, hyx]
  | succ i ih =>
    intro a b ha hb hag hd
    cases a with
    | nil => simp at ha
    | cons x xs =>
      cases b with
      | nil => simp at hb
      | cons y ys =>
        have h0 := hag 0 (by omega)
        simp only [Str.byteAt, List.getD_cons_zero] at h0
        simp only [Str.byteAt, List.getD_cons_succ] at hd ⊢
        simp only [strLt, h0, Nat.lt_irrefl, if_false]
        refine ih xs ys (by simpa using ha) (by simpa using hb) ?_ hd
        intro j hj
        have := hag (j + 1) (by omega)
        simpa [Str.byteAt] using this

theorem slice_length (s : Str) {p e : Nat} (he : e ≤ s.length) : (s.slice p e).length = e - p := by
  simp only [Str.slice, List.length_take, List.length_drop]
  omega

theorem byteAt_slice (s : Str) {p e k : Nat} (he : e ≤ s.length) (hk : p + k < e) :
    (s.slice p e).byteAt k = s.byteAt (p + k) := by
  have h1 : k < (s.slice p e).length := by rw [slice_length s he]; omega
  simp only [Str.byteAt]
  rw [List.getD_eq_getElem _ _ h1, List.getD_eq_getElem _ _ (by omega)]
  simp only [Str.slice]
  rw [List.getElem_take, List.getElem_drop]

/-- The scan loop of `Less` stops at the first index where the strings
differ. -/
theorem scan_first_diff {v1 v2 : Str} {i : Nat} (h1 : i < v1.length) (h2 : i < v2.length)
    (hag : ∀ j, j < i → v1.byteAt j = v2.byteAt j) (hd : v1.byteAt i ≠ v2.byteAt i) :
    (scan v1 v2 (if v2.length < v1.length then v2.length else v1.length)
      (if v2.length < v1.length then v2.length else v1.length) 0 none).1 = i := by
  have hsl : i < (if v2.length < v1.length then v2.length else v1.length) := by
    split <;> omega
  obtain ⟨_, hle, hag2, hdiff⟩ := scan_spec v1 v2
    (if v2.length < v1.length then v2.length else v1.length)
    (if v2.length < v1.length then v2.length else v1.length) 0 none (by omega) (by omega)
  by_contra hx
  rcases Nat.lt_or_gt_of_ne hx with hlt | hgt
  · exact hdiff (by omega) (hag _ hlt)
  · exact hd (hag2 i (by omega) hgt)

/-- Two different strings of which neither is a prefix of the other differ
at the index where the scan loop stops, and agree before it. -/
theorem scan_stops_at_diff {v1 v2 : Str}
    (h1 : (scan v1 v2 (if v2.length < v1.length then v2.length else v1.length)
      (if v2.length < v1.length then v2.length else v1.length) 0 none).1 ≠ v1.length)
    (h2 : (scan v1 v2 (if v2.length < v1.length then v2.length else v1.length)
      (if v2.length < v1.length then v2.length else v1.length) 0 none).1 ≠ v2.length) :
    ∃ i, (scan v1 v2 (if v2.length < v1.length then v2.length else v1.length)
        (if v2.length < v1.length then v2.length else v1.length) 0 none).1 = i ∧
      i < v1.length ∧ i < v2.length ∧ (∀ j, j < i → v1.byteAt j = v2.byteAt j) ∧
      v1.byteAt i ≠ v2.byteAt i := by
  obtain ⟨_, hle, hag2, hdiff⟩ := scan_spec v1 v2
    (if v2.length < v1.length then v2.length else v1.length)
    (if v2.length < v1.length then v2.length else v1.length) 0 none (by omega) (by omega)
  have hsl : (if v2.length < v1.length then v2.length else v1.length) ≤ v1.length ∧
      (if v2.length < v1.length then v2.length else v1.length) ≤ v2.length ∧
      ((if v2.length < v1.length then v2.length else v1.length) = v1.length ∨
        (if v2.length < v1.length then v2.length else v1.length) = v2.length) := by
    split <;> omega
  refine ⟨_, rfl, by omega, by omega, fun j hj => hag2 j (by omega) hj, hdiff (by omega)⟩

/-- What `Less` returns when the strings first differ at an index `i` where
both bytes are decimal digits: the comparison of the two integer
fragments. -/
theorem Less_numeric {v1 v2 : Str} {i : Nat} (h1 : i < v1.length) (h2 : i < v2.length)
    (hag : ∀ j, j < i → v1.byteAt j = v2.byteAt j) (hd : v1.byteAt i ≠ v2.byteAt i)
    (hn1 : 48 ≤ v1.byteAt i ∧ v1.byteAt i ≤ 57) (hn2 : 48 ≤ v2.byteAt i ∧ v2.byteAt i ≤ 57) :
    Less v1 v2 =
      if (integerStartEnd v1 i).2 - (integerStartEnd v1 i).1 >
          (integerStartEnd v2 i).2 - (integerStartEnd v2 i).1 then false
      else if (integerStartEnd v1 i).2 - (integerStartEnd v1 i).1 <
          (integerStartEnd v2 i).2 - (integerStartEnd v2 i).1 then true
      else strLt (v1.slice (integerStartEnd v1 i).1 (integerStartEnd v1 i).2)
        (v2.slice (integerStartEnd v2 i).1 (integerStartEnd v2 i).2) := by
  have hne : ¬ v1 = v2 := by
    intro h
    rw [h] at hd
    exact hd rfl
  have hr := scan_first_diff h1 h2 hag hd
  rw [Less_eq]
  simp only [hne, if_false, hr]
  have hp1 : ¬ i = v1.length := by omega
  have hp2 : ¬ i = v2.length := by omega
  have hc : ¬ ((scan v1 v2 (if v2.length < v1.length then v2.length else v1.length)
      (if v2.length < v1.length then v2.length else v1.length) 0 none).2 = none ∧
      (v1.byteAt i < 48 ∨ v1.byteAt i > 57 ∨ v2.byteAt i < 48 ∨ v2.byteAt i > 57)) := by
    intro hx
    omega
  rw [if_neg hp1, if_neg hp2, if_neg hc]

/-- The pair that `integerStartEnd s p` returns is determined by the
properties of its result. -/
theorem integerStartEnd_eq {s : Str} {p st e : Nat} (hst : p ≤ st) (hse : st ≤ e)
    (he : e ≤ s.length) (hdig : ∀ i, p ≤ i → i < e → 48 ≤ s.byteAt i ∧ s.byteAt i ≤ 57)
    (hend : e < s.length → s.byteAt e < 48 ∨ s.byteAt e > 57)
    (hz : ∀ i, p ≤ i → i < st → s.byteAt i = 48) (hnz : st + 1 < e → s.byteAt st ≠ 48)
    (hlt : p < e → st < e) : integerStartEnd s p = (st, e) := by
  obtain ⟨a1, a2, a3, a4, a5, a6, a7, a8⟩ := integerStartEnd_spec s p (by omega)
  have hE : (integerStartEnd s p).2 = e := by
    by_contra hx
    rcases Nat.lt_or_gt_of_ne hx with h | h
    · have := a5 (by omega)
      have := hdig (integerStartEnd s p).2 (by omega) h
      omega
    · have := hend (by omega)
      have := a4 e (by omega) h
      omega
  have hS : (integerStartEnd s p).1 = st := by
    rw [hE] at a2 a7 a8
    by_contra hx
    rcases Nat.lt_or_gt_of_ne hx with h | h
    · have h1 := hz (integerStartEnd s p).1 a1 h
      exact a7 (by omega) h1
    · have h1 := a6 st hst h
      exact hnz (by omega) h1
  exact Prod.ext hS hE

theorem isNumeral_digits {a : Str} (h : isNumeral a = true) :
    a ≠ [] ∧ (∀ x ∈ a, 48 ≤ x ∧ x ≤ 57) ∧ ∀ i, i < a.length → 48 ≤ a.byteAt i ∧ a.byteAt i ≤ 57 := by
  simp only [isNumeral, Bool.and_eq_true, Bool.not_eq_true', List.isEmpty_eq_false,
    List.all_eq_true, decide_eq_true_eq] at h
  refine ⟨h.1, h.2, ?_⟩
  intro i hi
  simp only [Str.byteAt]
  rw [List.getD_eq_getElem _ _ hi]
  exact h.2 _ (List.getElem_mem _)

/-- On numerals of the same length `Less` is the bytewise order. -/
theorem Less_eq_strLt_of_numerals {a b : Str} (ha : isNumeral a = true)
    (hb : isNumeral b = true) (hlen : a.length = b.length) : Less a b = strLt a b := by
  obtain ⟨_, _, hda⟩ := isNumeral_digits ha
  obtain ⟨_, _, hdb⟩ := isNumeral_digits hb
  by_cases heq : a = b
  · rw [heq, Less_irrefl, strLt_irrefl]
  · have hnot : ¬ ((scan a b (if b.length < a.length then b.length else a.length)
        (if b.length < a.length then b.length else a.length) 0 none).1 = a.length) := by
      intro h
      exact heq (scan_both_ends h (by rw [h, hlen]))
    have hnot2 : ¬ ((scan a b (if b.length < a.length then b.length else a.length)
        (if b.length < a.length then b.length else a.length) 0 none).1 = b.length) := by
      intro h
      exact heq (scan_both_ends (by rw [h, hlen]) h)
    obtain ⟨i, _, hi1, hi2, hag, hd⟩ := scan_stops_at_diff hnot hnot2
    rw [Less_numeric hi1 hi2 hag hd (hda i hi1) (hdb i hi2), strLt_first_diff i a b hi1 hi2 hag hd]
    obtain ⟨a1, a2, a3, a4, a5, a6, a7, a8⟩ := integerStartEnd_spec a i (by omega)
    obtain ⟨b1, b2, b3, b4, b5, b6, b7, b8⟩ := integerStartEnd_spec b i (by omega)
    have hea : (integerStartEnd a i).2 = a.length := by
      by_contra hx
      have hlt : (integerStartEnd a i).2 < a.length := by omega
      have := a5 hlt
      have := hda _ hlt
      omega
    have heb : (integerStartEnd b i).2 = a.length := by
      by_contra hx
      have hlt : (integerStartEnd b i).2 < b.length := by omega
      have := b5 hlt
      have := hdb _ hlt
      omega
    rw [hea] at a2 a7 a8 ⊢
    rw [heb] at b2 b7 b8 ⊢
    have hsa := a8 hi1
    have hsb := b8 hi1
    have hai := hda i hi1
    have hbi := hdb i hi2
    by_cases hA : (integerStartEnd a i).1 = i
    · by_cases hB : (integerStartEnd b i).1 = i
      · rw [hA, hB]
        simp only [gt_iff_lt, Nat.lt_irrefl, if_false]
        have e1 := byteAt_slice a (Nat.le_refl a.length) (show i + 0 < a.length from hi1)
        have e2 := byteAt_slice b (show a.length ≤ b.length by omega)
          (show i + 0 < a.length from hi1)
        rw [strLt_first_diff 0 _ _ (by rw [slice_length a (Nat.le_refl _)]; omega)
          (by rw [slice_length b (by omega)]; omega) (fun j hj => absurd hj (by omega))
          (by rw [e1, e2]; exact hd), e1, e2, Nat.add_zero]
      · have hz := b6 i (Nat.le_refl i) (by omega)
        have h1 : ¬ (a.length - (integerStartEnd a i).1 < a.length - (integerStartEnd b i).1) := by
          omega
        have h2 : a.length - (integerStartEnd a i).1 > a.length - (integerStartEnd b i).1 := by
          omega
        rw [if_pos h2]
        have : ¬ a.byteAt i < b.byteAt i := by omega
        simp [this]
    · have hz := a6 i (Nat.le_refl i) (by omega)
      have hB : (integerStartEnd b i).1 = i := by
        by_contra hx
        have := b6 i (Nat.le_refl i) (by omega)
        exact hd (by rw [hz, this])
      have h1 : ¬ (a.length - (integerStartEnd a i).1 > a.length - (integerStartEnd b i).1) := by
        omega
      have h2 : a.length - (integerStartEnd a i).1 < a.length - (integerStartEnd b i).1 := by
        omega
      rw [if_neg h1, if_pos h2]
      have : a.byteAt i < b.byteAt i := by omega
      simp [this]

/-- C35: for non-empty strings of decimal digits of the same length, of any
length and with or without leading zeros, `Less a b` is true exactly when the
number that `a` denotes is less than the number that `b` denotes. -/
theorem Less_equal_length (a b : Str) (ha : isNumeral a = true) (hb : isNumeral b = true)
    (hlen : a.length = b.length) :
    Less a b = true ↔ decimalValue a < decimalValue b := by
  rw [Less_eq_strLt_of_numerals ha hb hlen]
  exact strLt_iff_value a b hlen (isNumeral_digits ha).2.1 (isNumeral_digits hb).2.1

/-- C35 on the numerals of 33 digits of `TestLess`, and on numerals with
leading zeros. -/
theorem Less_equal_length_witness :
    (Less (bytes "100000000000000000000000000000000")
        (bytes "100000000000000000000000000000001") = true ↔
      decimalValue (bytes "100000000000000000000000000000000") <
        decimalValue (bytes "100000000000000000000000000000001")) ∧
    (Less (bytes "0100") (bytes "0099") = true ↔
      decimalValue (bytes "0100") < decimalValue (bytes "0099")) ∧
    Less (bytes "0099") (bytes "0100") = true ∧ Less (bytes "0100") (bytes "0099") = false :=
  ⟨Less_equal_length _ _ (by decide) (by decide) (by decide),
    Less_equal_length (bytes "0100") (bytes "0099") (by decide) (by decide) (by decide),
    by decide, by decide⟩

theorem byteAt_append_right (p r : Str) (k : Nat) :
    Str.byteAt (p ++ r) (p.length + k) = r.byteAt k := by
  simp only [Str.byteAt]
  rw [List.getD_append_right _ _ _ _ (by omega)]
  simp

theorem byteAt_cons_succ (x : Nat) (r : Str) (k : Nat) :
    Str.byteAt (x :: r) (k + 1) = r.byteAt k := by
  simp [Str.byteAt]

theorem byteAt_cons_zero (x : Nat) (r : Str) : Str.byteAt (x :: r) 0 = x := by
  simp [Str.byteAt]

/-- A numeral that does not start with `0`, followed by a string that does
not start with a digit: the fragment at its first byte is the numeral. -/
theorem integerStartEnd_numeral (p d s : Str) (hd : isNumeral d = true)
    (hd0 : d.head? ≠ some 48) (hs : ∀ x, s.head? = some x → x < 48 ∨ 57 < x) :
    integerStartEnd (p ++ (d ++ s)) p.length = (p.length, p.length + d.length) := by
  obtain ⟨hne, _, hdig⟩ := isNumeral_digits hd
  have hpos : 0 < d.length := List.length_pos.mpr hne
  apply integerStartEnd_eq (Nat.le_refl _) (by omega)
  · simp only [List.length_append]; omega
  · intro i h1 h2
    obtain ⟨k, rfl⟩ := Nat.exists_eq_add_of_le h1
    rw [byteAt_append_right, byteAt_append (by omega)]
    exact hdig k (by omega)
  · intro h
    rw [byteAt_append_right]
    have e1 : Str.byteAt (d ++ s) d.length = s.byteAt 0 := byteAt_append_right d s 0
    rw [e1]
    cases s with
    | nil => simp at h
    | cons x xs => rw [byteAt_cons_zero]; exact (hs x rfl).imp id (fun h => h)
  · intro i h1 h2
    omega
  · intro _
    have e : p.length = p.length + 0 := rfl
    rw [e, byteAt_append_right, byteAt_append hpos]
    cases d with
    | nil => exact absurd rfl hne
    | cons x xs =>
      rw [byteAt_cons_zero]
      intro hx
      exact hd0 (by rw [hx]; rfl)
  · intro _
    omega

/-- The same numeral after one more `0`: the fragment skips the zero. -/
theorem integerStartEnd_zero_numeral (p d s : Str) (hd : isNumeral d = true)
    (hd0 : d.head? ≠ some 48) (hs : ∀ x, s.head? = some x → x < 48 ∨ 57 < x) :
    integerStartEnd (p ++ (48 :: (d ++ s))) p.length =
      (p.length + 1, p.length + 1 + d.length) := by
  obtain ⟨hne, _, hdig⟩ := isNumeral_digits hd
  have hpos : 0 < d.length := List.length_pos.mpr hne
  apply integerStartEnd_eq (Nat.le_add_right p.length 1) (by omega)
  · simp only [List.length_append, List.length_cons]; omega
  · intro i h1 h2
    obtain ⟨k, rfl⟩ := Nat.exists_eq_add_of_le h1
    rw [byteAt_append_right]
    cases k with
    | zero => rw [byteAt_cons_zero]; omega
    | succ k =>
      rw [byteAt_cons_succ, byteAt_append (by omega)]
      exact hdig k (by omega)
  · intro h
    have e : p.length + 1 + d.length = p.length + (d.length + 1) := by omega
    have e1 : Str.byteAt (d ++ s) d.length = s.byteAt 0 := byteAt_append_right d s 0
    rw [e, byteAt_append_right, byteAt_cons_succ, e1]
    cases s with
    | nil => simp at h; omega
    | cons x xs => rw [byteAt_cons_zero]; exact (hs x rfl).imp id (fun h => h)
  · intro i h1 h2
    have e : i = p.length + 0 := by omega
    rw [e, byteAt_append_right, byteAt_cons_zero]
  · intro _
    rw [byteAt_append_right p _ 1, byteAt_cons_succ, byteAt_append hpos]
    cases d with
    | nil => exact absurd rfl hne
    | cons x xs =>
      rw [byteAt_cons_zero]
      intro hx
      exact hd0 (by rw [hx]; rfl)
  · intro _
    omega

theorem slice_numeral (p d s : Str) :
    Str.slice (p ++ (d ++ s)) p.length (p.length + d.length) = d := by
  simp [Str.slice]

theorem slice_zero_numeral (p d s : Str) :
    Str.slice (p ++ (48 :: (d ++ s))) (p.length + 1) (p.length + 1 + d.length) = d := by
  have e : p ++ (48 :: (d ++ s)) = (p ++ [48]) ++ (d ++ s) := by simp
  have e2 : p.length + 1 = (p ++ [48]).length := by simp
  rw [e, e2, slice_numeral]

/-- C37: leading zeros make fragments equivalent and hide the rest of the
string.  For every prefix `p` (whether or not it ends in a digit), every
non-empty numeral `d` whose first digit is not `0`, and all suffixes `s` and
`t` that do not start with a digit, both `Less(p+"0"+d+s, p+d+t)` and
`Less(p+d+t, p+"0"+d+s)` are false, although the two strings are distinct. -/
theorem Less_leading_zero (p d s t : Str) (hd : isNumeral d = true)
    (hd0 : d.head? ≠ some 48) (hs : ∀ x, s.head? = some x → x < 48 ∨ 57 < x)
    (ht : ∀ x, t.head? = some x → x < 48 ∨ 57 < x) :
    Less (p ++ (48 :: (d ++ s))) (p ++ (d ++ t)) = false ∧
    Less (p ++ (d ++ t)) (p ++ (48 :: (d ++ s))) = false ∧
    p ++ (48 :: (d ++ s)) ≠ p ++ (d ++ t) := by
  obtain ⟨hne, _, hdig⟩ := isNumeral_digits hd
  have hpos : 0 < d.length := List.length_pos.mpr hne
  have e0 : p.length = p.length + 0 := rfl
  have h1 : p.length < (p ++ (48 :: (d ++ s))).length := by
    simp only [List.length_append, List.length_cons]; omega
  have h2 : p.length < (p ++ (d ++ t)).length := by
    simp only [List.length_append]; omega
  have hag : ∀ j, j < p.length →
      Str.byteAt (p ++ (48 :: (d ++ s))) j = Str.byteAt (p ++ (d ++ t)) j := by
    intro j hj
    rw [byteAt_append hj, byteAt_append hj]
  have b1 : Str.byteAt (p ++ (48 :: (d ++ s))) p.length = 48 := by
    rw [e0, byteAt_append_right, byteAt_cons_zero]
  have b2 : Str.byteAt (p ++ (d ++ t)) p.length = d.byteAt 0 := by
    rw [e0, byteAt_append_right, byteAt_append hpos]
  have hd48 : d.byteAt 0 ≠ 48 := by
    cases d with
    | nil => exact absurd rfl hne
    | cons x xs =>
      rw [byteAt_cons_zero]
      intro hx
      exact hd0 (by rw [hx]; rfl)
  have hdiff : Str.byteAt (p ++ (48 :: (d ++ s))) p.length ≠
      Str.byteAt (p ++ (d ++ t)) p.length := by
    rw [b1, b2]; exact fun h => hd48 h.symm
  have n1 : 48 ≤ Str.byteAt (p ++ (48 :: (d ++ s))) p.length ∧
      Str.byteAt (p ++ (48 :: (d ++ s))) p.length ≤ 57 := by
    rw [b1]; omega
  have n2 : 48 ≤ Str.byteAt (p ++ (d ++ t)) p.length ∧
      Str.byteAt (p ++ (d ++ t)) p.length ≤ 57 := by
    rw [b2]; exact hdig 0 hpos
  refine ⟨?_, ?_, ?_⟩
  · rw [Less_numeric h1 h2 hag hdiff n1 n2, integerStartEnd_zero_numeral p d s hd hd0 hs,
      integerStartEnd_numeral p d t hd hd0 ht]
    simp only [slice_zero_numeral, slice_numeral, strLt_irrefl]
    simp
  · rw [Less_numeric h2 h1 (fun j hj => (hag j hj).symm) (fun h => hdiff h.symm) n2 n1,
      integerStartEnd_zero_numeral p d s hd hd0 hs, integerStartEnd_numeral p d t hd hd0 ht]
    simp only [slice_zero_numeral, slice_numeral, strLt_irrefl]
    simp
  · intro h
    exact hdiff (by rw [h])

/-- C37 on `v01.x` and `v1.y`, and on `a007` and `a7b`. -/
theorem Less_leading_zero_witness :
    (Less (bytes "v01.x") (bytes "v1.y") = false ∧ Less (bytes "v1.y") (bytes "v01.x") = false ∧
      bytes "v01.x" ≠ bytes "v1.y") ∧
    (Less (bytes "a0123") (bytes "a123-rc") = false ∧
      Less (bytes "a123-rc") (bytes "a0123") = false ∧ bytes "a0123" ≠ bytes "a123-rc") :=
  ⟨Less_leading_zero (bytes "v") (bytes "1") (bytes ".x") (bytes ".y") (by decide) (by decide)
      (by decide) (by decide),
    Less_leading_zero (bytes "a") (bytes "123") [] (bytes "-rc") (by decide) (by decide)
      (by decide) (by decide)⟩

end versionsort

namespace byteio

/-! # Theorems about `byteio`

## Bytes and values -/

/-- Bitwise or of a multiple of `2^i` and a number below `2^i` is their sum. -/
theorem lor_low {x y : Nat} (i : Nat) (hx : x % 2 ^ i = 0) (hy : y < 2 ^ i) : x ||| y = x + y := by
  have hx2 : x = 2 ^ i * (x / 2 ^ i) := by
    have := Nat.div_add_mod x (2 ^ i)
    omega
  rw [hx2, ← Nat.mul_add_lt_is_or hy]

theorem bigEndian_two (n : Nat) : bigEndian 2 n = [(n >>> 8) % 256, n % 256] := by
  simp [bigEndian, List.range_succ]

theorem bigEndian_four (n : Nat) :
    bigEndian 4 n = [(n >>> 24) % 256, (n >>> 16) % 256, (n >>> 8) % 256, n % 256] := by
  simp [bigEndian, List.range_succ]

theorem bigEndian_eight (n : Nat) :
    bigEndian 8 n = [(n >>> 56) % 256, (n >>> 48) % 256, (n >>> 40) % 256, (n >>> 32) % 256,
      (n >>> 24) % 256, (n >>> 16) % 256, (n >>> 8) % 256, n % 256] := by
  simp [bigEndian, List.range_succ]

theorem littleEndian_two (n : Nat) : littleEndian 2 n = [n % 256, (n >>> 8) % 256] := by
  simp [littleEndian, List.range_succ]

theorem littleEndian_four (n : Nat) :
    littleEndian 4 n = [n % 256, (n >>> 8) % 256, (n >>> 16) % 256, (n >>> 24) % 256] := by
  simp [littleEndian, List.range_succ]

theorem littleEndian_eight (n : Nat) :
    littleEndian 8 n = [n % 256, (n >>> 8) % 256, (n >>> 16) % 256, (n >>> 24) % 256,
      (n >>> 32) % 256, (n >>> 40) % 256, (n >>> 48) % 256, (n >>> 56) % 256] := by
  simp [littleEndian, List.range_succ]

theorem sumBE_two (b0 b1 : Nat) : sumBE [b0, b1] = b0 * 256 + b1 := by
  simp [sumBE, List.range_succ]

theorem sumBE_four (b0 b1 b2 b3 : Nat) :
    sumBE [b0, b1, b2, b3] = b0 * 256 ^ 3 + b1 * 256 ^ 2 + b2 * 256 + b3 := by
  simp [sumBE, List.range_succ]
  omega

theorem sumBE_eight (b0 b1 b2 b3 b4 b5 b6 b7 : Nat) :
    sumBE [b0, b1, b2, b3, b4, b5, b6, b7] =
      b0 * 256 ^ 7 + b1 * 256 ^ 6 + b2 * 256 ^ 5 + b3 * 256 ^ 4 + b4 * 256 ^ 3 + b5 * 256 ^ 2 +
        b6 * 256 + b7 := by
  simp [sumBE, List.range_succ]
  omega

theorem sumLE_two (b0 b1 : Nat) : sumLE [b0, b1] = b0 + b1 * 256 := by
  simp [sumLE, List.range_succ]

theorem sumLE_four (b0 b1 b2 b3 : Nat) :
    sumLE [b0, b1, b2, b3] = b0 + b1 * 256 + b2 * 256 ^ 2 + b3 * 256 ^ 3 := by
  simp [sumLE, List.range_succ]
  omega

theorem sumLE_eight (b0 b1 b2 b3 b4 b5 b6 b7 : Nat) :
    sumLE [b0, b1, b2, b3, b4, b5, b6, b7] =
      b0 + b1 * 256 + b2 * 256 ^ 2 + b3 * 256 ^ 3 + b4 * 256 ^ 4 + b5 * 256 ^ 5 + b6 * 256 ^ 6 +
        b7 * 256 ^ 7 := by
  simp [sumLE, List.range_succ]
  omega

/-- The expression `uint16(b0)<<8 | uint16(b1)` on two bytes. -/
theorem lor_two {b0 b1 : Nat} (h1 : b1 < 256) : (b0 <<< 8) ||| b1 = b0 * 256 + b1 := by
  rw [Nat.shiftLeft_eq, lor_low 8 (by omega) (by omega)]

/-- The expression `uint32(b0)<<24 | uint32(b1)<<16 | uint32(b2)<<8 | uint32(b3)`
on four bytes. -/
theorem lor_four {b0 b1 b2 b3 : Nat} (h1 : b1 < 256) (h2 : b2 < 256) (h3 : b3 < 256) :
    (b0 <<< 24) ||| (b1 <<< 16) ||| (b2 <<< 8) ||| b3 =
      b0 * 256 ^ 3 + b1 * 256 ^ 2 + b2 * 256 + b3 := by
  simp only [Nat.shiftLeft_eq]
  have e1 : b0 * 2 ^ 24 ||| b1 * 2 ^ 16 = b0 * 2 ^ 24 + b1 * 2 ^ 16 :=
    lor_low 24 (by omega) (by omega)
  have e2 : b0 * 2 ^ 24 + b1 * 2 ^ 16 ||| b2 * 2 ^ 8 = b0 * 2 ^ 24 + b1 * 2 ^ 16 + b2 * 2 ^ 8 :=
    lor_low 16 (by omega) (by omega)
  have e3 : b0 * 2 ^ 24 + b1 * 2 ^ 16 + b2 * 2 ^ 8 ||| b3 =
      b0 * 2 ^ 24 + b1 * 2 ^ 16 + b2 * 2 ^ 8 + b3 := lor_low 8 (by omega) (by omega)
  rw [e1, e2, e3]
  omega

/-- The expression `uint64(b0)<<56 | ... | uint64(b7)` on eight bytes. -/
theorem lor_eight {b0 b1 b2 b3 b4 b5 b6 b7 : Nat} (h1 : b1 < 256) (h2 : b2 < 256)
    (h3 : b3 < 256) (h4 : b4 < 256) (h5 : b5 < 256) (h6 : b6 < 256) (h7 : b7 < 256) :
    (b0 <<< 56) ||| (b1 <<< 48) ||| (b2 <<< 40) ||| (b3 <<< 32) ||| (b4 <<< 24) ||| (b5 <<< 16) |||
        (b6 <<< 8) ||| b7 =
      b0 * 256 ^ 7 + b1 * 256 ^ 6 + b2 * 256 ^ 5 + b3 * 256 ^ 4 + b4 * 256 ^ 3 + b5 * 256 ^ 2 +
        b6 * 256 + b7 := by
  simp only [Nat.shiftLeft_eq]
  have e1 : b0 * 2 ^ 56 ||| b1 * 2 ^ 48 = b0 * 2 ^ 56 + b1 * 2 ^ 48 :=
    lor_low 56 (by omega) (by omega)
  have e2 : b0 * 2 ^ 56 + b1 * 2 ^ 48 ||| b2 * 2 ^ 40 =
      b0 * 2 ^ 56 + b1 * 2 ^ 48 + b2 * 2 ^ 40 := lor_low 48 (by omega) (by omega)
  have e3 : b0 * 2 ^ 56 + b1 * 2 ^ 48 + b2 * 2 ^ 40 ||| b3 * 2 ^ 32 =
      b0 * 2 ^ 56 + b1 * 2 ^ 48 + b2 * 2 ^ 40 + b3 * 2 ^ 32 := lor_low 40 (by omega) (by omega)
  have e4 : b0 * 2 ^ 56 + b1 * 2 ^ 48 + b2 * 2 ^ 40 + b3 * 2 ^ 32 ||| b4 * 2 ^ 24 =
      b0 * 2 ^ 56 + b1 * 2 ^ 48 + b2 * 2 ^ 40 + b3 * 2 ^ 32 + b4 * 2 ^ 24 :=
    lor_low 32 (by omega) (by omega)
  have e5 : b0 * 2 ^ 56 + b1 * 2 ^ 48 + b2 * 2 ^ 40 + b3 * 2 ^ 32 + b4 * 2 ^ 24 ||| b5 * 2 ^ 16 =
      b0 * 2 ^ 56 + b1 * 2 ^ 48 + b2 * 2 ^ 40 + b3 * 2 ^ 32 + b4 * 2 ^ 24 + b5 * 2 ^ 16 :=
    lor_low 24 (by omega) (by omega)
  have e6 : b0 * 2 ^ 56 + b1 * 2 ^ 48 + b2 * 2 ^ 40 + b3 * 2 ^ 32 + b4 * 2 ^ 24 + b5 * 2 ^ 16 |||
        b6 * 2 ^ 8 =
      b0 * 2 ^ 56 + b1 * 2 ^ 48 + b2 * 2 ^ 40 + b3 * 2 ^ 32 + b4 * 2 ^ 24 + b5 * 2 ^ 16 +
        b6 * 2 ^ 8 := lor_low 16 (by omega) (by omega)
  have e7 : b0 * 2 ^ 56 + b1 * 2 ^ 48 + b2 * 2 ^ 40 + b3 * 2 ^ 32 + b4 * 2 ^ 24 + b5 * 2 ^ 16 +
        b6 * 2 ^ 8 ||| b7 =
      b0 * 2 ^ 56 + b1 * 2 ^ 48 + b2 * 2 ^ 40 + b3 * 2 ^ 32 + b4 * 2 ^ 24 + b5 * 2 ^ 16 +
        b6 * 2 ^ 8 + b7 := lor_low 8 (by omega) (by omega)
  rw [e1, e2, e3, e4, e5, e6, e7]
  omega

/-! ## Reading -/

theorem ReadUint16BE_sum (b0 b1 : Nat) (rest : Reader) (h1 : b1 < 256) :
    ReadUint16BE (readerOf [b0, b1] ++ rest) = ((sumBE [b0, b1], none), rest) := by
  have h : ReadUint16BE (readerOf [b0, b1] ++ rest) = (((b0 <<< 8) ||| b1, none), rest) := rfl
  rw [h, lor_two h1, sumBE_two]

theorem ReadUint16LE_sum (b0 b1 : Nat) (rest : Reader) (h0 : b0 < 256) :
    ReadUint16LE (readerOf [b0, b1] ++ rest) = ((sumLE [b0, b1], none), rest) := by
  have h : ReadUint16LE (readerOf [b0, b1] ++ rest) = (((b1 <<< 8) ||| b0, none), rest) := rfl
  rw [h, lor_two h0, sumLE_two]
  congr 2
  omega

theorem ReadUint32BE_sum (b0 b1 b2 b3 : Nat) (rest : Reader) (h1 : b1 < 256) (h2 : b2 < 256)
    (h3 : b3 < 256) :
    ReadUint32BE (readerOf [b0, b1, b2, b3] ++ rest) = ((sumBE [b0, b1, b2, b3], none), rest) := by
  have h : ReadUint32BE (readerOf [b0, b1, b2, b3] ++ rest) =
      (((b0 <<< 24) ||| (b1 <<< 16) ||| (b2 <<< 8) ||| b3, none), rest) := rfl
  rw [h, lor_four h1 h2 h3, sumBE_four]

theorem ReadUint32LE_sum (b0 b1 b2 b3 : Nat) (rest : Reader) (h0 : b0 < 256) (h1 : b1 < 256)
    (h2 : b2 < 256) :
    ReadUint32LE (readerOf [b0, b1, b2, b3] ++ rest) = ((sumLE [b0, b1, b2, b3], none), rest) := by
  have h : ReadUint32LE (readerOf [b0, b1, b2, b3] ++ rest) =
      (((b3 <<< 24) ||| (b2 <<< 16) ||| (b1 <<< 8) ||| b0, none), rest) := rfl
  rw [h, lor_four h2 h1 h0, sumLE_four]
  congr 2
  omega

theorem ReadUint64BE_sum (b0 b1 b2 b3 b4 b5 b6 b7 : Nat) (rest : Reader) (h1 : b1 < 256)
    (h2 : b2 < 256) (h3 : b3 < 256) (h4 : b4 < 256) (h5 : b5 < 256) (h6 : b6 < 256)
    (h7 : b7 < 256) :
    ReadUint64BE (readerOf [b0, b1, b2, b3, b4, b5, b6, b7] ++ rest) =
      ((sumBE [b0, b1, b2, b3, b4, b5, b6, b7], none), rest) := by
  have h : ReadUint64BE (readerOf [b0, b1, b2, b3, b4, b5, b6, b7] ++ rest) =
      (((b0 <<< 56) ||| (b1 <<< 48) ||| (b2 <<< 40) ||| (b3 <<< 32) ||| (b4 <<< 24) |||
        (b5 <<< 16) ||| (b6 <<< 8) ||| b7, none), rest) := rfl
  rw [h, lor_eight h1 h2 h3 h4 h5 h6 h7, sumBE_eight]

theorem ReadUint64LE_sum (b0 b1 b2 b3 b4 b5 b6 b7 : Nat) (rest : Reader) (h0 : b0 < 256)
    (h1 : b1 < 256) (h2 : b2 < 256) (h3 : b3 < 256) (h4 : b4 < 256) (h5 : b5 < 256)
    (h6 : b6 < 256) :
    ReadUint64LE (readerOf [b0, b1, b2, b3, b4, b5, b6, b7] ++ rest) =
      ((sumLE [b0, b1, b2, b3, b4, b5, b6, b7], none), rest) := by
  have h : ReadUint64LE (readerOf [b0, b1, b2, b3, b4, b5, b6, b7] ++ rest) =
      (((b7 <<< 56) ||| (b6 <<< 48) ||| (b5 <<< 40) ||| (b4 <<< 32) ||| (b3 <<< 24) |||
        (b2 <<< 16) ||| (b1 <<< 8) ||| b0, none), rest) := rfl
  rw [h, lor_eight h6 h5 h4 h3 h2 h1 h0, sumLE_eight]
  congr 2
  omega

/-- C26: on a stream that holds at least two, four or eight bytes, each below
256, the big-endian readers return the sum of `b_i * 256^(k-1-i)` and the
little-endian readers the sum of `b_i * 256^i`, with a nil error, and leave
the rest of the stream for the next read. -/
theorem ReadUint_value (b0 b1 b2 b3 b4 b5 b6 b7 : Nat) (rest : Reader)
    (h0 : b0 < 256) (h1 : b1 < 256) (h2 : b2 < 256) (h3 : b3 < 256) (h4 : b4 < 256)
    (h5 : b5 < 256) (h6 : b6 < 256) (h7 : b7 < 256) :
    ReadUint16BE (readerOf [b0, b1] ++ rest) = ((sumBE [b0, b1], none), rest) ∧
    ReadUint16LE (readerOf [b0, b1] ++ rest) = ((sumLE [b0, b1], none), rest) ∧
    ReadUint32BE (readerOf [b0, b1, b2, b3] ++ rest) = ((sumBE [b0, b1, b2, b3], none), rest) ∧
    ReadUint32LE (readerOf [b0, b1, b2, b3] ++ rest) = ((sumLE [b0, b1, b2, b3], none), rest) ∧
    ReadUint64BE (readerOf [b0, b1, b2, b3, b4, b5, b6, b7] ++ rest) =
      ((sumBE [b0, b1, b2, b3, b4, b5, b6, b7], none), rest) ∧
    ReadUint64LE (readerOf [b0, b1, b2, b3, b4, b5, b6, b7] ++ rest) =
      ((sumLE [b0, b1, b2, b3, b4, b5, b6, b7], none), rest) :=
  ⟨ReadUint16BE_sum b0 b1 rest h1, ReadUint16LE_sum b0 b1 rest h0,
    ReadUint32BE_sum b0 b1 b2 b3 rest h1 h2 h3, ReadUint32LE_sum b0 b1 b2 b3 rest h0 h1 h2,
    ReadUint64BE_sum b0 b1 b2 b3 b4 b5 b6 b7 rest h1 h2 h3 h4 h5 h6 h7,
    ReadUint64LE_sum b0 b1 b2 b3 b4 b5 b6 b7 rest h0 h1 h2 h3 h4 h5 h6⟩

/-- C26 on the bytes `1 .. 8` followed by the byte 9: each reader returns the
value of the first bytes and leaves the others. -/
theorem ReadUint_value_witness :
    ReadUint16BE (readerOf [1, 2] ++ readerOf [9]) = ((258, none), readerOf [9]) ∧
    ReadUint16LE (readerOf [1, 2] ++ readerOf [9]) = ((513, none), readerOf [9]) ∧
    ReadUint32BE (readerOf [1, 2, 3, 4] ++ readerOf [9]) = ((16909060, none), readerOf [9]) ∧
    ReadUint32LE (readerOf [1, 2, 3, 4] ++ readerOf [9]) = ((67305985, none), readerOf [9]) ∧
    ReadUint64BE (readerOf [1, 2, 3, 4, 5, 6, 7, 8] ++ readerOf [9]) =
      ((72623859790382856, none), readerOf [9]) ∧
    ReadUint64LE (readerOf [1, 2, 3, 4, 5, 6, 7, 8] ++ readerOf [9]) =
      ((578437695752307201, none), readerOf [9]) :=
  ReadUint_value 1 2 3 4 5 6 7 8 (readerOf [9]) (by decide) (by decide) (by decide) (by decide)
    (by decide) (by decide) (by decide) (by decide)

/-- C28: at the end of the stream, whether the outcomes are used up or the
underlying reader reports `io.EOF`, each of the six readers returns the value
0 and the error `io.EOF` itself. -/
theorem ReadUint_at_end (rest : Reader) :
    (ReadUint16BE [] = ((0, some .EOF), []) ∧ ReadUint16LE [] = ((0, some .EOF), []) ∧
      ReadUint32BE [] = ((0, some .EOF), []) ∧ ReadUint32LE [] = ((0, some .EOF), []) ∧
      ReadUint64BE [] = ((0, some .EOF), []) ∧ ReadUint64LE [] = ((0, some .EOF), [])) ∧
    (ReadUint16BE (.fail .EOF :: rest) = ((0, some .EOF), rest) ∧
      ReadUint16LE (.fail .EOF :: rest) = ((0, some .EOF), rest) ∧
      ReadUint32BE (.fail .EOF :: rest) = ((0, some .EOF), rest) ∧
      ReadUint32LE (.fail .EOF :: rest) = ((0, some .EOF), rest) ∧
      ReadUint64BE (.fail .EOF :: rest) = ((0, some .EOF), rest) ∧
      ReadUint64LE (.fail .EOF :: rest) = ((0, some .EOF), rest)) :=
  ⟨⟨rfl, rfl, rfl, rfl, rfl, rfl⟩, ⟨rfl, rfl, rfl, rfl, rfl, rfl⟩⟩

/-- C29: when the stream ends after `j` bytes, with `1 ≤ j < k` for the value
size `k` (the outcomes are used up, or the underlying reader reports `io.EOF`
there), each reader returns the value 0 and `io.ErrUnexpectedEOF`. -/
theorem ReadUint_short (bs : List Nat) (tail : Reader) (hj : 1 ≤ bs.length)
    (htail : tail = [] ∨ ∃ rest, tail = .fail .EOF :: rest) :
    (bs.length < 2 →
      ReadUint16BE (readerOf bs ++ tail) = ((0, some .ErrUnexpectedEOF), tail.drop 1) ∧
      ReadUint16LE (readerOf bs ++ tail) = ((0, some .ErrUnexpectedEOF), tail.drop 1)) ∧
    (bs.length < 4 →
      ReadUint32BE (readerOf bs ++ tail) = ((0, some .ErrUnexpectedEOF), tail.drop 1) ∧
      ReadUint32LE (readerOf bs ++ tail) = ((0, some .ErrUnexpectedEOF), tail.drop 1)) ∧
    (bs.length < 8 →
      ReadUint64BE (readerOf bs ++ tail) = ((0, some .ErrUnexpectedEOF), tail.drop 1) ∧
      ReadUint64LE (readerOf bs ++ tail) = ((0, some .ErrUnexpectedEOF), tail.drop 1)) := by
  rcases htail with rfl | ⟨rest, rfl⟩
  · rcases bs with _ | ⟨a0, _ | ⟨a1, _ | ⟨a2, _ | ⟨a3, _ | ⟨a4, _ | ⟨a5, _ | ⟨a6, _ | ⟨a7, bs⟩⟩⟩⟩⟩⟩⟩⟩ <;>
      simp at hj <;> refine ⟨?_, ?_, ?_⟩ <;> intro hlen <;> simp at hlen <;>
      first | (exact ⟨rfl, rfl⟩) | omega
  · rcases bs with _ | ⟨a0, _ | ⟨a1, _ | ⟨a2, _ | ⟨a3, _ | ⟨a4, _ | ⟨a5, _ | ⟨a6, _ | ⟨a7, bs⟩⟩⟩⟩⟩⟩⟩⟩ <;>
      simp at hj <;> refine ⟨?_, ?_, ?_⟩ <;> intro hlen <;> simp at hlen <;>
      first | (exact ⟨rfl, rfl⟩) | omega

/-- C29 on the one byte `1`, as in `TestReadIntShort`, and on seven bytes. -/
theorem ReadUint_short_witness :
    (ReadUint16BE (readerOf [1]) = ((0, some .ErrUnexpectedEOF), []) ∧
      ReadUint16LE (readerOf [1]) = ((0, some .ErrUnexpectedEOF), [])) ∧
    (ReadUint32BE (readerOf [1]) = ((0, some .ErrUnexpectedEOF), []) ∧
      ReadUint32LE (readerOf [1]) = ((0, some .ErrUnexpectedEOF), [])) ∧
    (ReadUint64BE (readerOf [1, 2, 3, 4, 5, 6, 7]) = ((0, some .ErrUnexpectedEOF), []) ∧
      ReadUint64LE (readerOf [1, 2, 3, 4, 5, 6, 7]) = ((0, some .ErrUnexpectedEOF), [])) :=
  ⟨(ReadUint_short [1] [] (by decide) (Or.inl rfl)).1 (by decide),
    (ReadUint_short [1] [] (by decide) (Or.inl rfl)).2.1 (by decide),
    (ReadUint_short [1, 2, 3, 4, 5, 6, 7] [] (by decide) (Or.inl rfl)).2.2 (by decide)⟩

/-- C30: when the underlying reader fails with an error `e` other than
`io.EOF` after `i` bytes, with `i < k` for the value size `k`, each reader
returns the value 0 and exactly `e`. -/
theorem ReadUint_error (pre : List Nat) (e : Error) (rest : Reader) (he : e ≠ .EOF) :
    (pre.length < 2 →
      ReadUint16BE (readerOf pre ++ .fail e :: rest) = ((0, some e), rest) ∧
      ReadUint16LE (readerOf pre ++ .fail e :: rest) = ((0, some e), rest)) ∧
    (pre.length < 4 →
      ReadUint32BE (readerOf pre ++ .fail e :: rest) = ((0, some e), rest) ∧
      ReadUint32LE (readerOf pre ++ .fail e :: rest) = ((0, some e), rest)) ∧
    (pre.length < 8 →
      ReadUint64BE (readerOf pre ++ .fail e :: rest) = ((0, some e), rest) ∧
      ReadUint64LE (readerOf pre ++ .fail e :: rest) = ((0, some e), rest)) := by
  rcases pre with _ | ⟨a0, _ | ⟨a1, _ | ⟨a2, _ | ⟨a3, _ | ⟨a4, _ | ⟨a5, _ | ⟨a6, _ | ⟨a7, pre⟩⟩⟩⟩⟩⟩⟩⟩ <;>
    refine ⟨?_, ?_, ?_⟩ <;> intro hlen <;> simp at hlen <;>
    first
      | omega
      | (constructor <;>
          simp [readerOf, ReadUint16BE, ReadUint16LE, ReadUint32BE, ReadUint32LE, ReadUint64BE,
            ReadUint64LE, ReadByte, he])

/-- C30 with the error of `TestReadIntErr` at each position of a 32-bit value,
and with `io.ErrUnexpectedEOF` coming from the underlying reader. -/
theorem ReadUint_error_witness :
    ReadUint32BE (readerOf [] ++ .fail (.other "test error") :: []) =
      ((0, some (.other "test error")), []) ∧
    ReadUint32BE (readerOf [1] ++ .fail (.other "test error") :: []) =
      ((0, some (.other "test error")), []) ∧
    ReadUint32LE (readerOf [1, 2] ++ .fail (.other "test error") :: []) =
      ((0, some (.other "test error")), []) ∧
    ReadUint32LE (readerOf [1, 2, 3] ++ .fail (.other "test error") :: []) =
      ((0, some (.other "test error")), []) ∧
    ReadUint64BE (readerOf [1, 2, 3] ++ .fail .ErrUnexpectedEOF :: []) =
      ((0, some .ErrUnexpectedEOF), []) :=
  ⟨((ReadUint_error [] (.other "test error") [] (by decide)).2.1 (by decide)).1,
    ((ReadUint_error [1] (.other "test error") [] (by decide)).2.1 (by decide)).1,
    ((ReadUint_error [1, 2] (.other "test error") [] (by decide)).2.1 (by decide)).2,
    ((ReadUint_error [1, 2, 3] (.other "test error") [] (by decide)).2.1 (by decide)).2,
    ((ReadUint_error [1, 2, 3] .ErrUnexpectedEOF [] (by decide)).2.2 (by decide)).1⟩

/-! ## Writing -/

theorem WriteByte_ok {bout : Writer} (hacc : ∀ i, bout.fail i = none) (c : Nat) :
    WriteByte bout c = (none, { bout with buf := bout.buf ++ [c], calls := bout.calls + 1 }) := by
  unfold WriteByte
  rw [hacc]

theorem WriteUint16BE_ok {bout : Writer} (hacc : ∀ i, bout.fail i = none) (n : Nat) :
    WriteUint16BE bout n =
      (none, { bout with buf := bout.buf ++ bigEndian 2 n, calls := bout.calls + 2 }) := by
  simp [WriteUint16BE, WriteByte, hacc, bigEndian_two]

theorem WriteUint16LE_ok {bout : Writer} (hacc : ∀ i, bout.fail i = none) (n : Nat) :
    WriteUint16LE bout n =
      (none, { bout with buf := bout.buf ++ littleEndian 2 n, calls := bout.calls + 2 }) := by
  simp [WriteUint16LE, WriteByte, hacc, littleEndian_two]

theorem WriteUint32BE_ok {bout : Writer} (hacc : ∀ i, bout.fail i = none) (n : Nat) :
    WriteUint32BE bout n =
      (none, { bout with buf := bout.buf ++ bigEndian 4 n, calls := bout.calls + 4 }) := by
  simp [WriteUint32BE, WriteByte, hacc, bigEndian_four]

theorem WriteUint32LE_ok {bout : Writer} (hacc : ∀ i, bout.fail i = none) (n : Nat) :
    WriteUint32LE bout n =
      (none, { bout with buf := bout.buf ++ littleEndian 4 n, calls := bout.calls + 4 }) := by
  simp [WriteUint32LE, WriteByte, hacc, littleEndian_four]

theorem WriteUint64BE_ok {bout : Writer} (hacc : ∀ i, bout.fail i = none) (n : Nat) :
    WriteUint64BE bout n =
      (none, { bout with buf := bout.buf ++ bigEndian 8 n, calls := bout.calls + 8 }) := by
  simp [WriteUint64BE, WriteByte, hacc, bigEndian_eight]

theorem WriteUint64LE_ok {bout : Writer} (hacc : ∀ i, bout.fail i = none) (n : Nat) :
    WriteUint64LE bout n =
      (none, { bout with buf := bout.buf ++ littleEndian 8 n, calls := bout.calls + 8 }) := by
  simp [WriteUint64LE, WriteByte, hacc, littleEndian_eight]

theorem littleEndian_reverse (n : Nat) :
    littleEndian 2 n = (bigEndian 2 n).reverse ∧ littleEndian 4 n = (bigEndian 4 n).reverse ∧
      littleEndian 8 n = (bigEndian 8 n).reverse := by
  simp [littleEndian_two, littleEndian_four, littleEndian_eight, bigEndian_two, bigEndian_four,
    bigEndian_eight]

theorem sum_two {n : Nat} (h : n < 2 ^ 16) :
    sumBE (bigEndian 2 n) = n ∧ sumLE (littleEndian 2 n) = n := by
  rw [bigEndian_two, littleEndian_two, sumBE_two, sumLE_two]
  simp only [Nat.shiftRight_eq_div_pow]
  norm_num at h ⊢
  omega

theorem sum_four {n : Nat} (h : n < 2 ^ 32) :
    sumBE (bigEndian 4 n) = n ∧ sumLE (littleEndian 4 n) = n := by
  rw [bigEndian_four, littleEndian_four, sumBE_four, sumLE_four]
  simp only [Nat.shiftRight_eq_div_pow]
  norm_num at h ⊢
  omega

theorem sum_eight {n : Nat} (h : n < 2 ^ 64) :
    sumBE (bigEndian 8 n) = n ∧ sumLE (littleEndian 8 n) = n := by
  rw [bigEndian_eight, littleEndian_eight, sumBE_eight, sumLE_eight]
  simp only [Nat.shiftRight_eq_div_pow]
  norm_num at h ⊢
  omega

/-- C25: on a writer that accepts every byte, each `WriteUintN` returns nil
and appends exactly `N/8` bytes: the big-endian functions the bytes
`(n >> (N-8-8i)) mod 256` for `i = 0 ..`, most significant first, and the
little-endian functions the same bytes in reverse order.  These bytes are
the base-256 digits of `n`, that is the encoding of `encoding/binary`. -/
theorem WriteUint_bytes (bout : Writer) (n : Nat) (hacc : ∀ i, bout.fail i = none) :
    (WriteUint16BE bout n =
        (none, { bout with buf := bout.buf ++ bigEndian 2 n, calls := bout.calls + 2 }) ∧
      WriteUint16LE bout n =
        (none, { bout with buf := bout.buf ++ littleEndian 2 n, calls := bout.calls + 2 }) ∧
      WriteUint32BE bout n =
        (none, { bout with buf := bout.buf ++ bigEndian 4 n, calls := bout.calls + 4 }) ∧
      WriteUint32LE bout n =
        (none, { bout with buf := bout.buf ++ littleEndian 4 n, calls := bout.calls + 4 }) ∧
      WriteUint64BE bout n =
        (none, { bout with buf := bout.buf ++ bigEndian 8 n, calls := bout.calls + 8 }) ∧
      WriteUint64LE bout n =
        (none, { bout with buf := bout.buf ++ littleEndian 8 n, calls := bout.calls + 8 })) ∧
    (littleEndian 2 n = (bigEndian 2 n).reverse ∧ littleEndian 4 n = (bigEndian 4 n).reverse ∧
      littleEndian 8 n = (bigEndian 8 n).reverse) ∧
    ((bigEndian 2 n).length = 2 ∧ (bigEndian 4 n).length = 4 ∧ (bigEndian 8 n).length = 8) ∧
    (n < 2 ^ 16 → sumBE (bigEndian 2 n) = n ∧ sumLE (littleEndian 2 n) = n) ∧
    (n < 2 ^ 32 → sumBE (bigEndian 4 n) = n ∧ sumLE (littleEndian 4 n) = n) ∧
    (n < 2 ^ 64 → sumBE (bigEndian 8 n) = n ∧ sumLE (littleEndian 8 n) = n) :=
  ⟨⟨WriteUint16BE_ok hacc n, WriteUint16LE_ok hacc n, WriteUint32BE_ok hacc n,
      WriteUint32LE_ok hacc n, WriteUint64BE_ok hacc n, WriteUint64LE_ok hacc n⟩,
    littleEndian_reverse n, ⟨by simp [bigEndian], by simp [bigEndian], by simp [bigEndian]⟩,
    sum_two, sum_four, sum_eight⟩

/-- C25 on the value `0x81828384858687` of `TestWriteUint`, converted to each
width and written to an empty buffer. -/
theorem WriteUint_bytes_witness :
    (WriteUint16BE (bufferOf []) 0x8687).2.buf = [0x86, 0x87] ∧
    (WriteUint16LE (bufferOf []) 0x8687).2.buf = [0x87, 0x86] ∧
    (WriteUint32BE (bufferOf []) 0x84858687).2.buf = [0x84, 0x85, 0x86, 0x87] ∧
    (WriteUint32LE (bufferOf []) 0x84858687).2.buf = [0x87, 0x86, 0x85, 0x84] ∧
    (WriteUint64BE (bufferOf []) 0x81828384858687).2.buf =
      [0x00, 0x81, 0x82, 0x83, 0x84, 0x85, 0x86, 0x87] ∧
    (WriteUint64LE (bufferOf []) 0x81828384858687).2.buf =
      [0x87, 0x86, 0x85, 0x84, 0x83, 0x82, 0x81, 0x00] ∧
    sumBE (bigEndian 8 0x81828384858687) = 0x81828384858687 :=
  have h16 := WriteUint_bytes (bufferOf []) 0x8687 (fun _ => rfl)
  have h32 := WriteUint_bytes (bufferOf []) 0x84858687 (fun _ => rfl)
  have h64 := WriteUint_bytes (bufferOf []) 0x81828384858687 (fun _ => rfl)
  ⟨congrArg (fun r => r.2.buf) h16.1.1, congrArg (fun r => r.2.buf) h16.1.2.1,
    congrArg (fun r => r.2.buf) h32.1.2.2.1, congrArg (fun r => r.2.buf) h32.1.2.2.2.1,
    congrArg (fun r => r.2.buf) h64.1.2.2.2.2.1, congrArg (fun r => r.2.buf) h64.1.2.2.2.2.2,
    (h64.2.2.2.2.2 (by decide)).1⟩

/-! ## Reading what was written -/

theorem ReadUint16BE_bigEndian {n : Nat} (h : n < 2 ^ 16) (rest : Reader) :
    ReadUint16BE (readerOf (bigEndian 2 n) ++ rest) = ((n, none), rest) := by
  have hs := (sum_two h).1
  rw [bigEndian_two] at hs ⊢
  rw [ReadUint16BE_sum _ _ _ (Nat.mod_lt _ (by decide)), hs]

theorem ReadUint16LE_littleEndian {n : Nat} (h : n < 2 ^ 16) (rest : Reader) :
    ReadUint16LE (readerOf (littleEndian 2 n) ++ rest) = ((n, none), rest) := by
  have hs := (sum_two h).2
  rw [littleEndian_two] at hs ⊢
  rw [ReadUint16LE_sum _ _ _ (Nat.mod_lt _ (by decide)), hs]

theorem ReadUint32BE_bigEndian {n : Nat} (h : n < 2 ^ 32) (rest : Reader) :
    ReadUint32BE (readerOf (bigEndian 4 n) ++ rest) = ((n, none), rest) := by
  have hs := (sum_four h).1
  rw [bigEndian_four] at hs ⊢
  rw [ReadUint32BE_sum _ _ _ _ _ (Nat.mod_lt _ (by decide)) (Nat.mod_lt _ (by decide))
    (Nat.mod_lt _ (by decide)), hs]

theorem ReadUint32LE_littleEndian {n : Nat} (h : n < 2 ^ 32) (rest : Reader) :
    ReadUint32LE (readerOf (littleEndian 4 n) ++ rest) = ((n, none), rest) := by
  have hs := (sum_four h).2
  rw [littleEndian_four] at hs ⊢
  rw [ReadUint32LE_sum _ _ _ _ _ (Nat.mod_lt _ (by decide)) (Nat.mod_lt _ (by decide))
    (Nat.mod_lt _ (by decide)), hs]

theorem ReadUint64BE_bigEndian {n : Nat} (h : n < 2 ^ 64) (rest : Reader) :
    ReadUint64BE (readerOf (bigEndian 8 n) ++ rest) = ((n, none), rest) := by
  have hs := (sum_eight h).1
  rw [bigEndian_eight] at hs ⊢
  rw [ReadUint64BE_sum _ _ _ _ _ _ _ _ _ (Nat.mod_lt _ (by decide)) (Nat.mod_lt _ (by decide))
    (Nat.mod_lt _ (by decide)) (Nat.mod_lt _ (by decide)) (Nat.mod_lt _ (by decide))
    (Nat.mod_lt _ (by decide)) (Nat.mod_lt _ (by decide)), hs]

theorem ReadUint64LE_littleEndian {n : Nat} (h : n < 2 ^ 64) (rest : Reader) :
    ReadUint64LE (readerOf (littleEndian 8 n) ++ rest) = ((n, none), rest) := by
  have hs := (sum_eight h).2
  rw [littleEndian_eight] at hs ⊢
  rw [ReadUint64LE_sum _ _ _ _ _ _ _ _ _ (Nat.mod_lt _ (by decide)) (Nat.mod_lt _ (by decide))
    (Nat.mod_lt _ (by decide)) (Nat.mod_lt _ (by decide)) (Nat.mod_lt _ (by decide))
    (Nat.mod_lt _ (by decide)) (Nat.mod_lt _ (by decide)), hs]

/-! ## Signed values -/

/-- The conversions `uint16(i)` and `int16(n)` are the two's complement in 16
bits and its inverse. -/
theorem toUint_sixteen {v : Int} (h1 : -2 ^ 15 ≤ v) (h2 : v < 2 ^ 15) :
    toUint 16 v = twosComplement 16 v ∧ twosComplement 16 v < 2 ^ 16 ∧
      toInt 16 (twosComplement 16 v) = v := by
  unfold toUint twosComplement toInt
  norm_num at h1 h2 ⊢
  split <;> omega

theorem toUint_thirtytwo {v : Int} (h1 : -2 ^ 31 ≤ v) (h2 : v < 2 ^ 31) :
    toUint 32 v = twosComplement 32 v ∧ twosComplement 32 v < 2 ^ 32 ∧
      toInt 32 (twosComplement 32 v) = v := by
  unfold toUint twosComplement toInt
  norm_num at h1 h2 ⊢
  split <;> omega

theorem toUint_sixtyfour {v : Int} (h1 : -2 ^ 63 ≤ v) (h2 : v < 2 ^ 63) :
    toUint 64 v = twosComplement 64 v ∧ twosComplement 64 v < 2 ^ 64 ∧
      toInt 64 (twosComplement 64 v) = v := by
  unfold toUint twosComplement toInt
  norm_num at h1 h2 ⊢
  split <;> omega

/-- C27: the signed variants use two's complement.  For a signed value `v` of
each width and a writer that accepts every byte, `WriteIntN` appends the
big-endian (little-endian) bytes of the two's complement of `v`, which is what
`encoding/binary` writes for `v`, and `ReadIntN` applied to those bytes returns
`v` with a nil error and leaves the rest of the stream. -/
theorem Int_twos_complement (bout : Writer) (v : Int) (rest : Reader)
    (hacc : ∀ i, bout.fail i = none) :
    (-2 ^ 15 ≤ v → v < 2 ^ 15 →
      WriteInt16BE bout v = (none, { bout with
        buf := bout.buf ++ bigEndian 2 (twosComplement 16 v), calls := bout.calls + 2 }) ∧
      WriteInt16LE bout v = (none, { bout with
        buf := bout.buf ++ littleEndian 2 (twosComplement 16 v), calls := bout.calls + 2 }) ∧
      ReadInt16BE (readerOf (bigEndian 2 (twosComplement 16 v)) ++ rest) = ((v, none), rest) ∧
      ReadInt16LE (readerOf (littleEndian 2 (twosComplement 16 v)) ++ rest) =
        ((v, none), rest)) ∧
    (-2 ^ 31 ≤ v → v < 2 ^ 31 →
      WriteInt32BE bout v = (none, { bout with
        buf := bout.buf ++ bigEndian 4 (twosComplement 32 v), calls := bout.calls + 4 }) ∧
      WriteInt32LE bout v = (none, { bout with
        buf := bout.buf ++ littleEndian 4 (twosComplement 32 v), calls := bout.calls + 4 }) ∧
      ReadInt32BE (readerOf (bigEndian 4 (twosComplement 32 v)) ++ rest) = ((v, none), rest) ∧
      ReadInt32LE (readerOf (littleEndian 4 (twosComplement 32 v)) ++ rest) =
        ((v, none), rest)) ∧
    (-2 ^ 63 ≤ v → v < 2 ^ 63 →
      WriteInt64BE bout v = (none, { bout with
        buf := bout.buf ++ bigEndian 8 (twosComplement 64 v), calls := bout.calls + 8 }) ∧
      WriteInt64LE bout v = (none, { bout with
        buf := bout.buf ++ littleEndian 8 (twosComplement 64 v), calls := bout.calls + 8 }) ∧
      ReadInt64BE (readerOf (bigEndian 8 (twosComplement 64 v)) ++ rest) = ((v, none), rest) ∧
      ReadInt64LE (readerOf (littleEndian 8 (twosComplement 64 v)) ++ rest) =
        ((v, none), rest)) := by
  refine ⟨?_, ?_, ?_⟩
  · intro h1 h2
    obtain ⟨hu, hlt, hback⟩ := toUint_sixteen h1 h2
    refine ⟨?_, ?_, ?_, ?_⟩
    · rw [WriteInt16BE, hu, WriteUint16BE_ok hacc]
    · rw [WriteInt16LE, hu, WriteUint16LE_ok hacc]
    · rw [ReadInt16BE, ReadUint16BE_bigEndian hlt]
      simp only [hback]
    · rw [ReadInt16LE, ReadUint16LE_littleEndian hlt]
      simp only [hback]
  · intro h1 h2
    obtain ⟨hu, hlt, hback⟩ := toUint_thirtytwo h1 h2
    refine ⟨?_, ?_, ?_, ?_⟩
    · rw [WriteInt32BE, hu, WriteUint32BE_ok hacc]
    · rw [WriteInt32LE, hu, WriteUint32LE_ok hacc]
    · rw [ReadInt32BE, ReadUint32BE_bigEndian hlt]
      simp only [hback]
    · rw [ReadInt32LE, ReadUint32LE_littleEndian hlt]
      simp only [hback]
  · intro h1 h2
    obtain ⟨hu, hlt, hback⟩ := toUint_sixtyfour h1 h2
    refine ⟨?_, ?_, ?_, ?_⟩
    · rw [WriteInt64BE, hu, WriteUint64BE_ok hacc]
    · rw [WriteInt64LE, hu, WriteUint64LE_ok hacc]
    · rw [ReadInt64BE, ReadUint64BE_bigEndian hlt]
      simp only [hback]
    · rw [ReadInt64LE, ReadUint64LE_littleEndian hlt]
      simp only [hback]

/-- C27 on the values `-0x8000` in 16 bits and `-1` in 64 bits: the bytes
written and the value read back. -/
theorem Int_twos_complement_witness :
    (bigEndian 2 (twosComplement 16 (-0x8000)) = [0x80, 0x00] ∧
      littleEndian 2 (twosComplement 16 (-0x8000)) = [0x00, 0x80] ∧
      bigEndian 8 (twosComplement 64 (-1)) = [0xff, 0xff, 0xff, 0xff, 0xff, 0xff, 0xff, 0xff]) ∧
    (WriteInt16BE (bufferOf []) (-0x8000) = (none, { bufferOf [] with
        buf := (bufferOf []).buf ++ bigEndian 2 (twosComplement 16 (-0x8000)),
        calls := (bufferOf []).calls + 2 }) ∧
      WriteInt16LE (bufferOf []) (-0x8000) = (none, { bufferOf [] with
        buf := (bufferOf []).buf ++ littleEndian 2 (twosComplement 16 (-0x8000)),
        calls := (bufferOf []).calls + 2 }) ∧
      ReadInt16BE (readerOf (bigEndian 2 (twosComplement 16 (-0x8000))) ++ readerOf [7]) =
        ((-0x8000, none), readerOf [7]) ∧
      ReadInt16LE (readerOf (littleEndian 2 (twosComplement 16 (-0x8000))) ++ readerOf [7]) =
        ((-0x8000, none), readerOf [7])) ∧
    (WriteInt64BE (bufferOf []) (-1) = (none, { bufferOf [] with
        buf := (bufferOf []).buf ++ bigEndian 8 (twosComplement 64 (-1)),
        calls := (bufferOf []).calls + 8 }) ∧
      WriteInt64LE (bufferOf []) (-1) = (none, { bufferOf [] with
        buf := (bufferOf []).buf ++ littleEndian 8 (twosComplement 64 (-1)),
        calls := (bufferOf []).calls + 8 }) ∧
      ReadInt64BE (readerOf (bigEndian 8 (twosComplement 64 (-1))) ++ readerOf [7]) =
        ((-1, none), readerOf [7]) ∧
      ReadInt64LE (readerOf (littleEndian 8 (twosComplement 64 (-1))) ++ readerOf [7]) =
        ((-1, none), readerOf [7])) :=
  ⟨⟨by decide, by decide, by decide⟩,
    (Int_twos_complement (bufferOf []) (-0x8000) (readerOf [7]) (fun _ => rfl)).1
      (by decide) (by decide),
    (Int_twos_complement (bufferOf []) (-1) (readerOf [7]) (fun _ => rfl)).2.2
      (by decide) (by decide)⟩

/-! ## Writing to a writer that fails -/

theorem WriteUint16BE_fail {bout : Writer} {i : Nat} {e : Error}
    (hok : ∀ j, j < i → bout.fail (bout.calls + j) = none)
    (hfail : bout.fail (bout.calls + i) = some e) (n : Nat) :
    (i < 2 → WriteUint16BE bout n =
      (some e, { bout with buf := bout.buf ++ (bigEndian 2 n).take i,
                           calls := bout.calls + i + 1 })) ∧
    (2 ≤ i → WriteUint16BE bout n =
      (none, { bout with buf := bout.buf ++ bigEndian 2 n, calls := bout.calls + 2 })) := by
  have h0 : 0 < i → bout.fail bout.calls = none := fun h => by simpa using hok 0 h
  rw [bigEndian_two]
  constructor
  · intro hi
    interval_cases i <;> simp at hfail h0 <;> simp [WriteUint16BE, WriteByte, hfail, h0, hok, Nat.add_assoc]
  · intro hi
    have hall : ∀ j, j < 2 → bout.fail (bout.calls + j) = none := fun j hj => hok j (by omega)
    simp [WriteUint16BE, WriteByte, h0 (by omega), hall, Nat.add_assoc]

theorem WriteUint16LE_fail {bout : Writer} {i : Nat} {e : Error}
    (hok : ∀ j, j < i → bout.fail (bout.calls + j) = none)
    (hfail : bout.fail (bout.calls + i) = some e) (n : Nat) :
    (i < 2 → WriteUint16LE bout n =
      (some e, { bout with buf := bout.buf ++ (littleEndian 2 n).take i,
                           calls := bout.calls + i + 1 })) ∧
    (2 ≤ i → WriteUint16LE bout n =
      (none, { bout with buf := bout.buf ++ littleEndian 2 n, calls := bout.calls + 2 })) := by
  have h0 : 0 < i → bout.fail bout.calls = none := fun h => by simpa using hok 0 h
  rw [littleEndian_two]
  constructor
  · intro hi
    interval_cases i <;> simp at hfail h0 <;> simp [WriteUint16LE, WriteByte, hfail, h0, hok, Nat.add_assoc]
  · intro hi
    have hall : ∀ j, j < 2 → bout.fail (bout.calls + j) = none := fun j hj => hok j (by omega)
    simp [WriteUint16LE, WriteByte, h0 (by omega), hall, Nat.add_assoc]

theorem WriteUint32BE_fail {bout : Writer} {i : Nat} {e : Error}
    (hok : ∀ j, j < i → bout.fail (bout.calls + j) = none)
    (hfail : bout.fail (bout.calls + i) = some e) (n : Nat) :
    (i < 4 → WriteUint32BE bout n =
      (some e, { bout with buf := bout.buf ++ (bigEndian 4 n).take i,
                           calls := bout.calls + i + 1 })) ∧
    (4 ≤ i → WriteUint32BE bout n =
      (none, { bout with buf := bout.buf ++ bigEndian 4 n, calls := bout.calls + 4 })) := by
  have h0 : 0 < i → bout.fail bout.calls = none := fun h => by simpa using hok 0 h
  rw [bigEndian_four]
  constructor
  · intro hi
    interval_cases i <;> simp at hfail h0 <;> simp [WriteUint32BE, WriteByte, hfail, h0, hok, Nat.add_assoc]
  · intro hi
    have hall : ∀ j, j < 4 → bout.fail (bout.calls + j) = none := fun j hj => hok j (by omega)
    simp [WriteUint32BE, WriteByte, h0 (by omega), hall, Nat.add_assoc]

theorem WriteUint32LE_fail {bout : Writer} {i : Nat} {e : Error}
    (hok : ∀ j, j < i → bout.fail (bout.calls + j) = none)
    (hfail : bout.fail (bout.calls + i) = some e) (n : Nat) :
    (i < 4 → WriteUint32LE bout n =
      (some e, { bout with buf := bout.buf ++ (littleEndian 4 n).take i,
                           calls := bout.calls + i + 1 })) ∧
    (4 ≤ i → WriteUint32LE bout n =
      (none, { bout with buf := bout.buf ++ littleEndian 4 n, calls := bout.calls + 4 })) := by
  have h0 : 0 < i → bout.fail bout.calls = none := fun h => by simpa using hok 0 h
  rw [littleEndian_four]
  constructor
  · intro hi
    interval_cases i <;> simp at hfail h0 <;> simp [WriteUint32LE, WriteByte, hfail, h0, hok, Nat.add_assoc]
  · intro hi
    have hall : ∀ j, j < 4 → bout.fail (bout.calls + j) = none := fun j hj => hok j (by omega)
    simp [WriteUint32LE, WriteByte, h0 (by omega), hall, Nat.add_assoc]

theorem WriteUint64BE_fail {bout : Writer} {i : Nat} {e : Error}
    (hok : ∀ j, j < i → bout.fail (bout.calls + j) = none)
    (hfail : bout.fail (bout.calls + i) = some e) (n : Nat) :
    (i < 8 → WriteUint64BE bout n =
      (some e, { bout with buf := bout.buf ++ (bigEndian 8 n).take i,
                           calls := bout.calls + i + 1 })) ∧
    (8 ≤ i → WriteUint64BE bout n =
      (none, { bout with buf := bout.buf ++ bigEndian 8 n, calls := bout.calls + 8 })) := by
  have h0 : 0 < i → bout.fail bout.calls = none := fun h => by simpa using hok 0 h
  rw [bigEndian_eight]
  constructor
  · intro hi
    interval_cases i <;> simp at hfail h0 <;> simp [WriteUint64BE, WriteByte, hfail, h0, hok, Nat.add_assoc]
  · intro hi
    have hall : ∀ j, j < 8 → bout.fail (bout.calls + j) = none := fun j hj => hok j (by omega)
    simp [WriteUint64BE, WriteByte, h0 (by omega), hall, Nat.add_assoc]

theorem WriteUint64LE_fail {bout : Writer} {i : Nat} {e : Error}
    (hok : ∀ j, j < i → bout.fail (bout.calls + j) = none)
    (hfail : bout.fail (bout.calls + i) = some e) (n : Nat) :
    (i < 8 → WriteUint64LE bout n =
      (some e, { bout with buf := bout.buf ++ (littleEndian 8 n).take i,
                           calls := bout.calls + i + 1 })) ∧
    (8 ≤ i → WriteUint64LE bout n =
      (none, { bout with buf := bout.buf ++ littleEndian 8 n, calls := bout.calls + 8 })) := by
  have h0 : 0 < i → bout.fail bout.calls = none := fun h => by simpa using hok 0 h
  rw [littleEndian_eight]
  constructor
  · intro hi
    interval_cases i <;> simp at hfail h0 <;> simp [WriteUint64LE, WriteByte, hfail, h0, hok, Nat.add_assoc]
  · intro hi
    have hall : ∀ j, j < 8 → bout.fail (bout.calls + j) = none := fun j hj => hok j (by omega)
    simp [WriteUint64LE, WriteByte, h0 (by omega), hall, Nat.add_assoc]

/-- The cases of `TestWriteIntErr`: with an `AbortWriter` that fails after
`i` bytes, each function returns `ErrAbortWriter` for `i` below the size of
the value, and nil for `i` equal to the size. -/
theorem WriteUint_TestWriteIntErr :
    ((List.range 2).all fun i =>
      (WriteUint16BE (abortWriter i) 0).1 = some ErrAbortWriter ∧
      (WriteUint16LE (abortWriter i) 0).1 = some ErrAbortWriter) = true ∧
    ((List.range 4).all fun i =>
      (WriteUint32BE (abortWriter i) 0).1 = some ErrAbortWriter ∧
      (WriteUint32LE (abortWriter i) 0).1 = some ErrAbortWriter) = true ∧
    ((List.range 8).all fun i =>
      (WriteUint64BE (abortWriter i) 0).1 = some ErrAbortWriter ∧
      (WriteUint64LE (abortWriter i) 0).1 = some ErrAbortWriter) = true ∧
    (WriteUint16BE (abortWriter 2) 0).1 = none ∧ (WriteUint16LE (abortWriter 2) 0).1 = none ∧
    (WriteUint32BE (abortWriter 4) 0).1 = none ∧ (WriteUint32LE (abortWriter 4) 0).1 = none ∧
    (WriteUint64BE (abortWriter 8) 0).1 = none ∧ (WriteUint64LE (abortWriter 8) 0).1 = none := by
  refine ⟨by decide, by decide, by decide, by decide, by decide, by decide, by decide, by decide,
    by decide⟩

/-- C31: when `WriteByte` of the writer first fails, with error `e`, after
accepting `i` bytes (call `i`, counted from 0 at the start of the function,
is the first that fails), then each of `WriteUint16`, `32` and `64`, in both
byte orders, with value size `k`: for `i < k` returns exactly `e`, having
made `i + 1` calls of `WriteByte` and none after the one that failed, so that
exactly the first `i` bytes of the encoding were accepted; for `i >= k`
returns nil, all `k` bytes accepted in `k` calls. -/
theorem WriteUint_error (bout : Writer) (n i : Nat) (e : Error)
    (hok : ∀ j, j < i → bout.fail (bout.calls + j) = none)
    (hfail : bout.fail (bout.calls + i) = some e) :
    ((i < 2 → WriteUint16BE bout n =
        (some e, { bout with buf := bout.buf ++ (bigEndian 2 n).take i,
                             calls := bout.calls + i + 1 })) ∧
      (2 ≤ i → WriteUint16BE bout n =
        (none, { bout with buf := bout.buf ++ bigEndian 2 n, calls := bout.calls + 2 }))) ∧
    ((i < 2 → WriteUint16LE bout n =
        (some e, { bout with buf := bout.buf ++ (littleEndian 2 n).take i,
                             calls := bout.calls + i + 1 })) ∧
      (2 ≤ i → WriteUint16LE bout n =
        (none, { bout with buf := bout.buf ++ littleEndian 2 n, calls := bout.calls + 2 }))) ∧
    ((i < 4 → WriteUint32BE bout n =
        (some e, { bout with buf := bout.buf ++ (bigEndian 4 n).take i,
                             calls := bout.calls + i + 1 })) ∧
      (4 ≤ i → WriteUint32BE bout n =
        (none, { bout with buf := bout.buf ++ bigEndian 4 n, calls := bout.calls + 4 }))) ∧
    ((i < 4 → WriteUint32LE bout n =
        (some e, { bout with buf := bout.buf ++ (littleEndian 4 n).take i,
                             calls := bout.calls + i + 1 })) ∧
      (4 ≤ i → WriteUint32LE bout n =
        (none, { bout with buf := bout.buf ++ littleEndian 4 n, calls := bout.calls + 4 }))) ∧
    ((i < 8 → WriteUint64BE bout n =
        (some e, { bout with buf := bout.buf ++ (bigEndian 8 n).take i,
                             calls := bout.calls + i + 1 })) ∧
      (8 ≤ i → WriteUint64BE bout n =
        (none, { bout with buf := bout.buf ++ bigEndian 8 n, calls := bout.calls + 8 }))) ∧
    ((i < 8 → WriteUint64LE bout n =
        (some e, { bout with buf := bout.buf ++ (littleEndian 8 n).take i,
                             calls := bout.calls + i + 1 })) ∧
      (8 ≤ i → WriteUint64LE bout n =
        (none, { bout with buf := bout.buf ++ littleEndian 8 n, calls := bout.calls + 8 }))) :=
  ⟨WriteUint16BE_fail hok hfail n, WriteUint16LE_fail hok hfail n, WriteUint32BE_fail hok hfail n,
    WriteUint32LE_fail hok hfail n, WriteUint64BE_fail hok hfail n, WriteUint64LE_fail hok hfail n⟩

/-- C31 on the `AbortWriter` of the tests that fails after 2 bytes: a 32-bit
and a 64-bit value stop at the third call with two bytes accepted, and a
16-bit value is written in full. -/
theorem WriteUint_error_witness :
    ((WriteUint32BE (abortWriter 2) 0x84858687).1 = some ErrAbortWriter ∧
      (WriteUint32BE (abortWriter 2) 0x84858687).2.buf = [0x84, 0x85] ∧
      (WriteUint32BE (abortWriter 2) 0x84858687).2.calls = 3) ∧
    ((WriteUint64LE (abortWriter 2) 0x84858687).1 = some ErrAbortWriter ∧
      (WriteUint64LE (abortWriter 2) 0x84858687).2.buf = [0x87, 0x86] ∧
      (WriteUint64LE (abortWriter 2) 0x84858687).2.calls = 3) ∧
    ((WriteUint16BE (abortWriter 2) 0x8687).1 = none ∧
      (WriteUint16BE (abortWriter 2) 0x8687).2.buf = [0x86, 0x87] ∧
      (WriteUint16BE (abortWriter 2) 0x8687).2.calls = 2) :=
  have hok : ∀ j, j < 2 → (abortWriter 2).fail ((abortWriter 2).calls + j) = none := by decide
  have h32 := WriteUint_error (abortWriter 2) 0x84858687 2 ErrAbortWriter hok rfl
  have h16 := WriteUint_error (abortWriter 2) 0x8687 2 ErrAbortWriter hok rfl
  ⟨⟨congrArg (fun r => r.1) (h32.2.2.1.1 (by decide)),
      congrArg (fun r => r.2.buf) (h32.2.2.1.1 (by decide)),
      congrArg (fun r => r.2.calls) (h32.2.2.1.1 (by decide))⟩,
    ⟨congrArg (fun r => r.1) (h32.2.2.2.2.2.1 (by decide)),
      congrArg (fun r => r.2.buf) (h32.2.2.2.2.2.1 (by decide)),
      congrArg (fun r => r.2.calls) (h32.2.2.2.2.2.1 (by decide))⟩,
    ⟨congrArg (fun r => r.1) (h16.1.2 (by decide)),
      congrArg (fun r => r.2.buf) (h16.1.2 (by decide)),
      congrArg (fun r => r.2.calls) (h16.1.2 (by decide))⟩⟩

/-! ## Reading in the opposite byte order -/

theorem ReadUint16LE_bigEndian (n : Nat) (rest : Reader) :
    ReadUint16LE (readerOf (bigEndian 2 n) ++ rest) = ((reverseBytes 2 n, none), rest) := by
  rw [reverseBytes, bigEndian_two, ReadUint16LE_sum _ _ _ (Nat.mod_lt _ (by decide))]
  simp only [List.reverse_cons, List.reverse_nil, List.nil_append, List.cons_append,
    sumLE_two, sumBE_two]
  congr 2
  omega

theorem ReadUint16BE_littleEndian (n : Nat) (rest : Reader) :
    ReadUint16BE (readerOf (littleEndian 2 n) ++ rest) = ((reverseBytes 2 n, none), rest) := by
  rw [reverseBytes, littleEndian_two, bigEndian_two, ReadUint16BE_sum _ _ _ (Nat.mod_lt _ (by decide))]
  simp only [List.reverse_cons, List.reverse_nil, List.nil_append, List.cons_append]

theorem ReadUint32LE_bigEndian (n : Nat) (rest : Reader) :
    ReadUint32LE (readerOf (bigEndian 4 n) ++ rest) = ((reverseBytes 4 n, none), rest) := by
  rw [reverseBytes, bigEndian_four, ReadUint32LE_sum _ _ _ _ _ (Nat.mod_lt _ (by decide)) (Nat.mod_lt _ (by decide)) (Nat.mod_lt _ (by decide))]
  simp only [List.reverse_cons, List.reverse_nil, List.nil_append, List.cons_append,
    sumLE_four, sumBE_four]
  congr 2
  omega

theorem ReadUint32BE_littleEndian (n : Nat) (rest : Reader) :
    ReadUint32BE (readerOf (littleEndian 4 n) ++ rest) = ((reverseBytes 4 n, none), rest) := by
  rw [reverseBytes, littleEndian_four, bigEndian_four, ReadUint32BE_sum _ _ _ _ _ (Nat.mod_lt _ (by decide)) (Nat.mod_lt _ (by decide)) (Nat.mod_lt _ (by decide))]
  simp only [List.reverse_cons, List.reverse_nil, List.nil_append, List.cons_append]

theorem ReadUint64LE_bigEndian (n : Nat) (rest : Reader) :
    ReadUint64LE (readerOf (bigEndian 8 n) ++ rest) = ((reverseBytes 8 n, none), rest) := by
  rw [reverseBytes, bigEndian_eight, ReadUint64LE_sum _ _ _ _ _ _ _ _ _ (Nat.mod_lt _ (by decide)) (Nat.mod_lt _ (by decide)) (Nat.mod_lt _ (by decide)) (Nat.mod_lt _ (by decide)) (Nat.mod_lt _ (by decide)) (Nat.mod_lt _ (by decide)) (Nat.mod_lt _ (by decide))]
  simp only [List.reverse_cons, List.reverse_nil, List.nil_append, List.cons_append,
    sumLE_eight, sumBE_eight]
  congr 2
  omega

theorem ReadUint64BE_littleEndian (n : Nat) (rest : Reader) :
    ReadUint64BE (readerOf (littleEndian 8 n) ++ rest) = ((reverseBytes 8 n, none), rest) := by
  rw [reverseBytes, littleEndian_eight, bigEndian_eight, ReadUint64BE_sum _ _ _ _ _ _ _ _ _ (Nat.mod_lt _ (by decide)) (Nat.mod_lt _ (by decide)) (Nat.mod_lt _ (by decide)) (Nat.mod_lt _ (by decide)) (Nat.mod_lt _ (by decide)) (Nat.mod_lt _ (by decide)) (Nat.mod_lt _ (by decide))]
  simp only [List.reverse_cons, List.reverse_nil, List.nil_append, List.cons_append]

/-! ## Decoding what was encoded -/

theorem Read_Write16 {n : Nat} (h : n < 2 ^ 16) :
    (WriteUint16BE (bufferOf []) n).1 = none ∧
    ReadUint16BE (readerOf (WriteUint16BE (bufferOf []) n).2.buf) = ((n, none), []) ∧
    ReadUint16LE (readerOf (WriteUint16BE (bufferOf []) n).2.buf) =
      ((reverseBytes 2 n, none), []) ∧
    (WriteUint16LE (bufferOf []) n).1 = none ∧
    ReadUint16LE (readerOf (WriteUint16LE (bufferOf []) n).2.buf) = ((n, none), []) ∧
    ReadUint16BE (readerOf (WriteUint16LE (bufferOf []) n).2.buf) =
      ((reverseBytes 2 n, none), []) := by
  have hb : WriteUint16BE (bufferOf []) n = _ := WriteUint16BE_ok (fun _ => rfl) n
  have hl : WriteUint16LE (bufferOf []) n = _ := WriteUint16LE_ok (fun _ => rfl) n
  have b1 := ReadUint16BE_bigEndian h []
  have b2 := ReadUint16LE_bigEndian n []
  have l1 := ReadUint16LE_littleEndian h []
  have l2 := ReadUint16BE_littleEndian n []
  simp only [List.append_nil] at b1 b2 l1 l2
  rw [hb, hl]
  simp only [bufferOf, List.nil_append]
  exact ⟨trivial, b1, b2, trivial, l1, l2⟩

theorem Read_Write32 {n : Nat} (h : n < 2 ^ 32) :
    (WriteUint32BE (bufferOf []) n).1 = none ∧
    ReadUint32BE (readerOf (WriteUint32BE (bufferOf []) n).2.buf) = ((n, none), []) ∧
    ReadUint32LE (readerOf (WriteUint32BE (bufferOf []) n).2.buf) =
      ((reverseBytes 4 n, none), []) ∧
    (WriteUint32LE (bufferOf []) n).1 = none ∧
    ReadUint32LE (readerOf (WriteUint32LE (bufferOf []) n).2.buf) = ((n, none), []) ∧
    ReadUint32BE (readerOf (WriteUint32LE (bufferOf []) n).2.buf) =
      ((reverseBytes 4 n, none), []) := by
  have hb : WriteUint32BE (bufferOf []) n = _ := WriteUint32BE_ok (fun _ => rfl) n
  have hl : WriteUint32LE (bufferOf []) n = _ := WriteUint32LE_ok (fun _ => rfl) n
  have b1 := ReadUint32BE_bigEndian h []
  have b2 := ReadUint32LE_bigEndian n []
  have l1 := ReadUint32LE_littleEndian h []
  have l2 := ReadUint32BE_littleEndian n []
  simp only [List.append_nil] at b1 b2 l1 l2
  rw [hb, hl]
  simp only [bufferOf, List.nil_append]
  exact ⟨trivial, b1, b2, trivial, l1, l2⟩

theorem Read_Write64 {n : Nat} (h : n < 2 ^ 64) :
    (WriteUint64BE (bufferOf []) n).1 = none ∧
    ReadUint64BE (readerOf (WriteUint64BE (bufferOf []) n).2.buf) = ((n, none), []) ∧
    ReadUint64LE (readerOf (WriteUint64BE (bufferOf []) n).2.buf) =
      ((reverseBytes 8 n, none), []) ∧
    (WriteUint64LE (bufferOf []) n).1 = none ∧
    ReadUint64LE (readerOf (WriteUint64LE (bufferOf []) n).2.buf) = ((n, none), []) ∧
    ReadUint64BE (readerOf (WriteUint64LE (bufferOf []) n).2.buf) =
      ((reverseBytes 8 n, none), []) := by
  have hb : WriteUint64BE (bufferOf []) n = _ := WriteUint64BE_ok (fun _ => rfl) n
  have hl : WriteUint64LE (bufferOf []) n = _ := WriteUint64LE_ok (fun _ => rfl) n
  have b1 := ReadUint64BE_bigEndian h []
  have b2 := ReadUint64LE_bigEndian n []
  have l1 := ReadUint64LE_littleEndian h []
  have l2 := ReadUint64BE_littleEndian n []
  simp only [List.append_nil] at b1 b2 l1 l2
  rw [hb, hl]
  simp only [bufferOf, List.nil_append]
  exact ⟨trivial, b1, b2, trivial, l1, l2⟩

/-- C38: decode undoes encode.  For each width `N` of 16, 32 and 64 bits and
every value `n` of that width, `WriteUintN` in either byte order into an empty
buffer returns nil; `ReadUintN` of the same byte order on the bytes written
returns `n` with a nil error and leaves nothing unread; and `ReadUintN` of the
opposite byte order returns the value of `n` with its bytes reversed. -/
theorem Read_undoes_Write (n : Nat) :
    (n < 2 ^ 16 →
      (WriteUint16BE (bufferOf []) n).1 = none ∧
      ReadUint16BE (readerOf (WriteUint16BE (bufferOf []) n).2.buf) = ((n, none), []) ∧
      ReadUint16LE (readerOf (WriteUint16BE (bufferOf []) n).2.buf) =
        ((reverseBytes 2 n, none), []) ∧
      (WriteUint16LE (bufferOf []) n).1 = none ∧
      ReadUint16LE (readerOf (WriteUint16LE (bufferOf []) n).2.buf) = ((n, none), []) ∧
      ReadUint16BE (readerOf (WriteUint16LE (bufferOf []) n).2.buf) =
        ((reverseBytes 2 n, none), [])) ∧
    (n < 2 ^ 32 →
      (WriteUint32BE (bufferOf []) n).1 = none ∧
      ReadUint32BE (readerOf (WriteUint32BE (bufferOf []) n).2.buf) = ((n, none), []) ∧
      ReadUint32LE (readerOf (WriteUint32BE (bufferOf []) n).2.buf) =
        ((reverseBytes 4 n, none), []) ∧
      (WriteUint32LE (bufferOf []) n).1 = none ∧
      ReadUint32LE (readerOf (WriteUint32LE (bufferOf []) n).2.buf) = ((n, none), []) ∧
      ReadUint32BE (readerOf (WriteUint32LE (bufferOf []) n).2.buf) =
        ((reverseBytes 4 n, none), [])) ∧
    (n < 2 ^ 64 →
      (WriteUint64BE (bufferOf []) n).1 = none ∧
      ReadUint64BE (readerOf (WriteUint64BE (bufferOf []) n).2.buf) = ((n, none), []) ∧
      ReadUint64LE (readerOf (WriteUint64BE (bufferOf []) n).2.buf) =
        ((reverseBytes 8 n, none), []) ∧
      (WriteUint64LE (bufferOf []) n).1 = none ∧
      ReadUint64LE (readerOf (WriteUint64LE (bufferOf []) n).2.buf) = ((n, none), []) ∧
      ReadUint64BE (readerOf (WriteUint64LE (bufferOf []) n).2.buf) =
        ((reverseBytes 8 n, none), [])) :=
  ⟨fun h => Read_Write16 h, fun h => Read_Write32 h, fun h => Read_Write64 h⟩

/-- C38 on `0x8687`, as a value of each width. -/
theorem Read_undoes_Write_witness :
    ((WriteUint16BE (bufferOf []) 0x8687).1 = none ∧
      ReadUint16BE (readerOf (WriteUint16BE (bufferOf []) 0x8687).2.buf) = ((0x8687, none), []) ∧
      ReadUint16LE (readerOf (WriteUint16BE (bufferOf []) 0x8687).2.buf) =
        ((reverseBytes 2 0x8687, none), []) ∧
      (WriteUint16LE (bufferOf []) 0x8687).1 = none ∧
      ReadUint16LE (readerOf (WriteUint16LE (bufferOf []) 0x8687).2.buf) = ((0x8687, none), []) ∧
      ReadUint16BE (readerOf (WriteUint16LE (bufferOf []) 0x8687).2.buf) =
        ((reverseBytes 2 0x8687, none), [])) ∧
    ((WriteUint32BE (bufferOf []) 0x8687).1 = none ∧
      ReadUint32BE (readerOf (WriteUint32BE (bufferOf []) 0x8687).2.buf) = ((0x8687, none), []) ∧
      ReadUint32LE (readerOf (WriteUint32BE (bufferOf []) 0x8687).2.buf) =
        ((reverseBytes 4 0x8687, none), []) ∧
      (WriteUint32LE (bufferOf []) 0x8687).1 = none ∧
      ReadUint32LE (readerOf (WriteUint32LE (bufferOf []) 0x8687).2.buf) = ((0x8687, none), []) ∧
      ReadUint32BE (readerOf (WriteUint32LE (bufferOf []) 0x8687).2.buf) =
        ((reverseBytes 4 0x8687, none), [])) ∧
    ((WriteUint64BE (bufferOf []) 0x8687).1 = none ∧
      ReadUint64BE (readerOf (WriteUint64BE (bufferOf []) 0x8687).2.buf) = ((0x8687, none), []) ∧
      ReadUint64LE (readerOf (WriteUint64BE (bufferOf []) 0x8687).2.buf) =
        ((reverseBytes 8 0x8687, none), []) ∧
      (WriteUint64LE (bufferOf []) 0x8687).1 = none ∧
      ReadUint64LE (readerOf (WriteUint64LE (bufferOf []) 0x8687).2.buf) = ((0x8687, none), []) ∧
      ReadUint64BE (readerOf (WriteUint64LE (bufferOf []) 0x8687).2.buf) =
        ((reverseBytes 8 0x8687, none), [])) ∧
    reverseBytes 2 0x8687 = 0x8786 ∧ reverseBytes 4 0x8687 = 0x87860000 ∧
    reverseBytes 8 0x8687 = 0x8786000000000000 ∧
    (WriteUint32BE (bufferOf []) 0x8687).2.buf = [0, 0, 0x86, 0x87] :=
  ⟨(Read_undoes_Write 0x8687).1 (by decide), (Read_undoes_Write 0x8687).2.1 (by decide),
    (Read_undoes_Write 0x8687).2.2 (by decide), by decide, by decide, by decide, by decide⟩

/-! ## The adapter `NewWriter` and `FlushIfNecessary` -/

/-- The cases of `TestNewWriterBytesB`, `TestNewWriter` and
`TestFlushIfNecessary`: a `bytes.Buffer` is returned as it is, a `MockWriter`
is wrapped; flushing a `bytes.Buffer` returns nil, and flushing a `MockWriter`
returns nil and calls `Flush`. -/
theorem NewWriter_tests :
    NewWriter bytesBuffer = { out := bytesBuffer, bufio := none } ∧
    NewWriter mockWriter = { out := mockWriter, bufio := some [] } ∧
    FlushIfNecessary .out { out := bytesBuffer, bufio := none } =
      (none, { out := bytesBuffer, bufio := none }) ∧
    (FlushIfNecessary .out { out := mockWriter, bufio := none }).1 = none ∧
    (FlushIfNecessary .out { out := mockWriter, bufio := none }).2.out.flushCalls = 1 := by
  decide

/-- What `FlushIfNecessary(out)` does: when `out` has a `Flush` method it is
called once and its result returned; when not, nil is returned and nothing
changes.  In both cases `out` has received nothing more, and the buffer of
`bout` is as it was. -/
theorem FlushIfNecessary_out (w : Writers) :
    (w.out.hasFlush = true →
      FlushIfNecessary .out w =
        (w.out.flushErr, { w with out := { w.out with flushCalls := w.out.flushCalls + 1 } })) ∧
    (w.out.hasFlush = false → FlushIfNecessary .out w = (none, w)) ∧
    (FlushIfNecessary .out w).2.out.received = w.out.received ∧
    (FlushIfNecessary .out w).2.bufio = w.bufio := by
  unfold FlushIfNecessary
  cases h : w.out.hasFlush <;> simp

/-- The bytes written to `bout` are in `out` or in the buffer of the new
`bufio.Writer`, in order. -/
theorem WriteBytes_received (cs : List Nat) :
    ∀ w : Writers, (w.WriteBytes cs).out.received ++ ((w.WriteBytes cs).bufio.getD []) =
      w.out.received ++ (w.bufio.getD []) ++ cs := by
  induction cs with
  | nil => intro w; simp [Writers.WriteBytes]
  | cons c cs ih =>
    intro w
    have e : w.WriteBytes (c :: cs) = ((w.WriteByte c).2).WriteBytes cs := rfl
    rw [e, ih]
    unfold Writers.WriteByte
    cases hb : w.bufio with
    | none => simp
    | some buf =>
      by_cases hfull : buf.length ≥ defaultBufSize
      · simp [hfull]
      · simp [hfull]

theorem WriteBytes_bufio (cs : List Nat) :
    ∀ w : Writers, (w.WriteBytes cs).bufio.isSome = w.bufio.isSome := by
  induction cs with
  | nil => intro w; rfl
  | cons c cs ih =>
    intro w
    have e : w.WriteBytes (c :: cs) = ((w.WriteByte c).2).WriteBytes cs := rfl
    rw [e, ih]
    unfold Writers.WriteByte
    cases hb : w.bufio with
    | none => simp [hb]
    | some buf =>
      by_cases hfull : buf.length ≥ defaultBufSize
      · simp [hfull]
      · simp [hfull]

/-- With `FlushIfNecessary(bout)`, the pattern of the package example, every
byte written to `bout` has been delivered to `out`, for every `out`. -/
theorem FlushIfNecessary_bout_delivers (out : Out) (cs : List Nat) :
    (FlushIfNecessary .bout ((NewWriter out).WriteBytes cs)).2.out.received =
      out.received ++ cs := by
  have h := WriteBytes_received cs (NewWriter out)
  have hs := WriteBytes_bufio cs (NewWriter out)
  unfold NewWriter at h hs ⊢
  cases hw : out.isWriter
  · simp only [hw, Bool.false_eq_true, if_false, Option.isSome_some, Option.getD_some,
      List.append_nil] at h hs ⊢
    cases hb : (Writers.WriteBytes { out := out, bufio := some [] } cs).bufio with
    | none => rw [hb] at hs; simp at hs
    | some buf =>
      rw [hb] at h
      simp only [FlushIfNecessary, hb]
      simpa using h
  · simp only [hw, if_true, Option.isSome_none, Option.getD_none, List.append_nil] at h hs ⊢
    cases hb : (Writers.WriteBytes { out := out, bufio := none } cs).bufio with
    | some buf => rw [hb] at hs; simp at hs
    | none =>
      rw [hb] at h
      have hr : (FlushIfNecessary .bout (Writers.WriteBytes { out := out, bufio := none } cs)).2.out.received
          = (Writers.WriteBytes { out := out, bufio := none } cs).out.received := by
        unfold FlushIfNecessary
        rw [hb]
        cases (Writers.WriteBytes { out := out, bufio := none } cs).out.hasFlush <;> simp
      rw [hr]
      simpa using h

/-- With `FlushIfNecessary(out)`, the pattern of the package documentation:
when `NewWriter` had to wrap `out` and no more bytes were written than the
buffer of the `bufio.Writer` holds, `out` has received none of them. -/
theorem FlushIfNecessary_out_delivers_nothing (out : Out) (cs : List Nat)
    (hw : out.isWriter = false) (hlen : cs.length ≤ defaultBufSize) :
    (FlushIfNecessary .out ((NewWriter out).WriteBytes cs)).2.out.received = out.received ∧
    (FlushIfNecessary .out ((NewWriter out).WriteBytes cs)).2.bufio = some cs := by
  have key : ∀ (cs : List Nat) (buf : List Nat), buf.length + cs.length ≤ defaultBufSize →
      Writers.WriteBytes { out := out, bufio := some buf } cs =
        { out := out, bufio := some (buf ++ cs) } := by
    intro cs
    induction cs with
    | nil => intro buf _; simp [Writers.WriteBytes]
    | cons c cs ih =>
      intro buf hl
      have hl2 : ¬ buf.length ≥ defaultBufSize := by
        simp only [List.length_cons] at hl; omega
      have e : Writers.WriteBytes { out := out, bufio := some buf } (c :: cs) =
          Writers.WriteBytes { out := out, bufio := some (buf ++ [c]) } cs := by
        simp [Writers.WriteBytes, Writers.WriteByte, hl2]
      rw [e, ih (buf ++ [c]) (by simp only [List.length_append, List.length_cons,
        List.length_nil] at hl ⊢; omega)]
      simp
  have hn : NewWriter out = { out := out, bufio := some [] } := by simp [NewWriter, hw]
  rw [hn, key cs [] (by simpa using hlen)]
  have h := FlushIfNecessary_out { out := out, bufio := some ([] ++ cs) }
  rw [h.2.2.1, h.2.2.2]
  simp

/-- C32, against the claim: with the pattern of the package documentation,
`bout := byteio.NewWriter(out)` and at completion
`byteio.FlushIfNecessary(out)`, a byte written to `bout` is not delivered to
`out` when `NewWriter` had to wrap `out` in a new `bufio.Writer`.  For the
`MockWriter` of the tests and for an `os.File`, `out` has received nothing
after the pattern, and the byte is still in the buffer of `bout`, although
`Flush` of the `MockWriter` was called; `FlushIfNecessary(bout)`, as in the
package example, delivers it.  For a `bytes.Buffer`, which `NewWriter`
returns as it is, both deliver it. -/
theorem FlushIfNecessary_out_loses_bytes :
    ((FlushIfNecessary .out ((NewWriter mockWriter).WriteBytes [0x41])).2.out.received = [] ∧
      (FlushIfNecessary .out ((NewWriter mockWriter).WriteBytes [0x41])).2.bufio = some [0x41] ∧
      (FlushIfNecessary .out ((NewWriter mockWriter).WriteBytes [0x41])).2.out.flushCalls = 1 ∧
      (FlushIfNecessary .out ((NewWriter mockWriter).WriteBytes [0x41])).1 = none) ∧
    ((FlushIfNecessary .out ((NewWriter osFile).WriteBytes [0x41])).2.out.received = [] ∧
      (FlushIfNecessary .out ((NewWriter osFile).WriteBytes [0x41])).2.bufio = some [0x41]) ∧
    ((FlushIfNecessary .bout ((NewWriter mockWriter).WriteBytes [0x41])).2.out.received = [0x41] ∧
      (FlushIfNecessary .bout ((NewWriter osFile).WriteBytes [0x41])).2.out.received = [0x41]) ∧
    ((FlushIfNecessary .out ((NewWriter bytesBuffer).WriteBytes [0x41])).2.out.received = [0x41] ∧
      (FlushIfNecessary .bout ((NewWriter bytesBuffer).WriteBytes [0x41])).2.out.received =
        [0x41]) := by
  decide

/-- The new `bufio.Writer` holds at least one byte after any write to it:
`WriteByte` empties a full buffer before it stores the byte. -/
theorem WriteBytes_buffered (cs : List Nat) :
    ∀ (w : Writers) (buf : List Nat), w.bufio = some buf → (buf ≠ [] ∨ cs ≠ []) →
      ∃ buf', (w.WriteBytes cs).bufio = some buf' ∧ buf' ≠ [] := by
  induction cs with
  | nil =>
    intro w buf hb h
    rcases h with h | h
    · exact ⟨buf, hb, h⟩
    · exact absurd rfl h
  | cons c cs ih =>
    intro w buf hb _
    have e : w.WriteBytes (c :: cs) = ((w.WriteByte c).2).WriteBytes cs := rfl
    rw [e]
    unfold Writers.WriteByte
    rw [hb]
    by_cases hfull : buf.length ≥ defaultBufSize
    · simp only [hfull, if_true]
      exact ih _ [c] rfl (Or.inl (by simp))
    · simp only [hfull, if_false]
      exact ih _ (buf ++ [c]) rfl (Or.inl (by simp))

/-- C32, amended: for every `io.Writer` `out` and all bytes `cs` written to
`bout := NewWriter(out)`: with `FlushIfNecessary(bout)` at completion, the
pattern of the package example, every byte written to `bout` has been
delivered to `out`, also when `NewWriter` had to wrap `out` in a new
`bufio.Writer`; with `FlushIfNecessary(out)`, the pattern of the package
documentation, this holds when `NewWriter` returned `out` itself, and when
it wrapped `out` the bytes still in the buffer of `bout` (at least the last
byte written, and all of them when no more were written than the buffer
holds) have not been delivered.  `FlushIfNecessary` calls `Flush` when its
argument has one, once, returning its result, and otherwise returns nil
doing nothing. -/
theorem NewWriter_flush (out : Out) (cs : List Nat) :
    (FlushIfNecessary .bout ((NewWriter out).WriteBytes cs)).2.out.received =
      out.received ++ cs ∧
    (out.isWriter = true →
      (FlushIfNecessary .out ((NewWriter out).WriteBytes cs)).2.out.received =
        out.received ++ cs) ∧
    (out.isWriter = false → cs ≠ [] →
      ∃ buf, buf ≠ [] ∧
        (FlushIfNecessary .out ((NewWriter out).WriteBytes cs)).2.bufio = some buf ∧
        (FlushIfNecessary .out ((NewWriter out).WriteBytes cs)).2.out.received ++ buf =
          out.received ++ cs) ∧
    (out.isWriter = false → cs.length ≤ defaultBufSize →
      (FlushIfNecessary .out ((NewWriter out).WriteBytes cs)).2.out.received = out.received) ∧
    (∀ w : Writers,
      (w.out.hasFlush = true →
        FlushIfNecessary .out w =
          (w.out.flushErr,
            { w with out := { w.out with flushCalls := w.out.flushCalls + 1 } })) ∧
      (w.out.hasFlush = false → FlushIfNecessary .out w = (none, w)) ∧
      ∀ buf, w.bufio = some buf →
        FlushIfNecessary .bout w =
          (none, { out := { w.out with received := w.out.received ++ buf }, bufio := some [] })) := by
  have hrecv := WriteBytes_received cs (NewWriter out)
  have hsome := WriteBytes_bufio cs (NewWriter out)
  have hout := FlushIfNecessary_out ((NewWriter out).WriteBytes cs)
  refine ⟨FlushIfNecessary_bout_delivers out cs, ?_, ?_, ?_, ?_⟩
  · intro hw
    rw [hout.2.2.1]
    have hn : NewWriter out = { out := out, bufio := none } := by simp [NewWriter, hw]
    rw [hn] at hrecv hsome ⊢
    cases hb : (Writers.WriteBytes { out := out, bufio := none } cs).bufio with
    | some buf =>
      rw [hb] at hsome
      simp at hsome
    | none =>
      rw [hb] at hrecv
      simpa using hrecv
  · intro hw hcs
    have hn : NewWriter out = { out := out, bufio := some [] } := by simp [NewWriter, hw]
    obtain ⟨buf, hb, hne⟩ := WriteBytes_buffered cs (NewWriter out) [] (by rw [hn]) (Or.inr hcs)
    refine ⟨buf, hne, by rw [hout.2.2.2, hb], ?_⟩
    rw [hout.2.2.1]
    rw [hb] at hrecv
    have e : (some buf).getD [] = buf := rfl
    rw [e] at hrecv
    rw [hrecv, hn]
    simp
  · intro hw hlen
    exact (FlushIfNecessary_out_delivers_nothing out cs hw hlen).1
  · intro w
    refine ⟨(FlushIfNecessary_out w).1, (FlushIfNecessary_out w).2.1, ?_⟩
    intro buf hb
    simp [FlushIfNecessary, hb]

/-- C32, amended, on the writers of the tests: after one byte, flushing
`bout` delivers it to a `MockWriter`, flushing `out` delivers it to a
`bytes.Buffer`, which `NewWriter` returns as it is, and flushing `out` leaves
the `MockWriter` without the byte, which is still in the buffer of `bout`. -/
theorem NewWriter_flush_witness :
    (FlushIfNecessary .bout ((NewWriter mockWriter).WriteBytes [0x41])).2.out.received =
      [0x41] ∧
    (FlushIfNecessary .out ((NewWriter bytesBuffer).WriteBytes [0x41])).2.out.received =
      [0x41] ∧
    (∃ buf, buf ≠ [] ∧
      (FlushIfNecessary .out ((NewWriter mockWriter).WriteBytes [0x41])).2.bufio = some buf ∧
      (FlushIfNecessary .out ((NewWriter mockWriter).WriteBytes [0x41])).2.out.received ++ buf =
        mockWriter.received ++ [0x41]) ∧
    (FlushIfNecessary .out ((NewWriter mockWriter).WriteBytes [0x41])).2.out.received = [] :=
  ⟨(NewWriter_flush mockWriter [0x41]).1, (NewWriter_flush bytesBuffer [0x41]).2.1 rfl,
    (NewWriter_flush mockWriter [0x41]).2.2.1 rfl (by decide),
    (NewWriter_flush mockWriter [0x41]).2.2.2.1 rfl (by decide)⟩

end byteio

namespace stdinprompt

/-! # Theorems about `stdinprompt` -/

/-- The case of `TestNoPrompt`: the data is read, and the capture buffer is
empty also after the timer period; the case of `TestPrompt`: nothing is read,
and the timer writes the message and a newline. -/
theorem NewEx_tests :
    (NewEx [⟨[0xa, 0xb, 0xc, 0xd], none⟩] DefaultPromptTime [] StdinPromptMsg).Read.1 =
      ⟨[0xa, 0xb, 0xc, 0xd], none⟩ ∧
    (run (NewEx [⟨[0xa, 0xb, 0xc, 0xd], none⟩] DefaultPromptTime [] StdinPromptMsg)
      [.read, .fire]).term = [] ∧
    (run (NewEx [] DefaultPromptTime [] StdinPromptMsg) [.fire]).term =
      bytes "Waiting for data on stdin.\n" := by
  decide

theorem run_append (pr : prompter) (es fs : List Event) :
    run pr (es ++ fs) = run (run pr es) fs := by
  simp [run]

theorem run_cons (pr : prompter) (e : Event) (es : List Event) :
    run pr (e :: es) = run (step pr e) es := rfl

/-- What `Read` returns and does: the result is that of `raw.Read`, `raw`
has advanced by that call, nothing is written to `term`, and the timer is
stopped when `n > 0` and left as it is when `n = 0`. -/
theorem Read_eq (pr : prompter) :
    pr.Read.1 = pr.raw.Read.1 ∧ pr.Read.2.raw = pr.raw.Read.2 ∧ pr.Read.2.term = pr.term ∧
    pr.Read.2.msg = pr.msg ∧
    (pr.raw.Read.1.n > 0 → pr.Read.2.tmr = pr.tmr.Stop) ∧
    (pr.raw.Read.1.n = 0 → pr.Read.2.tmr = pr.tmr) := by
  unfold prompter.Read
  refine ⟨rfl, rfl, rfl, rfl, ?_, ?_⟩
  · intro h; simp [h]
  · intro h; simp [h]

/-- Once the timer is stopped, nothing is ever written to `term`. -/
theorem run_stopped (es : List Event) :
    ∀ pr : prompter, pr.tmr = .stopped →
      (run pr es).tmr = .stopped ∧ (run pr es).term = pr.term := by
  induction es with
  | nil => intro pr h; exact ⟨h, rfl⟩
  | cons e es ih =>
    intro pr h
    rw [run_cons]
    cases e with
    | read =>
      have ht : (step pr .read).tmr = .stopped := by
        simp only [step, prompter.Read, h, Timer.Stop]
        split <;> rfl
      exact ih _ ht
    | fire =>
      have hs : step pr .fire = pr := by simp [step, prompter.fire, h]
      rw [hs]
      exact ih pr h

/-- Once the timer has fired, nothing more is written to `term`. -/
theorem run_fired (es : List Event) :
    ∀ pr : prompter, pr.tmr = .fired →
      (run pr es).tmr = .fired ∧ (run pr es).term = pr.term := by
  induction es with
  | nil => intro pr h; exact ⟨h, rfl⟩
  | cons e es ih =>
    intro pr h
    rw [run_cons]
    cases e with
    | read =>
      have ht : (step pr .read).tmr = .fired := by
        simp only [step, prompter.Read, h, Timer.Stop]
        split <;> rfl
      exact ih _ ht
    | fire =>
      have hs : step pr .fire = pr := by simp [step, prompter.fire, h]
      rw [hs]
      exact ih pr h

/-- After `k` calls of `Read` and no other event, `raw` has advanced by `k`
results, nothing is written to `term`, and a pending timer is pending or
stopped; it is still pending when none of the calls returned data. -/
theorem run_reads (k : Nat) :
    ∀ pr : prompter, ∀ d, pr.tmr = .pending d →
      (run pr (List.replicate k .read)).raw = pr.raw.drop k ∧
      (run pr (List.replicate k .read)).term = pr.term ∧
      (run pr (List.replicate k .read)).msg = pr.msg ∧
      ((run pr (List.replicate k .read)).tmr = .pending d ∨
        (run pr (List.replicate k .read)).tmr = .stopped) ∧
      ((∀ r ∈ pr.raw.take k, r.data = []) →
        (run pr (List.replicate k .read)).tmr = .pending d) := by
  induction k with
  | zero => intro pr d h; simp [run, h]
  | succ k ih =>
    intro pr d h
    rw [List.replicate_succ, run_cons]
    cases hraw : pr.raw with
    | nil =>
      have hs : step pr .read = pr := by
        cases pr with
        | mk raw tmr term msg =>
          simp only at hraw
          subst hraw
          simp [step, prompter.Read, Reader.Read, ReadResult.n]
      rw [hs]
      obtain ⟨a, b, c, e, f⟩ := ih pr d h
      rw [hraw] at a f
      refine ⟨by rw [a]; simp, b, c, e, fun _ => f (by simp)⟩
    | cons r rest =>
      by_cases hn : r.n > 0
      · have hst : (step pr .read).tmr = .stopped := by
          simp [step, prompter.Read, Reader.Read, hraw, hn, h, Timer.Stop]
        have hrw : (step pr .read).raw = rest := by
          simp [step, prompter.Read, Reader.Read, hraw]
        have htm : (step pr .read).term = pr.term := by
          simp [step, prompter.Read]
        obtain ⟨s1, s2⟩ := run_stopped (List.replicate k .read) _ hst
        have hraw2 : ∀ (k : Nat) (q : prompter), q.tmr = .stopped →
            (run q (List.replicate k .read)).raw = q.raw.drop k ∧
            (run q (List.replicate k .read)).msg = q.msg := by
          intro k
          induction k with
          | zero => intro q _; simp [run]
          | succ k ihk =>
            intro q hq
            rw [List.replicate_succ, run_cons]
            have hq2 : (step q .read).tmr = .stopped := by
              simp only [step, prompter.Read, hq, Timer.Stop]
              split <;> rfl
            obtain ⟨x, y⟩ := ihk _ hq2
            rw [x, y]
            cases hq3 : q.raw with
            | nil => simp [step, prompter.Read, Reader.Read, hq3]
            | cons r2 rest2 => simp [step, prompter.Read, Reader.Read, hq3]
        obtain ⟨r1, r2⟩ := hraw2 k _ hst
        refine ⟨by rw [r1, hrw]; simp, by rw [s2, htm], by rw [r2]; simp [step, prompter.Read],
          Or.inr s1, ?_⟩
        intro hall
        have := hall r (by simp)
        simp [ReadResult.n, this] at hn
      · have hs : step pr .read = { pr with raw := rest } := by
          simp [step, prompter.Read, Reader.Read, hraw, hn]
        rw [hs]
        obtain ⟨a, b, c, e, f⟩ := ih { pr with raw := rest } d h
        refine ⟨by rw [a]; simp, b, c, e, ?_⟩
        intro hall
        exact f (fun x hx => hall x (by simp [hx]))

/-- The underlying reader has advanced by one result for each `Read`. -/
theorem run_raw (es : List Event) :
    ∀ pr : prompter, (run pr es).raw = pr.raw.drop (es.count .read) := by
  induction es with
  | nil => intro pr; simp [run]
  | cons e es ih =>
    intro pr
    rw [run_cons, ih]
    cases e with
    | read =>
      cases hraw : pr.raw with
      | nil => simp [step, prompter.Read, Reader.Read, hraw]
      | cons r rest => simp [step, prompter.Read, Reader.Read, hraw]
    | fire =>
      have : (step pr .fire).raw = pr.raw := by
        simp only [step, prompter.fire]
        split <;> rfl
      rw [this]
      simp

/-- C33: for the prompting reader returned by `NewEx(raw, when, term, msg)`.
If a `Read` returns `n > 0` bytes before the timer fires (after `k` earlier
calls of `Read`, whatever they returned), then nothing is ever written to
`term`, whatever happens afterwards.  If no `Read` has returned data by the
time the timer fires (the `k` calls before it all returned `n = 0`), then
`term` holds exactly `msg` followed by a newline after what it held before,
written once, whatever happens afterwards.  And every `Read` returns what the
call of `raw.Read` returns, the bytes, `n` and `err` unchanged, each call
taking the next result of `raw`. -/
theorem NewEx_prompt (raw : Reader) (when : Int) (term msg : List Nat) :
    (∀ (k : Nat) (r : ReadResult) (post : List Event), raw[k]? = some r → r.n > 0 →
      (run (NewEx raw when term msg) (List.replicate k .read ++ .read :: post)).term = term) ∧
    (∀ (k : Nat) (post : List Event), (∀ r ∈ raw.take k, r.n = 0) →
      (run (NewEx raw when term msg) (List.replicate k .read ++ .fire :: post)).term =
        term ++ msg ++ [10]) ∧
    (∀ es : List Event,
      (run (NewEx raw when term msg) es).Read.1 = (Reader.Read (raw.drop (es.count Event.read))).1 ∧
      (run (NewEx raw when term msg) es).Read.2.raw = (Reader.Read (raw.drop (es.count Event.read))).2) := by
  refine ⟨?_, ?_, ?_⟩
  · intro k r post hk hn
    rw [run_append, run_cons]
    obtain ⟨a, b, _, e, _⟩ := run_reads k (NewEx raw when term msg) when rfl
    have hdrop : (run (NewEx raw when term msg) (List.replicate k .read)).raw =
        r :: raw.drop (k + 1) := by
      rw [a]
      simp only [NewEx]
      obtain ⟨hlt, hget⟩ := List.getElem?_eq_some_iff.mp hk
      rw [List.drop_eq_getElem_cons hlt, hget]
    have hst : (step (run (NewEx raw when term msg) (List.replicate k .read)) .read).tmr =
        .stopped := by
      rcases e with e | e <;> simp [step, prompter.Read, Reader.Read, hdrop, hn, e, Timer.Stop]
    have htm : (step (run (NewEx raw when term msg) (List.replicate k .read)) .read).term =
        term := by
      have : (step (run (NewEx raw when term msg) (List.replicate k .read)) .read).term =
          (run (NewEx raw when term msg) (List.replicate k .read)).term := by
        simp [step, prompter.Read]
      rw [this, b]
      rfl
    rw [(run_stopped post _ hst).2, htm]
  · intro k post hall
    rw [run_append, run_cons]
    obtain ⟨_, b, c, _, f⟩ := run_reads k (NewEx raw when term msg) when rfl
    have hp := f (fun r hr => List.length_eq_zero.mp (hall r hr))
    have hfire : step (run (NewEx raw when term msg) (List.replicate k .read)) .fire =
        { run (NewEx raw when term msg) (List.replicate k .read) with
          tmr := .fired,
          term := (run (NewEx raw when term msg) (List.replicate k .read)).term ++
            (run (NewEx raw when term msg) (List.replicate k .read)).msg ++ [10] } := by
      simp [step, prompter.fire, hp]
    rw [(run_fired post _ (by rw [hfire])).2, hfire]
    simp only [b, c]
    rfl
  · intro es
    have h := Read_eq (run (NewEx raw when term msg) es)
    have hr := run_raw es (NewEx raw when term msg)
    rw [h.1, h.2.1, hr]
    exact ⟨rfl, rfl⟩

/-- C33 on the readers of `TestNoPrompt` and `TestPrompt`: with the data read
first, the capture buffer stays empty when the timer period is over; with no
data, the timer writes the message and a newline, once, also when it is
followed by a `Read` and by a second expiry. -/
theorem NewEx_prompt_witness :
    (run (NewEx [⟨[0xa, 0xb, 0xc, 0xd], none⟩] DefaultPromptTime [] StdinPromptMsg)
      (List.replicate 0 .read ++ .read :: [.fire, .read])).term = [] ∧
    (run (NewEx [] DefaultPromptTime [] StdinPromptMsg)
      (List.replicate 2 .read ++ .fire :: [.read, .fire])).term =
        [] ++ StdinPromptMsg ++ [10] ∧
    (run (NewEx [⟨[0xa, 0xb, 0xc, 0xd], none⟩] DefaultPromptTime [] StdinPromptMsg) []).Read.1 =
      ⟨[0xa, 0xb, 0xc, 0xd], none⟩ :=
  ⟨(NewEx_prompt [⟨[0xa, 0xb, 0xc, 0xd], none⟩] DefaultPromptTime [] StdinPromptMsg).1 0
      ⟨[0xa, 0xb, 0xc, 0xd], none⟩ [.fire, .read] rfl (by decide),
    (NewEx_prompt [] DefaultPromptTime [] StdinPromptMsg).2.1 2 [.read, .fire]
      (fun r hr => absurd hr (by simp)),
    ((NewEx_prompt [⟨[0xa, 0xb, 0xc, 0xd], none⟩] DefaultPromptTime [] StdinPromptMsg).2.2 []).1⟩

end stdinprompt
